import Mathlib

/-!
# Cooper-EDU state manager

A shallow embedding of `src/js/state-manager.js`: the `Observable` class, the `Store`
class and the parts of `StateManager` that the stated properties are about.

Modelling conventions.

* JavaScript values are the inductive type `JSValue`; objects are association lists of
  own properties, and the properties a plain object inherits from `Object.prototype`
  are listed in `objectPrototypeNames`.
* Objects with identity (`Observable` instances, function objects) are referred to by
  reference: an `Observable` is an index into `World.heap`, a function object is an
  `Observer` carrying the number that identifies it.
* Functions handed in by callers are external code.  A call to one of them is recorded in
  `World.calls`, and the function is taken to return without calling back into the store.
  The compute function of a derived state is a pure, total function of its arguments;
  calls on which the compute function of `overallProgress` would throw are not followed
  (`Page.computes`).
* A statement that throws returns `Except.error` together with the world as it is at the
  throw, so that effects made before the throw stay visible.
* Nested notifications are followed with a budget.  `notifyObservers_ok` shows that the
  budget the setter passes is never used up in a well-formed world, and
  `reachable_wellFormed` shows that every world built through the interface is well-formed.
* Numbers are integers, fractions and `NaN`. Where the source computes with them
  (`percentComplete`, `current += 1`), the result is rounded to a double by `toDouble`, to
  53 binary digits with ties to even; the ends of the exponent range are not followed.
  Strings are sequences of code points.
* The clock is read through `Clock`: the three texts that `updateLessonProgress` and
  `_updateStreak` take from `Date`. `Clock.reading` computes them from the time value and
  the time zone of the platform.
* Writing through the accessor `__proto__` changes what other names resolve to on the
  prototype chain; that effect on other names is not followed.

The file has two parts: the definitions, then the properties.
-/

namespace Cooper

/-! ## Values -/

/-- JavaScript values that the state manager stores and passes around. -/
inductive JSValue where
  | undefined
  | null
  | boolean (b : Bool)
  | number (n : Int)
  | string (s : String)
  | array (items : List JSValue)
  | object (props : List (String × JSValue))
  /-- The number `NaN`. -/
  | nan
  /-- A number that is not an integer. -/
  | fraction (q : ℚ)
  deriving Inhabited, Repr

/-- Own properties of an object, oldest first. -/
abbrev Props := List (String × JSValue)

namespace JSValue

/-- The `typeof` operator. -/
def typeof : JSValue → String
  | undefined => "undefined"
  | null => "object"
  | boolean _ => "boolean"
  | number _ => "number"
  | string _ => "string"
  | array _ => "object"
  | object _ => "object"
  | nan => "number"
  | fraction _ => "number"

/-- The test `Array.isArray`. -/
def isArray : JSValue → Bool
  | array _ => true
  | _ => false

/-- Conversion to boolean, as done by `if (x)` and `!x`. -/
def truthy : JSValue → Bool
  | undefined => false
  | null => false
  | boolean b => b
  | number n => n != 0
  | string s => s != ""
  | array _ => true
  | object _ => true
  | nan => false
  | fraction q => q != 0

end JSValue

/-- Own property `k` of a property list, if there is one. -/
def getOwn : Props → String → Option JSValue
  | [], _ => none
  | (k', v) :: rest, k => if k' = k then some v else getOwn rest k

/-- Define own property `k` with value `v`: overwrite it in place, or add it at the end. -/
def setOwn : Props → String → JSValue → Props
  | [], k, v => [(k, v)]
  | (k', v') :: rest, k, v => if k' = k then (k, v) :: rest else (k', v') :: setOwn rest k v

/-- Pair every element of a list with its index, counting from `i`. -/
def indexFrom : Nat → List JSValue → Props
  | _, [] => []
  | i, x :: xs => (toString i, x) :: indexFrom (i + 1) xs

/-- The own enumerable properties that an object spread `...source` copies.
`null`, `undefined`, numbers and booleans contribute nothing; arrays and strings
contribute their indices (strings by code point). -/
def ownEnumerable : JSValue → Props
  | .object props => props
  | .array items => indexFrom 0 items
  | .string s => indexFrom 0 (s.toList.map (fun c => JSValue.string (String.singleton c)))
  | _ => []

/-- The effect of `...source` inside an object literal whose properties so far are `target`. -/
def spread (target : Props) (source : JSValue) : Props :=
  (ownEnumerable source).foldl (fun acc kv => setOwn acc kv.1 kv.2) target

/-- Names that every plain object inherits from `Object.prototype`. Each of them
evaluates to an object (a function, or `Object.prototype` itself), hence to a truthy value. -/
def objectPrototypeNames : List String :=
  ["constructor", "__defineGetter__", "__defineSetter__", "hasOwnProperty",
   "__lookupGetter__", "__lookupSetter__", "isPrototypeOf", "propertyIsEnumerable",
   "toString", "valueOf", "__proto__", "toLocaleString"]

/-- What `obj[key]` evaluates to on a plain object whose own properties hold values of type `α`. -/
inductive Member (α : Type) where
  | own (x : α)
  | inherited (name : String)
  deriving Repr, DecidableEq

/-- Errors thrown by the module, and the three ways the model itself can give up. -/
inductive JSError where
  /-- The error `State property "key" does not exist`. -/
  | keyNotFound (key : String)
  /-- The error `Update can only be used with object values`. -/
  | invalidOperation
  /-- The error `Store "name" does not exist`. -/
  | unknownStore (name : String)
  /-- A `TypeError` raised by the language: calling or reading through something that is
  not there. -/
  | typeError
  /-- A reference that points outside the heap. -/
  | badReference
  /-- The notification budget ran out. -/
  | outOfFuel
  /-- The code went on with a value of a shape that the model does not follow. -/
  | unmodelled
  /-- A `SyntaxError` raised by `JSON.parse` on a text that is not JSON. -/
  | syntaxError
  deriving Repr, DecidableEq

/-! ## Observable -/

/-- A function object that can sit in an observer list.  `callback id` is a function
supplied by a caller.  `recompute id dependencies computeFn derivedObservable` is the
arrow function that `createDerivedState` creates for one dependency; it closes over
`dependencies`, `computeFn` and `derivedObservable`. -/
inductive Observer where
  | callback (id : Nat)
  | recompute (id : Nat) (dependencies : List String)
      (computeFn : List JSValue → JSValue) (derivedObservable : Nat)

/-- Identity of function objects, the comparison behind `obs !== observer`. -/
def Observer.same : Observer → Observer → Bool
  | .callback a, .callback b => a == b
  | .recompute a _ _ _, .recompute b _ _ _ => a == b
  | _, _ => false

/-- The closure returned by `Observable.subscribe`: it remembers the Observable it came
from and the observer that was passed in. -/
structure Unsubscribe where
  observable : Nat
  observer : Observer

/-- An instance of class `Observable`. `unsubscribeAll` is the property that
`createDerivedState` adds to the Observable it returns: the array of closures it will call. -/
structure Observable where
  _value : JSValue
  _observers : List Observer
  unsubscribeAll : Option (List Unsubscribe)

/-- One call of a caller-supplied function: which Observable made it, which function
was called, and the two arguments. -/
structure Call where
  source : Nat
  callback : Nat
  newValue : JSValue
  oldValue : JSValue

/-- One `Store` instance together with everything it can reach. -/
structure World where
  /-- Every Observable created so far; a reference is an index into this list. -/
  heap : List Observable
  /-- Calls made to caller-supplied functions, oldest first. -/
  calls : List Call
  /-- Own properties of the object `this._state`. -/
  _state : List (String × Nat)
  /-- Property `value` of the objects inherited from `Object.prototype`, where one was set. -/
  inheritedValue : Props
  /-- Number of arrow functions created so far by `createDerivedState`. -/
  arrows : Nat

/-- A world with no Observable and an empty `_state`. -/
def World.empty : World :=
  { heap := [], calls := [], _state := [], inheritedValue := [], arrows := 0 }

/-- Replace the Observable at reference `r`. -/
def World.store (w : World) (r : Nat) (o : Observable) : World :=
  { w with heap := w.heap.set r o }

/-- The expression `new Observable(initialValue)`: the new world and the reference to the new instance. -/
def Observable.new (w : World) (initialValue : JSValue) : World × Nat :=
  ({ w with heap := w.heap ++
      [{ _value := initialValue, _observers := [], unsubscribeAll := none }] },
   w.heap.length)

/-- The getter `get value()`. -/
def Observable.value (w : World) (r : Nat) : Except JSError JSValue :=
  match w.heap[r]? with
  | some o => .ok o._value
  | none => .error .badReference

/-- Method `Observable.subscribe(observer)`: push, and return the unsubscribe closure. -/
def Observable.subscribe (w : World) (r : Nat) (observer : Observer) :
    Except JSError Unsubscribe × World :=
  match w.heap[r]? with
  | some o =>
    (.ok { observable := r, observer := observer },
     w.store r { o with _observers := o._observers ++ [observer] })
  | none => (.error .badReference, w)

/-- Calling the closure returned by `subscribe`:
`this._observers = this._observers.filter(obs => obs !== observer)`. -/
def Unsubscribe.call (w : World) (u : Unsubscribe) : Except JSError Unit × World :=
  match w.heap[u.observable]? with
  | some o =>
    (.ok (),
     w.store u.observable
       { o with _observers := o._observers.filter (fun obs => !(obs.same u.observer)) })
  | none => (.error .badReference, w)

/-- The expression `obj[key]` on a plain object with own properties `own`: an own property
wins, then the prototype is consulted; `none` stands for `undefined`. -/
def plainObjectGet {α : Type} (own : List (String × α)) (key : String) : Option (Member α) :=
  match own.lookup key with
  | some x => some (.own x)
  | none => if key ∈ objectPrototypeNames then some (.inherited key) else none

/-- The lookup `this._state[key]`. -/
def World.lookup (w : World) (key : String) : Option (Member Nat) :=
  plainObjectGet w._state key

/-- Method `Store.getState(key)`. -/
def Store.getState (w : World) (key : String) : Except JSError (Member Nat) :=
  match w.lookup key with
  | some m => .ok m
  | none => .error (.keyNotFound key)

/-- Method `Store.getValue(key)`, that is `this.getState(key).value`. On an inherited object the
property `value` is read: absent, hence `undefined`, until something assigns it. -/
def Store.getValue (w : World) (key : String) : Except JSError JSValue :=
  match Store.getState w key with
  | .error e => .error e
  | .ok (.own r) => Observable.value w r
  | .ok (.inherited name) => .ok ((getOwn w.inheritedValue name).getD .undefined)

/-- The expression `dependencies.map(dep => this.getValue(dep))`. -/
def Store.getValues (w : World) : List String → Except JSError (List JSValue)
  | [] => .ok []
  | dep :: rest =>
    match Store.getValue w dep with
    | .error e => .error e
    | .ok v =>
      match Store.getValues w rest with
      | .error e => .error e
      | .ok vs => .ok (v :: vs)

/-- Calling one observer with `(newValue, oldValue)`. `setValue` is the setter
`derivedObservable.value = ...` that the arrow function of a derived state uses. -/
def Observer.invoke (setValue : World → Nat → JSValue → Except JSError Unit × World)
    (source : Nat) (newValue oldValue : JSValue) (w : World) :
    Observer → Except JSError Unit × World
  | .callback id =>
    (.ok (), { w with calls := w.calls ++
      [{ source := source, callback := id, newValue := newValue, oldValue := oldValue }] })
  | .recompute _ dependencies computeFn derivedObservable =>
    match Store.getValues w dependencies with
    | .error e => (.error e, w)
    | .ok args => setValue w derivedObservable (computeFn args)

/-- The loop `observers.forEach(observer => observer(newValue, oldValue))`, which stops at
the first observer that throws. -/
def forEachObserver (step : World → Observer → Except JSError Unit × World) :
    List Observer → World → Except JSError Unit × World
  | [], w => (.ok (), w)
  | observer :: rest, w =>
    match step w observer with
    | (.ok _, w1) => forEachObserver step rest w1
    | (.error e, w1) => (.error e, w1)

/-- The body of the setter `set value(newValue)`, given the notification routine:
remember the old value, store the new one, notify. -/
def Observable.assignValue
    (notify : World → Nat → JSValue → JSValue → Except JSError Unit × World)
    (w : World) (r : Nat) (newValue : JSValue) : Except JSError Unit × World :=
  match w.heap[r]? with
  | none => (.error .badReference, w)
  | some o => notify (w.store r { o with _value := newValue }) r newValue o._value

/-- Method `Observable._notifyObservers(newValue, oldValue)` on the Observable at `r`, with a
budget for the depth of nested notifications. -/
def Observable._notifyObservers :
    Nat → World → Nat → JSValue → JSValue → Except JSError Unit × World
  | 0, w, _, _, _ => (.error .outOfFuel, w)
  | fuel + 1, w, r, newValue, oldValue =>
    match w.heap[r]? with
    | none => (.error .badReference, w)
    | some o =>
      forEachObserver
        (fun w1 observer =>
          Observer.invoke (Observable.assignValue (Observable._notifyObservers fuel))
            r newValue oldValue w1 observer)
        o._observers w

/-- The setter `set value(newValue)`. Nested notifications go from an Observable to one
created later, so the number of Observables bounds their depth. -/
def Observable.setValue (w : World) (r : Nat) (newValue : JSValue) :
    Except JSError Unit × World :=
  Observable.assignValue (Observable._notifyObservers w.heap.length) w r newValue

/-- Method `Observable.update(updates)`. -/
def Observable.update (w : World) (r : Nat) (updates : JSValue) :
    Except JSError Unit × World :=
  match w.heap[r]? with
  | none => (.error .badReference, w)
  | some o =>
    if o._value.typeof = "object" ∧ o._value.isArray = false then
      let oldValue := JSValue.object (spread [] o._value)
      let merged := JSValue.object (spread (spread [] o._value) updates)
      Observable._notifyObservers w.heap.length (w.store r { o with _value := merged })
        r merged oldValue
    else (.error .invalidOperation, w)

/-! ## Store -/

/-- The assignment `this._state[key] = r`: rebind an own property, or add it. -/
def assign : List (String × Nat) → String → Nat → List (String × Nat)
  | [], k, r => [(k, r)]
  | (k', r') :: rest, k, r => if k' = k then (k, r) :: rest else (k', r') :: assign rest k r

/-- The constructor `new Store(initialState)`: one Observable per key of `initialState`. -/
def Store.new (initialState : Props) : World :=
  (initialState.map (fun kv => kv.1)).foldl
    (fun w key =>
      let created := Observable.new w ((getOwn initialState key).getD .undefined)
      { created.1 with _state := assign created.1._state key created.2 })
    World.empty

/-- Method `Store.setState(key, value)`. When `this._state[key]` is an inherited object the
assignment `.value = value` lands on that object. -/
def Store.setState (w : World) (key : String) (value : JSValue) :
    Except JSError Unit × World :=
  match w.lookup key with
  | some (.own r) => Observable.setValue w r value
  | some (.inherited name) =>
    (.ok (), { w with inheritedValue := setOwn w.inheritedValue name value })
  | none =>
    let created := Observable.new w value
    (.ok (), { created.1 with _state := assign created.1._state key created.2 })

/-- Method `Store.updateState(key, updates)`. An inherited object has no method `update`,
so calling it is a `TypeError`. -/
def Store.updateState (w : World) (key : String) (updates : JSValue) :
    Except JSError Unit × World :=
  let w1 :=
    match w.lookup key with
    | some _ => w
    | none =>
      let created := Observable.new w (.object [])
      { created.1 with _state := assign created.1._state key created.2 }
  match w1.lookup key with
  | some (.own r) => Observable.update w1 r updates
  | some (.inherited _) => (.error .typeError, w1)
  | none => (.error .typeError, w1)

/-- Method `Store.subscribe(key, callback)`, that is `this.getState(key).subscribe(callback)`.
An inherited object has no method `subscribe`, so calling it is a `TypeError`. -/
def Store.subscribe (w : World) (key : String) (callback : Observer) :
    Except JSError Unsubscribe × World :=
  match Store.getState w key with
  | .error e => (.error e, w)
  | .ok (.own r) => Observable.subscribe w r callback
  | .ok (.inherited _) => (.error .typeError, w)

/-- The expression `dependencies.map(dep => this.subscribe(dep, () => ...))` of
`createDerivedState`, walking the part `todo` of the dependency list. Each round
creates a new arrow function, numbered by `World.arrows`. -/
def Store.subscribeDependencies (dependencies : List String)
    (computeFn : List JSValue → JSValue) (derivedObservable : Nat) :
    List String → World → Except JSError (List Unsubscribe) × World
  | [], w => (.ok [], w)
  | dep :: todo, w =>
    let arrow := Observer.recompute w.arrows dependencies computeFn derivedObservable
    match Store.subscribe { w with arrows := w.arrows + 1 } dep arrow with
    | (.error e, w1) => (.error e, w1)
    | (.ok unsub, w1) =>
      match Store.subscribeDependencies dependencies computeFn derivedObservable todo w1 with
      | (.error e, w2) => (.error e, w2)
      | (.ok unsubs, w2) => (.ok (unsub :: unsubs), w2)

/-- Method `Store.createDerivedState(key, dependencies, computeFn)`; the result is the
reference to the derived Observable. -/
def Store.createDerivedState (w : World) (key : String) (dependencies : List String)
    (computeFn : List JSValue → JSValue) : Except JSError Nat × World :=
  match Store.getValues w dependencies with
  | .error e => (.error e, w)
  | .ok args =>
    let created := Observable.new w (computeFn args)
    match Store.subscribeDependencies dependencies computeFn created.2 dependencies
        created.1 with
    | (.error e, w1) => (.error e, w1)
    | (.ok unsubscribers, w1) =>
      let w2 := { w1 with _state := assign w1._state key created.2 }
      match w2.heap[created.2]? with
      | none => (.error .badReference, w2)
      | some o =>
        (.ok created.2, w2.store created.2 { o with unsubscribeAll := some unsubscribers })

/-- The loop `unsubscribers.forEach(unsub => unsub())`. -/
def callEach : List Unsubscribe → World → Except JSError Unit × World
  | [], w => (.ok (), w)
  | u :: rest, w =>
    match Unsubscribe.call w u with
    | (.ok _, w1) => callEach rest w1
    | (.error e, w1) => (.error e, w1)

/-- The call `observable.unsubscribeAll()`. On an Observable that did not come from
`createDerivedState` the property is absent, and calling it is a `TypeError`. -/
def Observable.callUnsubscribeAll (w : World) (r : Nat) : Except JSError Unit × World :=
  match w.heap[r]? with
  | none => (.error .badReference, w)
  | some o =>
    match o.unsubscribeAll with
    | none => (.error .typeError, w)
    | some unsubscribers => callEach unsubscribers w

/-! ## StateManager -/

/-- The four properties of the StateManager that hold its Store instances; a value of
this type stands for the reference stored in that property. -/
inductive StoreRef where
  | userStore
  | courseStore
  | progressStore
  | uiStore
  deriving Repr, DecidableEq

/-- The StateManager singleton: four stores, one per domain. -/
structure StateManager where
  userStore : World
  courseStore : World
  progressStore : World
  uiStore : World

/-- The Store that a reference points to. -/
def StateManager.deref (this : StateManager) : StoreRef → World
  | .userStore => this.userStore
  | .courseStore => this.courseStore
  | .progressStore => this.progressStore
  | .uiStore => this.uiStore

/-- The object literal `storeMap` of `getStore`. -/
def storeMap : List (String × StoreRef) :=
  [("user", .userStore), ("course", .courseStore), ("progress", .progressStore),
   ("ui", .uiStore)]

/-- Method `StateManager.getStore(storeName)`. A Store is an object, so `!storeMap[storeName]`
holds exactly when the lookup finds nothing, own or inherited. -/
def StateManager.getStore (_this : StateManager) (storeName : String) :
    Except JSError (Member StoreRef) :=
  match plainObjectGet storeMap storeName with
  | none => .error (.unknownStore storeName)
  | some m => .ok m

/-! ## The derived state `filteredCourses` -/

/-- A course record as far as the filter reads it. A field is `none` when the record has
no such property. -/
structure Course where
  id : Int
  title : Option String
  description : Option String
  category : Option String
  difficulty : Option String
  deriving Repr, DecidableEq

/-- The value of the state key `filters`; `none` stands for `null`. -/
structure Filters where
  category : Option String
  difficulty : Option String
  search : String
  deriving Repr, DecidableEq

/-- Method `String.prototype.includes`: `sub` occurs in `s` as a contiguous piece. -/
def includes (s sub : String) : Bool :=
  s.toList.tails.any (fun t => sub.toList.isPrefixOf t)

/-- The test `if (filter)` followed by `course.field === filter`, for a filter that is a
string or `null`. -/
def matchesExact (filter field : Option String) : Bool :=
  match filter with
  | none => true
  | some wanted => if wanted = "" then true else decide (field = some wanted)

/-- The callback passed to `courses.filter` in the compute function of `filteredCourses`.
`toLowerCase` is the method `String.prototype.toLowerCase`. Reading `.toLowerCase` off a
missing `title` or `description` is a `TypeError`; `||` does not evaluate its right operand
when the left one holds. -/
def matchesFilters (toLowerCase : String → String) (filters : Filters) (course : Course) :
    Except JSError Bool :=
  let matchesCategory := matchesExact filters.category course.category
  let matchesDifficulty := matchesExact filters.difficulty course.difficulty
  let matchesSearch : Except JSError Bool :=
    if filters.search = "" then .ok true
    else
      let searchLower := toLowerCase filters.search
      match course.title with
      | none => .error .typeError
      | some title =>
        if includes (toLowerCase title) searchLower then .ok true
        else
          match course.description with
          | none => .error .typeError
          | some description => .ok (includes (toLowerCase description) searchLower)
  match matchesSearch with
  | .error e => .error e
  | .ok found => .ok (matchesCategory && matchesDifficulty && found)

/-- Method `Array.prototype.filter` with a callback that may throw. -/
def filterArray {α : Type} (keep : α → Except JSError Bool) : List α → Except JSError (List α)
  | [] => .ok []
  | x :: xs =>
    match keep x with
    | .error e => .error e
    | .ok b =>
      match filterArray keep xs with
      | .error e => .error e
      | .ok ys => .ok (if b then x :: ys else ys)

/-- The compute function of the derived state `filteredCourses`. -/
def filteredCourses (toLowerCase : String → String) (courses : List Course)
    (filters : Filters) : Except JSError (List Course) :=
  filterArray (matchesFilters toLowerCase filters) courses

/-! ## Well-formed worlds -/

/-- The observer list of the Observable at `r`; empty when there is none. -/
def World.observers (w : World) (r : Nat) : List Observer :=
  match w.heap[r]? with
  | some o => o._observers
  | none => []

/-- The Observable that an observer writes when called, if it writes one. -/
def Observer.target : Observer → Option Nat
  | .callback _ => none
  | .recompute _ _ _ derivedObservable => some derivedObservable

/-- The caller-supplied function behind an observer, if it is one. -/
def Observer.callbackId : Observer → Option Nat
  | .callback id => some id
  | .recompute _ _ _ _ => none

/-- An observer sitting on the Observable at `source` is wired correctly: the arrow function
of a derived state writes an existing Observable that was created after `source`, was
itself created before now, and reads keys that resolve. -/
def Observer.wired (w : World) (source : Nat) : Observer → Bool
  | .callback _ => true
  | .recompute id dependencies _ derivedObservable =>
    decide (source < derivedObservable) && decide (derivedObservable < w.heap.length)
      && decide (id < w.arrows) && dependencies.all (fun dep => (w.lookup dep).isSome)

/-- The invariant of every world built through the Store interface: state keys point into
the heap, and every observer is wired correctly. -/
def World.wellFormed (w : World) : Bool :=
  w._state.all (fun p => decide (p.2 < w.heap.length)) &&
    (List.range w.heap.length).all (fun r => (w.observers r).all (Observer.wired w r))

/-- The Observable at `r` has an observer that writes the Observable at `t`. -/
def Feeds (w : World) (r t : Nat) : Prop :=
  ∃ observer ∈ w.observers r, observer.target = some t

/-- The Observable at `t` depends on the one at `r`: a chain of derived states leads from
`r` to `t`. -/
def DependsOn (w : World) (t r : Nat) : Prop :=
  Relation.TransGen (Feeds w) r t

/-- The calls in a list that were made by the Observable at `r`. -/
def callsFrom (r : Nat) (calls : List Call) : List Call :=
  calls.filter (fun c => c.source == r)

/-- The calls that one notification of the Observable at `r` makes to caller-supplied
functions: one per such observer, in list order. -/
def callbackCalls (r : Nat) (newValue oldValue : JSValue) (observers : List Observer) :
    List Call :=
  observers.filterMap (fun observer =>
    observer.callbackId.map (fun id =>
      { source := r, callback := id, newValue := newValue, oldValue := oldValue }))

/-- Two worlds with the same wiring: the same Observables with the same observer lists and
the same state keys. Only stored values and the record of calls may differ. -/
structure SameWiring (w w' : World) : Prop where
  length : w'.heap.length = w.heap.length
  observers : w'.observers = w.observers
  state : w'._state = w._state
  inherited : w'.inheritedValue = w.inheritedValue
  arrows : w'.arrows = w.arrows

/-- What a notification started at the Observable `r` of world `w0` may do between two
worlds `a` and `b`: keep the wiring, leave alone every Observable that does not depend on
`r`, and add calls made only by `r` and by Observables that depend on `r`. -/
def Within (w0 : World) (r : Nat) (a b : World) : Prop :=
  SameWiring a b ∧ (∀ t, ¬ DependsOn w0 t r → b.heap[t]? = a.heap[t]?) ∧
    ∃ extra, b.calls = a.calls ++ extra ∧
      ∀ c ∈ extra, c.source = r ∨ DependsOn w0 c.source r

/-! ## Subscribing, unsubscribing and assigning on one Observable -/

/-- What a caller does to one Observable: subscribe a function, call the closure that its
`i`-th call of `subscribe` returned, or assign a value. -/
inductive Event where
  | subscribe (fn : Nat)
  | unsubscribe (i : Nat)
  | assign (value : JSValue)

/-- The caller's side of a run: the world, and the closures `subscribe` has returned. -/
structure Session where
  world : World
  closures : List Unsubscribe

/-- One event on the Observable at `r`. A closure that was not returned yet cannot be
called, so such an event does nothing. -/
def Session.step (r : Nat) (s : Session) : Event → Session
  | .subscribe fn =>
    match Observable.subscribe s.world r (.callback fn) with
    | (.ok u, w1) => { world := w1, closures := s.closures ++ [u] }
    | (.error _, w1) => { world := w1, closures := s.closures }
  | .unsubscribe i =>
    match s.closures[i]? with
    | some u => { world := (Unsubscribe.call s.world u).2, closures := s.closures }
    | none => s
  | .assign value => { world := (Observable.setValue s.world r value).2, closures := s.closures }

/-- A sequence of events on the Observable at `r`. -/
def Session.run (r : Nat) (s : Session) (events : List Event) : Session :=
  events.foldl (Session.step r) s

/-- Bookkeeping of registrations, one entry per call of `subscribe`: the function, and
whether the registration is still live. Here the closure of registration `i` retires
registration `i` and no other. -/
def retireOne (regs : List (Nat × Bool)) : Event → List (Nat × Bool)
  | .subscribe fn => regs ++ [(fn, true)]
  | .unsubscribe i =>
    match regs[i]? with
    | some (fn, _) => regs.set i (fn, false)
    | none => regs
  | .assign _ => regs

/-- The subscribers that are subscribed and not yet unsubscribed, in subscription order,
when a closure removes its own registration only. -/
def liveSubscribers (events : List Event) : List Nat :=
  ((events.foldl retireOne []).filter (fun p => p.2)).map (fun p => p.1)

/-- Bookkeeping of registrations in which the closure of registration `i` retires every
registration of the same function made so far. -/
def retireFunction (regs : List (Nat × Bool)) : Event → List (Nat × Bool)
  | .subscribe fn => regs ++ [(fn, true)]
  | .unsubscribe i =>
    match regs[i]? with
    | some (fn, _) => regs.map (fun p => if p.1 = fn then (p.1, false) else p)
    | none => regs
  | .assign _ => regs

/-- The registrations that are live when a closure removes every registration of its
function, in subscription order. -/
def liveRegistrations (events : List Event) : List Nat :=
  ((events.foldl retireFunction []).filter (fun p => p.2)).map (fun p => p.1)

/-- The functions passed to `subscribe` in a sequence of events, in order. -/
def subscribedFunctions (events : List Event) : List Nat :=
  events.filterMap (fun e => match e with
    | .subscribe fn => some fn
    | .unsubscribe _ => none
    | .assign _ => none)

/-- The notification property of an Observable, for a given reading `live` of who is
subscribed: create the Observable with value `init`, let the events happen, assign `v`
while the value is `old`. The assignment returns, the calls it makes are exactly one call
`(v, old)` per live subscriber in order, and the value then reads `v`. -/
def NotifiesExactly (live : List Event → List Nat) (w0 : World) (init : JSValue)
    (events : List Event) (v : JSValue) : Prop :=
  let created := Observable.new w0 init
  let s := Session.run created.2 { world := created.1, closures := [] } events
  let res := Observable.setValue s.world created.2 v
  ∃ old, Observable.value s.world created.2 = .ok old ∧ res.1 = .ok () ∧
    res.2.calls = s.world.calls ++ (live events).map (fun fn =>
      { source := created.2, callback := fn, newValue := v, oldValue := old }) ∧
    Observable.value res.2 created.2 = .ok v

/-- The link between a running session on the Observable at `r` and the bookkeeping of
registrations: the observer list holds the live registrations in order, and the closures
returned so far are those of the registrations. -/
def Tracks (r : Nat) (s : Session) (regs : List (Nat × Bool)) : Prop :=
  (∃ current, s.world.heap[r]? = some
      { _value := current,
        _observers := (regs.filter (fun p => p.2)).map (fun p => Observer.callback p.1),
        unsubscribeAll := none }) ∧
    s.closures = regs.map (fun p => { observable := r, observer := .callback p.1 })

/-! ## One function subscribed twice -/

/-- The calls that the Observable at `r` makes to the function `fn` in this run: `fn` is
subscribed twice, the closure `u` is called, then `v` is assigned. -/
def callsAfterOneUnsubscribe (w : World) (r fn : Nat) (v : JSValue) (u : Unsubscribe) :
    List Call :=
  let first := Observable.subscribe w r (.callback fn)
  let second := Observable.subscribe first.2 r (.callback fn)
  let w3 := (Unsubscribe.call second.2 u).2
  let res := Observable.setValue w3 r v
  (callsFrom r (res.2.calls.drop w3.calls.length)).filter (fun c => c.callback == fn)

/-- The closures returned by subscribing `fn` twice to the Observable at `r`. -/
def isClosureOfTwo (w : World) (r fn : Nat) (u : Unsubscribe) : Prop :=
  let first := Observable.subscribe w r (.callback fn)
  let second := Observable.subscribe first.2 r (.callback fn)
  first.1 = .ok u ∨ second.1 = .ok u

/-! ## Example worlds -/

/-- A new Observable holding `0`, alone in the world. -/
def exampleCounter : World :=
  (Observable.new World.empty (.number 0)).1

/-- A new Observable holding the record `{a: 0, b: 2}`, with one subscriber. -/
def exampleRecord : World :=
  (Observable.subscribe
    (Observable.new World.empty (.object [("a", .number 0), ("b", .number 2)])).1 0
    (.callback 1)).2

/-- A new Observable holding `null`, with one subscriber. -/
def exampleNull : World :=
  (Observable.subscribe (Observable.new World.empty .null).1 0 (.callback 1)).2

/-! ## The reference filter -/

/-- The text `needle` occurs in the text `hay`, when there is one. -/
def occursIn (needle : String) : Option String → Bool
  | none => false
  | some hay => decide (needle.toList <:+: hay.toList)

/-- The filter predicate in the words of the specification: category exact match or any,
difficulty exact match or any, and the lower-cased search text occurs in the lower-cased
title or description, an empty search text matching everything. -/
def matchesReference (toLowerCase : String → String) (filters : Filters) (course : Course) :
    Bool :=
  decide
    ((filters.category = none ∨ filters.category = some "" ∨
        course.category = filters.category) ∧
      (filters.difficulty = none ∨ filters.difficulty = some "" ∨
        course.difficulty = filters.difficulty) ∧
      (filters.search = "" ∨
        occursIn (toLowerCase filters.search) (course.title.map toLowerCase) = true ∨
        occursIn (toLowerCase filters.search) (course.description.map toLowerCase) = true))

/-- Lower-casing of the letters `A` to `Z`, which is what `toLowerCase` does on such text. -/
def asciiLower (s : String) : String :=
  ⟨s.data.map Char.toLower⟩

/-- Two courses with title and description. -/
def exampleCourses : List Course :=
  [{ id := 1, title := some "HTML Basics", description := some "Markup for the web",
     category := some "web", difficulty := some "beginner" },
   { id := 2, title := some "Advanced JS", description := some "Closures and more",
     category := some "programming", difficulty := some "advanced" }]

/-! ## Derived states and the calls that follow their creation -/

/-- A call on the store made after a derived state was created. -/
inductive StoreCall where
  | setState (key : String) (value : JSValue)
  | updateState (key : String) (updates : JSValue)
  | subscribe (key : String) (fn : Nat)

/-- The world after a call. A call that throws leaves the world as it is at the throw. -/
def StoreCall.run (w : World) : StoreCall → World
  | .setState key value => (Store.setState w key value).2
  | .updateState key updates => (Store.updateState w key updates).2
  | .subscribe key fn => (Store.subscribe w key (.callback fn)).2

/-- The world after a sequence of calls. -/
def runCalls (w : World) (calls : List StoreCall) : World :=
  calls.foldl StoreCall.run w

/-- The call writes a key of `dependencies`, or subscribes a caller-supplied function. -/
def StoreCall.onDependencies (dependencies : List String) : StoreCall → Prop
  | .setState key _ => key ∈ dependencies
  | .updateState key _ => key ∈ dependencies
  | .subscribe _ _ => True

/-- The call is not a direct write to `key`. -/
def StoreCall.notWriting (key : String) : StoreCall → Prop
  | .setState k _ => k ≠ key
  | .updateState k _ => k ≠ key
  | .subscribe _ _ => True

/-- Every key of the list is registered: it is an own property of `_state`. -/
def World.registered (w : World) (keys : List String) : Bool :=
  keys.all (fun key =>
    match w.lookup key with
    | some (.own _) => true
    | _ => false)

/-- The value of `key` is `computeFn` applied to the current values of `dependencies`, in
order. -/
def Derives (w : World) (key : String) (dependencies : List String)
    (computeFn : List JSValue → JSValue) : Prop :=
  ∃ args, Store.getValues w dependencies = .ok args ∧
    Store.getValue w key = .ok (computeFn args)

/-- A derived state tracks its dependencies: `createDerivedState` returns normally, and
after it and after every later sequence of `setState` and `updateState` calls on keys of
`dependencies` that do not write `key` directly, the value of `key` is `computeFn` of the
current values of the dependencies. -/
def TracksDependencies (w : World) (key : String) (dependencies : List String)
    (computeFn : List JSValue → JSValue) : Prop :=
  (∃ d, (Store.createDerivedState w key dependencies computeFn).1 = .ok d) ∧
    ∀ calls : List StoreCall,
      (∀ c ∈ calls, c.onDependencies dependencies ∧ c.notWriting key) →
      Derives (runCalls (Store.createDerivedState w key dependencies computeFn).2 calls)
        key dependencies computeFn

/-- What the subscription loop of `createDerivedState` has done between two worlds: it has
only added arrow functions of the derived state `d` to observer lists, each with a new
number and each with its closure in `unsubs`. -/
structure Grown (dependencies : List String) (computeFn : List JSValue → JSValue) (d : Nat)
    (w w2 : World) (unsubs : List Unsubscribe) : Prop where
  length : w2.heap.length = w.heap.length
  state : w2._state = w._state
  inherited : w2.inheritedValue = w.inheritedValue
  calls : w2.calls = w.calls
  arrows : w.arrows ≤ w2.arrows
  values : ∀ r : Nat, (w2.heap[r]?).map (fun o => o._value) = (w.heap[r]?).map (fun o => o._value)
  old : ∀ (r : Nat) (observer : Observer), observer ∈ w.observers r → observer ∈ w2.observers r
  added : ∀ (r : Nat) (observer : Observer), observer ∈ w2.observers r → observer ∈ w.observers r ∨
    ((∃ id, observer = .recompute id dependencies computeFn d ∧ w.arrows ≤ id ∧
        id < w2.arrows) ∧
      ∃ u ∈ unsubs, u.observable = r ∧ u.observer = observer)
  valid : ∀ u ∈ unsubs, (∃ dep, w.lookup dep = some (.own u.observable)) ∧
    u.observer.callbackId = none

/-- The value stored in the Observable at `r`, if there is such an Observable. -/
def valueAt (w : World) (r : Nat) : Option JSValue :=
  (w.heap[r]?).map (fun o => o._value)

/-- The key `key` is bound to the derived Observable `d`, whose dependencies are registered
keys bound to other Observables, and every observer that writes `d` is an arrow function of
this derived state. -/
structure DerivedAt (w : World) (key : String) (d : Nat) (dependencies : List String)
    (computeFn : List JSValue → JSValue) : Prop where
  wf : w.wellFormed = true
  bound : w.lookup key = some (.own d)
  deps : ∀ dep ∈ dependencies, ∃ r, w.lookup dep = some (.own r) ∧ r ≠ d
  only : ∀ (r : Nat) (observer : Observer), observer ∈ w.observers r →
    observer.target = some d → ∃ id, observer = .recompute id dependencies computeFn d

/-- Every dependency carries an arrow function of the derived state `d`. -/
def Attached (w : World) (d : Nat) (dependencies : List String)
    (computeFn : List JSValue → JSValue) : Prop :=
  ∀ dep ∈ dependencies, ∀ r, w.lookup dep = some (.own r) →
    ∃ id, Observer.recompute id dependencies computeFn d ∈ w.observers r

/-- No observer writes the Observable `d`. -/
def Detached (w : World) (d : Nat) : Prop :=
  ∀ (r : Nat) (observer : Observer), observer ∈ w.observers r → observer.target ≠ some d

/-- The value stored at `d` is `computeFn` of the current values of the dependencies. -/
def Consistent (w : World) (d : Nat) (dependencies : List String)
    (computeFn : List JSValue → JSValue) : Prop :=
  ∃ args, Store.getValues w dependencies = .ok args ∧ valueAt w d = some (computeFn args)

/-- The Observables whose values decide whether `d` is consistent: `d` itself and the
Observables its dependencies are bound to. -/
def Relevant (w : World) (d : Nat) (dependencies : List String) (t : Nat) : Prop :=
  t = d ∨ ∃ dep ∈ dependencies, w.lookup dep = some (.own t)

/-- What `createDerivedState(key, dependencies, computeFn)` has made of the world `w` when
it returns: the world `w2` has one more Observable, bound to `key` and holding `computeFn`
of `args`; the observer lists have only gained arrow functions of that Observable, one on
every dependency; and `unsubs` are the closures kept for `unsubscribeAll`. -/
structure Created (w : World) (key : String) (dependencies : List String)
    (computeFn : List JSValue → JSValue) (args : List JSValue) (w2 : World)
    (unsubs : List Unsubscribe) : Prop where
  length : w2.heap.length = w.heap.length + 1
  state : w2._state = assign w._state key w.heap.length
  inherited : w2.inheritedValue = w.inheritedValue
  calls : w2.calls = w.calls
  arrows : w.arrows ≤ w2.arrows
  values : ∀ r : Nat, r < w.heap.length → valueAt w2 r = valueAt w r
  value : valueAt w2 w.heap.length = some (computeFn args)
  old : ∀ (r : Nat) (observer : Observer), observer ∈ w.observers r → observer ∈ w2.observers r
  added : ∀ (r : Nat) (observer : Observer), observer ∈ w2.observers r →
    observer ∈ w.observers r ∨
      ((∃ id, observer = .recompute id dependencies computeFn w.heap.length ∧
          w.arrows ≤ id ∧ id < w2.arrows) ∧
        ∃ u ∈ unsubs, u.observable = r ∧ u.observer = observer)
  valid : ∀ u ∈ unsubs, (∃ dep, w.lookup dep = some (.own u.observable)) ∧
    u.observer.callbackId = none
  attached : ∀ dep ∈ dependencies, ∀ r, w.lookup dep = some (.own r) →
    ∃ id, Observer.recompute id dependencies computeFn w.heap.length ∈ w2.observers r
  closures : ∃ o, w2.heap[w.heap.length]? = some o ∧ o.unsubscribeAll = some unsubs

/-- The compute function `(a, b) => a + b` on numbers. -/
def addNumbers : List JSValue → JSValue
  | [.number a, .number b] => .number (a + b)
  | _ => .undefined

/-- The store built from `{a: 1, b: 2}`. -/
def exampleStore : World :=
  Store.new [("a", .number 1), ("b", .number 2)]

/-- The world after `createDerivedState(key, dependencies, computeFn)`, then
`unsubscribeAll()` on the Observable `d`, then the calls `calls`. -/
def afterDetach (w : World) (key : String) (dependencies : List String)
    (computeFn : List JSValue → JSValue) (d : Nat) (calls : List StoreCall) : World :=
  runCalls
    (Observable.callUnsubscribeAll
      (Store.createDerivedState w key dependencies computeFn).2 d).2 calls

/-- A derived state stays detached: `createDerivedState` returns the derived Observable,
`unsubscribeAll()` on it returns normally, and after every later sequence of `setState`
and `updateState` calls on keys of `dependencies` (and of subscriptions of caller-supplied
functions) the value of `key` is what it was, the derived Observable has made no call, and
a `setState` on a dependency still calls every caller-supplied observer of that dependency
once, among them all those subscribed before the derived state was created. -/
def StaysDetached (w : World) (key : String) (dependencies : List String)
    (computeFn : List JSValue → JSValue) : Prop :=
  ∃ d, (Store.createDerivedState w key dependencies computeFn).1 = .ok d ∧
    (Observable.callUnsubscribeAll
      (Store.createDerivedState w key dependencies computeFn).2 d).1 = .ok () ∧
    ∀ calls : List StoreCall, (∀ c ∈ calls, c.onDependencies dependencies) →
      Store.getValue (afterDetach w key dependencies computeFn d calls) key =
        Store.getValue (Store.createDerivedState w key dependencies computeFn).2 key ∧
      callsFrom d (afterDetach w key dependencies computeFn d calls).calls =
        callsFrom d (Store.createDerivedState w key dependencies computeFn).2.calls ∧
      ∀ dep ∈ dependencies, ∀ (r : Nat) (o : Observable),
        (afterDetach w key dependencies computeFn d calls).lookup dep = some (.own r) →
        (afterDetach w key dependencies computeFn d calls).heap[r]? = some o →
        (∀ fn, Observer.callback fn ∈ w.observers r → Observer.callback fn ∈ o._observers) ∧
        ∀ v,
          (Store.setState (afterDetach w key dependencies computeFn d calls) dep v).1
            = .ok () ∧
          callsFrom r
            (Store.setState (afterDetach w key dependencies computeFn d calls) dep v).2.calls =
            callsFrom r (afterDetach w key dependencies computeFn d calls).calls ++
              callbackCalls r v o._value o._observers

/-- What calling the closures `unsubs` has done between two worlds: observers were only
removed, and exactly those that one of the closures names. -/
structure Pruned (w w2 : World) (unsubs : List Unsubscribe) : Prop where
  length : w2.heap.length = w.heap.length
  state : w2._state = w._state
  inherited : w2.inheritedValue = w.inheritedValue
  calls : w2.calls = w.calls
  arrows : w2.arrows = w.arrows
  values : ∀ r : Nat, valueAt w2 r = valueAt w r
  subset : ∀ (r : Nat) (observer : Observer), observer ∈ w2.observers r →
    observer ∈ w.observers r
  kept : ∀ (r : Nat) (observer : Observer), observer ∈ w.observers r →
    (∀ u ∈ unsubs, u.observable = r → observer.same u.observer = false) →
    observer ∈ w2.observers r
  removed : ∀ (r : Nat) (observer : Observer), observer ∈ w2.observers r →
    ∀ u ∈ unsubs, u.observable = r → observer.same u.observer = false

/-! ## Worlds built through the interface -/

/-- The worlds that callers can bring about: a store is constructed, and then any of the
methods of `Store` and `Observable` is called, with caller-supplied functions as
subscribers. -/
inductive Reachable : World → Prop where
  | new (initialState : Props) : Reachable (Store.new initialState)
  | setState {w : World} (key : String) (value : JSValue) :
      Reachable w → Reachable (Store.setState w key value).2
  | updateState {w : World} (key : String) (updates : JSValue) :
      Reachable w → Reachable (Store.updateState w key updates).2
  | subscribe {w : World} (key : String) (fn : Nat) :
      Reachable w → Reachable (Store.subscribe w key (.callback fn)).2
  | unsubscribe {w : World} (u : Unsubscribe) :
      Reachable w → Reachable (Unsubscribe.call w u).2
  | createDerivedState {w : World} (key : String) (dependencies : List String)
      (computeFn : List JSValue → JSValue) :
      Reachable w → Reachable (Store.createDerivedState w key dependencies computeFn).2
  | unsubscribeAll {w : World} (r : Nat) :
      Reachable w → Reachable (Observable.callUnsubscribeAll w r).2

/-! ## The example of the specification for `filteredCourses` -/

/-- The two course records of the example, with the field `description` as given:
`none` when the record has no such field. -/
def specCourses (description1 description2 : Option String) : List Course :=
  [{ id := 1, title := some "HTML Basics", description := description1,
     category := some "web", difficulty := some "beginner" },
   { id := 2, title := some "Advanced JS", description := description2,
     category := some "programming", difficulty := some "advanced" }]

/-- The filters of the example: `{category: null, difficulty: null, search: "html"}`. -/
def specFilters : Filters :=
  { category := none, difficulty := none, search := "html" }

/-! ## Double-precision arithmetic

The numbers of the language are IEEE 754 doubles. The arithmetic of the progress methods
is done on array lengths and counters, whose quotients and products are far from both ends
of the exponent range; so a double is taken here to be a rational number with 53 binary
digits and any exponent, and every operation rounds the exact result to the nearest such
number, to the one with an even last digit when two are nearest. -/

/-- The number of binary digits of `n`, by halving at most `fuel` times. -/
def binaryDigitsAux : Nat → Nat → Nat
  | 0, _ => 0
  | fuel + 1, n => if n = 0 then 0 else binaryDigitsAux fuel (n / 2) + 1

/-- The number of binary digits of `n`; `0` has none. -/
def binaryDigits (n : Nat) : Nat := binaryDigitsAux n n

/-- The power `2 ^ e` of two with an integer exponent. -/
def pow2 (e : Int) : ℚ :=
  if 0 ≤ e then ((2 ^ e.toNat : Nat) : ℚ) else 1 / ((2 ^ (-e).toNat : Nat) : ℚ)

/-- The exponent `e` of a positive number `q`, with `2 ^ e ≤ q < 2 ^ (e + 1)`. -/
def binaryExponent (q : ℚ) : Int :=
  if pow2 ((binaryDigits q.num.natAbs : Int) - (binaryDigits q.den : Int)) ≤ q then
    (binaryDigits q.num.natAbs : Int) - (binaryDigits q.den : Int)
  else (binaryDigits q.num.natAbs : Int) - (binaryDigits q.den : Int) - 1

/-- Rounding to the nearest integer, to the even one of two nearest integers. -/
def roundHalfEven (q : ℚ) : Int :=
  if q - (Rat.floor q : ℚ) < 1 / 2 then Rat.floor q
  else if 1 / 2 < q - (Rat.floor q : ℚ) then Rat.floor q + 1
  else if Rat.floor q % 2 = 0 then Rat.floor q else Rat.floor q + 1

/-- The double nearest to `q`: `q` rounded to 53 binary digits, the first of which is the
digit of `2 ^ e` for the exponent `e` of `|q|`. -/
def toDouble (q : ℚ) : ℚ :=
  if q = 0 then 0
  else (roundHalfEven (q / pow2 (binaryExponent |q| - 52)) : ℚ) *
    pow2 (binaryExponent |q| - 52)

/-! ## Values as the progress methods read them -/

/-- The number `q`: an integer where it is one. -/
def JSValue.ofRat (q : ℚ) : JSValue :=
  if q.den = 1 then .number q.num else .fraction q

/-- The test `value === s` against a string `s`. -/
def JSValue.isString (value : JSValue) (s : String) : Bool :=
  match value with
  | .string t => t == s
  | _ => false

/-- The test `value === n` against an integer `n`. -/
def JSValue.isNumber (value : JSValue) (n : Int) : Bool :=
  match value with
  | .number m => m == n
  | _ => false

/-- The expression `value?.name`, for a name that is not an index, not `length` and not
defined by any built-in prototype (here `completed`, `id`, `lessons`, `lastActive`): the
own property of a record, and `undefined` on every other value. -/
def JSValue.fieldOr (value : JSValue) (name : String) : JSValue :=
  match value with
  | .object props => (getOwn props name).getD .undefined
  | _ => .undefined

/-- The expression `value.name` for such a name: reading through `null` or `undefined` is a
`TypeError`. -/
def JSValue.field (value : JSValue) (name : String) : Except JSError JSValue :=
  match value with
  | .null => .error .typeError
  | .undefined => .error .typeError
  | _ => .ok (value.fieldOr name)

/-- The expression `container[key]` on a record, on `null` and on `undefined`; `none`
stands for `undefined`. Indexing into a number, a boolean, a string or an array is not
followed. -/
def JSValue.member (container : JSValue) (key : String) :
    Except JSError (Option (Member JSValue)) :=
  match container with
  | .null => .error .typeError
  | .undefined => .error .typeError
  | .object props => .ok (plainObjectGet props key)
  | _ => .error .unmodelled

/-- The literal `{ ...(member || {}) }`. An inherited member is a function or
`Object.prototype` itself: truthy, and without own enumerable properties. -/
def spreadOrEmpty : Option (Member JSValue) → Props
  | some (.own value) => if value.truthy then spread [] value else []
  | some (.inherited _) => []
  | none => []

/-- The expression `member?.completed`. An inherited member has no property `completed`. -/
def completedOf : Option (Member JSValue) → JSValue
  | some (.own value) => value.fieldOr "completed"
  | some (.inherited _) => .undefined
  | none => .undefined

/-- The property key that a value stands for in `obj[value]`. Fractions, whose decimal
expansion would be needed, and arrays, whose elements would be joined, are not followed. -/
def JSValue.toPropertyKey : JSValue → Except JSError String
  | .string s => .ok s
  | .number n => .ok (toString n)
  | .boolean b => .ok (if b then "true" else "false")
  | .undefined => .ok "undefined"
  | .null => .ok "null"
  | .nan => .ok "NaN"
  | .object _ => .ok "[object Object]"
  | .array _ => .error .unmodelled
  | .fraction _ => .error .unmodelled

/-- The callback `id => lessonProgress[id]?.completed`, followed by the conversion to
boolean that `every` and `filter` apply to its result. -/
def lessonCompleted (lessonProgress : JSValue) (id : JSValue) : Except JSError Bool :=
  match lessonProgress with
  | .null => .error .typeError
  | .undefined => .error .typeError
  | _ =>
    match id.toPropertyKey with
    | .error e => .error e
    | .ok key =>
      match lessonProgress.member key with
      | .error e => .error e
      | .ok member => .ok (completedOf member).truthy

/-- Method `Array.prototype.every` with a callback that may throw; it stops at the first
element for which the callback does not hold. -/
def everyArray {α : Type} (test : α → Except JSError Bool) : List α → Except JSError Bool
  | [] => .ok true
  | x :: xs =>
    match test x with
    | .error e => .error e
    | .ok true => everyArray test xs
    | .ok false => .ok false

/-- The callback loop of `courses.find(c => c.id === courseId)`; `none` stands for
`undefined`. -/
def findCourse (courseId : String) : List JSValue → Except JSError (Option JSValue)
  | [] => .ok none
  | c :: rest =>
    match c.field "id" with
    | .error e => .error e
    | .ok id => if id.isString courseId then .ok (some c) else findCourse courseId rest

/-- The expression `(completedLessons / lessonIds.length) * 100`, where `completedLessons`
counts elements of `lessonIds`: the quotient of the two lengths, which are below `2 ^ 32`
and so are doubles themselves, is rounded to a double, and so is its product with 100.
With no lesson id the quotient is `0 / 0`, which is `NaN`, and so is the product. -/
def percentComplete (completedLessons total : Nat) : JSValue :=
  if total = 0 then .nan
  else JSValue.ofRat (toDouble (toDouble ((completedLessons : ℚ) / (total : ℚ)) * 100))

/-- Method `includes(s)` of an array or of a string; no other value has such a method. An
array includes the string when one of its elements is that string. -/
def JSValue.includes (value : JSValue) (s : String) : Except JSError Bool :=
  match value with
  | .array items => .ok (items.any (fun item => item.isString s))
  | .string t => .ok (Cooper.includes t s)
  | _ => .error .typeError

/-- The elements that `...value` contributes to an array literal: the items of an array,
the code points of a string; no other value is iterable. -/
def JSValue.elements (value : JSValue) : Except JSError (List JSValue) :=
  match value with
  | .array items => .ok items
  | .string t => .ok (t.toList.map (fun c => JSValue.string (String.singleton c)))
  | _ => .error .typeError

/-- The statement `updatedStreak.current += 1` on an integer: the sum is rounded to a
double, which is the sum itself as long as it does not exceed `2 ^ 53`. Other operands,
which `+` would first convert, are not followed. -/
def addOne : JSValue → Except JSError JSValue
  | .number n => .ok (JSValue.ofRat (toDouble ((n : ℚ) + 1)))
  | _ => .error .unmodelled

/-- The comparison `a > b` of two integers. Other operands, which `>` would first convert,
are not followed. -/
def greaterThan : JSValue → JSValue → Except JSError Bool
  | .number a, .number b => .ok (decide (a > b))
  | _, _ => .error .unmodelled

/-! ## The progress methods of StateManager -/

/-- A `CustomEvent` dispatched on `document`. -/
inductive CustomEvent where
  /-- The event `achievement:unlocked` with `detail.achievementId`. -/
  | achievementUnlocked (achievementId : String)
  deriving Repr, DecidableEq

/-- The page: the StateManager singleton, and the events dispatched on `document`, oldest
first. The listeners of these events are external code, taken to return without calling
back into the stores. -/
structure Page where
  stateManager : StateManager
  dispatched : List CustomEvent

/-- The page after the progress store went from what it was to `progressStore`. -/
def Page.withProgressStore (page : Page) (progressStore : World) : Page :=
  { page with stateManager := { page.stateManager with progressStore := progressStore } }

/-- What the clock of the platform gives at the three places where `updateLessonProgress`
and `_updateStreak` read it. -/
structure Clock where
  /-- The timestamp `new Date().toISOString()`, stored as `lastAccessed`. -/
  now : String
  /-- The date `new Date().toISOString().split('T')[0]`. -/
  today : String
  /-- The date `yesterday.toISOString().split('T')[0]`, where `yesterday` is a new `Date`
  moved back by `setDate(getDate() - 1)`. -/
  yesterdayStr : String
  deriving Repr, DecidableEq

/-- An entry of the table `achievementDefinitions`. -/
structure AchievementDefinition where
  id : String
  type : String
  courseId : String
  minScore : Option Int
  deriving Repr, DecidableEq

/-- The table `achievementDefinitions` that `_checkCourseCompletionAchievements` builds
from its argument. -/
def achievementDefinitions (courseId : String) : List AchievementDefinition :=
  [{ id := "ach-course-complete", type := "course_completion", courseId := courseId,
     minScore := none },
   { id := "ach-perfect-score", type := "course_completion", courseId := courseId,
     minScore := some 95 }]

/-- The callback of `achievementDefinitions.filter`; `&&` evaluates `includes` only when
the two tests before it hold. -/
def isNewCourseAchievement (currentAchievements : JSValue) (courseId : String)
    (achievement : AchievementDefinition) : Except JSError Bool :=
  if achievement.type = "course_completion" ∧ achievement.courseId = courseId then
    match currentAchievements.includes achievement.id with
    | .error e => .error e
    | .ok found => .ok (!found)
  else .ok false

/-- Method `StateManager._checkCourseCompletionAchievements(courseId)`. -/
def StateManager._checkCourseCompletionAchievements (page : Page) (courseId : String) :
    Except JSError Unit × Page :=
  match Store.getValue page.stateManager.progressStore "achievements" with
  | .error e => (.error e, page)
  | .ok currentAchievements =>
    match filterArray (isNewCourseAchievement currentAchievements courseId)
        (achievementDefinitions courseId) with
    | .error e => (.error e, page)
    | .ok courseAchievements =>
      if courseAchievements.length > 0 then
        match currentAchievements.elements with
        | .error e => (.error e, page)
        | .ok items =>
          let ids := courseAchievements.map (fun achievement => achievement.id)
          match Store.setState page.stateManager.progressStore "achievements"
              (.array (items ++ ids.map JSValue.string)) with
          | (.error e, progressStore) => (.error e, page.withProgressStore progressStore)
          | (.ok _, progressStore) =>
            (.ok (), { stateManager := (page.withProgressStore progressStore).stateManager,
                       dispatched := page.dispatched ++ ids.map CustomEvent.achievementUnlocked })
      else (.ok (), page)

/-- The array `streakMilestones`. -/
def streakMilestones : List Int := [3, 7, 14, 30, 60, 90, 180, 365]

/-- Method `StateManager._checkStreakAchievements(currentStreak)`. -/
def StateManager._checkStreakAchievements (page : Page) (currentStreak : JSValue) :
    Except JSError Unit × Page :=
  match streakMilestones.find? (fun m => currentStreak.isNumber m) with
  | none => (.ok (), page)
  | some milestone =>
    if milestone = 0 then (.ok (), page)
    else
      let achievementId := "ach-streak-" ++ toString milestone
      match Store.getValue page.stateManager.progressStore "achievements" with
      | .error e => (.error e, page)
      | .ok currentAchievements =>
        match currentAchievements.includes achievementId with
        | .error e => (.error e, page)
        | .ok true => (.ok (), page)
        | .ok false =>
          match currentAchievements.elements with
          | .error e => (.error e, page)
          | .ok items =>
            match Store.setState page.stateManager.progressStore "achievements"
                (.array (items ++ [.string achievementId])) with
            | (.error e, progressStore) => (.error e, page.withProgressStore progressStore)
            | (.ok _, progressStore) =>
              (.ok (), { stateManager := (page.withProgressStore progressStore).stateManager,
                         dispatched := page.dispatched ++ [.achievementUnlocked achievementId] })

/-- The object `updatedStreak` of `_updateStreak` when it is passed to `setState`: the copy
of `currentStreaks` with `lastActive` set and the counters adjusted. The `Date` built
from `lastActive` is not used by the method. -/
def updatedStreak (clock : Clock) (currentStreaks lastActive : JSValue) :
    Except JSError Props :=
  let copy := setOwn (spread [] currentStreaks) "lastActive" (.string clock.today)
  if lastActive.truthy then
    if lastActive.isString clock.yesterdayStr then
      match addOne ((getOwn copy "current").getD .undefined) with
      | .error e => .error e
      | .ok current =>
        match greaterThan current ((getOwn copy "longest").getD .undefined) with
        | .error e => .error e
        | .ok true => .ok (setOwn (setOwn copy "current" current) "longest" current)
        | .ok false => .ok (setOwn copy "current" current)
    else .ok (setOwn copy "current" (.number 1))
  else .ok (setOwn (setOwn copy "current" (.number 1)) "longest" (.number 1))

/-- Method `StateManager._updateStreak()`. -/
def StateManager._updateStreak (page : Page) (clock : Clock) : Except JSError Unit × Page :=
  match Store.getValue page.stateManager.progressStore "streaks" with
  | .error e => (.error e, page)
  | .ok currentStreaks =>
    match currentStreaks.field "lastActive" with
    | .error e => (.error e, page)
    | .ok lastActive =>
      if lastActive.isString clock.today then (.ok (), page)
      else
        match updatedStreak clock currentStreaks lastActive with
        | .error e => (.error e, page)
        | .ok updated =>
          match Store.setState page.stateManager.progressStore "streaks" (.object updated) with
          | (.error e, progressStore) => (.error e, page.withProgressStore progressStore)
          | (.ok _, progressStore) =>
            StateManager._checkStreakAchievements (page.withProgressStore progressStore)
              ((getOwn updated "current").getD .undefined)

/-- The object literal that `updateLessonProgress` passes to
`updateState('courseProgress', ...)`, together with `allLessonsCompleted`. It is computed
from the course that `find` returned and from the values of `lessonProgress` and
`courseProgress`. -/
def courseProgressUpdate (clock : Clock) (courseId : String)
    (course lessonProgress : JSValue) (courseProgress : Except JSError JSValue) :
    Except JSError (JSValue × Bool) :=
  let lessons := course.fieldOr "lessons"
  match (if lessons.truthy then lessons else .array []) with
  | .array lessonIds =>
    match everyArray (lessonCompleted lessonProgress) lessonIds with
    | .error e => .error e
    | .ok allLessonsCompleted =>
      match filterArray (lessonCompleted lessonProgress) lessonIds with
      | .error e => .error e
      | .ok completedLessons =>
        match courseProgress with
        | .error e => .error e
        | .ok courseProgressValue =>
          match courseProgressValue.member courseId with
          | .error e => .error e
          | .ok member =>
            .ok (.object [(courseId, .object
              (setOwn (setOwn (setOwn (spreadOrEmpty member)
                "percentComplete" (percentComplete completedLessons.length lessonIds.length))
                "completed" (.boolean allLessonsCompleted))
                "lastAccessed" (.string clock.now)))],
              allLessonsCompleted)
  | _ => .error .typeError

/-- The block of `updateLessonProgress` that runs when `progressUpdate.completed` holds. -/
def StateManager.updateCourseProgress (page : Page) (clock : Clock) (courseId : String) :
    Except JSError Unit × Page :=
  match Store.getValue page.stateManager.courseStore "courses" with
  | .error e => (.error e, page)
  | .ok (.array courses) =>
    match findCourse courseId courses with
    | .error e => (.error e, page)
    | .ok none => (.ok (), page)
    | .ok (some course) =>
      match Store.getValue page.stateManager.progressStore "lessonProgress" with
      | .error e => (.error e, page)
      | .ok lessonProgress =>
        match courseProgressUpdate clock courseId course lessonProgress
            (Store.getValue page.stateManager.progressStore "courseProgress") with
        | .error e => (.error e, page)
        | .ok (updates, allLessonsCompleted) =>
          match Store.updateState page.stateManager.progressStore "courseProgress" updates with
          | (.error e, progressStore) => (.error e, page.withProgressStore progressStore)
          | (.ok _, progressStore) =>
            if allLessonsCompleted then
              StateManager._checkCourseCompletionAchievements
                (page.withProgressStore progressStore) courseId
            else (.ok (), page.withProgressStore progressStore)
  | .ok _ => (.error .typeError, page)

/-- Method `StateManager.updateLessonProgress(courseId, lessonId, progressUpdate)`. Both
ids are strings, as the method documents them; `lessonId` is used as a property key only. -/
def StateManager.updateLessonProgress (page : Page) (clock : Clock)
    (courseId lessonId : String) (progressUpdate : JSValue) : Except JSError Unit × Page :=
  match Store.getValue page.stateManager.progressStore "lessonProgress" with
  | .error e => (.error e, page)
  | .ok lessonProgress =>
    match lessonProgress.member lessonId with
    | .error e => (.error e, page)
    | .ok member =>
      match Store.updateState page.stateManager.progressStore "lessonProgress"
          (.object [(lessonId, .object (spread (spreadOrEmpty member) progressUpdate))]) with
      | (.error e, progressStore) => (.error e, page.withProgressStore progressStore)
      | (.ok _, progressStore) =>
        match progressUpdate.field "completed" with
        | .error e => (.error e, page.withProgressStore progressStore)
        | .ok completed =>
          match (if completed.truthy then
              StateManager.updateCourseProgress (page.withProgressStore progressStore)
                clock courseId
            else (.ok (), page.withProgressStore progressStore)) with
          | (.error e, page2) => (.error e, page2)
          | (.ok _, page2) => StateManager._updateStreak page2 clock

/-! ## Example pages -/

/-- The four stores as the constructor of `StateManager` creates them, before persistence
and derived states are set up. -/
def StateManager.newStores : StateManager :=
  { userStore := Store.new
      [("profile", .null),
       ("preferences", .object [("theme", .string "light"), ("notifications", .boolean true)]),
       ("isAuthenticated", .boolean false)],
    courseStore := Store.new
      [("courses", .array []), ("currentCourse", .null), ("currentLesson", .null),
       ("filters", .object [("category", .null), ("difficulty", .null),
         ("search", .string "")])],
    progressStore := Store.new
      [("courseProgress", .object []), ("lessonProgress", .object []),
       ("achievements", .array []),
       ("streaks", .object [("current", .number 0), ("longest", .number 0),
         ("lastActive", .null)])],
    uiStore := Store.new
      [("isLoading", .boolean false), ("activeView", .string "dashboard"),
       ("sidebarOpen", .boolean false), ("notifications", .array []),
       ("modals", .object [("active", .null), ("data", .null)])] }

/-- A page whose stores are new, with the course list set to `courses` and nothing
dispatched yet. -/
def examplePage (courses : JSValue) : Page :=
  { stateManager :=
      { StateManager.newStores with
        courseStore := (Store.setState StateManager.newStores.courseStore "courses" courses).2 },
    dispatched := [] }

/-- A course list with one course, `c`, whose lessons are `10` and `11`. -/
def exampleCatalog : JSValue :=
  .array [.object [("id", .string "c"), ("lessons", .array [.number 10, .number 11])]]

/-! ## Primary keys -/

/-- No observer writes the Observable at `r`: it is not a derived state. -/
def World.unfed (w : World) (r : Nat) : Bool :=
  w.heap.all (fun o => o._observers.all (fun observer => observer.target != some r))

/-- The keys `keys` are primary keys of a well-formed store: every one of them is bound to
an Observable of its own, which no derived state writes. -/
def World.primary (w : World) (keys : List String) : Bool :=
  w.wellFormed &&
    keys.all (fun key =>
      match w.lookup key with
      | some (.own r) => w.unfed r
      | _ => false) &&
    decide (keys.map w.lookup).Nodup

/-- The state keys of the progress store that `updateLessonProgress` reads and writes. -/
def progressKeys : List String :=
  ["courseProgress", "lessonProgress", "achievements", "streaks"]

/-- The value that `Observable.update(updates)` stores when the Observable holds `value`,
or the error it throws. -/
def updateValue (value updates : JSValue) : Except JSError JSValue :=
  if value.typeof = "object" ∧ value.isArray = false then
    .ok (.object (spread (spread [] value) updates))
  else .error .invalidOperation

/-! ## The values behind the progress methods -/

/-- The values that the progress methods read and write: the course list of the course
store, the four primary keys of the progress store, and the events dispatched so far. -/
structure Values where
  courses : JSValue
  courseProgress : JSValue
  lessonProgress : JSValue
  achievements : JSValue
  streaks : JSValue
  dispatched : List CustomEvent

/-- The page holds the values `v`: the four keys of the progress store are primary keys and
read as `v` says, the course store reads `v.courses` at `courses`, and the events
dispatched are those of `v`. -/
structure Holds (page : Page) (v : Values) : Prop where
  primary : page.stateManager.progressStore.primary progressKeys = true
  courses : Store.getValue page.stateManager.courseStore "courses" = .ok v.courses
  courseProgress :
    Store.getValue page.stateManager.progressStore "courseProgress" = .ok v.courseProgress
  lessonProgress :
    Store.getValue page.stateManager.progressStore "lessonProgress" = .ok v.lessonProgress
  achievements :
    Store.getValue page.stateManager.progressStore "achievements" = .ok v.achievements
  streaks : Store.getValue page.stateManager.progressStore "streaks" = .ok v.streaks
  dispatched : page.dispatched = v.dispatched

/-- What `_checkCourseCompletionAchievements(courseId)` does to the values. -/
def Values._checkCourseCompletionAchievements (v : Values) (courseId : String) :
    Except JSError Unit × Values :=
  match filterArray (isNewCourseAchievement v.achievements courseId)
      (achievementDefinitions courseId) with
  | .error e => (.error e, v)
  | .ok courseAchievements =>
    if courseAchievements.length > 0 then
      match v.achievements.elements with
      | .error e => (.error e, v)
      | .ok items =>
        let ids := courseAchievements.map (fun achievement => achievement.id)
        (.ok (), { v with
          achievements := .array (items ++ ids.map JSValue.string),
          dispatched := v.dispatched ++ ids.map CustomEvent.achievementUnlocked })
    else (.ok (), v)

/-- What `_checkStreakAchievements(currentStreak)` does to the values. -/
def Values._checkStreakAchievements (v : Values) (currentStreak : JSValue) :
    Except JSError Unit × Values :=
  match streakMilestones.find? (fun m => currentStreak.isNumber m) with
  | none => (.ok (), v)
  | some milestone =>
    if milestone = 0 then (.ok (), v)
    else
      let achievementId := "ach-streak-" ++ toString milestone
      match v.achievements.includes achievementId with
      | .error e => (.error e, v)
      | .ok true => (.ok (), v)
      | .ok false =>
        match v.achievements.elements with
        | .error e => (.error e, v)
        | .ok items =>
          (.ok (), { v with
            achievements := .array (items ++ [.string achievementId]),
            dispatched := v.dispatched ++ [.achievementUnlocked achievementId] })

/-- What `_updateStreak()` does to the values. -/
def Values._updateStreak (v : Values) (clock : Clock) : Except JSError Unit × Values :=
  match v.streaks.field "lastActive" with
  | .error e => (.error e, v)
  | .ok lastActive =>
    if lastActive.isString clock.today then (.ok (), v)
    else
      match updatedStreak clock v.streaks lastActive with
      | .error e => (.error e, v)
      | .ok updated =>
        Values._checkStreakAchievements { v with streaks := .object updated }
          ((getOwn updated "current").getD .undefined)

/-- What the block of `updateLessonProgress` for a completed lesson does to the values. -/
def Values.updateCourseProgress (v : Values) (clock : Clock) (courseId : String) :
    Except JSError Unit × Values :=
  match v.courses with
  | .array courses =>
    match findCourse courseId courses with
    | .error e => (.error e, v)
    | .ok none => (.ok (), v)
    | .ok (some course) =>
      match courseProgressUpdate clock courseId course v.lessonProgress
          (.ok v.courseProgress) with
      | .error e => (.error e, v)
      | .ok (updates, allLessonsCompleted) =>
        match updateValue v.courseProgress updates with
        | .error e => (.error e, v)
        | .ok merged =>
          if allLessonsCompleted then
            Values._checkCourseCompletionAchievements { v with courseProgress := merged }
              courseId
          else (.ok (), { v with courseProgress := merged })
  | _ => (.error .typeError, v)

/-- What `updateLessonProgress(courseId, lessonId, progressUpdate)` does to the values. -/
def Values.updateLessonProgress (v : Values) (clock : Clock) (courseId lessonId : String)
    (progressUpdate : JSValue) : Except JSError Unit × Values :=
  match v.lessonProgress.member lessonId with
  | .error e => (.error e, v)
  | .ok member =>
    match updateValue v.lessonProgress
        (.object [(lessonId, .object (spread (spreadOrEmpty member) progressUpdate))]) with
    | .error e => (.error e, v)
    | .ok merged =>
      match progressUpdate.field "completed" with
      | .error e => (.error e, { v with lessonProgress := merged })
      | .ok completed =>
        match (if completed.truthy then
            Values.updateCourseProgress { v with lessonProgress := merged } clock courseId
          else (.ok (), { v with lessonProgress := merged })) with
        | (.error e, v2) => (.error e, v2)
        | (.ok _, v2) => Values._updateStreak v2 clock

/-! ## Values with the shapes of the data model -/

/-- The keys of a record are distinct, as the keys of every object are. -/
def distinctKeys (props : Props) : Bool :=
  decide (props.map (fun p => p.1)).Nodup

/-- A lesson id of the catalog: a string or an integer. -/
def isLessonId : JSValue → Bool
  | .string _ => true
  | .number _ => true
  | _ => false

/-- A course record of the catalog: a record whose `lessons`, when it has any, is an array
of lesson ids. -/
def isCourse : JSValue → Bool
  | .object props =>
    match getOwn props "lessons" with
    | none => true
    | some (.array lessonIds) => lessonIds.all isLessonId
    | some other => !other.truthy
  | _ => false

/-- The property is there and holds an integer. -/
def isInteger : Option JSValue → Bool
  | some (.number _) => true
  | _ => false

/-- The values have the shapes that the data model gives them: a list of course records,
two records of progress entries, a list of achievements, and a streak record with integer
counters. -/
def Values.typed (v : Values) : Bool :=
  (match v.courses with
    | .array courses => courses.all isCourse
    | _ => false) &&
  (match v.courseProgress with
    | .object props => distinctKeys props
    | _ => false) &&
  (match v.lessonProgress with
    | .object props => distinctKeys props
    | _ => false) &&
  (match v.achievements with
    | .array _ => true
    | _ => false) &&
  (match v.streaks with
    | .object props =>
      distinctKeys props && isInteger (getOwn props "current") &&
        isInteger (getOwn props "longest")
    | _ => false)

/-- The achievement that a streak of `current` days unlocks on top of the achievements
`items`: `ach-streak-n` when `current` is the milestone `n` and that id is not yet among
`items`, nothing otherwise. -/
def streakAward (items : List JSValue) (current : JSValue) : List String :=
  match streakMilestones.find? (fun m => current.isNumber m) with
  | some milestone =>
    if items.any (fun item => item.isString ("ach-streak-" ++ toString milestone)) then []
    else ["ach-streak-" ++ toString milestone]
  | none => []

/-- The ids of the `course_completion` definitions whose `criteria.courseId` is `courseId`
and whose id is not among the achievements `items`, in definition order. -/
def newCourseAchievements (items : List JSValue) (courseId : String) : List String :=
  ((achievementDefinitions courseId).filter (fun achievement =>
    achievement.type == "course_completion" && achievement.courseId == courseId &&
      !(items.any (fun item => item.isString achievement.id)))).map
    (fun achievement => achievement.id)

/-- The values after the achievements `ids` were appended and announced. -/
def Values.award (v : Values) (items : List JSValue) (ids : List String) : Values :=
  { v with
    achievements := .array (items ++ ids.map JSValue.string),
    dispatched := v.dispatched ++ ids.map CustomEvent.achievementUnlocked }

/-- A page whose stores are new, except that the streak record is `streaks`. -/
def streakPage (streaks : JSValue) : Page :=
  (examplePage (.array [])).withProgressStore
    (Store.setState StateManager.newStores.progressStore "streaks" streaks).2

/-- The values that `streakPage streaks` holds. -/
def streakValues (streaks : JSValue) : Values :=
  { courses := .array [], courseProgress := .object [], lessonProgress := .object [],
    achievements := .array [], streaks := streaks, dispatched := [] }

/-- A clock reading on the second of May 2024. -/
def exampleClock : Clock :=
  { now := "2024-05-02T10:00:00.000Z", today := "2024-05-02", yesterdayStr := "2024-05-01" }

/-- The streak record `(1, 1, yesterday)` for `exampleClock`. -/
def streakOfOne : Props :=
  [("current", .number 1), ("longest", .number 1), ("lastActive", .string "2024-05-01")]

/-- The streak record `(2, 2, two days ago)` for `exampleClock`. -/
def streakOfTwo : Props :=
  [("current", .number 2), ("longest", .number 2), ("lastActive", .string "2024-04-30")]

/-- The streak record `(3, 5, today)` for `exampleClock`. -/
def streakToday : Props :=
  [("current", .number 3), ("longest", .number 5), ("lastActive", .string "2024-05-02")]

/-- The values that `examplePage exampleCatalog` holds. -/
def exampleValues : Values :=
  { courses := exampleCatalog, courseProgress := .object [], lessonProgress := .object [],
    achievements := .array [],
    streaks := .object [("current", .number 0), ("longest", .number 0), ("lastActive", .null)],
    dispatched := [] }

/-- A course list with one course, `c`, of twenty lessons, `1` to `20`. -/
def twentyLessons : JSValue :=
  .array [.object [("id", .string "c"),
    ("lessons", .array [.number 1, .number 2, .number 3, .number 4, .number 5, .number 6,
      .number 7, .number 8, .number 9, .number 10, .number 11, .number 12, .number 13,
      .number 14, .number 15, .number 16, .number 17, .number 18, .number 19,
      .number 20])]]

/-- A record of lesson progress in which the lessons `1` to `10` are completed. -/
def tenCompleted : JSValue :=
  .object [("1", .object [("completed", .boolean true)]),
    ("2", .object [("completed", .boolean true)]),
    ("3", .object [("completed", .boolean true)]),
    ("4", .object [("completed", .boolean true)]),
    ("5", .object [("completed", .boolean true)]),
    ("6", .object [("completed", .boolean true)]),
    ("7", .object [("completed", .boolean true)]),
    ("8", .object [("completed", .boolean true)]),
    ("9", .object [("completed", .boolean true)]),
    ("10", .object [("completed", .boolean true)])]

/-- A page whose stores are new, except that the course list is `twentyLessons` and the
record of lesson progress is `tenCompleted`. -/
def twentyLessonsPage : Page :=
  (examplePage twentyLessons).withProgressStore
    (Store.setState StateManager.newStores.progressStore "lessonProgress" tenCompleted).2

/-! ## What updateLessonProgress stores -/

/-- The lesson `key` is completed in the record `lessonProgress`: the record has an own
entry at `key` whose `completed` is truthy. -/
def completedIn (lessonProgress : Props) (key : String) : Bool :=
  match getOwn lessonProgress key with
  | some entry => (entry.fieldOr "completed").truthy
  | none => false

/-- The property key of a lesson id. -/
def lessonKey : JSValue → String
  | .string s => s
  | .number n => toString n
  | _ => ""

/-- The lesson ids of a course record: its list `lessons`, or none when it has no list. -/
def lessonIdsOf (course : JSValue) : List JSValue :=
  match course.fieldOr "lessons" with
  | .array lessonIds => lessonIds
  | _ => []

/-- The properties of the entry of `record` at `key` before a call: those of
`record[key] || {}`. -/
def previousEntry (record : Props) (key : String) : Props :=
  spreadOrEmpty (plainObjectGet record key)

/-- The entry that `updateLessonProgress` stores for the lesson. -/
def lessonEntry (lessonProgress : Props) (lessonId : String) (progressUpdate : JSValue) :
    Props :=
  spread (previousEntry lessonProgress lessonId) progressUpdate

/-- The number of `lessonIds` that are completed in `lessonProgress`. -/
def completedCount (lessonProgress : Props) (lessonIds : List JSValue) : Nat :=
  (lessonIds.filter (fun id => completedIn lessonProgress (lessonKey id))).length

/-- Every one of `lessonIds` is completed in `lessonProgress`. -/
def allCompleted (lessonProgress : Props) (lessonIds : List JSValue) : Bool :=
  lessonIds.all (fun id => completedIn lessonProgress (lessonKey id))

/-- The entry that `updateLessonProgress` stores for a course with the lesson ids
`lessonIds`, from the record of lesson progress and the record of course progress. -/
def courseEntry (clock : Clock) (lessonIds : List JSValue)
    (lessonProgress courseProgress : Props) (courseId : String) : Props :=
  setOwn (setOwn (setOwn (previousEntry courseProgress courseId)
    "percentComplete"
      (percentComplete (completedCount lessonProgress lessonIds) lessonIds.length))
    "completed" (.boolean (allCompleted lessonProgress lessonIds)))
    "lastAccessed" (.string clock.now)

/-- The properties of a value that is a record; none for any other value. -/
def JSValue.props : JSValue → Props
  | .object props => props
  | _ => []

/-- The items of a value that is an array; none for any other value. -/
def JSValue.items : JSValue → List JSValue
  | .array items => items
  | _ => []

/-- The values after the first statement of `updateLessonProgress`: the lesson entry is
merged into the record of lesson progress. -/
def Values.lessonStep (v : Values) (lessonId : String) (progressUpdate : JSValue) : Values :=
  { v with lessonProgress := .object (setOwn v.lessonProgress.props lessonId
      (.object (lessonEntry v.lessonProgress.props lessonId progressUpdate))) }

/-- The values after the block for a completed lesson, when `find` returned `course`: the
course entry is stored, and the achievements of a completed course are awarded when all
its lessons are completed. -/
def Values.courseStep (v : Values) (clock : Clock) (courseId : String) (course : JSValue) :
    Values :=
  Values.award
    { v with courseProgress := .object (setOwn v.courseProgress.props courseId
        (.object (courseEntry clock (lessonIdsOf course) v.lessonProgress.props
          v.courseProgress.props courseId))) }
    v.achievements.items
    (if allCompleted v.lessonProgress.props (lessonIdsOf course) then
      newCourseAchievements v.achievements.items courseId
    else [])

/-- The values when `updateLessonProgress` reaches `_updateStreak`, where `found` is what
`find` returns for the course id. -/
def Values.progressStep (v : Values) (clock : Clock) (courseId lessonId : String)
    (progressUpdate : JSValue) (found : Option JSValue) : Values :=
  if (progressUpdate.fieldOr "completed").truthy then
    match found with
    | some course => (v.lessonStep lessonId progressUpdate).courseStep clock courseId course
    | none => v.lessonStep lessonId progressUpdate
  else v.lessonStep lessonId progressUpdate

/-! ## Completing the lessons of a course one by one -/

/-- Calls of `updateLessonProgress(courseId, lessonId, {completed: true})` in a row, one
per step, each with its own clock reading and lesson id; the row stops at a call that
throws. -/
def completeLessons (page : Page) (courseId : String) :
    List (Clock × String) → Except JSError Unit × Page
  | [] => (.ok (), page)
  | (clock, lessonId) :: rest =>
    match StateManager.updateLessonProgress page clock courseId lessonId
        (.object [("completed", .boolean true)]) with
    | (.ok _, page1) => completeLessons page1 courseId rest
    | (.error e, page1) => (.error e, page1)

/-- The values of a course in progress: they have the shapes of the data model, `find`
returns `course` for the course id, and the lessons of the course that are completed are
those whose keys are in `done`. -/
structure Marked (v : Values) (courseId : String) (course : JSValue) (done : List String) :
    Prop where
  typed : v.typed = true
  find : findCourse courseId v.courses.items = .ok (some course)
  completed : ∀ id ∈ lessonIdsOf course,
    completedIn v.lessonProgress.props (lessonKey id) = decide (lessonKey id ∈ done)

/-- The streak record `(2, 2, yesterday)` for `exampleClock`. -/
def streakBeforeThree : Props :=
  [("current", .number 2), ("longest", .number 2), ("lastActive", .string "2024-05-01")]

/-! ## The clock of the platform

A `Date` holds a time value, the milliseconds since the start of 1970 in UTC. The standard
of the language defines the local time of a time value and the time value of a local time
through two operations that depend on the time zone of the platform. -/

/-- The milliseconds of a day. -/
def msPerDay : Int := 86400000

/-- The time zone of the platform: the operations `LocalTime` and `UTC` of the language
standard, on milliseconds. -/
structure TimeZone where
  /-- The local time of a time value. -/
  localTime : Int → Int
  /-- The time value of a local time. -/
  utc : Int → Int

/-- A time zone that is always `offset` milliseconds ahead of UTC. -/
def TimeZone.fixed (offset : Int) : TimeZone :=
  { localTime := fun t => t + offset, utc := fun l => l - offset }

/-- The time zone `America/New_York` as it was in 2024: four hours behind UTC from
2024-03-10T07:00Z to 2024-11-03T06:00Z, five hours behind before and after. A local time
that the clocks showed twice is taken as the earlier of the two, one that they skipped is
read with the offset from before the change. -/
def newYork : TimeZone :=
  { localTime := fun t =>
      if 1710054000000 ≤ t ∧ t < 1730613600000 then t - 14400000 else t - 18000000,
    utc := fun l =>
      if 1710039600000 ≤ l ∧ l < 1730599200000 then l + 14400000 else l + 18000000 }

/-- The time value of a `Date` with the time value `t` after the statement
`yesterday.setDate(yesterday.getDate() - 1)`. Method `setDate` keeps the year, the month
and the time within the day of the local time, and replaces the day of the month; with the
day of the month less one, the new local time is the old one less a day, also on the first
of a month. The result is the time value of that local time. -/
def TimeZone.setDatePrevious (zone : TimeZone) (t : Int) : Int :=
  zone.utc (zone.localTime t - msPerDay)

/-- Year, month and day of the month of the day `z` days after 1970-01-01, in the
Gregorian calendar. -/
def civilFromDays (z : Int) : Int × Int × Int :=
  let shifted := z + 719468
  let era := shifted / 146097
  let dayOfEra := shifted - era * 146097
  let yearOfEra :=
    (dayOfEra - dayOfEra / 1460 + dayOfEra / 36524 - dayOfEra / 146096) / 365
  let dayOfYear := dayOfEra - (365 * yearOfEra + yearOfEra / 4 - yearOfEra / 100)
  let monthIndex := (5 * dayOfYear + 2) / 153
  let day := dayOfYear - (153 * monthIndex + 2) / 5 + 1
  let month := if monthIndex < 10 then monthIndex + 3 else monthIndex - 9
  (if month ≤ 2 then yearOfEra + era * 400 + 1 else yearOfEra + era * 400, month, day)

/-- The decimal digit of `n` at the place `place`, counted from the units. -/
def digitAt (n : Nat) (place : Nat) : Char :=
  Char.ofNat (48 + n / 10 ^ place % 10)

/-- The decimal digits of `n`, padded with zeros to `width` places. -/
def padded (width : Nat) (n : Nat) : String :=
  String.mk ((List.range width).reverse.map (digitAt n))

/-- The year as `toISOString` writes it: four digits from 0 to 9999, a sign and six digits
otherwise. -/
def isoYear (year : Int) : String :=
  if 0 ≤ year ∧ year ≤ 9999 then padded 4 year.toNat
  else if year < 0 then "-" ++ padded 6 (-year).toNat
  else "+" ++ padded 6 year.toNat

/-- The text `date.toISOString().split('T')[0]` of a `Date` with the time value `t`: the
UTC date as `YYYY-MM-DD`. -/
def isoDate (t : Int) : String :=
  match civilFromDays (t / msPerDay) with
  | (year, month, day) => isoYear year ++ "-" ++ padded 2 month.toNat ++ "-" ++
      padded 2 day.toNat

/-- The text `date.toISOString()` of a `Date` with the time value `t`:
`YYYY-MM-DDTHH:mm:ss.sssZ` in UTC. -/
def toISOString (t : Int) : String :=
  isoDate t ++ "T" ++ padded 2 (t % msPerDay / 3600000).toNat ++ ":" ++
    padded 2 (t % 3600000 / 60000).toNat ++ ":" ++ padded 2 (t % 60000 / 1000).toNat ++
    "." ++ padded 3 (t % 1000).toNat ++ "Z"

/-- What the clock gives to a call made at the time value `t` on a platform in the time
zone `zone`. -/
def Clock.reading (zone : TimeZone) (t : Int) : Clock :=
  { now := toISOString t, today := isoDate t,
    yesterdayStr := isoDate (zone.setDatePrevious t) }

/-- The streak record `(3, 3, lastActive)`. -/
def streakOfThree (lastActive : String) : Props :=
  [("current", .number 3), ("longest", .number 3), ("lastActive", .string lastActive)]

/-! ## A page on which both award paths fire -/

/-- A course list with one course, `c`, whose only lesson is `10`. -/
def oneLessonCatalog : JSValue :=
  .array [.object [("id", .string "c"), ("lessons", .array [.number 10])]]

/-- A page whose stores are new, except that the course list is `oneLessonCatalog`, the
achievement `ach-course-complete` is held already, and the streak record is
`(2, 2, yesterday)` for `exampleClock`. -/
def awardPage : Page :=
  (examplePage oneLessonCatalog).withProgressStore
    (Store.setState
      (Store.setState StateManager.newStores.progressStore "achievements"
        (.array [.string "ach-course-complete"])).2
      "streaks" (.object streakBeforeThree)).2

/-- The values that `awardPage` holds. -/
def awardValues : Values :=
  { courses := oneLessonCatalog, courseProgress := .object [], lessonProgress := .object [],
    achievements := .array [.string "ach-course-complete"],
    streaks := .object streakBeforeThree, dispatched := [] }

/-! ## Courses without lessons -/

/-- A catalog whose one course has an empty list of lessons. -/
def emptyCourseCatalog : JSValue :=
  .array [.object [("id", .string "c"), ("lessons", .array [])]]

/-- A catalog whose one course has no `lessons` property. -/
def bareCourseCatalog : JSValue :=
  .array [.object [("id", .string "c")]]

/-! ## Streak recomputations in a row -/

/-- Calls of `_updateStreak()` in a row, one per clock reading; the row stops at a call that
throws. -/
def recomputeStreaks (page : Page) : List Clock → Except JSError Unit × Page
  | [] => (.ok (), page)
  | clock :: rest =>
    match StateManager._updateStreak page clock with
    | (.error e, page') => (.error e, page')
    | (.ok _, page') => recomputeStreaks page' rest

/-- The streak record of a new `progressStore`. -/
def initialStreaks : Props :=
  [("current", .number 0), ("longest", .number 0), ("lastActive", .null)]

/-- The streak invariant on values with the shapes of the data model: the counters are
integers with `0 ≤ current ≤ longest`; `lastActive` is `null` when there was no
recomputation, and the date `day` of the latest one otherwise, with `1 ≤ current`. -/
def StreakInvariant (v : Values) (latest : Option String) : Prop :=
  v.typed = true ∧
  ∃ (st : Props) (n m : Int), v.streaks = .object st ∧ (st.map (fun p => p.1)).Nodup ∧
    getOwn st "current" = some (.number n) ∧ getOwn st "longest" = some (.number m) ∧
    0 ≤ n ∧ n ≤ m ∧
    match latest with
    | none => getOwn st "lastActive" = some .null
    | some day => getOwn st "lastActive" = some (.string day) ∧ 1 ≤ n

/-- Two clock readings on consecutive days. -/
def twoDays : List Clock :=
  [{ now := "2024-05-01T09:00:00.000Z", today := "2024-05-01", yesterdayStr := "2024-04-30" },
   exampleClock]

/-! ## Lesson progress and course progress side by side -/

/-- A call `updateLessonProgress(courseId, lessonId, progressUpdate)` with a record of
updates, and the clock reading during the call. -/
structure ProgressCall where
  /-- What the platform's `Date` gives during the call. -/
  clock : Clock
  /-- The first argument. -/
  courseId : String
  /-- The second argument. -/
  lessonId : String
  /-- The own properties of the third argument. -/
  progressUpdate : Props

/-- Calls of `updateLessonProgress` in a row; the row stops at a call that throws. -/
def updateLessonProgressCalls (page : Page) : List ProgressCall → Except JSError Unit × Page
  | [] => (.ok (), page)
  | call :: rest =>
    match StateManager.updateLessonProgress page call.clock call.courseId call.lessonId
        (.object call.progressUpdate) with
    | (.error e, page') => (.error e, page')
    | (.ok _, page') => updateLessonProgressCalls page' rest

/-- The entry of a course says `completed: true` exactly when every lesson id of the course
is completed in the record of lesson progress. -/
def CompletedInStep (lessonProgress : Props) (course entry : JSValue) : Prop :=
  entry.fieldOr "completed" = .boolean true ↔
    ∀ id ∈ lessonIdsOf course, completedIn lessonProgress (lessonKey id) = true

/-- The `percentComplete` of the entry of a course is what the method computes from the
lessons as they are: `(k / n) * 100` in double-precision arithmetic, for `k` completed
lessons out of `n`. -/
def PercentInStep (lessonProgress : Props) (course entry : JSValue) : Prop :=
  entry.fieldOr "percentComplete" =
    JSValue.ofRat (toDouble (toDouble
      ((completedCount lessonProgress (lessonIdsOf course) : ℚ) /
        ((lessonIdsOf course).length : ℚ)) * 100))

/-- The `percentComplete` of the entry of a course is exactly the quotient
`100 * (completed lessons of the course) / (lessons of the course)`: it is a number `q`
with `q * (lessons of the course) = 100 * (completed lessons of the course)`. -/
def PercentExact (lessonProgress : Props) (course entry : JSValue) : Prop :=
  ∃ q : ℚ, entry.fieldOr "percentComplete" = JSValue.ofRat q ∧
    q * ((lessonIdsOf course).length : ℚ) =
      100 * (completedCount lessonProgress (lessonIdsOf course) : ℚ)

/-- Lesson progress and course progress of a page agree: for every course id under which
`find` returns a course of the list and `courseProgress` has an entry, the entry's
`completed` is in step with the lessons, and its `percentComplete` satisfies `percent`
when the course satisfies `counted`. -/
def InStep (page : Page) (counted : JSValue → Prop)
    (percent : Props → JSValue → JSValue → Prop) : Prop :=
  ∃ (courses : List JSValue) (lessonProgress courseProgress : Props),
    Store.getValue page.stateManager.courseStore "courses" = .ok (.array courses) ∧
    Store.getValue page.stateManager.progressStore "lessonProgress" =
      .ok (.object lessonProgress) ∧
    Store.getValue page.stateManager.progressStore "courseProgress" =
      .ok (.object courseProgress) ∧
    ∀ (courseId : String) (course entry : JSValue),
      findCourse courseId courses = .ok (some course) →
      getOwn courseProgress courseId = some entry →
      CompletedInStep lessonProgress course entry ∧
        (counted course → percent lessonProgress course entry)

/-- Whether the lesson of the call is completed once the call has merged its updates into
the entry of the lesson. -/
def ProgressCall.completedAfter (call : ProgressCall) (lessonProgress : Props) : Bool :=
  (JSValue.fieldOr (.object (lessonEntry lessonProgress call.lessonId
    (.object call.progressUpdate))) "completed").truthy

/-- The call spares the course entries that it does not recompute: for every course that
`find` returns under an id with an entry in `courseProgress` and that has the lesson of the
call among its lesson ids, either the call leaves the lesson completed or not completed as
it was, or the call recomputes the entry of that course, its `progressUpdate.completed`
being truthy and its course id being that id. -/
def ProgressCall.sparesOthers (call : ProgressCall) (courses : List JSValue)
    (lessonProgress courseProgress : Props) : Prop :=
  ∀ (k : String) (course : JSValue), findCourse k courses = .ok (some course) →
    getOwn courseProgress k ≠ none →
    call.lessonId ∈ (lessonIdsOf course).map lessonKey →
    call.completedAfter lessonProgress = completedIn lessonProgress call.lessonId ∨
      ((JSValue.fieldOr (.object call.progressUpdate) "completed").truthy = true ∧
        k = call.courseId)

/-- Every call of the row spares the course entries that it does not recompute, on the
page as the calls before it have left it. -/
def sparingCalls (page : Page) : List ProgressCall → Prop
  | [] => True
  | call :: rest =>
    (∀ (courses : List JSValue) (lessonProgress courseProgress : Props),
      Store.getValue page.stateManager.courseStore "courses" = .ok (.array courses) →
      Store.getValue page.stateManager.progressStore "lessonProgress" =
        .ok (.object lessonProgress) →
      Store.getValue page.stateManager.progressStore "courseProgress" =
        .ok (.object courseProgress) →
      call.sparesOthers courses lessonProgress courseProgress) ∧
    sparingCalls (StateManager.updateLessonProgress page call.clock call.courseId
      call.lessonId (.object call.progressUpdate)).2 rest

/-- The course entries of the values were computed from the lesson progress as it is. -/
def Values.inStep (v : Values) : Prop :=
  ∀ (courseId : String) (course entry : JSValue),
    findCourse courseId v.courses.items = .ok (some course) →
    getOwn v.courseProgress.props courseId = some entry →
    ∃ e : Props, entry = .object e ∧
      getOwn e "completed" = some (.boolean
        (allCompleted v.lessonProgress.props (lessonIdsOf course))) ∧
      getOwn e "percentComplete" = some (percentComplete
        (completedCount v.lessonProgress.props (lessonIdsOf course))
        (lessonIdsOf course).length)

/-- A catalog of two courses with one lesson each. -/
def twoCourses : JSValue :=
  .array [.object [("id", .string "c1"), ("lessons", .array [.string "a"])],
          .object [("id", .string "c2"), ("lessons", .array [.string "b"])]]

/-- The call `updateLessonProgress(courseId, lessonId, {completed})` at `exampleClock`. -/
def exampleCall (courseId lessonId : String) (completed : Bool) : ProgressCall :=
  { clock := exampleClock, courseId := courseId, lessonId := lessonId,
    progressUpdate := [("completed", .boolean completed)] }

/-! ## Notifications that reach a derived state -/

/-- Between the worlds `a` and `b` the Observable `d` was assigned and has told its
subscribers: calls were only added, and every caller-supplied observer of `d` was called,
among the added calls, with the value that `d` holds in `b`. -/
def Announced (a b : World) (d : Nat) : Prop :=
  ∃ extra, b.calls = a.calls ++ extra ∧
    ∀ fn, Observer.callback fn ∈ b.observers d →
      ∃ c ∈ extra, c.source = d ∧ c.callback = fn ∧ valueAt b d = some c.newValue

/-- Between the worlds `a` and `b` the Observable `d` kept its value; calls were only
added. -/
def Quiet (a b : World) (d : Nat) : Prop :=
  (∃ extra, b.calls = a.calls ++ extra) ∧ valueAt b d = valueAt a d

/-- The compute function `a => a + 1` on a number. -/
def addOneTo : List JSValue → JSValue
  | [.number a] => .number (a + 1)
  | _ => .undefined

/-- The compute function `x => 2 * x` on a number. -/
def doubleOf : List JSValue → JSValue
  | [.number a] => .number (2 * a)
  | _ => .undefined

/-! ## Loading persisted state -/

/-- What `localStorage.getItem` returns for the two keys that `_setupPersistence` reads:
the stored text, or `none` for `null`. -/
structure StoredEntries where
  /-- The entry `cooper_user_preferences`. -/
  preferences : Option String
  /-- The entry `cooper_progress`. -/
  progress : Option String

/-- The expression `value || fallback`. -/
def JSValue.orElse (value fallback : JSValue) : JSValue :=
  if value.truthy then value else fallback

/-- The first half of the `try` block of `_setupPersistence`: the preferences entry, when
there is one and it is not the empty text, is parsed and stored. `parse` is the
platform's `JSON.parse`. -/
def StateManager.loadPreferences (parse : String → Except JSError JSValue)
    (this : StateManager) (persistedUserData : Option String) :
    Except JSError Unit × StateManager :=
  match persistedUserData with
  | none => (.ok (), this)
  | some text =>
    if text = "" then (.ok (), this)
    else
      match parse text with
      | .error e => (.error e, this)
      | .ok userData =>
        match Store.setState this.userStore "preferences" userData with
        | (.error e, userStore) => (.error e, { this with userStore := userStore })
        | (.ok _, userStore) => (.ok (), { this with userStore := userStore })

/-- The second half of the `try` block: the progress entry, when there is one and it is not
the empty text, is parsed and its three slices are stored, each with its default when
falsy. -/
def StateManager.loadProgress (parse : String → Except JSError JSValue)
    (this : StateManager) (persistedProgress : Option String) :
    Except JSError Unit × StateManager :=
  match persistedProgress with
  | none => (.ok (), this)
  | some text =>
    if text = "" then (.ok (), this)
    else
      match parse text with
      | .error e => (.error e, this)
      | .ok progressData =>
        match progressData.field "courseProgress" with
        | .error e => (.error e, this)
        | .ok courseProgress =>
          match Store.setState this.progressStore "courseProgress"
              (courseProgress.orElse (.object [])) with
          | (.error e, store1) => (.error e, { this with progressStore := store1 })
          | (.ok _, store1) =>
            match progressData.field "lessonProgress" with
            | .error e => (.error e, { this with progressStore := store1 })
            | .ok lessonProgress =>
              match Store.setState store1 "lessonProgress"
                  (lessonProgress.orElse (.object [])) with
              | (.error e, store2) => (.error e, { this with progressStore := store2 })
              | (.ok _, store2) =>
                match progressData.field "achievements" with
                | .error e => (.error e, { this with progressStore := store2 })
                | .ok achievements =>
                  match Store.setState store2 "achievements"
                      (achievements.orElse (.array [])) with
                  | (.error e, store3) => (.error e, { this with progressStore := store3 })
                  | (.ok _, store3) => (.ok (), { this with progressStore := store3 })

/-- The `try` block of `_setupPersistence`: both entries, one after the other; a throw in
the first half leaves the second half undone. -/
def StateManager.loadPersisted (parse : String → Except JSError JSValue)
    (stored : StoredEntries) (this : StateManager) : Except JSError Unit × StateManager :=
  match StateManager.loadPreferences parse this stored.preferences with
  | (.error e, this1) => (.error e, this1)
  | (.ok _, this1) => StateManager.loadProgress parse this1 stored.progress

/-- The loading part of `_setupPersistence`, `try` and `catch` together: the `catch` logs
the error and goes on, so the stores are those at the end of the block or at the throw. -/
def StateManager.loadPersistedState (parse : String → Except JSError JSValue)
    (stored : StoredEntries) (this : StateManager) : StateManager :=
  (StateManager.loadPersisted parse stored this).2

/-- A stored progress entry. -/
def exampleProgressText : String :=
  "\x7b\"courseProgress\":\x7b\"c\":\x7b\"completed\":true\x7d\x7d," ++
    "\"achievements\":[\"ach-course-complete\"]\x7d"

/-- What `JSON.parse` gives on `exampleProgressText`, and that it throws on the text `{`. -/
def exampleParse (text : String) : Except JSError JSValue :=
  if text = exampleProgressText then
    .ok (.object [("courseProgress", .object [("c", .object [("completed", .boolean true)])]),
      ("achievements", .array [.string "ach-course-complete"])])
  else .error .syntaxError

/-! ## Observables written by observers of the store -/

/-- The Observable `d` is written by arrow functions of one kind only: the store is
well-formed, the keys that the arrow functions read are registered keys bound to other
Observables, and every observer that writes `d` reads `dependencies` and stores
`computeFn` of what it read. -/
structure Fed (w : World) (d : Nat) (dependencies : List String)
    (computeFn : List JSValue → JSValue) : Prop where
  wf : w.wellFormed = true
  deps : ∀ dep ∈ dependencies, ∃ r, w.lookup dep = some (.own r) ∧ r ≠ d
  only : ∀ (r : Nat) (observer : Observer), observer ∈ w.observers r →
    observer.target = some d → ∃ id, observer = .recompute id dependencies computeFn d

/-- The call writes a registered key that is not bound to the Observable `d`, or subscribes
a caller-supplied function. -/
def StoreCall.besides (w : World) (d : Nat) : StoreCall → Prop
  | .setState key _ => ∃ r, w.lookup key = some (.own r) ∧ r ≠ d
  | .updateState key _ => ∃ r, w.lookup key = some (.own r) ∧ r ≠ d
  | .subscribe _ _ => True

/-- The call is a write to one of `keys` that returns normally. -/
def StoreCall.writes (w : World) (keys : List String) : StoreCall → Prop
  | .setState key value => key ∈ keys ∧ (Store.setState w key value).1 = .ok ()
  | .updateState key updates => key ∈ keys ∧ (Store.updateState w key updates).1 = .ok ()
  | .subscribe _ _ => False

/-! ## Persisting state -/

/-- The text that the subscriber of `preferences` stores under `cooper_user_preferences`.
`stringify` is the platform's `JSON.stringify` followed by the conversion to text that
`setItem` applies. The subscriber is called with the value that the store holds for
`preferences` during the call, which is what the list holds here. -/
def persistedPreferences (stringify : JSValue → String) : List JSValue → JSValue
  | [preferences] => .string (stringify preferences)
  | _ => .undefined

/-- The text that `persistProgress` stores under `cooper_progress`, from the values that
the progress store holds for `courseProgress`, `lessonProgress` and `achievements`. -/
def persistedProgress (stringify : JSValue → String) : List JSValue → JSValue
  | [courseProgress, lessonProgress, achievements] =>
    .string (stringify (.object [("courseProgress", courseProgress),
      ("lessonProgress", lessonProgress), ("achievements", achievements)]))
  | _ => .undefined

/-- What `getItem` returns, as a value. -/
def storedValue : Option String → JSValue
  | some text => .string text
  | none => .null

/-- The keys that `persistProgress` is subscribed to. -/
def progressSlices : List String :=
  ["courseProgress", "lessonProgress", "achievements"]

/-- The subscriptions of `_setupPersistence` for one entry of `localStorage`. The entry is
an Observable of its own that no state key is bound to and that nobody subscribes to,
holding `stored` at first; `setItem` assigns it. The subscriber is an arrow function that
reads `keys` from the store when it is called and assigns `entryOf` of what it read to the
entry; it is subscribed to every one of `keys`, in order. The storage accepts every write.
The result is the reference to the entry. -/
def Store.subscribePersisting (w : World) (keys : List String)
    (entryOf : List JSValue → JSValue) (stored : JSValue) : Except JSError Nat × World :=
  let created := Observable.new w stored
  match Store.subscribeDependencies keys entryOf created.2 keys created.1 with
  | (.error e, w1) => (.error e, w1)
  | (.ok _, w1) => (.ok created.2, w1)

/-- The second part of `_setupPersistence`: the subscriber of `preferences` in the user
store, then `persistProgress` on its three keys in the progress store. The result is the
references to the two entries of `localStorage`. -/
def StateManager.subscribePersistence (stringify : JSValue → String)
    (stored : StoredEntries) (this : StateManager) :
    Except JSError (Nat × Nat) × StateManager :=
  match Store.subscribePersisting this.userStore ["preferences"]
      (persistedPreferences stringify) (storedValue stored.preferences) with
  | (.error e, userStore) => (.error e, { this with userStore := userStore })
  | (.ok preferencesEntry, userStore) =>
    match Store.subscribePersisting this.progressStore progressSlices
        (persistedProgress stringify) (storedValue stored.progress) with
    | (.error e, progressStore) =>
      (.error e, { this with userStore := userStore, progressStore := progressStore })
    | (.ok progressEntry, progressStore) =>
      (.ok (preferencesEntry, progressEntry),
        { this with userStore := userStore, progressStore := progressStore })

/-- Method `StateManager._setupPersistence()`: the persisted state is loaded, then the
subscribers that persist are registered. -/
def StateManager._setupPersistence (parse : String → Except JSError JSValue)
    (stringify : JSValue → String) (stored : StoredEntries) (this : StateManager) :
    Except JSError (Nat × Nat) × StateManager :=
  StateManager.subscribePersistence stringify stored
    (StateManager.loadPersistedState parse stored this)

/-- The entry at `entry` of a store follows the state: it holds `entryOf` of the values
that the store now has for `keys`. -/
def Persisted (w : World) (entry : Nat) (keys : List String)
    (entryOf : List JSValue → JSValue) : Prop :=
  Consistent w entry keys entryOf

/-- A stand-in for `JSON.stringify` that shows how many entries the three slices of a
progress record have, and the property names of any other record. -/
def exampleStringify : JSValue → String
  | .object [("courseProgress", .object courseProgress),
      ("lessonProgress", .object lessonProgress), ("achievements", .array achievements)] =>
    "progress " ++ toString courseProgress.length ++ " " ++ toString lessonProgress.length ++
      " " ++ toString achievements.length
  | .object props => "record " ++ String.intercalate "," (props.map (fun p => p.1))
  | _ => "other"

/-- The stores after the subscriptions of `_setupPersistence`, from new stores and an empty
`localStorage`. -/
def persistingStores : StateManager :=
  (StateManager.subscribePersistence exampleStringify ⟨none, none⟩ StateManager.newStores).2

/-- A page on these stores, with the course list `exampleCatalog`. -/
def persistingPage : Page :=
  { stateManager :=
      { persistingStores with
        courseStore :=
          (Store.setState StateManager.newStores.courseStore "courses" exampleCatalog).2 },
    dispatched := [] }

/-- The state keys of the user store. -/
def userKeys : List String :=
  ["profile", "preferences", "isAuthenticated"]

/-- The worlds that a store can reach from `w` while its registered keys `keys` stay what
they are: by `setState` and `updateState` on `keys`, by subscriptions of caller-supplied
functions, and by `createDerivedState` for keys outside `keys` with registered
dependencies. -/
inductive Later (keys : List String) : World → World → Prop where
  | same (w : World) : Later keys w w
  | call {w w' : World} (c : StoreCall) :
      Later keys w w' → c.onDependencies keys → Later keys w (c.run w')
  | derive {w w' : World} (key : String) (dependencies : List String)
      (computeFn : List JSValue → JSValue) :
      Later keys w w' → key ∉ keys → w'.registered dependencies = true →
      Later keys w (Store.createDerivedState w' key dependencies computeFn).2

/-- The store persists `slices` into the entry `d`: the entry is written by the subscriber
only, the subscriber sits on every slice, the keys `keys`, among them the slices, are
registered, and no key is bound to the entry. -/
structure Persisting (w : World) (d : Nat) (keys slices : List String)
    (entryOf : List JSValue → JSValue) : Prop where
  fed : Fed w d slices entryOf
  attached : Attached w d slices entryOf
  registered : w.registered keys = true
  slices_sub : ∀ k ∈ slices, k ∈ keys
  unbound : ∀ key r, w.lookup key = some (.own r) → r ≠ d
  inHeap : d < w.heap.length

/-! ## The derived state `overallProgress` -/

/-- The callback `course => courseProgress[course.id]?.completed` of `filter`, with the
conversion to boolean that `filter` applies to its result. -/
def courseCompleted (courseProgress course : JSValue) : Except JSError Bool :=
  match course.field "id" with
  | .error e => .error e
  | .ok id => lessonCompleted courseProgress id

/-- The record that the compute function returns when there is no course. -/
def noCourses : JSValue :=
  .object [("percentComplete", .number 0), ("completedCourses", .number 0),
    ("totalCourses", .number 0)]

/-- The body of the compute function of `overallProgress`, where `courses` is what
`this.courseStore.getValue('courses')` returns when the function runs. A truthy `courses`
that is not an array, and `achievements` that is not an array, are not followed. -/
def overallProgressOf (courses courseProgress achievements : JSValue) :
    Except JSError JSValue :=
  if courses.truthy = false then .ok noCourses
  else
    match courses with
    | .array items =>
      if items.length = 0 then .ok noCourses
      else
        match filterArray (courseCompleted courseProgress) items with
        | .error e => .error e
        | .ok completed =>
          match achievements with
          | .array unlocked =>
            .ok (.object [("percentComplete", percentComplete completed.length items.length),
              ("completedCourses", .number completed.length),
              ("totalCourses", .number items.length),
              ("achievementCount", .number unlocked.length)])
          | .null => .error .typeError
          | .undefined => .error .typeError
          | _ => .error .unmodelled
    | _ => .error .unmodelled

/-- The compute function of `overallProgress` while the course store holds `courses`, as
the store calls it: with the values of `courseProgress` and `achievements`. Compute
functions return values in the model of the store. Where the body throws, the setter of
the dependency throws in the source and the derived value stays as it was; those calls are
not followed: the value `undefined` stands there only to make the function total, and the
properties below are about pages on which the body returns normally (`Page.computes`). -/
def overallProgress (courses : JSValue) : List JSValue → JSValue
  | [courseProgress, achievements] =>
    match overallProgressOf courses courseProgress achievements with
    | .ok value => value
    | .error _ => .undefined
  | _ => .undefined

/-- The dependencies that `_setupDerivedStates` names for `overallProgress`. -/
def overallDependencies : List String := ["courseProgress", "achievements"]

/-- An observer after the course list changed: an arrow function that writes the
Observable `d` now computes with `computeFn`; every other observer is as it was. -/
def Observer.reading (d : Nat) (computeFn : List JSValue → JSValue) : Observer → Observer
  | .callback id => .callback id
  | .recompute id dependencies old derivedObservable =>
    if derivedObservable = d then .recompute id dependencies computeFn derivedObservable
    else .recompute id dependencies old derivedObservable

/-- The store after the value that the compute function of the derived Observable `d`
reads from outside the store has changed: the arrow functions of `d` are the same function
objects, and what they compute from now on is `computeFn`. No value changes and nobody is
notified. -/
def World.reading (w : World) (d : Nat) (computeFn : List JSValue → JSValue) : World :=
  { w with heap := w.heap.map (fun o =>
      { o with _observers := o._observers.map (Observer.reading d computeFn) }) }

/-- What `this.courseStore.getValue('courses')` returns on the page; a course store without
the key is not followed. -/
def Page.courses (page : Page) : JSValue :=
  match Store.getValue page.stateManager.courseStore "courses" with
  | .ok courses => courses
  | .error _ => .undefined

/-- The page after a change in the course store: the compute function of
`overallProgress`, which reads the course list when it runs, computes with the course list
of the page from now on. -/
def Page.rereading (page : Page) : Page :=
  match page.stateManager.progressStore.lookup "overallProgress" with
  | some (.own d) =>
    page.withProgressStore
      (page.stateManager.progressStore.reading d (overallProgress page.courses))
  | _ => page

/-- The statement of `_setupDerivedStates` that creates `overallProgress`. -/
def StateManager.setupOverallProgress (page : Page) : Except JSError Nat × Page :=
  match Store.createDerivedState page.stateManager.progressStore "overallProgress"
      overallDependencies (overallProgress page.courses) with
  | (result, progressStore) => (result, page.withProgressStore progressStore)

/-- What callers do to the StateManager afterwards: a call on the course store, a call on
the progress store, or `updateLessonProgress`. `initialize` is a sequence of `setState`
calls on the stores. -/
inductive ManagerCall where
  | course (c : StoreCall)
  | progress (c : StoreCall)
  | lesson (clock : Clock) (courseId lessonId : String) (progressUpdate : JSValue)

/-- The page after a call. -/
def ManagerCall.run (page : Page) : ManagerCall → Page
  | .course c =>
    Page.rereading
      { page with stateManager :=
          { page.stateManager with courseStore := c.run page.stateManager.courseStore } }
  | .progress c => page.withProgressStore (c.run page.stateManager.progressStore)
  | .lesson clock courseId lessonId progressUpdate =>
    (StateManager.updateLessonProgress page clock courseId lessonId progressUpdate).2

/-- The page after a sequence of calls. -/
def runManager (page : Page) (calls : List ManagerCall) : Page :=
  calls.foldl ManagerCall.run page

/-- The course lists that the page held before, between and after the calls. -/
def coursesSeen (page : Page) : List ManagerCall → List JSValue
  | [] => [page.courses]
  | c :: rest => page.courses :: coursesSeen (c.run page) rest

/-- A call on the progress store writes one of the progress keys or subscribes a
function; the other calls are not restricted. -/
def ManagerCall.onProgressKeys : ManagerCall → Prop
  | .course _ => True
  | .progress c => c.onDependencies progressKeys
  | .lesson _ _ _ _ => True

/-- The value of `overallProgress` on the page is the overall-progress function of the
current `courseProgress`, the current `achievements` and the course list `courses`. -/
def OverallFor (page : Page) (courses : JSValue) : Prop :=
  Derives page.stateManager.progressStore "overallProgress" overallDependencies
    (overallProgress courses)

/-- The progress store of the page tracks `overallProgress` at the Observable `d`: the key
is bound to `d`, which is written only by arrow functions that compute with the course list
of the page and that sit on both dependencies; the progress keys are registered and bound
to other Observables. -/
structure Tracking (page : Page) (d : Nat) : Prop where
  fed : Fed page.stateManager.progressStore d overallDependencies
    (overallProgress page.courses)
  attached : Attached page.stateManager.progressStore d overallDependencies
    (overallProgress page.courses)
  bound : page.stateManager.progressStore.lookup "overallProgress" = some (.own d)
  registered : page.stateManager.progressStore.registered progressKeys = true
  apart : ∀ k ∈ progressKeys, ∀ r,
    page.stateManager.progressStore.lookup k = some (.own r) → r ≠ d

/-- The body of the compute function of `overallProgress` returns normally on the values
that the page holds: on the course list, `courseProgress` and `achievements` as they
are. -/
def Page.computes (page : Page) : Prop :=
  ∃ courseProgress achievements value,
    Store.getValue page.stateManager.progressStore "courseProgress" = .ok courseProgress ∧
    Store.getValue page.stateManager.progressStore "achievements" = .ok achievements ∧
    overallProgressOf page.courses courseProgress achievements = .ok value

/-- The body of the compute function returns normally on the values that the page holds
before the calls, between them and after them. -/
def computesThroughout (page : Page) : List ManagerCall → Prop
  | [] => page.computes
  | c :: rest => page.computes ∧ computesThroughout (c.run page) rest

/-- The value of `overallProgress` on the page is what the body of the compute function
returns for the current `courseProgress`, the current `achievements` and the course list
`courses`. -/
def OverallOf (page : Page) (courses : JSValue) : Prop :=
  ∃ courseProgress achievements value,
    Store.getValue page.stateManager.progressStore "courseProgress" = .ok courseProgress ∧
    Store.getValue page.stateManager.progressStore "achievements" = .ok achievements ∧
    overallProgressOf courses courseProgress achievements = .ok value ∧
    Store.getValue page.stateManager.progressStore "overallProgress" = .ok value

/-! # Properties -/

/-! ## Double-precision arithmetic -/

theorem pow2_eq (e : Int) : pow2 e = (2 : ℚ) ^ e := by
  unfold pow2
  split_ifs with h
  · obtain ⟨n, rfl⟩ := Int.eq_ofNat_of_zero_le h
    simp
  · push_neg at h
    obtain ⟨n, hn⟩ := Int.eq_ofNat_of_zero_le (by omega : 0 ≤ -e)
    have he : e = -(n : Int) := by omega
    subst he
    simp

theorem pow2_pos (e : Int) : 0 < pow2 e := by
  rw [pow2_eq]
  positivity

theorem binaryDigitsAux_zero (fuel : Nat) : binaryDigitsAux fuel 0 = 0 := by
  cases fuel <;> simp [binaryDigitsAux]

theorem binaryDigitsAux_spec : ∀ (fuel n : Nat), n ≤ fuel → n ≠ 0 →
    n < 2 ^ binaryDigitsAux fuel n ∧ 2 ^ binaryDigitsAux fuel n ≤ 2 * n := by
  intro fuel
  induction fuel with
  | zero =>
    intro n h h0
    omega
  | succ fuel ih =>
    intro n h h0
    simp only [binaryDigitsAux, if_neg h0]
    by_cases h2 : n / 2 = 0
    · rw [h2, binaryDigitsAux_zero]
      have : n = 1 := by omega
      subst this
      simp
    · obtain ⟨h3, h4⟩ := ih (n / 2) (by omega) h2
      rw [pow_succ]
      constructor <;> omega

theorem binaryDigits_spec {n : Nat} (h : n ≠ 0) :
    n < 2 ^ binaryDigits n ∧ 2 ^ binaryDigits n ≤ 2 * n :=
  binaryDigitsAux_spec n n (le_refl n) h

theorem ratio_bounds {a b A B : ℚ} (ha : 0 < a) (hb : 0 < b) (a1 : a < A) (a2 : A ≤ 2 * a)
    (b1 : b < B) (b2 : B ≤ 2 * b) : A / B / 2 ≤ a / b ∧ a / b < A / B * 2 := by
  have hB : 0 < B := lt_trans hb b1
  constructor
  · rw [div_div, div_le_div_iff₀ (by positivity) hb]
    nlinarith
  · rw [div_mul_eq_mul_div, div_lt_div_iff₀ hb hB]
    nlinarith

/-- The exponent of a positive number is the integer part of its binary logarithm. -/
theorem binaryExponent_spec {q : ℚ} (hq : 0 < q) :
    (2 : ℚ) ^ binaryExponent q ≤ q ∧ q < (2 : ℚ) ^ (binaryExponent q + 1) := by
  have hnum : 0 < q.num := Rat.num_pos.mpr hq
  have hden : q.den ≠ 0 := q.den_nz
  have ha : q.num.natAbs ≠ 0 := by omega
  obtain ⟨a1, a2⟩ := binaryDigits_spec ha
  obtain ⟨b1, b2⟩ := binaryDigits_spec hden
  have hcast : ((q.num.natAbs : Nat) : ℚ) = (q.num : ℚ) := by
    rw [Nat.cast_natAbs, abs_of_pos hnum]
  have hqe : q = (q.num.natAbs : ℚ) / (q.den : ℚ) := by
    rw [hcast]
    exact (Rat.num_div_den q).symm
  have hapos : (0 : ℚ) < (q.num.natAbs : ℚ) := by exact_mod_cast Nat.pos_of_ne_zero ha
  have hbpos : (0 : ℚ) < (q.den : ℚ) := by exact_mod_cast Nat.pos_of_ne_zero hden
  have a1q : (q.num.natAbs : ℚ) < (2 : ℚ) ^ binaryDigits q.num.natAbs := by exact_mod_cast a1
  have a2q : (2 : ℚ) ^ binaryDigits q.num.natAbs ≤ 2 * (q.num.natAbs : ℚ) := by
    exact_mod_cast a2
  have b1q : (q.den : ℚ) < (2 : ℚ) ^ binaryDigits q.den := by exact_mod_cast b1
  have b2q : (2 : ℚ) ^ binaryDigits q.den ≤ 2 * (q.den : ℚ) := by exact_mod_cast b2
  have hsub : (2 : ℚ) ^ ((binaryDigits q.num.natAbs : Int) - (binaryDigits q.den : Int)) =
      (2 : ℚ) ^ binaryDigits q.num.natAbs / (2 : ℚ) ^ binaryDigits q.den := by
    rw [zpow_sub₀ (by norm_num), zpow_natCast, zpow_natCast]
  obtain ⟨r1, r2⟩ := ratio_bounds hapos hbpos a1q a2q b1q b2q
  rw [← hqe] at r1 r2
  have hlow : (2 : ℚ) ^ ((binaryDigits q.num.natAbs : Int) - (binaryDigits q.den : Int) - 1)
      ≤ q := by
    rw [zpow_sub₀ (by norm_num), hsub, zpow_one]
    exact r1
  have hhigh : q < (2 : ℚ) ^
      ((binaryDigits q.num.natAbs : Int) - (binaryDigits q.den : Int) + 1) := by
    rw [zpow_add₀ (by norm_num), hsub, zpow_one]
    exact r2
  unfold binaryExponent
  split_ifs with h
  · rw [pow2_eq] at h
    exact ⟨h, hhigh⟩
  · rw [pow2_eq] at h
    push_neg at h
    refine ⟨hlow, ?_⟩
    have : (binaryDigits q.num.natAbs : Int) - (binaryDigits q.den : Int) - 1 + 1 =
        (binaryDigits q.num.natAbs : Int) - (binaryDigits q.den : Int) := by ring
    rw [this]
    exact h

theorem floor_le_self (q : ℚ) : (Rat.floor q : ℚ) ≤ q :=
  Rat.le_floor.mp (le_refl _)

theorem lt_floor_add_one (q : ℚ) : q < (Rat.floor q : ℚ) + 1 := by
  by_contra h
  push_neg at h
  have h1 : ((Rat.floor q + 1 : Int) : ℚ) ≤ q := by
    push_cast
    exact h
  have := Rat.le_floor.mpr h1
  omega

theorem roundHalfEven_cases (q : ℚ) :
    (roundHalfEven q = Rat.floor q ∧ q - (Rat.floor q : ℚ) ≤ 1 / 2) ∨
    (roundHalfEven q = Rat.floor q + 1 ∧ 1 / 2 ≤ q - (Rat.floor q : ℚ)) := by
  unfold roundHalfEven
  split_ifs with h1 h2 h3
  · exact Or.inl ⟨rfl, h1.le⟩
  · exact Or.inr ⟨rfl, h2.le⟩
  · push_neg at h1 h2
    exact Or.inl ⟨rfl, h2⟩
  · push_neg at h1 h2
    exact Or.inr ⟨rfl, h1⟩

/-- Rounding moves a number by at most one half. -/
theorem roundHalfEven_near (q : ℚ) : |(roundHalfEven q : ℚ) - q| ≤ 1 / 2 := by
  have h1 := floor_le_self q
  have h2 := lt_floor_add_one q
  rw [abs_le]
  rcases roundHalfEven_cases q with ⟨h, h3⟩ | ⟨h, h3⟩
  · rw [h]
    constructor <;> linarith
  · rw [h]
    push_cast
    constructor <;> linarith

theorem roundHalfEven_le {q : ℚ} {m : Int} (h : q ≤ (m : ℚ)) : roundHalfEven q ≤ m := by
  have h1 := floor_le_self q
  rcases roundHalfEven_cases q with ⟨he, h3⟩ | ⟨he, h3⟩
  · rw [he]
    have : (Rat.floor q : ℚ) ≤ (m : ℚ) := le_trans h1 h
    exact_mod_cast this
  · rw [he]
    have : (Rat.floor q : ℚ) < (m : ℚ) := by linarith
    have : Rat.floor q < m := by exact_mod_cast this
    omega

theorem le_roundHalfEven {q : ℚ} {m : Int} (h : (m : ℚ) ≤ q) : m ≤ roundHalfEven q := by
  have h1 : m ≤ Rat.floor q := Rat.le_floor.mpr h
  rcases roundHalfEven_cases q with ⟨he, _⟩ | ⟨he, _⟩ <;> omega

theorem roundHalfEven_intCast (m : Int) : roundHalfEven (m : ℚ) = m :=
  le_antisymm (roundHalfEven_le (le_refl _)) (le_roundHalfEven (le_refl _))

theorem roundHalfEven_mono {q r : ℚ} (h : q ≤ r) : roundHalfEven q ≤ roundHalfEven r := by
  have hfl : Rat.floor q ≤ Rat.floor r := Rat.le_floor.mpr (le_trans (floor_le_self q) h)
  by_cases hlt : Rat.floor q < Rat.floor r
  · have h1 : roundHalfEven q ≤ Rat.floor q + 1 := by
      rcases roundHalfEven_cases q with ⟨he, _⟩ | ⟨he, _⟩ <;> omega
    have h2 : Rat.floor r ≤ roundHalfEven r := le_roundHalfEven (floor_le_self r)
    omega
  · have heq : Rat.floor q = Rat.floor r := by omega
    unfold roundHalfEven
    rw [heq]
    have hqr : q - (Rat.floor r : ℚ) ≤ r - (Rat.floor r : ℚ) := by linarith
    split_ifs <;> first | omega | (exfalso; linarith)

theorem zpow_two_split (e : Int) :
    (2 : ℚ) ^ e = 2 ^ 52 * (2 : ℚ) ^ (e - 52) ∧
      (2 : ℚ) ^ (e + 1) = 2 ^ 53 * (2 : ℚ) ^ (e - 52) := by
  have h : (2 : ℚ) ^ (e - 52) = (2 : ℚ) ^ e / 2 ^ 52 := by
    rw [zpow_sub₀ (by norm_num)]
    norm_cast
  rw [h, zpow_add₀ (by norm_num), zpow_one]
  constructor
  · field_simp
  · field_simp
    ring

/-- A number whose quotient by the unit of its last digit is an integer is a double. -/
theorem toDouble_exact {q : ℚ} (m : Int)
    (h : q / pow2 (binaryExponent |q| - 52) = (m : ℚ)) : toDouble q = q := by
  unfold toDouble
  split_ifs with h0
  · exact h0.symm
  · rw [h, roundHalfEven_intCast, ← h]
    have := pow2_pos (binaryExponent |q| - 52)
    field_simp

/-- The double nearest to a positive number lies in the same binade, ends included. -/
theorem toDouble_bounds {q : ℚ} (hq : 0 < q) :
    (2 : ℚ) ^ binaryExponent q ≤ toDouble q ∧
      toDouble q ≤ (2 : ℚ) ^ (binaryExponent q + 1) := by
  obtain ⟨h1, h2⟩ := binaryExponent_spec hq
  have hu : (0 : ℚ) < (2 : ℚ) ^ (binaryExponent q - 52) := by positivity
  have e1 : (2 : ℚ) ^ binaryExponent q =
      ((2 ^ 52 : Int) : ℚ) * (2 : ℚ) ^ (binaryExponent q - 52) := by
    push_cast
    exact (zpow_two_split _).1
  have e2 : (2 : ℚ) ^ (binaryExponent q + 1) =
      ((2 ^ 53 : Int) : ℚ) * (2 : ℚ) ^ (binaryExponent q - 52) := by
    push_cast
    exact (zpow_two_split _).2
  unfold toDouble
  rw [if_neg hq.ne', abs_of_pos hq, pow2_eq, e1, e2]
  constructor
  · apply mul_le_mul_of_nonneg_right _ hu.le
    have : (2 ^ 52 : Int) ≤ roundHalfEven (q / (2 : ℚ) ^ (binaryExponent q - 52)) := by
      apply le_roundHalfEven
      rw [le_div_iff₀ hu, ← e1]
      exact h1
    exact_mod_cast this
  · apply mul_le_mul_of_nonneg_right _ hu.le
    have : roundHalfEven (q / (2 : ℚ) ^ (binaryExponent q - 52)) ≤ (2 ^ 53 : Int) := by
      apply roundHalfEven_le
      rw [div_le_iff₀ hu, ← e2]
      exact h2.le
    exact_mod_cast this

theorem toDouble_zero : toDouble 0 = 0 := by
  unfold toDouble
  rw [if_pos rfl]

theorem toDouble_pos {q : ℚ} (hq : 0 < q) : 0 < toDouble q :=
  lt_of_lt_of_le (by positivity) (toDouble_bounds hq).1

theorem binaryExponent_mono {q r : ℚ} (hq : 0 < q) (h : q ≤ r) :
    binaryExponent q ≤ binaryExponent r := by
  obtain ⟨h1, _⟩ := binaryExponent_spec hq
  obtain ⟨_, h4⟩ := binaryExponent_spec (lt_of_lt_of_le hq h)
  have : (2 : ℚ) ^ binaryExponent q < (2 : ℚ) ^ (binaryExponent r + 1) :=
    lt_of_le_of_lt (le_trans h1 h) h4
  have := (zpow_lt_zpow_iff_right₀ (by norm_num : (1 : ℚ) < 2)).mp this
  omega

/-- Rounding to a double keeps the order of non-negative numbers. -/
theorem toDouble_mono {q r : ℚ} (hq : 0 ≤ q) (h : q ≤ r) : toDouble q ≤ toDouble r := by
  rcases hq.eq_or_lt with h0 | hpos
  · rw [← h0, toDouble_zero]
    rcases h.eq_or_lt with h1 | h1
    · rw [← h1, ← h0, toDouble_zero]
    · exact (toDouble_pos (by rw [← h0] at h1; exact h1)).le
  · have hr : 0 < r := lt_of_lt_of_le hpos h
    have hexp := binaryExponent_mono hpos h
    by_cases heq : binaryExponent q = binaryExponent r
    · unfold toDouble
      rw [if_neg hpos.ne', if_neg hr.ne', abs_of_pos hpos, abs_of_pos hr, heq]
      have hu := pow2_pos (binaryExponent r - 52)
      apply mul_le_mul_of_nonneg_right _ hu.le
      have : roundHalfEven (q / pow2 (binaryExponent r - 52)) ≤
          roundHalfEven (r / pow2 (binaryExponent r - 52)) :=
        roundHalfEven_mono (div_le_div_of_nonneg_right h hu.le)
      exact_mod_cast this
    · have hlt : binaryExponent q + 1 ≤ binaryExponent r := by omega
      calc toDouble q ≤ (2 : ℚ) ^ (binaryExponent q + 1) := (toDouble_bounds hpos).2
        _ ≤ (2 : ℚ) ^ binaryExponent r := zpow_le_zpow_right₀ (by norm_num) hlt
        _ ≤ toDouble r := (toDouble_bounds hr).1

/-- The double nearest to a positive number differs from it by at most the `2 ^ 53`-th
part of it. -/
theorem toDouble_near {q : ℚ} (hq : 0 < q) : |toDouble q - q| ≤ q / 2 ^ 53 := by
  obtain ⟨h1, _⟩ := binaryExponent_spec hq
  have hu : (0 : ℚ) < (2 : ℚ) ^ (binaryExponent q - 52) := by positivity
  have hnear := roundHalfEven_near (q / (2 : ℚ) ^ (binaryExponent q - 52))
  have e1 : (2 : ℚ) ^ binaryExponent q =
      (2 ^ 52 : ℚ) * (2 : ℚ) ^ (binaryExponent q - 52) := (zpow_two_split _).1
  unfold toDouble
  rw [if_neg hq.ne', abs_of_pos hq, pow2_eq]
  have hrw : (roundHalfEven (q / (2 : ℚ) ^ (binaryExponent q - 52)) : ℚ) *
      (2 : ℚ) ^ (binaryExponent q - 52) - q =
      ((roundHalfEven (q / (2 : ℚ) ^ (binaryExponent q - 52)) : ℚ) -
        q / (2 : ℚ) ^ (binaryExponent q - 52)) * (2 : ℚ) ^ (binaryExponent q - 52) := by
    field_simp
  rw [hrw, abs_mul, abs_of_pos hu]
  calc |(roundHalfEven (q / (2 : ℚ) ^ (binaryExponent q - 52)) : ℚ) -
        q / (2 : ℚ) ^ (binaryExponent q - 52)| * (2 : ℚ) ^ (binaryExponent q - 52)
      ≤ 1 / 2 * (2 : ℚ) ^ (binaryExponent q - 52) :=
        mul_le_mul_of_nonneg_right hnear hu.le
    _ = (2 : ℚ) ^ binaryExponent q / 2 ^ 53 := by
        rw [e1]
        field_simp
        ring
    _ ≤ q / 2 ^ 53 := div_le_div_of_nonneg_right h1 (by positivity)

theorem zpow_two_nonneg {e : Int} (h : 0 ≤ e) : ∃ k : Nat, (2 : ℚ) ^ e = ((2 ^ k : Int) : ℚ) := by
  obtain ⟨k, rfl⟩ := Int.eq_ofNat_of_zero_le h
  exact ⟨k, by push_cast; rw [zpow_natCast]⟩

theorem zpow_two_nonpos {e : Int} (h : e ≤ 0) :
    ∃ k : Nat, (2 : ℚ) ^ e = 1 / ((2 ^ k : Int) : ℚ) := by
  obtain ⟨k, hk⟩ := Int.eq_ofNat_of_zero_le (by omega : 0 ≤ -e)
  have he : e = -(k : Int) := by omega
  subst he
  exact ⟨k, by push_cast; rw [zpow_neg, zpow_natCast, one_div]⟩

/-- The double nearest to an integer is an integer, the integer itself up to `2 ^ 53`,
and positive when the integer is. -/
theorem toDouble_intCast (z : Int) :
    ∃ z' : Int, toDouble (z : ℚ) = (z' : ℚ) ∧ (0 < z → 0 < z') ∧
      (|z| ≤ 2 ^ 53 → z' = z) := by
  by_cases h0 : z = 0
  · subst h0
    exact ⟨0, by simp [toDouble_zero], fun h => h, fun _ => rfl⟩
  have habs : (0 : ℚ) < |(z : ℚ)| := abs_pos.mpr (by exact_mod_cast h0)
  obtain ⟨s1, s2⟩ := binaryExponent_spec habs
  have hpos : ∀ z' : Int, toDouble (z : ℚ) = (z' : ℚ) → 0 < z → 0 < z' := by
    intro z' hz' hz
    have : (0 : ℚ) < toDouble (z : ℚ) := toDouble_pos (by exact_mod_cast hz)
    rw [hz'] at this
    exact_mod_cast this
  by_cases hsmall : |z| ≤ 2 ^ 53
  · have hq : |(z : ℚ)| ≤ 2 ^ 53 := by exact_mod_cast hsmall
    have hexact : toDouble (z : ℚ) = (z : ℚ) := by
      by_cases he : binaryExponent |(z : ℚ)| ≤ 52
      · obtain ⟨k, hk⟩ := zpow_two_nonpos (by omega : binaryExponent |(z : ℚ)| - 52 ≤ 0)
        apply toDouble_exact (z * 2 ^ k)
        rw [pow2_eq, hk]
        push_cast
        field_simp
      · have hle : (2 : ℚ) ^ binaryExponent |(z : ℚ)| ≤ (2 : ℚ) ^ (53 : Int) := by
          refine le_trans s1 ?_
          norm_cast
        have h53 : binaryExponent |(z : ℚ)| ≤ 53 :=
          (zpow_le_zpow_iff_right₀ (by norm_num : (1 : ℚ) < 2)).mp hle
        have he53 : binaryExponent |(z : ℚ)| = 53 := by omega
        have hz : |(z : ℚ)| = 2 ^ 53 := by
          apply le_antisymm hq
          rw [he53] at s1
          exact_mod_cast s1
        have hu : pow2 (binaryExponent |(z : ℚ)| - 52) = 2 := by
          rw [pow2_eq, he53]
          norm_num
        rcases abs_choice (z : ℚ) with hc | hc
        · apply toDouble_exact (2 ^ 52)
          have hzz : (z : ℚ) = 2 ^ 53 := by
            rw [← hz, hc]
          rw [hu, hzz]
          push_cast
          norm_num
        · apply toDouble_exact (-(2 ^ 52))
          have hzz : (z : ℚ) = -(2 ^ 53) := by
            rw [← hz, hc, neg_neg]
          rw [hu, hzz]
          push_cast
          norm_num
    exact ⟨z, hexact, hpos z hexact, fun _ => rfl⟩
  · have hbig : (2 : ℚ) ^ (53 : Int) < |(z : ℚ)| := by
      push_neg at hsmall
      have : ((2 ^ 53 : Int) : ℚ) < ((|z| : Int) : ℚ) := by exact_mod_cast hsmall
      push_cast at this
      exact_mod_cast this
    have hlt : (2 : ℚ) ^ (53 : Int) < (2 : ℚ) ^ (binaryExponent |(z : ℚ)| + 1) :=
      lt_trans hbig s2
    have h53 := (zpow_lt_zpow_iff_right₀ (by norm_num : (1 : ℚ) < 2)).mp hlt
    obtain ⟨k, hk⟩ := zpow_two_nonneg (by omega : 0 ≤ binaryExponent |(z : ℚ)| - 52)
    have hval : toDouble (z : ℚ) =
        ((roundHalfEven ((z : ℚ) / pow2 (binaryExponent |(z : ℚ)| - 52)) * 2 ^ k : Int) : ℚ) := by
      unfold toDouble
      rw [if_neg (by exact_mod_cast h0)]
      push_cast
      rw [pow2_eq, hk]
      push_cast
      rfl
    exact ⟨_, hval, hpos _ hval, fun h => absurd h hsmall⟩

/-- A positive power of two, and so the number one, is a double. -/
theorem toDouble_natCast_small {n : Nat} (h : n ≤ 2 ^ 53) : toDouble (n : ℚ) = (n : ℚ) := by
  obtain ⟨z', hz, _, hsmall⟩ := toDouble_intCast (n : Int)
  have : z' = (n : Int) := hsmall (by
    rw [abs_of_nonneg (by positivity)]
    exact_mod_cast h)
  rw [this] at hz
  exact_mod_cast hz

theorem ofRat_intCast (z : Int) : JSValue.ofRat (z : ℚ) = .number z := by
  simp [JSValue.ofRat]

/-- The statement `current += 1` on an integer gives an integer, which is positive when
`current` is not negative, and which is `current + 1` when that does not exceed
`2 ^ 53`. -/
theorem addOne_number (n : Int) :
    ∃ n' : Int, addOne (.number n) = .ok (.number n') ∧ (0 ≤ n → 1 ≤ n') ∧
      (|n + 1| ≤ 2 ^ 53 → n' = n + 1) := by
  obtain ⟨z, hz, hpos, hsmall⟩ := toDouble_intCast (n + 1)
  refine ⟨z, ?_, fun h => ?_, hsmall⟩
  · have : ((n : ℚ) + 1) = ((n + 1 : Int) : ℚ) := by push_cast; rfl
    show Except.ok (JSValue.ofRat (toDouble ((n : ℚ) + 1))) = _
    rw [this, hz, ofRat_intCast]
  · have := hpos (by omega)
    omega

theorem addOne_small {n : Int} (h : |n + 1| ≤ 2 ^ 53) :
    addOne (.number n) = .ok (.number (n + 1)) := by
  obtain ⟨z, hz, _, hsmall⟩ := addOne_number n
  rw [hz, hsmall h]

/-! ## Reading and writing the heap -/

theorem heap_store (w : World) (r : Nat) (o : Observable) :
    (w.store r o).heap = w.heap.set r o := rfl

theorem observers_of_get {w : World} {r : Nat} {o : Observable} (h : w.heap[r]? = some o) :
    w.observers r = o._observers := by
  simp [World.observers, h]

theorem get_of_lt {w : World} {r : Nat} (h : r < w.heap.length) :
    ∃ o, w.heap[r]? = some o :=
  ⟨w.heap[r], List.getElem?_eq_getElem h⟩

theorem lt_of_get {w : World} {r : Nat} {o : Observable} (h : w.heap[r]? = some o) :
    r < w.heap.length := by
  by_contra hn
  rw [List.getElem?_eq_none (Nat.le_of_not_lt hn)] at h
  cases h

theorem lt_of_mem_observers {w : World} {r : Nat} {observer : Observer}
    (h : observer ∈ w.observers r) : r < w.heap.length := by
  unfold World.observers at h
  split at h
  · next o ho => exact lt_of_get ho
  · simp at h

theorem store_get_self {w : World} {r : Nat} {o : Observable} (h : r < w.heap.length) :
    (w.store r o).heap[r]? = some o := by
  simp [World.store, List.getElem?_set, h]

theorem store_get_other {w : World} {r t : Nat} {o : Observable} (h : t ≠ r) :
    (w.store r o).heap[t]? = w.heap[t]? := by
  simp [World.store, List.getElem?_set, Ne.symm h]

/-! ## Worlds with the same wiring -/

theorem SameWiring.stay (w : World) : SameWiring w w :=
  ⟨rfl, rfl, rfl, rfl, rfl⟩

theorem SameWiring.andThen {a b c : World} (h1 : SameWiring a b) (h2 : SameWiring b c) :
    SameWiring a c :=
  ⟨h2.length.trans h1.length, h2.observers.trans h1.observers, h2.state.trans h1.state,
    h2.inherited.trans h1.inherited, h2.arrows.trans h1.arrows⟩

theorem sameWiring_store_value {w : World} {r : Nat} {o : Observable} (v : JSValue)
    (h : w.heap[r]? = some o) : SameWiring w (w.store r { o with _value := v }) := by
  refine ⟨by simp [World.store], ?_, rfl, rfl, rfl⟩
  funext t
  by_cases ht : t = r
  · subst ht
    simp [World.observers, store_get_self (lt_of_get h), h]
  · simp [World.observers, store_get_other ht]

theorem sameWiring_call (w : World) (calls : List Call) :
    SameWiring w { w with calls := calls } :=
  ⟨rfl, rfl, rfl, rfl, rfl⟩

theorem SameWiring.lookup {w w' : World} (h : SameWiring w w') (key : String) :
    w'.lookup key = w.lookup key := by
  simp [World.lookup, h.state]

theorem SameWiring.wellFormed {w w' : World} (h : SameWiring w w')
    (hw : w.wellFormed = true) : w'.wellFormed = true := by
  have hwired : ∀ r observer, Observer.wired w' r observer = Observer.wired w r observer := by
    intro r observer
    cases observer with
    | callback id => rfl
    | recompute id deps f t => simp [Observer.wired, h.length, h.arrows, h.lookup]
  have : w'.wellFormed = w.wellFormed := by
    simp only [World.wellFormed, h.length, h.state, h.observers]
    congr 2
    funext r
    congr 1
    funext observer
    exact hwired r observer
  rw [this]; exact hw

/-! ## The notification loop -/

theorem notifyObservers_succ (fuel : Nat) (w : World) (r : Nat) (newValue oldValue : JSValue) :
    Observable._notifyObservers (fuel + 1) w r newValue oldValue =
      match w.heap[r]? with
      | none => (.error .badReference, w)
      | some o =>
        forEachObserver
          (fun w1 observer =>
            Observer.invoke (Observable.assignValue (Observable._notifyObservers fuel))
              r newValue oldValue w1 observer)
          o._observers w := rfl

/-- A reflexive and transitive relation that every step keeps is kept by the whole loop. -/
theorem forEachObserver_rel {R : World → World → Prop} (hrefl : ∀ w, R w w)
    (htrans : ∀ a b c, R a b → R b c → R a c)
    (step : World → Observer → Except JSError Unit × World) :
    ∀ (l : List Observer) (w : World), (∀ w1, ∀ observer ∈ l, R w1 (step w1 observer).2) →
      R w (forEachObserver step l w).2
  | [], w, _ => hrefl w
  | observer :: rest, w, h => by
    have hstep := h w observer (List.mem_cons_self _ _)
    have hrest := forEachObserver_rel hrefl htrans step rest (step w observer).2
      (fun w1 o ho => h w1 o (List.mem_cons_of_mem _ ho))
    unfold forEachObserver
    rcases hs : step w observer with ⟨res, w1⟩
    rw [hs] at hstep hrest
    cases res with
    | error e => exact hstep
    | ok u => exact htrans _ _ _ hstep hrest

theorem notifyObservers_sameWiring :
    ∀ (fuel : Nat) (w : World) (r : Nat) (newValue oldValue : JSValue),
      SameWiring w (Observable._notifyObservers fuel w r newValue oldValue).2
  | 0, w, _, _, _ => SameWiring.stay w
  | fuel + 1, w, r, newValue, oldValue => by
    rw [notifyObservers_succ]
    cases hr : w.heap[r]? with
    | none => exact SameWiring.stay w
    | some o =>
      refine forEachObserver_rel SameWiring.stay (fun _ _ _ => SameWiring.andThen) _ _ w ?_
      intro w1 observer _
      cases observer with
      | callback id => exact sameWiring_call w1 _
      | recompute id deps f t =>
        simp only [Observer.invoke]
        cases Store.getValues w1 deps with
        | error e => exact SameWiring.stay w1
        | ok args =>
          simp only [Observable.assignValue]
          cases ht : w1.heap[t]? with
          | none => exact SameWiring.stay w1
          | some target =>
            exact (sameWiring_store_value _ ht).andThen
              (notifyObservers_sameWiring fuel _ t _ _)

/-! ## Consequences of well-formedness -/

theorem wellFormed_state {w : World} (hw : w.wellFormed = true) {p : String × Nat}
    (hp : p ∈ w._state) : p.2 < w.heap.length := by
  simp only [World.wellFormed, Bool.and_eq_true, List.all_eq_true, decide_eq_true_eq] at hw
  exact hw.1 p hp

theorem wellFormed_wired {w : World} (hw : w.wellFormed = true) {r : Nat} {observer : Observer}
    (h : observer ∈ w.observers r) : Observer.wired w r observer = true := by
  simp only [World.wellFormed, Bool.and_eq_true, List.all_eq_true, decide_eq_true_eq,
    List.mem_range] at hw
  exact hw.2 r (lt_of_mem_observers h) observer h

theorem wired_recompute {w : World} {r id t : Nat} {deps : List String}
    {f : List JSValue → JSValue} (h : Observer.wired w r (.recompute id deps f t) = true) :
    r < t ∧ t < w.heap.length ∧ id < w.arrows ∧ ∀ dep ∈ deps, (w.lookup dep).isSome = true := by
  simpa [Observer.wired, and_assoc] using h

theorem mem_of_lookup {α : Type} : ∀ (l : List (String × α)) (k : String) (x : α),
    l.lookup k = some x → (k, x) ∈ l
  | [], _, _, h => by simp at h
  | (k', y) :: rest, k, x, h => by
    rw [List.lookup_cons] at h
    by_cases hk : k = k'
    · subst hk
      simp at h
      subst h
      exact List.mem_cons_self _ _
    · have : (k == k') = false := by simpa using hk
      rw [this] at h
      exact List.mem_cons_of_mem _ (mem_of_lookup rest k x h)

theorem plainObjectGet_own {α : Type} {own : List (String × α)} {key : String} {x : α} :
    plainObjectGet own key = some (.own x) ↔ own.lookup key = some x := by
  unfold plainObjectGet
  cases own.lookup key with
  | some y => simp
  | none => by_cases h : key ∈ objectPrototypeNames <;> simp [h]

theorem plainObjectGet_inherited {α : Type} {own : List (String × α)} {key name : String} :
    plainObjectGet own key = some (.inherited name) ↔
      own.lookup key = none ∧ key ∈ objectPrototypeNames ∧ name = key := by
  unfold plainObjectGet
  cases own.lookup key with
  | some y => simp
  | none =>
    by_cases h : key ∈ objectPrototypeNames
    · simp [h, eq_comm]
    · simp [h]

theorem plainObjectGet_none {α : Type} {own : List (String × α)} {key : String} :
    plainObjectGet own key = none ↔ own.lookup key = none ∧ key ∉ objectPrototypeNames := by
  unfold plainObjectGet
  cases own.lookup key with
  | some y => simp
  | none => by_cases h : key ∈ objectPrototypeNames <;> simp [h]

theorem lookup_own_lt {w : World} (hw : w.wellFormed = true) {key : String} {r : Nat}
    (h : w.lookup key = some (.own r)) : r < w.heap.length :=
  wellFormed_state hw (mem_of_lookup _ _ _ (plainObjectGet_own.mp h))

theorem getValue_ok {w : World} (hw : w.wellFormed = true) {key : String}
    (h : (w.lookup key).isSome = true) : ∃ v, Store.getValue w key = .ok v := by
  cases hl : w.lookup key with
  | none => simp [hl] at h
  | some m =>
    cases m with
    | own r =>
      obtain ⟨o, ho⟩ := get_of_lt (lookup_own_lt hw hl)
      exact ⟨o._value, by simp [Store.getValue, Store.getState, hl, Observable.value, ho]⟩
    | inherited name =>
      exact ⟨(getOwn w.inheritedValue name).getD .undefined,
        by simp [Store.getValue, Store.getState, hl]⟩

theorem getValues_ok {w : World} (hw : w.wellFormed = true) :
    ∀ (deps : List String), (∀ dep ∈ deps, (w.lookup dep).isSome = true) →
      ∃ vs, Store.getValues w deps = .ok vs
  | [], _ => ⟨[], rfl⟩
  | dep :: rest, h => by
    obtain ⟨v, hv⟩ := getValue_ok hw (h dep (List.mem_cons_self _ _))
    obtain ⟨vs, hvs⟩ := getValues_ok hw rest (fun d hd => h d (List.mem_cons_of_mem _ hd))
    exact ⟨v :: vs, by simp [Store.getValues, hv, hvs]⟩

/-! ## Notification terminates normally -/

/-- If every step succeeds and keeps an invariant, so does the whole loop. -/
theorem forEachObserver_ok {P : World → Prop}
    (step : World → Observer → Except JSError Unit × World) :
    ∀ (l : List Observer) (w : World), P w →
      (∀ w1, P w1 → ∀ observer ∈ l,
        (step w1 observer).1 = .ok () ∧ P (step w1 observer).2) →
      (forEachObserver step l w).1 = .ok () ∧ P (forEachObserver step l w).2
  | [], w, hw, _ => ⟨rfl, hw⟩
  | observer :: rest, w, hw, h => by
    have hstep := h w hw observer (List.mem_cons_self _ _)
    unfold forEachObserver
    rcases hs : step w observer with ⟨res, w1⟩
    rw [hs] at hstep
    obtain ⟨h1, h2⟩ := hstep
    simp only at h1 h2
    subst h1
    exact forEachObserver_ok step rest w1 h2
      (fun w2 hw2 o ho => h w2 hw2 o (List.mem_cons_of_mem _ ho))

/-- In a well-formed world a notification of the Observable at `r` returns normally once
the budget covers the Observables created after `r`. -/
theorem notifyObservers_ok :
    ∀ (fuel : Nat) (w : World) (r : Nat) (newValue oldValue : JSValue),
      w.wellFormed = true → r < w.heap.length → w.heap.length - r ≤ fuel →
      (Observable._notifyObservers fuel w r newValue oldValue).1 = .ok ()
  | 0, w, r, _, _, _, hr, hfuel => by omega
  | fuel + 1, w, r, newValue, oldValue, hw, hr, hfuel => by
    rw [notifyObservers_succ]
    obtain ⟨o, ho⟩ := get_of_lt hr
    rw [ho]
    refine (forEachObserver_ok (P := fun w1 => SameWiring w w1) _ _ w
      (SameWiring.stay w) ?_).1
    intro w1 hw1 observer hmem
    have hobs : observer ∈ w.observers r := by rw [observers_of_get ho]; exact hmem
    have hwired := wellFormed_wired hw hobs
    cases observer with
    | callback id => exact ⟨rfl, hw1.andThen (sameWiring_call w1 _)⟩
    | recompute id deps f t =>
      obtain ⟨hrt, htl, _, hdeps⟩ := wired_recompute hwired
      have hw1wf := hw1.wellFormed hw
      obtain ⟨args, hargs⟩ := getValues_ok hw1wf deps
        (fun dep hd => by rw [hw1.lookup]; exact hdeps dep hd)
      have htl1 : t < w1.heap.length := by rw [hw1.length]; exact htl
      obtain ⟨target, htarget⟩ := get_of_lt htl1
      simp only [Observer.invoke, hargs, Observable.assignValue, htarget]
      have hsw := sameWiring_store_value (f args) htarget
      refine ⟨?_, (hw1.andThen hsw).andThen (notifyObservers_sameWiring fuel _ t _ _)⟩
      apply notifyObservers_ok fuel
      · exact hsw.wellFormed hw1wf
      · rw [hsw.length]; exact htl1
      · rw [hsw.length, hw1.length]; omega

/-! ## What a notification can touch -/

theorem SameWiring.dependsOn {w w' : World} (h : SameWiring w w') :
    DependsOn w' = DependsOn w := by
  unfold DependsOn Feeds
  rw [h.observers]

theorem feeds_lt {w : World} (hw : w.wellFormed = true) {r t : Nat} (h : Feeds w r t) :
    r < t := by
  obtain ⟨observer, hmem, htarget⟩ := h
  have hwired := wellFormed_wired hw hmem
  cases observer with
  | callback id => simp [Observer.target] at htarget
  | recompute id deps f t' =>
    simp only [Observer.target, Option.some.injEq] at htarget
    subst htarget
    exact (wired_recompute hwired).1

/-- Derived states are created after what they depend on. -/
theorem dependsOn_lt {w : World} (hw : w.wellFormed = true) {r t : Nat}
    (h : DependsOn w t r) : r < t := by
  unfold DependsOn at h
  induction h with
  | single h1 => exact feeds_lt hw h1
  | tail _ h2 ih => exact Nat.lt_trans ih (feeds_lt hw h2)

theorem not_dependsOn_self {w : World} (hw : w.wellFormed = true) (r : Nat) :
    ¬ DependsOn w r r :=
  fun h => Nat.lt_irrefl r (dependsOn_lt hw h)

theorem Within.still (w0 : World) (r : Nat) (a : World) : Within w0 r a a :=
  ⟨SameWiring.stay a, fun _ _ => rfl, [], by simp, by simp⟩

theorem Within.followedBy {w0 : World} {r : Nat} {a b c : World} (h1 : Within w0 r a b)
    (h2 : Within w0 r b c) : Within w0 r a c := by
  obtain ⟨s1, f1, e1, hc1, hs1⟩ := h1
  obtain ⟨s2, f2, e2, hc2, hs2⟩ := h2
  refine ⟨s1.andThen s2, fun t ht => (f2 t ht).trans (f1 t ht), e1 ++ e2, ?_, ?_⟩
  · rw [hc2, hc1, List.append_assoc]
  · intro c hc
    rcases List.mem_append.mp hc with h | h
    · exact hs1 c h
    · exact hs2 c h

/-- What a notification started at `t` may do, a notification started at an Observable
that feeds `t` may do as well. -/
theorem Within.mono {w0 : World} {r t : Nat} {a b : World} (hf : Feeds w0 r t)
    (h : Within w0 t a b) : Within w0 r a b := by
  obtain ⟨s, f, e, hc, hs⟩ := h
  refine ⟨s, fun x hx => f x (fun hxt => hx (Relation.TransGen.head hf hxt)), e, hc, ?_⟩
  intro c hcm
  rcases hs c hcm with h | h
  · exact Or.inr (h ▸ Relation.TransGen.single hf)
  · exact Or.inr (Relation.TransGen.head hf h)

theorem Within.congr {w0 w0' : World} {r : Nat} {a b : World} (h0 : SameWiring w0 w0')
    (h : Within w0' r a b) : Within w0 r a b := by
  unfold Within at h ⊢
  rw [h0.dependsOn] at h
  exact h

/-- Writing the value of an Observable that depends on `r` is within what a notification
started at `r` may do. -/
theorem within_store_value {w0 : World} {r t : Nat} {a : World} {o : Observable}
    (v : JSValue) (hd : DependsOn w0 t r) (h : a.heap[t]? = some o) :
    Within w0 r a (a.store t { o with _value := v }) := by
  refine ⟨sameWiring_store_value v h, ?_, [], by simp [World.store], by simp⟩
  intro x hx
  have : x ≠ t := fun hxt => hx (hxt ▸ hd)
  exact store_get_other this

/-- One observer of `r` is called: the step stays within what a notification started at
`r` may do, given that nested notifications do. -/
theorem invoke_within {w : World} {r : Nat} {notify : World → Nat → JSValue → JSValue →
    Except JSError Unit × World}
    (hnotify : ∀ w1 t n o, Within w1 t w1 (notify w1 t n o).2)
    {w1 : World} (hw1 : SameWiring w w1) {observer : Observer}
    (hmem : observer ∈ w.observers r) (newValue oldValue : JSValue) :
    Within w r w1
      (Observer.invoke (Observable.assignValue notify) r newValue oldValue w1 observer).2 := by
  cases observer with
  | callback id =>
    exact ⟨sameWiring_call w1 _, fun _ _ => rfl, _, rfl, by simp⟩
  | recompute id deps f t =>
    have hf : Feeds w r t := ⟨_, hmem, rfl⟩
    simp only [Observer.invoke]
    cases Store.getValues w1 deps with
    | error e => exact Within.still w r w1
    | ok args =>
      simp only [Observable.assignValue]
      cases ht : w1.heap[t]? with
      | none => exact Within.still w r w1
      | some target =>
        have hsw := sameWiring_store_value (f args) ht
        refine (within_store_value (f args) (Relation.TransGen.single hf) ht).followedBy ?_
        exact Within.mono hf (Within.congr (hw1.andThen hsw) (hnotify _ t _ _))

/-- A notification started at `r` leaves alone every Observable that does not depend on
`r`, and the calls it adds are made by `r` or by Observables that depend on `r`. -/
theorem notifyObservers_within :
    ∀ (fuel : Nat) (w : World) (r : Nat) (newValue oldValue : JSValue),
      Within w r w (Observable._notifyObservers fuel w r newValue oldValue).2
  | 0, w, r, _, _ => Within.still w r w
  | fuel + 1, w, r, newValue, oldValue => by
    rw [notifyObservers_succ]
    cases hr : w.heap[r]? with
    | none => exact Within.still w r w
    | some o =>
      have key := forEachObserver_rel (R := fun a b => SameWiring w a → Within w r a b)
        (fun a _ => Within.still w r a)
        (fun a b c h1 h2 ha => (h1 ha).followedBy (h2 (ha.andThen (h1 ha).1)))
        (fun w1 observer =>
          Observer.invoke (Observable.assignValue (Observable._notifyObservers fuel))
            r newValue oldValue w1 observer)
        o._observers w
      refine key ?_ (SameWiring.stay w)
      intro w1 observer hmem hw1
      exact invoke_within (notifyObservers_within fuel) hw1
        (by rw [observers_of_get hr]; exact hmem) newValue oldValue

/-! ## The calls a notification makes on behalf of its own Observable -/

theorem callsFrom_append (r : Nat) (a b : List Call) :
    callsFrom r (a ++ b) = callsFrom r a ++ callsFrom r b := by
  simp [callsFrom]

theorem callsFrom_eq_nil {r : Nat} {calls : List Call} (h : ∀ c ∈ calls, c.source ≠ r) :
    callsFrom r calls = [] := by
  simp only [callsFrom, List.filter_eq_nil_iff, beq_iff_eq]
  exact h

theorem callbackCalls_cons (r : Nat) (n o : JSValue) (observer : Observer)
    (rest : List Observer) :
    callbackCalls r n o (observer :: rest) =
      callbackCalls r n o [observer] ++ callbackCalls r n o rest := by
  cases observer <;> simp [callbackCalls, Observer.callbackId]

/-- Calling one observer of `r` adds exactly one call made by `r` when the observer is a
caller-supplied function, and none when it is the arrow function of a derived state. -/
theorem invoke_callsFrom {w : World} {r : Nat} (fuel : Nat) (hself : ¬ DependsOn w r r)
    {w1 : World} (hw1 : SameWiring w w1) {observer : Observer}
    (hmem : observer ∈ w.observers r) (newValue oldValue : JSValue) :
    callsFrom r (Observer.invoke (Observable.assignValue (Observable._notifyObservers fuel))
        r newValue oldValue w1 observer).2.calls =
      callsFrom r w1.calls ++ callbackCalls r newValue oldValue [observer] := by
  cases observer with
  | callback id =>
    simp [Observer.invoke, callsFrom_append, callbackCalls, Observer.callbackId, callsFrom]
  | recompute id deps f t =>
    have hf : Feeds w r t := ⟨_, hmem, rfl⟩
    simp only [Observer.invoke, callbackCalls, Observer.callbackId, List.filterMap_cons,
      Option.map_none', List.filterMap_nil, List.append_nil]
    cases Store.getValues w1 deps with
    | error e => rfl
    | ok args =>
      simp only [Observable.assignValue]
      cases ht : w1.heap[t]? with
      | none => rfl
      | some target =>
        have hsw := sameWiring_store_value (f args) ht
        obtain ⟨_, _, extra, hcalls, hsrc⟩ :=
          Within.congr (hw1.andThen hsw)
            (notifyObservers_within fuel (w1.store t { target with _value := f args }) t
              (f args) target._value)
        rw [hcalls, callsFrom_append]
        have hnil : callsFrom r extra = [] := by
          apply callsFrom_eq_nil
          intro c hc hcr
          rcases hsrc c hc with h | h
          · have htr : t = r := h.symm.trans hcr
            rw [htr] at hf
            exact hself (Relation.TransGen.single hf)
          · exact hself (Relation.TransGen.head hf (hcr ▸ h))
        rw [hnil]
        simp [World.store]

theorem forEachObserver_callsFrom {w : World} {r : Nat} (fuel : Nat)
    (hself : ¬ DependsOn w r r) (newValue oldValue : JSValue) :
    ∀ (l : List Observer) (w1 : World), (∀ observer ∈ l, observer ∈ w.observers r) →
      SameWiring w w1 →
      (forEachObserver (fun w2 observer =>
        Observer.invoke (Observable.assignValue (Observable._notifyObservers fuel))
          r newValue oldValue w2 observer) l w1).1 = .ok () →
      callsFrom r (forEachObserver (fun w2 observer =>
        Observer.invoke (Observable.assignValue (Observable._notifyObservers fuel))
          r newValue oldValue w2 observer) l w1).2.calls =
        callsFrom r w1.calls ++ callbackCalls r newValue oldValue l
  | [], w1, _, _, _ => by simp [forEachObserver, callbackCalls]
  | observer :: rest, w1, hl, hw1, hok => by
    have hmem := hl observer (List.mem_cons_self _ _)
    have hstep := invoke_callsFrom fuel hself hw1 hmem newValue oldValue
    have hwithin := invoke_within (notifyObservers_within fuel) hw1 hmem newValue oldValue
    unfold forEachObserver at hok ⊢
    rcases hs : Observer.invoke (Observable.assignValue (Observable._notifyObservers fuel))
        r newValue oldValue w1 observer with ⟨res, wa⟩
    rw [hs] at hstep hwithin
    simp only [hs] at hok ⊢
    cases res with
    | error e => simp at hok
    | ok u =>
      simp only at hok ⊢
      rw [forEachObserver_callsFrom fuel hself newValue oldValue rest wa
        (fun o ho => hl o (List.mem_cons_of_mem _ ho)) (hw1.andThen hwithin.1) hok,
        hstep, callbackCalls_cons r newValue oldValue observer rest, List.append_assoc]

/-- A notification that returns normally has called every caller-supplied observer of its
Observable once, in list order, and has made no other call on behalf of that Observable. -/
theorem notifyObservers_callsFrom (fuel : Nat) (w : World) (r : Nat)
    (newValue oldValue : JSValue) (hself : ¬ DependsOn w r r)
    (hok : (Observable._notifyObservers fuel w r newValue oldValue).1 = .ok ()) :
    callsFrom r (Observable._notifyObservers fuel w r newValue oldValue).2.calls =
      callsFrom r w.calls ++ callbackCalls r newValue oldValue (w.observers r) := by
  cases fuel with
  | zero => simp [Observable._notifyObservers] at hok
  | succ fuel =>
    rw [notifyObservers_succ] at hok ⊢
    cases hr : w.heap[r]? with
    | none => simp [hr] at hok
    | some o =>
      simp only [hr] at hok ⊢
      rw [observers_of_get hr]
      exact forEachObserver_callsFrom fuel hself newValue oldValue o._observers w
        (fun ob hob => by rw [observers_of_get hr]; exact hob) (SameWiring.stay w) hok

/-! ## Storing a value and notifying -/

/-- The common tail of the setter and of `update`: with the new value stored at `r`, the
notification returns normally, the value stays at `r`, Observables that do not depend on
`r` are left alone, and the caller-supplied observers of `r` are each called once. -/
theorem store_notify {w : World} {r : Nat} {o : Observable} (hw : w.wellFormed = true)
    (hr : w.heap[r]? = some o) (v old : JSValue) :
    let res := Observable._notifyObservers w.heap.length
      (w.store r { o with _value := v }) r v old
    res.1 = .ok () ∧ SameWiring w res.2 ∧ res.2.heap[r]? = some { o with _value := v } ∧
      (∀ t, t ≠ r → ¬ DependsOn w t r → res.2.heap[t]? = w.heap[t]?) ∧
      callsFrom r res.2.calls = callsFrom r w.calls ++ callbackCalls r v old o._observers ∧
      ∃ extra, res.2.calls = w.calls ++ extra ∧
        ∀ c ∈ extra, c.source = r ∨ DependsOn w c.source r := by
  intro res
  have hlt := lt_of_get hr
  have hsw := sameWiring_store_value v hr
  have hwb := hsw.wellFormed hw
  have hself : ¬ DependsOn (w.store r { o with _value := v }) r r := not_dependsOn_self hwb r
  have hok : res.1 = .ok () :=
    notifyObservers_ok _ _ r v old hwb (by rw [hsw.length]; exact hlt)
      (by rw [hsw.length]; omega)
  obtain ⟨hsame, hframe, extra, hcalls, hsrc⟩ :=
    notifyObservers_within w.heap.length (w.store r { o with _value := v }) r v old
  refine ⟨hok, hsw.andThen hsame, ?_, ?_, ?_, extra, hcalls, ?_⟩
  · rw [hframe r hself]; exact store_get_self hlt
  · intro t htr hdep
    rw [hframe t (by rw [hsw.dependsOn]; exact hdep)]
    exact store_get_other htr
  · have := notifyObservers_callsFrom w.heap.length _ r v old hself hok
    rw [this, observers_of_get (store_get_self hlt)]
    rfl
  · intro c hc
    have := hsrc c hc
    rwa [hsw.dependsOn] at this

/-! ## Subscribing, unsubscribing, assigning -/

/-- When every observer is a caller-supplied function, a notification is one pass over the
list that records one call per observer. -/
theorem forEachObserver_callbacks (notify : World → Nat → JSValue → JSValue →
    Except JSError Unit × World) (r : Nat) (n o : JSValue) :
    ∀ (l : List Observer) (w : World), (∀ observer ∈ l, observer.target = none) →
      forEachObserver (fun w1 observer =>
        Observer.invoke (Observable.assignValue notify) r n o w1 observer) l w =
        (.ok (), { w with calls := w.calls ++ callbackCalls r n o l })
  | [], w, _ => by simp [forEachObserver, callbackCalls]
  | observer :: rest, w, h => by
    cases observer with
    | recompute id deps f t =>
      have := h _ (List.mem_cons_self _ _)
      simp [Observer.target] at this
    | callback id =>
      have ih := forEachObserver_callbacks notify r n o rest
        { w with calls := w.calls ++
          [{ source := r, callback := id, newValue := n, oldValue := o }] }
        (fun ob hob => h ob (List.mem_cons_of_mem _ hob))
      rw [forEachObserver]
      show forEachObserver _ rest _ = _
      rw [ih]
      simp [callbackCalls, Observer.callbackId, List.append_assoc]

/-- The setter on an Observable whose observers are all caller-supplied functions: the
value is stored and one call per observer is recorded. -/
theorem setValue_callbacks {w : World} {r : Nat} {o : Observable} (v : JSValue)
    (hr : w.heap[r]? = some o) (hall : ∀ observer ∈ o._observers, observer.target = none) :
    Observable.setValue w r v =
      (.ok (), { heap := w.heap.set r ⟨v, o._observers, o.unsubscribeAll⟩,
                 calls := w.calls ++ callbackCalls r v o._value o._observers,
                 _state := w._state, inheritedValue := w.inheritedValue,
                 arrows := w.arrows }) := by
  have hlt := lt_of_get hr
  obtain ⟨n, hn⟩ : ∃ n, w.heap.length = n + 1 := ⟨w.heap.length - 1, by omega⟩
  simp only [Observable.setValue, Observable.assignValue, hr, hn, notifyObservers_succ,
    store_get_self hlt]
  rw [forEachObserver_callbacks _ _ _ _ _ _ hall]
  rfl

theorem callbackCalls_map_callback (r : Nat) (n o : JSValue) (fns : List Nat) :
    callbackCalls r n o (fns.map Observer.callback) =
      fns.map (fun fn => { source := r, callback := fn, newValue := n, oldValue := o }) := by
  induction fns with
  | nil => rfl
  | cons fn rest ih =>
    rw [List.map_cons, callbackCalls_cons, ih]
    simp [callbackCalls, Observer.callbackId]

theorem same_callback (a b : Nat) :
    (Observer.callback a).same (.callback b) = (a == b) := rfl

theorem filter_retire (fn : Nat) : ∀ (regs : List (Nat × Bool)),
    ((regs.filter (fun p => p.2)).map (fun p => Observer.callback p.1)).filter
        (fun obs => !(obs.same (.callback fn))) =
      ((regs.map (fun p => if p.1 = fn then (p.1, false) else p)).filter
        (fun p => p.2)).map (fun p => Observer.callback p.1)
  | [] => rfl
  | (g, b) :: rest => by
    have ih := filter_retire fn rest
    by_cases hg : g = fn
    · cases b <;> simp [hg, same_callback, ih]
    · cases b <;> simp [hg, same_callback, ih]

theorem tracks_step {r : Nat} {s : Session} {regs : List (Nat × Bool)}
    (h : Tracks r s regs) (e : Event) :
    Tracks r (s.step r e) (retireFunction regs e) := by
  obtain ⟨⟨current, hheap⟩, hclos⟩ := h
  cases e with
  | subscribe fn =>
    simp only [Session.step, Observable.subscribe, hheap, retireFunction]
    refine ⟨⟨current, ?_⟩, by simp [hclos]⟩
    rw [store_get_self (lt_of_get hheap)]
    simp
  | unsubscribe i =>
    simp only [Session.step, retireFunction]
    have hi : s.closures[i]? = (regs[i]?).map
        (fun p => ({ observable := r, observer := .callback p.1 } : Unsubscribe)) := by
      rw [hclos, List.getElem?_map]
    cases hreg : regs[i]? with
    | none =>
      rw [hreg] at hi
      simp only [Option.map_none'] at hi
      rw [hi]
      exact ⟨⟨current, hheap⟩, hclos⟩
    | some p =>
      obtain ⟨fn, b⟩ := p
      rw [hreg] at hi
      simp only [Option.map_some'] at hi
      rw [hi]
      simp only [Unsubscribe.call, hheap]
      refine ⟨⟨current, ?_⟩, ?_⟩
      · rw [store_get_self (lt_of_get hheap)]
        simp only [filter_retire fn regs]
      · rw [hclos, List.map_map]
        apply List.map_congr_left
        intro q _
        by_cases hq : q.1 = fn <;> simp [hq]
  | assign value =>
    simp only [Session.step, retireFunction]
    rw [setValue_callbacks value hheap (by simp [Observer.target])]
    refine ⟨⟨value, ?_⟩, hclos⟩
    simp [List.getElem?_set, lt_of_get hheap]

theorem tracks_run {r : Nat} :
    ∀ (events : List Event) (s : Session) (regs : List (Nat × Bool)),
      Tracks r s regs → Tracks r (Session.run r s events) (events.foldl retireFunction regs)
  | [], _, _, h => h
  | e :: rest, _, _, h => tracks_run rest _ _ (tracks_step h e)

theorem retire_eq_set : ∀ (regs : List (Nat × Bool)) (i fn : Nat) (b : Bool),
    (regs.map (fun p => p.1)).Nodup → regs[i]? = some (fn, b) →
      regs.map (fun p => if p.1 = fn then (p.1, false) else p) = regs.set i (fn, false)
  | [], _, _, _, _, h => by simp at h
  | p :: rest, 0, fn, b, hnd, h => by
    simp only [List.getElem?_cons_zero, Option.some.injEq] at h
    subst h
    simp only [List.map_cons, List.nodup_cons, List.mem_map, not_exists, not_and] at hnd
    simp only [List.map_cons, if_true, List.set_cons_zero, List.cons.injEq, true_and]
    conv_rhs => rw [← List.map_id rest]
    apply List.map_congr_left
    intro q hq
    have : q.1 ≠ fn := fun hqf => hnd.1 q hq hqf
    simp [this]
  | p :: rest, i + 1, fn, b, hnd, h => by
    simp only [List.getElem?_cons_succ] at h
    simp only [List.map_cons, List.nodup_cons, List.mem_map, not_exists, not_and] at hnd
    have hmem : (fn, b) ∈ rest := List.getElem?_mem h
    have hp : p.1 ≠ fn := fun hpf => hnd.1 (fn, b) hmem hpf.symm
    simp only [List.map_cons, hp, if_false, List.set_cons_succ, List.cons.injEq, true_and]
    exact retire_eq_set rest i fn b hnd.2 h

theorem map_fst_set : ∀ (regs : List (Nat × Bool)) (i fn : Nat) (b c : Bool),
    regs[i]? = some (fn, b) →
      (regs.set i (fn, c)).map (fun p => p.1) = regs.map (fun p => p.1)
  | [], _, _, _, _, h => by simp at h
  | p :: rest, 0, fn, b, c, h => by
    simp only [List.getElem?_cons_zero, Option.some.injEq] at h
    subst h
    simp
  | p :: rest, i + 1, fn, b, c, h => by
    simp only [List.getElem?_cons_succ] at h
    simp [map_fst_set rest i fn b c h]

theorem retireFunction_eq_retireOne :
    ∀ (events : List Event) (regs : List (Nat × Bool)),
      (regs.map (fun p => p.1) ++ subscribedFunctions events).Nodup →
      events.foldl retireFunction regs = events.foldl retireOne regs
  | [], _, _ => rfl
  | .subscribe fn :: rest, regs, h => by
    simp only [List.foldl_cons, retireFunction, retireOne]
    apply retireFunction_eq_retireOne rest
    simpa [subscribedFunctions] using h
  | .assign value :: rest, regs, h => by
    simp only [List.foldl_cons, retireFunction, retireOne]
    apply retireFunction_eq_retireOne rest
    simpa [subscribedFunctions] using h
  | .unsubscribe i :: rest, regs, h => by
    simp only [List.foldl_cons, retireFunction, retireOne]
    have hrest : subscribedFunctions (.unsubscribe i :: rest) = subscribedFunctions rest := by
      simp [subscribedFunctions]
    rw [hrest] at h
    cases hreg : regs[i]? with
    | none => exact retireFunction_eq_retireOne rest regs h
    | some p =>
      obtain ⟨fn, b⟩ := p
      simp only
      have hnd : (regs.map (fun p => p.1)).Nodup := (List.nodup_append.mp h).1
      rw [retire_eq_set regs i fn b hnd hreg]
      apply retireFunction_eq_retireOne rest
      rw [map_fst_set regs i fn b false hreg]; exact h

/-- C1 (amended): for every world, every initial value, every sequence of subscribe calls,
unsubscribe calls and assignments on a new Observable, and every value `v` assigned
afterwards while the value is `old`, the assignment returns normally, calls exactly the
live registrations, each once, in subscription order, each with `(v, old)`, and afterwards
the value reads `v`; a registration is live when no unsubscribe closure of its function
was called after it was made. When no function is subscribed more than once, the live
registrations are exactly the subscribers that were subscribed and whose own closure was
not called. -/
theorem observable_notifies_live_registrations (w0 : World) (init : JSValue)
    (events : List Event) (v : JSValue) :
    NotifiesExactly liveRegistrations w0 init events v ∧
      ((subscribedFunctions events).Nodup →
        liveRegistrations events = liveSubscribers events) := by
  constructor
  · have h0 : Tracks w0.heap.length
        { world := (Observable.new w0 init).1, closures := [] } [] :=
      ⟨⟨init, by simp [Observable.new]⟩, rfl⟩
    obtain ⟨⟨old, hheap⟩, _⟩ := tracks_run events _ _ h0
    simp only [NotifiesExactly]
    have hr : (Observable.new w0 init).2 = w0.heap.length := rfl
    rw [hr]
    generalize Session.run w0.heap.length
      { world := (Observable.new w0 init).1, closures := [] } events = s at hheap
    have hlt := lt_of_get hheap
    rw [setValue_callbacks v hheap (by simp [Observer.target])]
    refine ⟨old, by simp [Observable.value, hheap], rfl, ?_, ?_⟩
    · have hmap : ∀ l : List (Nat × Bool), l.map (fun p => Observer.callback p.1) =
          (l.map (fun p => p.1)).map Observer.callback := fun l => by simp [List.map_map]
      simp only [hmap, callbackCalls_map_callback, liveRegistrations]
    · simp [Observable.value, List.getElem?_set, hlt]
  · intro hnd
    simp only [liveRegistrations, liveSubscribers]
    rw [retireFunction_eq_retireOne events [] (by simpa using hnd)]

/-- C1 as stated fails: subscribe the same function twice and call the first closure. The
second registration was never unsubscribed, yet the next assignment calls nobody. -/
theorem observable_notification_counterexample :
    ¬ NotifiesExactly liveSubscribers World.empty (.number 0)
      [.subscribe 7, .subscribe 7, .unsubscribe 0] (.number 1) := by
  rintro ⟨old, _, _, h2, _⟩
  have hc : (Observable.setValue (Session.run (Observable.new World.empty (.number 0)).2
      { world := (Observable.new World.empty (.number 0)).1, closures := [] }
      [.subscribe 7, .subscribe 7, .unsubscribe 0]).world
      (Observable.new World.empty (.number 0)).2 (.number 1)).2.calls = [] := rfl
  have hs : (Session.run (Observable.new World.empty (.number 0)).2
      { world := (Observable.new World.empty (.number 0)).1, closures := [] }
      [.subscribe 7, .subscribe 7, .unsubscribe 0]).world.calls = [] := rfl
  simp only [hc, hs] at h2
  revert h2
  simp [liveSubscribers, retireOne]

/-! ## Changing an observer list keeps the world well-formed -/

theorem wellFormed_iff {w : World} :
    w.wellFormed = true ↔
      (∀ p ∈ w._state, p.2 < w.heap.length) ∧
        ∀ r observer, observer ∈ w.observers r → Observer.wired w r observer = true := by
  simp only [World.wellFormed, Bool.and_eq_true, List.all_eq_true, decide_eq_true_eq,
    List.mem_range]
  constructor
  · rintro ⟨h1, h2⟩
    exact ⟨h1, fun r observer h => h2 r (lt_of_mem_observers h) observer h⟩
  · rintro ⟨h1, h2⟩
    exact ⟨h1, fun r _ observer h => h2 r observer h⟩

theorem wired_of_target_none {w : World} {r : Nat} {observer : Observer}
    (h : observer.target = none) : Observer.wired w r observer = true := by
  cases observer with
  | callback id => rfl
  | recompute id deps f t => simp [Observer.target] at h

theorem observers_store {w : World} {r : Nat} {o : Observable} (hr : r < w.heap.length)
    (t : Nat) : (w.store r o).observers t = if t = r then o._observers else w.observers t := by
  by_cases h : t = r
  · subst h
    simp [World.observers, store_get_self hr]
  · simp [World.observers, store_get_other h, h]

/-- Replacing the observer list of one Observable by observers that were there before, or
that are caller-supplied functions, keeps the world well-formed. -/
theorem wellFormed_store_observers {w : World} {r : Nat} {o : Observable}
    (hw : w.wellFormed = true) (hr : w.heap[r]? = some o) (l : List Observer)
    (hl : ∀ observer ∈ l, observer ∈ o._observers ∨ observer.target = none) :
    (w.store r { o with _observers := l }).wellFormed = true := by
  obtain ⟨h1, h2⟩ := wellFormed_iff.mp hw
  rw [wellFormed_iff]
  have hlen : (w.store r { o with _observers := l }).heap.length = w.heap.length := by
    simp [World.store]
  refine ⟨fun p hp => by rw [hlen]; exact h1 p hp, ?_⟩
  intro t observer hmem
  rw [observers_store (lt_of_get hr)] at hmem
  have hsame : ∀ ob, Observer.wired (w.store r { o with _observers := l }) t ob =
      Observer.wired w t ob := by
    intro ob
    cases ob with
    | callback id => rfl
    | recompute id deps f t' => simp [Observer.wired, hlen, World.store, World.lookup]
  rw [hsame]
  by_cases ht : t = r
  · subst ht
    simp only [if_true] at hmem
    rcases hl observer hmem with h | h
    · exact h2 t observer (by rw [observers_of_get hr]; exact h)
    · exact wired_of_target_none h
  · simp only [ht, if_false] at hmem
    exact h2 t observer hmem

theorem subscribe_callback_spec {w : World} {r : Nat} {o : Observable} (fn : Nat)
    (hr : w.heap[r]? = some o) :
    Observable.subscribe w r (.callback fn) =
      (.ok { observable := r, observer := .callback fn },
        w.store r { o with _observers := o._observers ++ [.callback fn] }) := by
  simp [Observable.subscribe, hr]

theorem wellFormed_subscribe_callback {w : World} {r : Nat} (fn : Nat)
    (hw : w.wellFormed = true) :
    (Observable.subscribe w r (.callback fn)).2.wellFormed = true := by
  unfold Observable.subscribe
  cases hr : w.heap[r]? with
  | none => exact hw
  | some o =>
    refine wellFormed_store_observers hw hr _ ?_
    intro observer hmem
    rcases List.mem_append.mp hmem with h | h
    · exact Or.inl h
    · simp only [List.mem_singleton] at h
      subst h
      exact Or.inr rfl

theorem wellFormed_unsubscribe {w : World} (u : Unsubscribe) (hw : w.wellFormed = true) :
    (Unsubscribe.call w u).2.wellFormed = true := by
  unfold Unsubscribe.call
  cases hr : w.heap[u.observable]? with
  | none => exact hw
  | some o =>
    exact wellFormed_store_observers hw hr _ (fun ob hob => Or.inl (List.mem_of_mem_filter hob))

theorem mem_callbackCalls {r : Nat} {n o : JSValue} {l : List Observer} {c : Call}
    (h : c ∈ callbackCalls r n o l) : Observer.callback c.callback ∈ l := by
  simp only [callbackCalls, List.mem_filterMap] at h
  obtain ⟨observer, hmem, hc⟩ := h
  cases observer with
  | callback id =>
    simp only [Observer.callbackId, Option.map_some', Option.some.injEq] at hc
    subst hc
    exact hmem
  | recompute id deps f t => simp [Observer.callbackId] at hc

/-- The setter in a well-formed world: it returns normally, the wiring is kept, the value
is stored, Observables that do not depend on `r` are left alone, and the caller-supplied
observers of `r` are each called once with the new and the old value. -/
theorem setValue_spec {w : World} {r : Nat} {o : Observable} (hw : w.wellFormed = true)
    (hr : w.heap[r]? = some o) (v : JSValue) :
    (Observable.setValue w r v).1 = .ok () ∧ SameWiring w (Observable.setValue w r v).2 ∧
      (Observable.setValue w r v).2.heap[r]? = some { o with _value := v } ∧
      (∀ t, t ≠ r → ¬ DependsOn w t r →
        (Observable.setValue w r v).2.heap[t]? = w.heap[t]?) ∧
      callsFrom r (Observable.setValue w r v).2.calls =
        callsFrom r w.calls ++ callbackCalls r v o._value o._observers ∧
      ∃ extra, (Observable.setValue w r v).2.calls = w.calls ++ extra ∧
        ∀ c ∈ extra, c.source = r ∨ DependsOn w c.source r := by
  simp only [Observable.setValue, Observable.assignValue, hr]
  exact store_notify hw hr v o._value

/-! ## One function subscribed twice -/

theorem store_store (w : World) (r : Nat) (a b : Observable) :
    (w.store r a).store r b = w.store r b := by
  simp [World.store]

/-- Subscribing `fn` twice and then calling the closure leaves the observer list that was
there before, without any registration of `fn`. -/
theorem subscribe_twice_unsubscribe {w : World} {r : Nat} {o : Observable} (fn : Nat)
    (hr : w.heap[r]? = some o) :
    (Unsubscribe.call
        (Observable.subscribe (Observable.subscribe w r (.callback fn)).2 r (.callback fn)).2
        { observable := r, observer := .callback fn }).2 =
      w.store r { o with _observers :=
        o._observers.filter (fun observer => !(observer.same (Observer.callback fn))) } := by
  have hlt := lt_of_get hr
  simp [Observable.subscribe, Unsubscribe.call, hr, store_get_self, hlt, store_store,
    List.filter_append, same_callback]

/-- C2 (amended): on every Observable, after the same function `fn` has been subscribed
twice, calling either of the two returned closures removes every registration of `fn`
(the rest of the observer list is kept, in order), so the next assignment returns
normally and does not call `fn` at all on behalf of this Observable. -/
theorem unsubscribe_removes_every_registration (w : World) (r : Nat) (o : Observable)
    (fn : Nat) (v : JSValue) (u : Unsubscribe) (hw : w.wellFormed = true)
    (hr : w.heap[r]? = some o) (hu : isClosureOfTwo w r fn u) :
    ((Unsubscribe.call
        (Observable.subscribe (Observable.subscribe w r (.callback fn)).2 r (.callback fn)).2
        u).2.observers r =
      o._observers.filter (fun observer => !(observer.same (.callback fn)))) ∧
    (Observable.setValue
        (Unsubscribe.call
          (Observable.subscribe (Observable.subscribe w r (.callback fn)).2 r
            (.callback fn)).2 u).2 r v).1 = .ok () ∧
    callsAfterOneUnsubscribe w r fn v u = [] := by
  have hlt := lt_of_get hr
  have hueq : u = { observable := r, observer := .callback fn } := by
    have h1 := subscribe_callback_spec fn hr
    have h2 := subscribe_callback_spec fn
      (store_get_self (o := { o with _observers := o._observers ++ [.callback fn] }) hlt)
    simp only [isClosureOfTwo, h1, h2] at hu
    rcases hu with h | h <;> simpa using h.symm
  subst hueq
  have hw3 := wellFormed_store_observers hw hr
    (o._observers.filter (fun observer => !(observer.same (Observer.callback fn))))
    (fun ob hob => Or.inl (List.mem_of_mem_filter hob))
  have hr3 : (w.store r ⟨o._value,
      o._observers.filter (fun observer => !(observer.same (Observer.callback fn))),
      o.unsubscribeAll⟩).heap[r]? = some _ := store_get_self hlt
  simp only [callsAfterOneUnsubscribe, subscribe_twice_unsubscribe fn hr]
  generalize w.store r ⟨o._value,
      o._observers.filter (fun observer => !(observer.same (Observer.callback fn))),
      o.unsubscribeAll⟩ = w3 at hw3 hr3 ⊢
  obtain ⟨hok, _, _, _, hfrom, extra, hcalls, _⟩ := setValue_spec hw3 hr3 v
  refine ⟨observers_of_get hr3, hok, ?_⟩
  rw [hcalls, callsFrom_append] at hfrom
  have hextra := List.append_cancel_left hfrom
  rw [hcalls, List.drop_left, hextra, List.filter_eq_nil_iff]
  intro c hc
  have hmem := mem_callbackCalls hc
  have := (List.mem_filter.mp hmem).2
  simpa [same_callback] using this

/-- C2 as stated fails: with `fn` subscribed twice to a new Observable, after the first
closure is called the next assignment does not call `fn` once but not at all. -/
theorem one_unsubscribe_counterexample :
    ¬ (∀ u, isClosureOfTwo (Observable.new World.empty (.number 0)).1 0 7 u →
        (callsAfterOneUnsubscribe (Observable.new World.empty (.number 0)).1 0 7
          (.number 1) u).length = 1) := by
  intro h
  have := h { observable := 0, observer := .callback 7 } (Or.inl rfl)
  revert this
  decide

/-- Witness for C2: a new Observable holding `0`, the function `7`, the first closure. -/
theorem unsubscribe_removes_every_registration_witness :
    (exampleCounter.wellFormed = true ∧
      exampleCounter.heap[0]? = some ⟨.number 0, [], none⟩ ∧
      isClosureOfTwo exampleCounter 0 7 ⟨0, .callback 7⟩) ∧
    callsAfterOneUnsubscribe exampleCounter 0 7 (.number 1) ⟨0, .callback 7⟩ = [] :=
  ⟨⟨rfl, rfl, Or.inl rfl⟩,
    (unsubscribe_removes_every_registration exampleCounter 0 ⟨.number 0, [], none⟩ 7
      (.number 1) ⟨0, .callback 7⟩ rfl rfl (Or.inl rfl)).2.2⟩

/-! ## Object spread -/

theorem getOwn_setOwn_self : ∀ (ps : Props) (k : String) (v : JSValue),
    getOwn (setOwn ps k v) k = some v
  | [], k, v => by simp [setOwn, getOwn]
  | (k', v') :: rest, k, v => by
    by_cases h : k' = k
    · simp [setOwn, getOwn, h]
    · simp [setOwn, getOwn, h, getOwn_setOwn_self rest k v]

theorem getOwn_setOwn_other : ∀ (ps : Props) (k j : String) (v : JSValue), j ≠ k →
    getOwn (setOwn ps k v) j = getOwn ps j
  | [], k, j, v, h => by simp [setOwn, getOwn, Ne.symm h]
  | (k', v') :: rest, k, j, v, h => by
    by_cases hk : k' = k
    · subst hk
      simp [setOwn, getOwn, Ne.symm h]
    · by_cases hj : k' = j
      · subst hj
        simp [setOwn, getOwn, hk]
      · simp [setOwn, getOwn, hk, hj, getOwn_setOwn_other rest k j v h]

theorem getOwn_eq_none_of_not_mem : ∀ (ps : Props) (k : String),
    k ∉ ps.map (fun p => p.1) → getOwn ps k = none
  | [], _, _ => rfl
  | (k', v') :: rest, k, h => by
    simp only [List.map_cons, List.mem_cons, not_or] at h
    simp [getOwn, Ne.symm h.1, getOwn_eq_none_of_not_mem rest k h.2]

/-- Copying properties one by one: a key of the source gets the source's value, every
other key keeps the value it had. -/
theorem getOwn_foldl_setOwn : ∀ (src target : Props) (k : String),
    (src.map (fun p => p.1)).Nodup →
      getOwn (src.foldl (fun acc kv => setOwn acc kv.1 kv.2) target) k =
        match getOwn src k with
        | some x => some x
        | none => getOwn target k
  | [], _, _, _ => rfl
  | (k1, v1) :: rest, target, k, h => by
    simp only [List.map_cons, List.nodup_cons] at h
    rw [List.foldl_cons, getOwn_foldl_setOwn rest _ k h.2]
    by_cases hk : k1 = k
    · subst hk
      simp [getOwn, getOwn_eq_none_of_not_mem rest k1 h.1, getOwn_setOwn_self]
    · simp only [getOwn, hk, if_false]
      rw [getOwn_setOwn_other _ _ _ _ (Ne.symm hk)]

theorem setOwn_of_not_mem : ∀ (ps : Props) (k : String) (v : JSValue),
    k ∉ ps.map (fun p => p.1) → setOwn ps k v = ps ++ [(k, v)]
  | [], _, _, _ => rfl
  | (k', v') :: rest, k, v, h => by
    simp only [List.map_cons, List.mem_cons, not_or] at h
    simp [setOwn, Ne.symm h.1, setOwn_of_not_mem rest k v h.2]

theorem foldl_setOwn_append : ∀ (src target : Props),
    ((target ++ src).map (fun p => p.1)).Nodup →
      src.foldl (fun acc kv => setOwn acc kv.1 kv.2) target = target ++ src
  | [], target, _ => by simp
  | (k, v) :: rest, target, h => by
    have hk : k ∉ target.map (fun p => p.1) := by
      intro hmem
      simp only [List.map_append, List.map_cons] at h
      have := (List.nodup_append.mp h).2.2
      exact this hmem (List.mem_cons_self _ _)
    rw [List.foldl_cons, setOwn_of_not_mem target k v hk,
      foldl_setOwn_append rest (target ++ [(k, v)]) (by simpa using h)]
    simp

/-- The copy `{ ...value }` of a record is the record. -/
theorem spread_nil_object {ps : Props} (h : (ps.map (fun p => p.1)).Nodup) :
    spread [] (.object ps) = ps := by
  simpa [spread, ownEnumerable] using foldl_setOwn_append ps [] (by simpa using h)

/-! ## The method update -/

/-- C3: for every Observable of a well-formed world whose value is a record `ps`, and
every record `qs` of updates, `update(qs)` returns normally; the new value is a record
that has the value of `qs` at every key of `qs`, the value of `ps` at every other key of
`ps`, and no other key; and every caller-supplied observer is called once, in order, with
the merged record and a record equal to `ps`. -/
theorem update_shallow_merge (w : World) (r : Nat) (o : Observable) (ps qs : Props)
    (hw : w.wellFormed = true) (hr : w.heap[r]? = some o) (hv : o._value = .object ps)
    (hps : (ps.map (fun p => p.1)).Nodup) (hqs : (qs.map (fun p => p.1)).Nodup) :
    ∃ merged : Props,
      (Observable.update w r (.object qs)).1 = .ok () ∧
      Observable.value (Observable.update w r (.object qs)).2 r = .ok (.object merged) ∧
      (∀ k, getOwn merged k =
        match getOwn qs k with
        | some x => some x
        | none => getOwn ps k) ∧
      callsFrom r (Observable.update w r (.object qs)).2.calls =
        callsFrom r w.calls ++ callbackCalls r (.object merged) (.object ps) o._observers := by
  refine ⟨spread ps (.object qs), ?_⟩
  have hupd : Observable.update w r (.object qs) =
      Observable._notifyObservers w.heap.length
        (w.store r { o with _value := .object (spread ps (.object qs)) }) r
        (.object (spread ps (.object qs))) (.object ps) := by
    simp [Observable.update, hr, hv, JSValue.typeof, JSValue.isArray, spread_nil_object hps]
  rw [hupd]
  obtain ⟨hok, _, hcell, _, hfrom, _⟩ :=
    store_notify hw hr (.object (spread ps (.object qs))) (.object ps)
  refine ⟨hok, ?_, ?_, hfrom⟩
  · simp only [Observable.value]
    rw [hcell]
  · intro k
    simpa [spread, ownEnumerable] using getOwn_foldl_setOwn qs ps k hqs

/-- Witness for C3: `update({a: 1})` on `{a: 0, b: 2}` yields `{a: 1, b: 2}`, and the
subscriber receives the new record and the old one. -/
theorem update_shallow_merge_witness :
    (exampleRecord.wellFormed = true ∧
      exampleRecord.heap[0]? =
        some ⟨.object [("a", .number 0), ("b", .number 2)], [.callback 1], none⟩) ∧
    (∃ merged : Props,
      (Observable.update exampleRecord 0 (.object [("a", .number 1)])).1 = .ok () ∧
      Observable.value (Observable.update exampleRecord 0 (.object [("a", .number 1)])).2 0 =
        .ok (.object merged) ∧
      (∀ k, getOwn merged k =
        match getOwn [("a", .number 1)] k with
        | some x => some x
        | none => getOwn [("a", .number 0), ("b", .number 2)] k) ∧
      callsFrom 0 (Observable.update exampleRecord 0 (.object [("a", .number 1)])).2.calls =
        callsFrom 0 exampleRecord.calls ++
          callbackCalls 0 (.object merged)
            (.object [("a", .number 0), ("b", .number 2)]) [.callback 1]) ∧
    Observable.value (Observable.update exampleRecord 0 (.object [("a", .number 1)])).2 0 =
      .ok (.object [("a", .number 1), ("b", .number 2)]) :=
  ⟨⟨rfl, rfl⟩,
    update_shallow_merge exampleRecord 0
      ⟨.object [("a", .number 0), ("b", .number 2)], [.callback 1], none⟩
      [("a", .number 0), ("b", .number 2)] [("a", .number 1)] rfl rfl rfl
      (by decide) (by decide),
    rfl⟩

/-- The guard of `update` rejects `undefined`, booleans, numbers, strings and arrays: the
error is raised before anything is stored or anybody is called. -/
theorem update_rejects (w : World) (r : Nat) (o : Observable) (updates : JSValue)
    (hr : w.heap[r]? = some o)
    (hv : o._value = .undefined ∨ (∃ b, o._value = .boolean b) ∨ (∃ n, o._value = .number n) ∨
      (∃ s, o._value = .string s) ∨ (∃ items, o._value = .array items)) :
    Observable.update w r updates = (.error .invalidOperation, w) := by
  rcases hv with h | ⟨b, h⟩ | ⟨n, h⟩ | ⟨s, h⟩ | ⟨items, h⟩ <;>
    simp [Observable.update, hr, h, JSValue.typeof, JSValue.isArray]

/-- C4, the code at the failing input: on an Observable that holds `null`, `update({a: 1})`
raises no error. It stores `{a: 1}` and calls the subscriber with `({a: 1}, {})`. -/
theorem update_accepts_null :
    Observable.value exampleNull 0 = .ok .null ∧
    (Observable.update exampleNull 0 (.object [("a", .number 1)])).1 = .ok () ∧
    Observable.value (Observable.update exampleNull 0 (.object [("a", .number 1)])).2 0 =
      .ok (.object [("a", .number 1)]) ∧
    (Observable.update exampleNull 0 (.object [("a", .number 1)])).2.calls =
      [⟨0, 1, .object [("a", .number 1)], .object []⟩] :=
  ⟨rfl, rfl, rfl, rfl⟩

/-! ## Looking up a state key -/

/-- The error of `getState` is raised exactly for a key that is neither an own property of
`_state` nor a name inherited from `Object.prototype`. -/
theorem getState_keyNotFound_iff (w : World) (key : String) :
    Store.getState w key = .error (.keyNotFound key) ↔
      w._state.lookup key = none ∧ key ∉ objectPrototypeNames := by
  unfold Store.getState World.lookup
  cases h : plainObjectGet w._state key with
  | none => simpa using plainObjectGet_none.mp h
  | some m =>
    constructor
    · intro h1
      cases h1
    · intro h1
      rw [plainObjectGet_none.mpr h1] at h
      cases h

/-- C5, the code at the failing input: in a store built from `{}` the key `constructor`
was never registered, yet `getState` returns the inherited member without an error,
`getValue` returns `undefined`, and `subscribe` fails with a `TypeError` rather than with
the key-not-found error. -/
theorem getState_inherited_name :
    Store.getState (Store.new []) "constructor" = .ok (.inherited "constructor") ∧
    Store.getValue (Store.new []) "constructor" = .ok .undefined ∧
    (Store.subscribe (Store.new []) "constructor" (.callback 1)).1 = .error .typeError :=
  ⟨rfl, rfl, rfl⟩

/-! ## Setting a state key -/

/-- C6, the code at the failing input: in a store built from `{}` the call
`setState("constructor", 1)` returns normally but creates no Observable and registers no
key; the value lands on the inherited member, `getState` still returns that member, and
`subscribe` on the key fails with a `TypeError`. -/
theorem setState_inherited_name :
    (Store.setState (Store.new []) "constructor" (.number 1)).1 = .ok () ∧
    (Store.setState (Store.new []) "constructor" (.number 1)).2.heap = [] ∧
    (Store.setState (Store.new []) "constructor" (.number 1)).2._state = [] ∧
    Store.getState (Store.setState (Store.new []) "constructor" (.number 1)).2 "constructor" =
      .ok (.inherited "constructor") ∧
    (Store.subscribe (Store.setState (Store.new []) "constructor" (.number 1)).2
      "constructor" (.callback 1)).1 = .error .typeError :=
  ⟨rfl, rfl, rfl, rfl, rfl⟩

/-! ## Selecting a store -/

/-- The four store names resolve to the four stores, and a name that is neither one of
them nor inherited from `Object.prototype` raises the unknown-store error. -/
theorem getStore_spec (this : StateManager) (storeName : String) :
    StateManager.getStore this "user" = .ok (.own .userStore) ∧
    StateManager.getStore this "course" = .ok (.own .courseStore) ∧
    StateManager.getStore this "progress" = .ok (.own .progressStore) ∧
    StateManager.getStore this "ui" = .ok (.own .uiStore) ∧
    (storeName ∉ ["user", "course", "progress", "ui"] → storeName ∉ objectPrototypeNames →
      StateManager.getStore this storeName = .error (.unknownStore storeName)) := by
  refine ⟨rfl, rfl, rfl, rfl, ?_⟩
  intro h1 h2
  simp only [List.mem_cons, List.mem_singleton, not_or, List.not_mem_nil, or_false] at h1
  obtain ⟨hu, hc, hp, hi⟩ := h1
  have hu1 : (storeName == "user") = false := by simpa using hu
  have hc1 : (storeName == "course") = false := by simpa using hc
  have hp1 : (storeName == "progress") = false := by simpa using hp
  have hi1 : (storeName == "ui") = false := by simpa using hi
  have hl : storeMap.lookup storeName = none := by
    simp [storeMap, List.lookup, hu1, hc1, hp1, hi1]
  simp [StateManager.getStore, plainObjectGet_none.mpr ⟨hl, h2⟩]

/-- C9, the code at the failing input: `getStore("constructor")` raises no error; it returns
the member that the object literal `storeMap` inherits from `Object.prototype`, which is
not a Store. -/
theorem getStore_inherited_name (this : StateManager) :
    StateManager.getStore this "constructor" = .ok (.inherited "constructor") :=
  rfl

/-! ## The derived state filteredCourses -/

theorem includes_iff (s sub : String) :
    includes s sub = true ↔ sub.toList <:+: s.toList := by
  simp only [includes, List.any_eq_true, List.mem_tails, List.isPrefixOf_iff_prefix]
  constructor
  · rintro ⟨t, hsuffix, hpre⟩
    exact List.infix_iff_prefix_suffix.mpr ⟨t, hpre, hsuffix⟩
  · intro h
    obtain ⟨t, hpre, hsuffix⟩ := List.infix_iff_prefix_suffix.mp h
    exact ⟨t, hsuffix, hpre⟩

theorem includes_eq_occursIn (s sub : String) : includes s sub = occursIn sub (some s) := by
  rw [Bool.eq_iff_iff, includes_iff]
  simp [occursIn]

theorem matchesExact_eq (filter field : Option String) :
    matchesExact filter field = decide (filter = none ∨ filter = some "" ∨ field = filter) := by
  cases filter with
  | none => simp [matchesExact]
  | some wanted =>
    by_cases h : wanted = ""
    · simp [matchesExact, h]
    · simp [matchesExact, h]

/-- On a course that carries a title and a description the callback of the filter returns
normally, with the verdict of the reference predicate. -/
theorem matchesFilters_eq_reference (toLowerCase : String → String) (filters : Filters)
    (course : Course) (h : course.title.isSome = true ∧ course.description.isSome = true) :
    matchesFilters toLowerCase filters course =
      .ok (matchesReference toLowerCase filters course) := by
  obtain ⟨ht, hd⟩ := h
  obtain ⟨title, htitle⟩ := Option.isSome_iff_exists.mp ht
  obtain ⟨description, hdescription⟩ := Option.isSome_iff_exists.mp hd
  simp only [matchesFilters, matchesReference, htitle, hdescription, matchesExact_eq,
    includes_eq_occursIn, Option.map_some']
  by_cases hs : filters.search = ""
  · simp [hs]
  · simp only [hs, if_false, false_or]
    by_cases hin : occursIn (toLowerCase filters.search) (some (toLowerCase title)) = true
    · simp [hin]
    · simp [hin, Bool.and_assoc]

theorem filterArray_ok {α : Type} (keep : α → Except JSError Bool) (test : α → Bool) :
    ∀ (xs : List α), (∀ x ∈ xs, keep x = .ok (test x)) →
      filterArray keep xs = .ok (xs.filter test)
  | [], _ => rfl
  | x :: xs, h => by
    have hx := h x (List.mem_cons_self _ _)
    have hxs := filterArray_ok keep test xs (fun y hy => h y (List.mem_cons_of_mem _ hy))
    simp only [filterArray, hx, hxs, List.filter_cons]

/-- C10: for every list of courses that carry a title and a description, and for all
filters, the compute function of `filteredCourses` returns the courses, in the original
order, that satisfy the reference predicate: category exact match or any, difficulty exact
match or any, and the lower-cased search text occurring in the lower-cased title or
description, with an empty search text matching everything. With category `null`,
difficulty `null` and search text empty the result is the whole list. -/
theorem filteredCourses_eq_reference (toLowerCase : String → String) (courses : List Course)
    (filters : Filters)
    (h : ∀ c ∈ courses, c.title.isSome = true ∧ c.description.isSome = true) :
    filteredCourses toLowerCase courses filters =
        .ok (courses.filter (matchesReference toLowerCase filters)) ∧
      filteredCourses toLowerCase courses { category := none, difficulty := none, search := "" }
        = .ok courses := by
  have key : ∀ f : Filters, filteredCourses toLowerCase courses f =
      .ok (courses.filter (matchesReference toLowerCase f)) := fun f =>
    filterArray_ok _ _ courses
      (fun c hc => matchesFilters_eq_reference toLowerCase f c (h c hc))
  refine ⟨key filters, ?_⟩
  rw [key]
  congr 1
  apply List.filter_eq_self.mpr
  intro c _
  simp [matchesReference]

/-- Witness for C10: two courses with title and description, filtered by the search
text `html`; the result is the first course. -/
theorem filteredCourses_eq_reference_witness :
    (∀ c ∈ exampleCourses, c.title.isSome = true ∧ c.description.isSome = true) ∧
    (filteredCourses asciiLower exampleCourses
        { category := none, difficulty := none, search := "html" } =
        .ok (exampleCourses.filter (matchesReference asciiLower
          { category := none, difficulty := none, search := "html" })) ∧
      filteredCourses asciiLower exampleCourses
        { category := none, difficulty := none, search := "" } = .ok exampleCourses) ∧
    filteredCourses asciiLower exampleCourses
        { category := none, difficulty := none, search := "html" } =
      .ok (exampleCourses.take 1) :=
  ⟨by decide,
    filteredCourses_eq_reference asciiLower exampleCourses
      { category := none, difficulty := none, search := "html" } (by decide),
    rfl⟩

/-! ## Binding a state key -/

theorem lookup_assign_self : ∀ (m : List (String × Nat)) (k : String) (r : Nat),
    (assign m k r).lookup k = some r
  | [], k, r => by simp [assign, List.lookup]
  | (k', r') :: rest, k, r => by
    by_cases h : k' = k
    · simp [assign, h, List.lookup]
    · have hb : (k == k') = false := by simpa using Ne.symm h
      simp [assign, h, List.lookup, hb, lookup_assign_self rest k r]

theorem lookup_assign_other : ∀ (m : List (String × Nat)) (k j : String) (r : Nat), j ≠ k →
    (assign m k r).lookup j = m.lookup j
  | [], k, j, r, h => by
    have hb : (j == k) = false := by simpa using h
    simp [assign, List.lookup, hb]
  | (k', r') :: rest, k, j, r, h => by
    by_cases hk : k' = k
    · subst hk
      have hb : (j == k') = false := by simpa using h
      simp [assign, List.lookup, hb]
    · simp only [assign, hk, if_false, List.lookup]
      rw [lookup_assign_other rest k j r h]

theorem mem_assign : ∀ (m : List (String × Nat)) (k : String) (r : Nat) (p : String × Nat),
    p ∈ assign m k r → p = (k, r) ∨ p ∈ m
  | [], k, r, p, h => by
    simp only [assign, List.mem_singleton] at h
    exact Or.inl h
  | (k', r') :: rest, k, r, p, h => by
    by_cases hk : k' = k
    · simp only [assign, hk, if_true, List.mem_cons] at h
      rcases h with h | h
      · exact Or.inl h
      · exact Or.inr (List.mem_cons_of_mem _ h)
    · simp only [assign, hk, if_false, List.mem_cons] at h
      rcases h with h | h
      · exact Or.inr (h ▸ List.mem_cons_self _ _)
      · rcases mem_assign rest k r p h with h1 | h1
        · exact Or.inl h1
        · exact Or.inr (List.mem_cons_of_mem _ h1)

/-! ## The subscription loop of createDerivedState -/

theorem store_subscribe_own {w : World} {dep : String} {r : Nat} {o : Observable}
    (observer : Observer) (hl : w.lookup dep = some (.own r)) (hr : w.heap[r]? = some o) :
    Store.subscribe w dep observer =
      (.ok { observable := r, observer := observer },
        w.store r { o with _observers := o._observers ++ [observer] }) := by
  simp [Store.subscribe, Store.getState, hl, Observable.subscribe, hr]

theorem grown_stay (deps : List String) (f : List JSValue → JSValue) (d : Nat) (w : World) :
    Grown deps f d w w [] :=
  { length := rfl, state := rfl, inherited := rfl, calls := rfl, arrows := Nat.le_refl _,
    values := fun _ => rfl, old := fun _ _ h => h, added := fun _ _ h => Or.inl h,
    valid := fun _ h => by simp at h }

theorem grown_append {deps : List String} {f : List JSValue → JSValue} {d : Nat}
    {a b c : World} {us1 us2 : List Unsubscribe} (h1 : Grown deps f d a b us1)
    (h2 : Grown deps f d b c us2) : Grown deps f d a c (us1 ++ us2) :=
  { length := h2.length.trans h1.length
    state := h2.state.trans h1.state
    inherited := h2.inherited.trans h1.inherited
    calls := h2.calls.trans h1.calls
    arrows := Nat.le_trans h1.arrows h2.arrows
    values := fun r => (h2.values r).trans (h1.values r)
    old := fun r ob h => h2.old r ob (h1.old r ob h)
    added := by
      intro r ob h
      rcases h2.added r ob h with hb | ⟨⟨id, he, hlo, hhi⟩, u, hu, hur⟩
      · rcases h1.added r ob hb with ha | ⟨⟨id, he, hlo, hhi⟩, u, hu, hur⟩
        · exact Or.inl ha
        · exact Or.inr ⟨⟨id, he, hlo, Nat.lt_of_lt_of_le hhi h2.arrows⟩, u,
            List.mem_append_left _ hu, hur⟩
      · exact Or.inr ⟨⟨id, he, Nat.le_trans h1.arrows hlo, hhi⟩, u,
          List.mem_append_right _ hu, hur⟩
    valid := by
      intro u hu
      rcases List.mem_append.mp hu with h | h
      · exact h1.valid u h
      · obtain ⟨⟨dep, hdep⟩, hcb⟩ := h2.valid u h
        exact ⟨⟨dep, by simpa [World.lookup, h1.state] using hdep⟩, hcb⟩ }

/-- One round of the loop: a new arrow function is appended to the observer list of the
dependency. -/
theorem grown_step {deps : List String} {f : List JSValue → JSValue} {d : Nat} {w : World}
    {dep : String} {r : Nat} {o : Observable} (hl : w.lookup dep = some (.own r))
    (hr : w.heap[r]? = some o) :
    Grown deps f d w
      (({ w with arrows := w.arrows + 1 } : World).store r
        { o with _observers := o._observers ++ [.recompute w.arrows deps f d] })
      [{ observable := r, observer := .recompute w.arrows deps f d }] := by
  have hlt := lt_of_get hr
  have hobs : ∀ t, (({ w with arrows := w.arrows + 1 } : World).store r
      { o with _observers := o._observers ++ [.recompute w.arrows deps f d] }).observers t =
      if t = r then o._observers ++ [.recompute w.arrows deps f d] else w.observers t := by
    intro t
    rw [observers_store (by simpa using hlt)]
    rfl
  refine { length := by simp [World.store], state := rfl, inherited := rfl, calls := rfl,
           arrows := by simp [World.store], values := ?_, old := ?_, added := ?_, valid := ?_ }
  · intro t
    by_cases ht : t = r
    · subst ht
      simp [World.store, List.getElem?_set, hlt, hr]
    · simp [World.store, List.getElem?_set, Ne.symm ht]
  · intro t ob h
    rw [hobs]
    by_cases ht : t = r
    · subst ht
      rw [observers_of_get hr] at h
      simp [h]
    · simpa [ht] using h
  · intro t ob h
    rw [hobs] at h
    by_cases ht : t = r
    · subst ht
      simp only [if_true, List.mem_append, List.mem_singleton] at h
      rcases h with h | h
      · exact Or.inl (by rw [observers_of_get hr]; exact h)
      · exact Or.inr ⟨⟨w.arrows, h, Nat.le_refl _, by simp [World.store]⟩, _,
          List.mem_singleton_self _, rfl, h.symm⟩
    · simp only [ht, if_false] at h
      exact Or.inl h
  · intro u hu
    simp only [List.mem_singleton] at hu
    subst hu
    exact ⟨⟨dep, hl⟩, rfl⟩

/-- The subscription loop returns normally when every dependency still to do is a
registered key, and then every such dependency carries an arrow function of the derived
state. -/
theorem subscribeDependencies_grown (deps : List String) (f : List JSValue → JSValue)
    (d : Nat) : ∀ (todo : List String) (w : World),
      (∀ dep ∈ todo, ∃ r o, w.lookup dep = some (.own r) ∧ w.heap[r]? = some o) →
      ∃ unsubs w2, Store.subscribeDependencies deps f d todo w = (.ok unsubs, w2) ∧
        Grown deps f d w w2 unsubs ∧
        ∀ dep ∈ todo, ∀ r, w.lookup dep = some (.own r) →
          ∃ id, Observer.recompute id deps f d ∈ w2.observers r
  | [], w, _ => ⟨[], w, rfl, grown_stay deps f d w, fun _ h => by simp at h⟩
  | dep :: rest, w, h => by
    obtain ⟨r, o, hl, hr⟩ := h dep (List.mem_cons_self _ _)
    have hstep : Grown deps f d w _ _ := grown_step hl hr
    have hsub := store_subscribe_own (w := { w with arrows := w.arrows + 1 })
      (.recompute w.arrows deps f d) hl hr
    have hobs : Observer.recompute w.arrows deps f d ∈
        (({ w with arrows := w.arrows + 1 } : World).store r
          ⟨o._value, o._observers ++ [.recompute w.arrows deps f d],
            o.unsubscribeAll⟩).observers r := by
      rw [observers_store (by simpa using lt_of_get hr)]
      simp
    generalize (({ w with arrows := w.arrows + 1 } : World).store r
      ⟨o._value, o._observers ++ [.recompute w.arrows deps f d], o.unsubscribeAll⟩) = wa
      at hstep hsub hobs
    obtain ⟨unsubs, w2, hrest, hgrown, harrow⟩ :=
      subscribeDependencies_grown deps f d rest wa (by
        intro dep' hdep'
        obtain ⟨r', o', hl', hr'⟩ := h dep' (List.mem_cons_of_mem _ hdep')
        have hlt : r' < wa.heap.length := by
          rw [hstep.length]; exact lt_of_get hr'
        obtain ⟨o2, ho2⟩ := get_of_lt hlt
        exact ⟨r', o2, by simpa [World.lookup, hstep.state] using hl', ho2⟩)
    refine ⟨_ :: unsubs, w2, ?_, grown_append hstep hgrown, ?_⟩
    · simp only [Store.subscribeDependencies, hsub, hrest]
    · intro dep' hdep' r' hl'
      rcases List.mem_cons.mp hdep' with heq | hmem
      · subst heq
        rw [hl] at hl'
        cases hl'
        exact ⟨w.arrows, hgrown.old r _ hobs⟩
      · exact harrow dep' hmem r' (by simpa [World.lookup, hstep.state] using hl')

/-! ## Values read through state keys -/

theorem valueAt_store_self {w : World} {r : Nat} {o : Observable} (h : r < w.heap.length) :
    valueAt (w.store r o) r = some o._value := by
  simp [valueAt, store_get_self h]

theorem valueAt_store_other {w : World} {r t : Nat} {o : Observable} (h : t ≠ r) :
    valueAt (w.store r o) t = valueAt w t := by
  simp [valueAt, store_get_other h]

theorem value_eq_of_valueAt {w w' : World} {r : Nat} (h : valueAt w' r = valueAt w r) :
    Observable.value w' r = Observable.value w r := by
  unfold valueAt at h
  unfold Observable.value
  cases h1 : w'.heap[r]? <;> cases h2 : w.heap[r]? <;> simp_all

theorem getValue_eq_of_agree {w w' : World} {key : String} (hs : w'._state = w._state)
    (hi : w'.inheritedValue = w.inheritedValue)
    (hv : ∀ r, w.lookup key = some (.own r) → valueAt w' r = valueAt w r) :
    Store.getValue w' key = Store.getValue w key := by
  have hl : w'.lookup key = w.lookup key := by simp [World.lookup, hs]
  unfold Store.getValue Store.getState
  rw [hl]
  cases h : w.lookup key with
  | none => rfl
  | some m =>
    cases m with
    | own r => exact value_eq_of_valueAt (hv r h)
    | inherited name => simp [hi]

theorem getValues_eq_of_agree {w w' : World} (hs : w'._state = w._state)
    (hi : w'.inheritedValue = w.inheritedValue) :
    ∀ (keys : List String),
      (∀ key ∈ keys, ∀ r, w.lookup key = some (.own r) → valueAt w' r = valueAt w r) →
      Store.getValues w' keys = Store.getValues w keys
  | [], _ => rfl
  | key :: rest, h => by
    simp only [Store.getValues]
    rw [getValue_eq_of_agree hs hi (h key (List.mem_cons_self _ _)),
      getValues_eq_of_agree hs hi rest (fun k hk => h k (List.mem_cons_of_mem _ hk))]

theorem getValue_own {w : World} {key : String} {r : Nat}
    (h : w.lookup key = some (.own r)) : Store.getValue w key = Observable.value w r := by
  simp [Store.getValue, Store.getState, h]

theorem value_eq_ok_iff {w : World} {r : Nat} {v : JSValue} :
    Observable.value w r = .ok v ↔ valueAt w r = some v := by
  unfold Observable.value valueAt
  cases w.heap[r]? <;> simp

/-! ## A derived state during a notification -/

theorem DerivedAt.transfer {w w' : World} {key : String} {d : Nat} {deps : List String}
    {f : List JSValue → JSValue} (h : DerivedAt w key d deps f) (hs : SameWiring w w') :
    DerivedAt w' key d deps f :=
  { wf := hs.wellFormed h.wf
    bound := by rw [hs.lookup]; exact h.bound
    deps := fun dep hd => by rw [hs.lookup]; exact h.deps dep hd
    only := fun r ob hob => by rw [hs.observers] at hob; exact h.only r ob hob }

theorem Attached.carry {w w' : World} {d : Nat} {deps : List String}
    {f : List JSValue → JSValue} (h : Attached w d deps f) (hs : SameWiring w w') :
    Attached w' d deps f := by
  intro dep hd r hl
  rw [hs.lookup] at hl
  rw [hs.observers]
  exact h dep hd r hl

/-- Consistency only looks at the relevant Observables. -/
theorem Consistent.of_agree {w w' : World} {d : Nat} {deps : List String}
    {f : List JSValue → JSValue} (hc : Consistent w d deps f) (hs : SameWiring w w')
    (ha : ∀ t, Relevant w d deps t → valueAt w' t = valueAt w t) :
    Consistent w' d deps f := by
  obtain ⟨args, hargs, hval⟩ := hc
  refine ⟨args, ?_, ?_⟩
  · rw [getValues_eq_of_agree hs.state hs.inherited deps
      (fun dep hd r hl => ha r (Or.inr ⟨dep, hd, hl⟩))]
    exact hargs
  · rw [ha d (Or.inl rfl)]; exact hval

/-- One observer is called while the derived state `d` is attached: afterwards `d` is
consistent or no relevant Observable has changed, and `d` is consistent when the observer
writes `d`. -/
theorem invoke_consistent {w : World} {key : String} {d : Nat} {deps : List String}
    {f : List JSValue → JSValue} (hd : DerivedAt w key d deps f) (ha : Attached w d deps f)
    {notify : World → Nat → JSValue → JSValue → Except JSError Unit × World}
    (hnotify : ∀ wb t n o, SameWiring w wb → (notify wb t n o).1 = .ok () →
      SameWiring wb (notify wb t n o).2 ∧
      (Consistent (notify wb t n o).2 d deps f ∨
        ∀ x, Relevant w d deps x → valueAt (notify wb t n o).2 x = valueAt wb x) ∧
      ((∃ id, Observer.recompute id deps f d ∈ w.observers t) →
        Consistent (notify wb t n o).2 d deps f))
    {r : Nat} {w1 : World} (hw1 : SameWiring w w1) {observer : Observer}
    (hmem : observer ∈ w.observers r) (newValue oldValue : JSValue)
    (hok : (Observer.invoke (Observable.assignValue notify) r newValue oldValue w1 observer).1
      = .ok ()) :
    SameWiring w1
        (Observer.invoke (Observable.assignValue notify) r newValue oldValue w1 observer).2 ∧
      (Consistent
          (Observer.invoke (Observable.assignValue notify) r newValue oldValue w1 observer).2
          d deps f ∨
        ∀ x, Relevant w d deps x →
          valueAt (Observer.invoke (Observable.assignValue notify) r newValue oldValue w1
            observer).2 x = valueAt w1 x) ∧
      (observer.target = some d →
        Consistent
          (Observer.invoke (Observable.assignValue notify) r newValue oldValue w1 observer).2
          d deps f) := by
  cases observer with
  | callback id =>
    refine ⟨sameWiring_call w1 _, Or.inr (fun _ _ => rfl), ?_⟩
    intro h
    simp [Observer.target] at h
  | recompute id deps' f' t =>
    simp only [Observer.invoke] at hok ⊢
    cases hargs : Store.getValues w1 deps' with
    | error e => simp [hargs] at hok
    | ok args =>
      simp only [hargs, Observable.assignValue] at hok ⊢
      cases ht : w1.heap[t]? with
      | none => simp [ht] at hok
      | some target =>
        simp only [ht] at hok ⊢
        have hsw := sameWiring_store_value (f' args) ht
        have hwb := hw1.andThen hsw
        obtain ⟨hsame, hweak, hstrong⟩ := hnotify _ t (f' args) target._value hwb hok
        have hlt := lt_of_get ht
        refine ⟨hsw.andThen hsame, ?_, ?_⟩
        · by_cases htd : t = d
          · -- the observer writes `d`: consistent right after the write
            subst htd
            obtain ⟨id', heq⟩ := hd.only r _ hmem rfl
            simp only [Observer.recompute.injEq] at heq
            obtain ⟨_, hdeps, hf, _⟩ := heq
            subst hdeps hf
            have hcons : Consistent (w1.store t { target with _value := f' args }) t deps' f' := by
              refine ⟨args, ?_, valueAt_store_self hlt⟩
              rw [getValues_eq_of_agree hsw.state hsw.inherited deps' (fun dep hdep x hl => by
                obtain ⟨x', hl', hne⟩ := hd.deps dep hdep
                rw [hw1.lookup, hl'] at hl
                cases hl
                exact valueAt_store_other hne)]
              exact hargs
            rcases hweak with h | h
            · exact Or.inl h
            · exact Or.inl ((hcons.of_agree hsame (fun x hx => h x (by
                simpa [Relevant, World.lookup, hwb.state] using hx))))
          · by_cases hrel : ∃ dep ∈ deps, w.lookup dep = some (.own t)
            · obtain ⟨dep, hdep, hl⟩ := hrel
              exact Or.inl (hstrong (ha dep hdep t hl))
            · rcases hweak with h | h
              · exact Or.inl h
              · refine Or.inr (fun x hx => ?_)
                rw [h x hx]
                apply valueAt_store_other
                rintro rfl
                rcases hx with hx | hx
                · exact htd hx
                · exact hrel hx
        · intro htarget
          simp only [Observer.target, Option.some.injEq] at htarget
          subst htarget
          obtain ⟨id', heq⟩ := hd.only r _ hmem rfl
          simp only [Observer.recompute.injEq] at heq
          obtain ⟨_, hdeps, hf, _⟩ := heq
          subst hdeps hf
          have hcons : Consistent (w1.store t { target with _value := f' args }) t deps' f' := by
            refine ⟨args, ?_, valueAt_store_self hlt⟩
            rw [getValues_eq_of_agree hsw.state hsw.inherited deps' (fun dep hdep x hl => by
              obtain ⟨x', hl', hne⟩ := hd.deps dep hdep
              rw [hw1.lookup, hl'] at hl
              cases hl
              exact valueAt_store_other hne)]
            exact hargs
          rcases hweak with h | h
          · exact h
          · exact hcons.of_agree hsame (fun x hx => h x (by
              simpa [Relevant, World.lookup, hwb.state] using hx))

theorem relevant_congr {w w' : World} (hs : w'._state = w._state) (d : Nat)
    (deps : List String) (t : Nat) : Relevant w' d deps t ↔ Relevant w d deps t := by
  simp [Relevant, World.lookup, hs]

/-- The loop over observers while the derived state `d` is attached: afterwards `d` is
consistent or no relevant Observable has changed, and `d` is consistent when one of the
observers writes `d`. -/
theorem forEachObserver_consistent {w : World} {key : String} {d : Nat} {deps : List String}
    {f : List JSValue → JSValue} (hd : DerivedAt w key d deps f) (ha : Attached w d deps f)
    {notify : World → Nat → JSValue → JSValue → Except JSError Unit × World}
    (hnotify : ∀ wb t n o, SameWiring w wb → (notify wb t n o).1 = .ok () →
      SameWiring wb (notify wb t n o).2 ∧
      (Consistent (notify wb t n o).2 d deps f ∨
        ∀ x, Relevant w d deps x → valueAt (notify wb t n o).2 x = valueAt wb x) ∧
      ((∃ id, Observer.recompute id deps f d ∈ w.observers t) →
        Consistent (notify wb t n o).2 d deps f))
    {r : Nat} (newValue oldValue : JSValue) :
    ∀ (l : List Observer) (w1 : World), (∀ observer ∈ l, observer ∈ w.observers r) →
      SameWiring w w1 →
      (forEachObserver (fun w2 observer =>
        Observer.invoke (Observable.assignValue notify) r newValue oldValue w2 observer)
        l w1).1 = .ok () →
      SameWiring w1 (forEachObserver (fun w2 observer =>
        Observer.invoke (Observable.assignValue notify) r newValue oldValue w2 observer)
        l w1).2 ∧
      (Consistent (forEachObserver (fun w2 observer =>
          Observer.invoke (Observable.assignValue notify) r newValue oldValue w2 observer)
          l w1).2 d deps f ∨
        ∀ x, Relevant w d deps x →
          valueAt (forEachObserver (fun w2 observer =>
            Observer.invoke (Observable.assignValue notify) r newValue oldValue w2 observer)
            l w1).2 x = valueAt w1 x) ∧
      ((∃ observer ∈ l, observer.target = some d) →
        Consistent (forEachObserver (fun w2 observer =>
          Observer.invoke (Observable.assignValue notify) r newValue oldValue w2 observer)
          l w1).2 d deps f)
  | [], w1, _, _, _ =>
    ⟨SameWiring.stay w1, Or.inr (fun _ _ => rfl), fun h => by simp at h⟩
  | observer :: rest, w1, hl, hw1, hok => by
    have hmem := hl observer (List.mem_cons_self _ _)
    unfold forEachObserver at hok ⊢
    rcases hs : Observer.invoke (Observable.assignValue notify) r newValue oldValue w1
        observer with ⟨res, wa⟩
    simp only [hs] at hok ⊢
    cases res with
    | error e => simp at hok
    | ok u =>
      simp only at hok ⊢
      have hstep := invoke_consistent hd ha hnotify hw1 hmem newValue oldValue
        (by rw [hs])
      rw [hs] at hstep
      obtain ⟨hsa, hweak, hstrong⟩ := hstep
      have hwa := hw1.andThen hsa
      obtain ⟨hsr, hweakr, hstrongr⟩ := forEachObserver_consistent hd ha hnotify
        newValue oldValue rest wa (fun o ho => hl o (List.mem_cons_of_mem _ ho)) hwa hok
      have hcarry : Consistent wa d deps f →
          Consistent (forEachObserver (fun w2 observer =>
            Observer.invoke (Observable.assignValue notify) r newValue oldValue w2 observer)
            rest wa).2 d deps f := by
        intro hc
        rcases hweakr with h | h
        · exact h
        · exact hc.of_agree hsr (fun x hx =>
            h x ((relevant_congr hwa.state d deps x).mp hx))
      refine ⟨hsa.andThen hsr, ?_, ?_⟩
      · rcases hweakr with h | h
        · exact Or.inl h
        · rcases hweak with h1 | h1
          · exact Or.inl (hcarry h1)
          · exact Or.inr (fun x hx => (h x hx).trans (h1 x hx))
      · rintro ⟨ob, hob, htarget⟩
        rcases List.mem_cons.mp hob with heq | hin
        · subst heq
          exact hcarry (hstrong htarget)
        · exact hstrongr ⟨ob, hin, htarget⟩

/-- A notification that returns normally while the derived state `d` is attached leaves `d`
consistent or leaves every relevant Observable alone; and it leaves `d` consistent when it
is started at an Observable that carries an arrow function of `d`. -/
theorem notifyObservers_consistent {w : World} {key : String} {d : Nat} {deps : List String}
    {f : List JSValue → JSValue} (hd : DerivedAt w key d deps f) (ha : Attached w d deps f) :
    ∀ (fuel : Nat) (wb : World) (t : Nat) (n o : JSValue), SameWiring w wb →
      (Observable._notifyObservers fuel wb t n o).1 = .ok () →
      SameWiring wb (Observable._notifyObservers fuel wb t n o).2 ∧
      (Consistent (Observable._notifyObservers fuel wb t n o).2 d deps f ∨
        ∀ x, Relevant w d deps x →
          valueAt (Observable._notifyObservers fuel wb t n o).2 x = valueAt wb x) ∧
      ((∃ id, Observer.recompute id deps f d ∈ w.observers t) →
        Consistent (Observable._notifyObservers fuel wb t n o).2 d deps f)
  | 0, wb, t, n, o, _, hok => by simp [Observable._notifyObservers] at hok
  | fuel + 1, wb, t, n, o, hwb, hok => by
    rw [notifyObservers_succ] at hok ⊢
    cases ht : wb.heap[t]? with
    | none => simp [ht] at hok
    | some ob =>
      simp only [ht] at hok ⊢
      have hobs : w.observers t = ob._observers := by
        rw [← hwb.observers, observers_of_get ht]
      obtain ⟨h1, h2, h3⟩ := forEachObserver_consistent hd ha
        (notifyObservers_consistent hd ha fuel) n o ob._observers wb
        (fun x hx => by rw [hobs]; exact hx) hwb hok
      refine ⟨h1, h2, ?_⟩
      rintro ⟨id, hid⟩
      exact h3 ⟨Observer.recompute id deps f d, by rw [← hobs]; exact hid, rfl⟩

/-! ## Calls on the store after a derived state was created -/

theorem setState_own {w : World} {key : String} {r : Nat} (v : JSValue)
    (h : w.lookup key = some (.own r)) :
    Store.setState w key v = Observable.setValue w r v := by
  simp [Store.setState, h]

theorem updateState_own {w : World} {key : String} {r : Nat} (u : JSValue)
    (h : w.lookup key = some (.own r)) :
    Store.updateState w key u = Observable.update w r u := by
  simp [Store.updateState, h]

/-- The method `update` either rejects the value and changes nothing, or stores a record
and notifies. -/
theorem update_cases {w : World} {r : Nat} {o : Observable} (u : JSValue)
    (hr : w.heap[r]? = some o) :
    Observable.update w r u = (.error .invalidOperation, w) ∨
      ∃ merged old, Observable.update w r u =
        Observable._notifyObservers w.heap.length (w.store r { o with _value := merged })
          r merged old := by
  unfold Observable.update
  simp only [hr]
  split
  · exact Or.inr ⟨_, _, rfl⟩
  · exact Or.inl rfl

/-- Subscribing a caller-supplied function through the store changes nothing, or appends
the function to one observer list. -/
theorem store_subscribe_cases (w : World) (key : String) (fn : Nat) :
    (Store.subscribe w key (.callback fn)).2 = w ∨
      ∃ r o, w.heap[r]? = some o ∧
        (Store.subscribe w key (.callback fn)).2 =
          w.store r { o with _observers := o._observers ++ [.callback fn] } := by
  unfold Store.subscribe
  cases Store.getState w key with
  | error e => exact Or.inl rfl
  | ok m =>
    cases m with
    | inherited name => exact Or.inl rfl
    | own r =>
      simp only [Observable.subscribe]
      cases hr : w.heap[r]? with
      | none => exact Or.inl rfl
      | some o => exact Or.inr ⟨r, o, hr, rfl⟩

theorem DerivedAt.subscribed {w : World} {key : String} {d : Nat} {deps : List String}
    {f : List JSValue → JSValue} (h : DerivedAt w key d deps f) {r : Nat} {o : Observable}
    (hr : w.heap[r]? = some o) (fn : Nat) :
    DerivedAt (w.store r { o with _observers := o._observers ++ [.callback fn] })
      key d deps f :=
  { wf := wellFormed_store_observers h.wf hr _ (fun ob hob => by
      rcases List.mem_append.mp hob with h1 | h1
      · exact Or.inl h1
      · simp only [List.mem_singleton] at h1
        subst h1
        exact Or.inr rfl)
    bound := h.bound
    deps := h.deps
    only := fun t ob hob htarget => by
      rw [observers_store (lt_of_get hr)] at hob
      by_cases ht : t = r
      · subst ht
        simp only [if_true, List.mem_append, List.mem_singleton] at hob
        rcases hob with h1 | h1
        · exact h.only t ob (by rw [observers_of_get hr]; exact h1) htarget
        · subst h1
          simp [Observer.target] at htarget
      · simp only [ht, if_false] at hob
        exact h.only t ob hob htarget }

/-- A later call that writes a dependency or subscribes a function keeps the derived state
attached and consistent. -/
theorem run_keeps_consistent {w : World} {key : String} {d : Nat} {deps : List String}
    {f : List JSValue → JSValue} (hd : DerivedAt w key d deps f) (ha : Attached w d deps f)
    (hc : Consistent w d deps f) (c : StoreCall) (hcall : c.onDependencies deps) :
    DerivedAt (c.run w) key d deps f ∧ Attached (c.run w) d deps f ∧
      Consistent (c.run w) d deps f := by
  have hnotify : ∀ (r : Nat) (o : Observable) (merged old : JSValue) (dep : String),
      dep ∈ deps → w.lookup dep = some (.own r) → w.heap[r]? = some o →
      DerivedAt (Observable._notifyObservers w.heap.length
          (w.store r { o with _value := merged }) r merged old).2 key d deps f ∧
        Attached (Observable._notifyObservers w.heap.length
          (w.store r { o with _value := merged }) r merged old).2 d deps f ∧
        Consistent (Observable._notifyObservers w.heap.length
          (w.store r { o with _value := merged }) r merged old).2 d deps f := by
    intro r o merged old dep hdep hl hr
    obtain ⟨hok, hsame, _⟩ := store_notify hd.wf hr merged old
    have hsw := sameWiring_store_value merged hr
    obtain ⟨_, _, hstrong⟩ := notifyObservers_consistent hd ha w.heap.length
      (w.store r { o with _value := merged }) r merged old hsw hok
    exact ⟨hd.transfer hsame, ha.carry hsame, hstrong (ha dep hdep r hl)⟩
  cases c with
  | setState k v =>
    obtain ⟨r, hl, _⟩ := hd.deps k hcall
    obtain ⟨o, hr⟩ := get_of_lt (lookup_own_lt hd.wf hl)
    simp only [StoreCall.run, setState_own v hl, Observable.setValue, Observable.assignValue,
      hr]
    exact hnotify r o v o._value k hcall hl hr
  | updateState k u =>
    obtain ⟨r, hl, _⟩ := hd.deps k hcall
    obtain ⟨o, hr⟩ := get_of_lt (lookup_own_lt hd.wf hl)
    simp only [StoreCall.run, updateState_own u hl]
    rcases update_cases u hr with h | ⟨merged, old, h⟩
    · rw [h]
      exact ⟨hd, ha, hc⟩
    · rw [h]
      exact hnotify r o merged old k hcall hl hr
  | subscribe k fn =>
    simp only [StoreCall.run]
    rcases store_subscribe_cases w k fn with h | ⟨r, o, hr, h⟩
    · rw [h]
      exact ⟨hd, ha, hc⟩
    · rw [h]
      have hlt := lt_of_get hr
      refine ⟨hd.subscribed hr fn, ?_, ?_⟩
      · intro dep hdep t hl
        obtain ⟨id, hid⟩ := ha dep hdep t hl
        refine ⟨id, ?_⟩
        rw [observers_store hlt]
        by_cases ht : t = r
        · subst ht
          rw [observers_of_get hr] at hid
          simp [hid]
        · simpa [ht] using hid
      · obtain ⟨args, hargs, hval⟩ := hc
        have hv : ∀ t, valueAt (w.store r { o with _observers :=
            o._observers ++ [.callback fn] }) t = valueAt w t := by
          intro t
          by_cases ht : t = r
          · subst ht
            simp [valueAt, store_get_self hlt, hr]
          · exact valueAt_store_other ht
        have hs : (w.store r
            ⟨o._value, o._observers ++ [.callback fn], o.unsubscribeAll⟩)._state =
            w._state := rfl
        have hi : (w.store r
            ⟨o._value, o._observers ++ [.callback fn], o.unsubscribeAll⟩).inheritedValue =
            w.inheritedValue := rfl
        have hg := getValues_eq_of_agree hs hi deps (fun _ _ t _ => hv t)
        exact ⟨args, hg.trans hargs, by rw [hv]; exact hval⟩

/-! ## What createDerivedState builds -/

theorem registered_own {w : World} {keys : List String} (h : w.registered keys = true)
    {key : String} (hk : key ∈ keys) : ∃ r, w.lookup key = some (.own r) := by
  simp only [World.registered, List.all_eq_true] at h
  have := h key hk
  cases hl : w.lookup key with
  | none => simp [hl] at this
  | some m =>
    cases m with
    | own r => exact ⟨r, rfl⟩
    | inherited name => simp [hl] at this

theorem lookup_assign_key (w : World) (key : String) (r : Nat) :
    plainObjectGet (assign w._state key r) key = some (.own r) :=
  plainObjectGet_own.mpr (lookup_assign_self _ _ _)

theorem lookup_assign_ne (w : World) {key j : String} (r : Nat) (h : j ≠ key) :
    plainObjectGet (assign w._state key r) j = w.lookup j := by
  unfold World.lookup plainObjectGet
  rw [lookup_assign_other _ _ _ _ h]

theorem getValue_eq_of_lookup {w w' : World} {key : String}
    (hl : w'.lookup key = w.lookup key) (hi : w'.inheritedValue = w.inheritedValue)
    (hv : ∀ r, w.lookup key = some (.own r) → valueAt w' r = valueAt w r) :
    Store.getValue w' key = Store.getValue w key := by
  unfold Store.getValue Store.getState
  rw [hl]
  cases h : w.lookup key with
  | none => rfl
  | some m =>
    cases m with
    | own r => exact value_eq_of_valueAt (hv r h)
    | inherited name => simp [hi]

theorem getValues_eq_of_lookup {w w' : World} (hi : w'.inheritedValue = w.inheritedValue) :
    ∀ (keys : List String), (∀ key ∈ keys, w'.lookup key = w.lookup key) →
      (∀ key ∈ keys, ∀ r, w.lookup key = some (.own r) → valueAt w' r = valueAt w r) →
      Store.getValues w' keys = Store.getValues w keys
  | [], _, _ => rfl
  | key :: rest, hl, h => by
    simp only [Store.getValues]
    rw [getValue_eq_of_lookup (hl key (List.mem_cons_self _ _)) hi
        (h key (List.mem_cons_self _ _)),
      getValues_eq_of_lookup hi rest (fun k hk => hl k (List.mem_cons_of_mem _ hk))
        (fun k hk => h k (List.mem_cons_of_mem _ hk))]

theorem observers_new (w : World) (v : JSValue) (r : Nat) :
    (Observable.new w v).1.observers r = w.observers r := by
  unfold World.observers Observable.new
  simp only
  by_cases h : r < w.heap.length
  · rw [List.getElem?_append_left h]
  · have hle : w.heap.length ≤ r := Nat.le_of_not_lt h
    rw [List.getElem?_eq_none hle]
    rcases Nat.eq_or_lt_of_le hle with heq | hlt
    · subst heq
      simp
    · rw [List.getElem?_eq_none (by simp; omega)]

theorem valueAt_new_old (w : World) (v : JSValue) {r : Nat} (h : r < w.heap.length) :
    valueAt (Observable.new w v).1 r = valueAt w r := by
  simp [valueAt, Observable.new, List.getElem?_append_left h]

theorem valueAt_new_self (w : World) (v : JSValue) :
    valueAt (Observable.new w v).1 w.heap.length = some v := by
  simp [valueAt, Observable.new]

/-- In a well-formed world, with registered dependencies, `createDerivedState` returns
normally, and what it has built is described by `Created`. -/
theorem createDerivedState_created {w : World} (key : String) {deps : List String}
    (f : List JSValue → JSValue) (hw : w.wellFormed = true)
    (hreg : w.registered deps = true) :
    ∃ args unsubs, Store.getValues w deps = .ok args ∧
      (Store.createDerivedState w key deps f).1 = .ok w.heap.length ∧
      Created w key deps f args (Store.createDerivedState w key deps f).2 unsubs := by
  obtain ⟨args, hargs⟩ := getValues_ok hw deps (fun dep hd => by
    obtain ⟨r, hr⟩ := registered_own hreg hd
    simp [hr])
  have hloop := subscribeDependencies_grown deps f w.heap.length deps
    (Observable.new w (f args)).1 (by
      intro dep hd
      obtain ⟨r, hr⟩ := registered_own hreg hd
      have hlt := lookup_own_lt hw hr
      refine ⟨r, w.heap[r], hr, ?_⟩
      simp [Observable.new, List.getElem?_append_left hlt, List.getElem?_eq_getElem hlt])
  obtain ⟨unsubs, w2, heq, hgrown, hattached⟩ := hloop
  have hlen1 : (Observable.new w (f args)).1.heap.length = w.heap.length + 1 := by
    simp [Observable.new]
  have hlen2 : w2.heap.length = w.heap.length + 1 := hgrown.length.trans hlen1
  obtain ⟨o2, ho2⟩ := get_of_lt (w := w2) (r := w.heap.length) (by omega)
  have hresult : Store.createDerivedState w key deps f =
      (.ok w.heap.length,
        ({ w2 with _state := assign w2._state key w.heap.length } : World).store w.heap.length
          { o2 with unsubscribeAll := some unsubs }) := by
    have hnew2 : (Observable.new w (f args)).2 = w.heap.length := rfl
    simp only [Store.createDerivedState, hargs, hnew2, heq, ho2]
  refine ⟨args, unsubs, hargs, by rw [hresult], ?_⟩
  rw [hresult]
  have hobs : ∀ r, (({ w2 with _state := assign w2._state key w.heap.length } : World).store
      w.heap.length { o2 with unsubscribeAll := some unsubs }).observers r =
      w2.observers r := by
    intro r
    rw [observers_store (by simpa using (by omega : w.heap.length < w2.heap.length))]
    by_cases hr : r = w.heap.length
    · subst hr
      simp [World.observers, ho2]
    · simp [hr, World.observers]
  have hval : ∀ r, valueAt (({ w2 with _state := assign w2._state key w.heap.length } :
      World).store w.heap.length { o2 with unsubscribeAll := some unsubs }) r =
      valueAt (Observable.new w (f args)).1 r := by
    intro r
    have h2 : valueAt w2 r = valueAt (Observable.new w (f args)).1 r := hgrown.values r
    rw [← h2]
    by_cases hr : r = w.heap.length
    · subst hr
      simp [valueAt, World.store, List.getElem?_set, ho2, hlen2]
    · simp [valueAt, World.store, List.getElem?_set, Ne.symm hr]
  exact
    { length := by simp [World.store, hlen2]
      state := by simp [World.store, hgrown.state, Observable.new]
      inherited := by simp [World.store, hgrown.inherited, Observable.new]
      calls := by simp [World.store, hgrown.calls, Observable.new]
      arrows := by
        have := hgrown.arrows
        simpa [World.store, Observable.new] using this
      values := fun r hr => by rw [hval, valueAt_new_old w _ hr]
      value := by rw [hval, valueAt_new_self]
      old := fun r ob hob => by
        rw [hobs]
        exact hgrown.old r ob (by rw [observers_new]; exact hob)
      added := fun r ob hob => by
        rw [hobs] at hob
        rcases hgrown.added r ob hob with h | ⟨⟨id, he, hlo, hhi⟩, hu⟩
        · exact Or.inl (by rw [observers_new] at h; exact h)
        · exact Or.inr ⟨⟨id, he, by simpa [Observable.new] using hlo,
            by simpa [World.store] using hhi⟩, hu⟩
      valid := fun u hu => by
        obtain ⟨⟨dep, hdep⟩, hcb⟩ := hgrown.valid u hu
        exact ⟨⟨dep, by simpa [World.lookup, Observable.new] using hdep⟩, hcb⟩
      attached := fun dep hd r hl => by
        obtain ⟨id, hid⟩ := hattached dep hd r (by simpa [World.lookup, Observable.new] using hl)
        exact ⟨id, by rw [hobs]; exact hid⟩
      closures := ⟨_, store_get_self (by simpa using (by omega :
        w.heap.length < w2.heap.length)), rfl⟩ }

/-! ## A new derived state is attached and consistent -/

theorem wired_mono {w w2 : World} {r : Nat} {observer : Observer}
    (h : Observer.wired w r observer = true) (hlen : w.heap.length ≤ w2.heap.length)
    (harr : w.arrows ≤ w2.arrows)
    (hlook : ∀ dep, (w.lookup dep).isSome = true → (w2.lookup dep).isSome = true) :
    Observer.wired w2 r observer = true := by
  cases observer with
  | callback id => rfl
  | recompute id deps f t =>
    obtain ⟨h1, h2, h3, h4⟩ := wired_recompute h
    simp only [Observer.wired, Bool.and_eq_true, decide_eq_true_eq, List.all_eq_true]
    exact ⟨⟨⟨h1, by omega⟩, by omega⟩, fun dep hd => hlook dep (h4 dep hd)⟩

theorem Created.lookup_key {w w2 : World} {key : String} {deps : List String}
    {f : List JSValue → JSValue} {args : List JSValue} {unsubs : List Unsubscribe}
    (hc : Created w key deps f args w2 unsubs) :
    w2.lookup key = some (.own w.heap.length) := by
  unfold World.lookup
  rw [hc.state]
  exact lookup_assign_key w key _

theorem Created.lookup_ne {w w2 : World} {key : String} {deps : List String}
    {f : List JSValue → JSValue} {args : List JSValue} {unsubs : List Unsubscribe}
    (hc : Created w key deps f args w2 unsubs) {j : String} (h : j ≠ key) :
    w2.lookup j = w.lookup j := by
  have := lookup_assign_ne w w.heap.length h
  unfold World.lookup at this ⊢
  rw [hc.state]
  exact this

theorem Created.wf_after {w w2 : World} {key : String} {deps : List String}
    {f : List JSValue → JSValue} {args : List JSValue} {unsubs : List Unsubscribe}
    (hc : Created w key deps f args w2 unsubs) (hw : w.wellFormed = true)
    (hreg : w.registered deps = true) : w2.wellFormed = true := by
  have hlook : ∀ dep, (w.lookup dep).isSome = true → (w2.lookup dep).isSome = true := by
    intro dep h
    by_cases hk : dep = key
    · subst hk
      simp [hc.lookup_key]
    · rw [hc.lookup_ne hk]; exact h
  rw [wellFormed_iff]
  constructor
  · intro p hp
    rw [hc.state] at hp
    rw [hc.length]
    rcases mem_assign _ _ _ _ hp with h | h
    · subst h
      exact Nat.lt_succ_self _
    · exact Nat.lt_succ_of_lt (wellFormed_state hw h)
  · intro r ob hob
    rcases hc.added r ob hob with h | ⟨⟨id, he, _, hhi⟩, u, hu, hur, _⟩
    · exact wired_mono (wellFormed_wired hw h) (by rw [hc.length]; omega) hc.arrows hlook
    · subst he
      obtain ⟨⟨dep, hdep⟩, _⟩ := hc.valid u hu
      rw [hur] at hdep
      have hlt := lookup_own_lt hw hdep
      simp only [Observer.wired, Bool.and_eq_true, decide_eq_true_eq, List.all_eq_true]
      refine ⟨⟨⟨hlt, by rw [hc.length]; omega⟩, hhi⟩, fun dep' hd' => ?_⟩
      obtain ⟨r', hr'⟩ := registered_own hreg hd'
      exact hlook dep' (by simp [hr'])

/-- After `createDerivedState` with a key that is not among its dependencies, the key is
bound to the new Observable, its arrow functions sit on every dependency, and its value is
the compute function of the dependency values. -/
theorem Created.derived {w w2 : World} {key : String} {deps : List String}
    {f : List JSValue → JSValue} {args : List JSValue} {unsubs : List Unsubscribe}
    (hc : Created w key deps f args w2 unsubs) (hw : w.wellFormed = true)
    (hreg : w.registered deps = true) (hkey : key ∉ deps)
    (hargs : Store.getValues w deps = .ok args) :
    DerivedAt w2 key w.heap.length deps f ∧ Attached w2 w.heap.length deps f ∧
      Consistent w2 w.heap.length deps f := by
  have hne : ∀ dep ∈ deps, dep ≠ key := fun dep hd h => hkey (h ▸ hd)
  refine ⟨?_, ?_, ?_⟩
  · exact
      { wf := hc.wf_after hw hreg
        bound := hc.lookup_key
        deps := fun dep hd => by
          obtain ⟨r, hr⟩ := registered_own hreg hd
          exact ⟨r, by rw [hc.lookup_ne (hne dep hd)]; exact hr,
            Nat.ne_of_lt (lookup_own_lt hw hr)⟩
        only := fun r ob hob htarget => by
          rcases hc.added r ob hob with h | ⟨⟨id, he, _, _⟩, _⟩
          · have hwired := wellFormed_wired hw h
            cases ob with
            | callback id => simp [Observer.target] at htarget
            | recompute id deps' f' t =>
              simp only [Observer.target, Option.some.injEq] at htarget
              subst htarget
              have := (wired_recompute hwired).2.1
              omega
          · exact ⟨id, he⟩ }
  · intro dep hd r hl
    rw [hc.lookup_ne (hne dep hd)] at hl
    exact hc.attached dep hd r hl
  · refine ⟨args, ?_, hc.value⟩
    rw [getValues_eq_of_lookup hc.inherited deps (fun dep hd => hc.lookup_ne (hne dep hd))
      (fun dep hd r hl => hc.values r (lookup_own_lt hw hl))]
    exact hargs

theorem runCalls_keeps_consistent {key : String} {d : Nat} {deps : List String}
    {f : List JSValue → JSValue} :
    ∀ (calls : List StoreCall) (w : World), DerivedAt w key d deps f → Attached w d deps f →
      Consistent w d deps f → (∀ c ∈ calls, c.onDependencies deps) →
      DerivedAt (runCalls w calls) key d deps f ∧ Attached (runCalls w calls) d deps f ∧
        Consistent (runCalls w calls) d deps f
  | [], _, hd, ha, hc, _ => ⟨hd, ha, hc⟩
  | c :: rest, w, hd, ha, hc, h => by
    obtain ⟨hd1, ha1, hc1⟩ := run_keeps_consistent hd ha hc c (h c (List.mem_cons_self _ _))
    exact runCalls_keeps_consistent rest (c.run w) hd1 ha1 hc1
      (fun c' hc' => h c' (List.mem_cons_of_mem _ hc'))

theorem derives_of_consistent {w : World} {key : String} {d : Nat} {deps : List String}
    {f : List JSValue → JSValue} (hd : DerivedAt w key d deps f)
    (hc : Consistent w d deps f) : Derives w key deps f := by
  obtain ⟨args, hargs, hval⟩ := hc
  exact ⟨args, hargs, by rw [getValue_own hd.bound]; exact value_eq_ok_iff.mpr hval⟩

/-- C7 (amended): in every well-formed store, for every list of registered dependency keys,
every compute function and every key that is not itself one of the dependencies,
`createDerivedState(key, dependencies, computeFn)` returns normally and makes the value of
`key` equal to `computeFn` applied, in order, to the current values of the dependencies;
and after every later sequence of `setState` and `updateState` calls on keys of
`dependencies` (and of subscriptions of caller-supplied functions) the value of `key` still
equals `computeFn` of the current dependency values. -/
theorem derived_state_tracks_dependencies (w : World) (key : String) (deps : List String)
    (f : List JSValue → JSValue) (hw : w.wellFormed = true)
    (hreg : w.registered deps = true) (hkey : key ∉ deps) :
    TracksDependencies w key deps f := by
  obtain ⟨args, unsubs, hargs, hok, hcreated⟩ := createDerivedState_created key f hw hreg
  obtain ⟨hd, ha, hc⟩ := hcreated.derived hw hreg hkey hargs
  refine ⟨⟨_, hok⟩, fun calls hcalls => ?_⟩
  obtain ⟨hd1, _, hc1⟩ := runCalls_keeps_consistent calls _ hd ha hc
    (fun c hcm => (hcalls c hcm).1)
  exact derives_of_consistent hd1 hc1

/-- Witness for C7: dependencies `a` and `b` with `a = 1`, `b = 2` and the compute function
`(a, b) => a + b` give `3`, and after `setState("a", 5)` give `7`. -/
theorem derived_state_tracks_dependencies_witness :
    (exampleStore.wellFormed = true ∧ exampleStore.registered ["a", "b"] = true ∧
      "x" ∉ ["a", "b"]) ∧
    TracksDependencies exampleStore "x" ["a", "b"] addNumbers ∧
    Store.getValue (Store.createDerivedState exampleStore "x" ["a", "b"] addNumbers).2 "x" =
      .ok (.number 3) ∧
    Store.getValue
      (Store.setState (Store.createDerivedState exampleStore "x" ["a", "b"] addNumbers).2
        "a" (.number 5)).2 "x" = .ok (.number 7) :=
  ⟨⟨rfl, rfl, by decide⟩,
    derived_state_tracks_dependencies exampleStore "x" ["a", "b"] addNumbers rfl rfl
      (by decide),
    rfl, rfl⟩

/-- C7 as stated fails when the key is one of its own dependencies: in the store built from
`{a: 1, b: 2}`, after `createDerivedState("a", ["a", "b"], (a, b) => a + b)` and
`setState("b", 7)` the value of `a` is `10`, while the compute function of the current
values of `a` and `b` is `17`. -/
theorem derived_state_counterexample :
    exampleStore.wellFormed = true ∧ exampleStore.registered ["a", "b"] = true ∧
      ¬ TracksDependencies exampleStore "a" ["a", "b"] addNumbers := by
  refine ⟨rfl, rfl, ?_⟩
  intro h
  obtain ⟨args, h1, h2⟩ := h.2 [.setState "b" (.number 7)] (by
    intro c hc
    simp only [List.mem_singleton] at hc
    subst hc
    simp [StoreCall.onDependencies, StoreCall.notWriting])
  have e1 : Store.getValues (runCalls
      (Store.createDerivedState exampleStore "a" ["a", "b"] addNumbers).2
      [.setState "b" (.number 7)]) ["a", "b"] = .ok [.number 10, .number 7] := rfl
  have e2 : Store.getValue (runCalls
      (Store.createDerivedState exampleStore "a" ["a", "b"] addNumbers).2
      [.setState "b" (.number 7)]) "a" = .ok (.number 10) := rfl
  rw [e1] at h1
  rw [e2] at h2
  cases h1
  simp [addNumbers] at h2

/-! ## Calling the closures of unsubscribeAll -/

theorem pruned_stay (w : World) : Pruned w w [] :=
  { length := rfl, state := rfl, inherited := rfl, calls := rfl, arrows := rfl,
    values := fun _ => rfl, subset := fun _ _ h => h, kept := fun _ _ h _ => h,
    removed := fun _ _ _ _ hu => by simp at hu }

theorem pruned_append {a b c : World} {us1 us2 : List Unsubscribe} (h1 : Pruned a b us1)
    (h2 : Pruned b c us2) : Pruned a c (us1 ++ us2) :=
  { length := h2.length.trans h1.length
    state := h2.state.trans h1.state
    inherited := h2.inherited.trans h1.inherited
    calls := h2.calls.trans h1.calls
    arrows := h2.arrows.trans h1.arrows
    values := fun r => (h2.values r).trans (h1.values r)
    subset := fun r ob h => h1.subset r ob (h2.subset r ob h)
    kept := fun r ob h hno =>
      h2.kept r ob (h1.kept r ob h (fun u hu => hno u (List.mem_append_left _ hu)))
        (fun u hu => hno u (List.mem_append_right _ hu))
    removed := fun r ob h u hu hr => by
      rcases List.mem_append.mp hu with h3 | h3
      · exact h1.removed r ob (h2.subset r ob h) u h3 hr
      · exact h2.removed r ob h u h3 hr }

theorem unsubscribe_pruned {w : World} {u : Unsubscribe} {o : Observable}
    (hr : w.heap[u.observable]? = some o) :
    (Unsubscribe.call w u).1 = .ok () ∧ Pruned w (Unsubscribe.call w u).2 [u] := by
  have hlt := lt_of_get hr
  have hcall : Unsubscribe.call w u = (.ok (), w.store u.observable
      ⟨o._value, o._observers.filter (fun obs => !(obs.same u.observer)),
        o.unsubscribeAll⟩) := by
    simp [Unsubscribe.call, hr]
  rw [hcall]
  refine ⟨rfl, ?_⟩
  have hobs : ∀ t, (w.store u.observable
      ⟨o._value, o._observers.filter (fun obs => !(obs.same u.observer)),
        o.unsubscribeAll⟩).observers t =
      if t = u.observable then o._observers.filter (fun obs => !(obs.same u.observer))
      else w.observers t := fun t => observers_store hlt t
  refine { length := by simp [World.store], state := rfl, inherited := rfl, calls := rfl,
           arrows := rfl, values := ?_, subset := ?_, kept := ?_, removed := ?_ }
  · intro t
    by_cases ht : t = u.observable
    · rw [ht]
      simp [valueAt, store_get_self hlt, hr]
    · exact valueAt_store_other ht
  · intro t ob hob
    rw [hobs] at hob
    by_cases ht : t = u.observable
    · rw [ht] at hob ⊢
      simp only [if_true] at hob
      rw [observers_of_get hr]
      exact List.mem_of_mem_filter hob
    · simpa [ht] using hob
  · intro t ob hob hno
    rw [hobs]
    by_cases ht : t = u.observable
    · rw [ht] at hob
      rw [observers_of_get hr] at hob
      simp only [ht, if_true, List.mem_filter]
      exact ⟨hob, by simp [hno u (List.mem_singleton_self _) ht.symm]⟩
    · simpa [ht] using hob
  · intro t ob hob u' hu' hr'
    simp only [List.mem_singleton] at hu'
    subst hu'
    rw [hobs] at hob
    simp only [hr', if_true, List.mem_filter] at hob
    simpa using hob.2

theorem callEach_pruned : ∀ (unsubs : List Unsubscribe) (w : World),
    (∀ u ∈ unsubs, u.observable < w.heap.length) →
      (callEach unsubs w).1 = .ok () ∧ Pruned w (callEach unsubs w).2 unsubs
  | [], w, _ => ⟨rfl, pruned_stay w⟩
  | u :: rest, w, h => by
    obtain ⟨o, ho⟩ := get_of_lt (h u (List.mem_cons_self _ _))
    obtain ⟨hok, hp⟩ := unsubscribe_pruned ho
    unfold callEach
    rcases hs : Unsubscribe.call w u with ⟨res, w1⟩
    rw [hs] at hok hp
    simp only at hok hp
    subst hok
    simp only
    obtain ⟨hok2, hp2⟩ := callEach_pruned rest w1 (fun u' hu' => by
      rw [hp.length]; exact h u' (List.mem_cons_of_mem _ hu'))
    exact ⟨hok2, pruned_append hp hp2⟩

theorem Pruned.stays_wellFormed {w w2 : World} {unsubs : List Unsubscribe} (hp : Pruned w w2 unsubs)
    (hw : w.wellFormed = true) : w2.wellFormed = true := by
  rw [wellFormed_iff]
  constructor
  · intro p hpm
    rw [hp.state] at hpm
    rw [hp.length]
    exact wellFormed_state hw hpm
  · intro r ob hob
    exact wired_mono (wellFormed_wired hw (hp.subset r ob hob)) (by rw [hp.length])
      (by rw [hp.arrows]) (fun dep h => by
        have : w2.lookup dep = w.lookup dep := by simp [World.lookup, hp.state]
        rw [this]; exact h)

theorem same_self_of_target {observer : Observer} {d : Nat}
    (h : observer.target = some d) : observer.same observer = true := by
  cases observer with
  | callback id => simp [Observer.target] at h
  | recompute id deps f t => simp [Observer.same]

theorem same_callback_closure {fn : Nat} {observer : Observer}
    (h : observer.callbackId = none) : (Observer.callback fn).same observer = false := by
  cases observer with
  | callback id => simp [Observer.callbackId] at h
  | recompute id deps f t => rfl

/-- Calling `unsubscribeAll()` on a derived Observable that was just created returns
normally and leaves no observer that writes it; values, calls and caller-supplied
observers are as before. -/
theorem unsubscribeAll_detaches {w w2 : World} {key : String} {deps : List String}
    {f : List JSValue → JSValue} {args : List JSValue} {unsubs : List Unsubscribe}
    (hc : Created w key deps f args w2 unsubs) (hw : w.wellFormed = true)
    (hd : DerivedAt w2 key w.heap.length deps f) :
    (Observable.callUnsubscribeAll w2 w.heap.length).1 = .ok () ∧
      Pruned w2 (Observable.callUnsubscribeAll w2 w.heap.length).2 unsubs ∧
      DerivedAt (Observable.callUnsubscribeAll w2 w.heap.length).2 key w.heap.length deps f ∧
      Detached (Observable.callUnsubscribeAll w2 w.heap.length).2 w.heap.length ∧
      ∀ r fn, Observer.callback fn ∈ w.observers r →
        Observer.callback fn ∈ (Observable.callUnsubscribeAll w2 w.heap.length).2.observers r := by
  obtain ⟨o, ho, hunsub⟩ := hc.closures
  have hcall : Observable.callUnsubscribeAll w2 w.heap.length = callEach unsubs w2 := by
    simp [Observable.callUnsubscribeAll, ho, hunsub]
  rw [hcall]
  obtain ⟨hok, hp⟩ := callEach_pruned unsubs w2 (fun u hu => by
    obtain ⟨⟨dep, hdep⟩, _⟩ := hc.valid u hu
    rw [hc.length]
    exact Nat.lt_succ_of_lt (lookup_own_lt hw hdep))
  refine ⟨hok, hp, ?_, ?_, ?_⟩
  · exact
      { wf := hp.stays_wellFormed hd.wf
        bound := by
          have : (callEach unsubs w2).2.lookup key = w2.lookup key := by
            simp [World.lookup, hp.state]
          rw [this]; exact hd.bound
        deps := fun dep hdm => by
          have : (callEach unsubs w2).2.lookup dep = w2.lookup dep := by
            simp [World.lookup, hp.state]
          rw [this]; exact hd.deps dep hdm
        only := fun r ob hob ht => hd.only r ob (hp.subset r ob hob) ht }
  · intro r ob hob htarget
    have hmem := hp.subset r ob hob
    rcases hc.added r ob hmem with h | ⟨_, u, hu, hur, hue⟩
    · have hwired := wellFormed_wired hw h
      cases ob with
      | callback id => simp [Observer.target] at htarget
      | recompute id deps' f' t =>
        simp only [Observer.target, Option.some.injEq] at htarget
        subst htarget
        have := (wired_recompute hwired).2.1
        omega
    · have := hp.removed r ob hob u hu hur
      rw [hue, same_self_of_target htarget] at this
      cases this
  · intro r fn hfn
    refine hp.kept r _ (hc.old r _ hfn) (fun u hu _ => ?_)
    exact same_callback_closure (hc.valid u hu).2

/-! ## Calls on the store after a derived state was detached -/

theorem not_dependsOn_of_detached {w : World} {d : Nat} (h : Detached w d) (r : Nat) :
    ¬ DependsOn w d r := by
  intro hdep
  unfold DependsOn at hdep
  have hfeeds : ∃ x, Feeds w x d := by
    cases hdep with
    | single h1 => exact ⟨_, h1⟩
    | tail _ h2 => exact ⟨_, h2⟩
  obtain ⟨x, ob, hob, htarget⟩ := hfeeds
  exact h x ob hob htarget

/-- A notification in a world where nothing writes `d`, started at another Observable,
leaves the value of `d` alone and makes no call on behalf of `d`. -/
theorem store_notify_detached {w : World} {d r : Nat} {o : Observable}
    (hw : w.wellFormed = true) (hdet : Detached w d) (hr : w.heap[r]? = some o)
    (hrd : r ≠ d) (v old : JSValue) :
    SameWiring w (Observable._notifyObservers w.heap.length
        (w.store r { o with _value := v }) r v old).2 ∧
      valueAt (Observable._notifyObservers w.heap.length
        (w.store r { o with _value := v }) r v old).2 d = valueAt w d ∧
      callsFrom d (Observable._notifyObservers w.heap.length
        (w.store r { o with _value := v }) r v old).2.calls = callsFrom d w.calls := by
  obtain ⟨_, hsame, _, hframe, _, extra, hcalls, hsrc⟩ := store_notify hw hr v old
  refine ⟨hsame, ?_, ?_⟩
  · unfold valueAt
    rw [hframe d (Ne.symm hrd) (not_dependsOn_of_detached hdet r)]
  · have hnil : callsFrom d extra = [] := by
      apply callsFrom_eq_nil
      intro c hc hcd
      rcases hsrc c hc with h | h
      · exact hrd (h.symm.trans hcd)
      · exact not_dependsOn_of_detached hdet r (hcd ▸ h)
    rw [hcalls, callsFrom_append, hnil, List.append_nil]

theorem Detached.transfer_wiring {w w' : World} {d : Nat} (h : Detached w d)
    (hs : SameWiring w w') : Detached w' d := by
  intro r ob hob
  rw [hs.observers] at hob
  exact h r ob hob

/-- A later call that writes a dependency or subscribes a function keeps the derived state
detached, its value and its calls unchanged, and every observer in place. -/
theorem run_keeps_detached {w : World} {key : String} {d : Nat} {deps : List String}
    {f : List JSValue → JSValue} (hd : DerivedAt w key d deps f) (hdet : Detached w d)
    (c : StoreCall) (hcall : c.onDependencies deps) :
    DerivedAt (c.run w) key d deps f ∧ Detached (c.run w) d ∧
      valueAt (c.run w) d = valueAt w d ∧ callsFrom d (c.run w).calls = callsFrom d w.calls ∧
      (c.run w)._state = w._state ∧
      ∀ r ob, ob ∈ w.observers r → ob ∈ (c.run w).observers r := by
  have hnotify : ∀ (r : Nat) (o : Observable) (merged old : JSValue), r ≠ d →
      w.heap[r]? = some o →
      DerivedAt (Observable._notifyObservers w.heap.length
          (w.store r { o with _value := merged }) r merged old).2 key d deps f ∧
        Detached (Observable._notifyObservers w.heap.length
          (w.store r { o with _value := merged }) r merged old).2 d ∧
        valueAt (Observable._notifyObservers w.heap.length
          (w.store r { o with _value := merged }) r merged old).2 d = valueAt w d ∧
        callsFrom d (Observable._notifyObservers w.heap.length
          (w.store r { o with _value := merged }) r merged old).2.calls =
          callsFrom d w.calls ∧
        (Observable._notifyObservers w.heap.length
          (w.store r { o with _value := merged }) r merged old).2._state = w._state ∧
        ∀ t ob, ob ∈ w.observers t → ob ∈ (Observable._notifyObservers w.heap.length
          (w.store r { o with _value := merged }) r merged old).2.observers t := by
    intro r o merged old hrd hr
    obtain ⟨hsame, hval, hcalls⟩ := store_notify_detached hd.wf hdet hr hrd merged old
    exact ⟨hd.transfer hsame, hdet.transfer_wiring hsame, hval, hcalls, hsame.state,
      fun t ob hob => by rw [hsame.observers]; exact hob⟩
  cases c with
  | setState k v =>
    obtain ⟨r, hl, hrd⟩ := hd.deps k hcall
    obtain ⟨o, hr⟩ := get_of_lt (lookup_own_lt hd.wf hl)
    simp only [StoreCall.run, setState_own v hl, Observable.setValue, Observable.assignValue,
      hr]
    exact hnotify r o v o._value hrd hr
  | updateState k u =>
    obtain ⟨r, hl, hrd⟩ := hd.deps k hcall
    obtain ⟨o, hr⟩ := get_of_lt (lookup_own_lt hd.wf hl)
    simp only [StoreCall.run, updateState_own u hl]
    rcases update_cases u hr with h | ⟨merged, old, h⟩
    · rw [h]
      exact ⟨hd, hdet, rfl, rfl, rfl, fun _ _ h => h⟩
    · rw [h]
      exact hnotify r o merged old hrd hr
  | subscribe k fn =>
    simp only [StoreCall.run]
    rcases store_subscribe_cases w k fn with h | ⟨r, o, hr, h⟩
    · rw [h]
      exact ⟨hd, hdet, rfl, rfl, rfl, fun _ _ h => h⟩
    · rw [h]
      have hlt := lt_of_get hr
      have hobs := observers_store (w := w) (r := r)
        (o := ⟨o._value, o._observers ++ [.callback fn], o.unsubscribeAll⟩) hlt
      refine ⟨hd.subscribed hr fn, ?_, ?_, rfl, rfl, ?_⟩
      · intro t ob hob
        rw [hobs] at hob
        by_cases ht : t = r
        · subst ht
          simp only [if_true, List.mem_append, List.mem_singleton] at hob
          rcases hob with h1 | h1
          · exact hdet t ob (by rw [observers_of_get hr]; exact h1)
          · subst h1
            simp [Observer.target]
        · simp only [ht, if_false] at hob
          exact hdet t ob hob
      · by_cases hdr : d = r
        · subst hdr
          simp [valueAt, store_get_self hlt, hr]
        · exact valueAt_store_other hdr
      · intro t ob hob
        rw [hobs]
        by_cases ht : t = r
        · subst ht
          rw [observers_of_get hr] at hob
          simp [hob]
        · simpa [ht] using hob

theorem runCalls_keeps_detached {key : String} {d : Nat} {deps : List String}
    {f : List JSValue → JSValue} :
    ∀ (calls : List StoreCall) (w : World), DerivedAt w key d deps f → Detached w d →
      (∀ c ∈ calls, c.onDependencies deps) →
      DerivedAt (runCalls w calls) key d deps f ∧ Detached (runCalls w calls) d ∧
        valueAt (runCalls w calls) d = valueAt w d ∧
        callsFrom d (runCalls w calls).calls = callsFrom d w.calls ∧
        (runCalls w calls)._state = w._state ∧
        ∀ r ob, ob ∈ w.observers r → ob ∈ (runCalls w calls).observers r
  | [], _, hd, hdet, _ => ⟨hd, hdet, rfl, rfl, rfl, fun _ _ h => h⟩
  | c :: rest, w, hd, hdet, h => by
    obtain ⟨hd1, hdet1, hv1, hc1, hs1, ho1⟩ :=
      run_keeps_detached hd hdet c (h c (List.mem_cons_self _ _))
    obtain ⟨hd2, hdet2, hv2, hc2, hs2, ho2⟩ := runCalls_keeps_detached rest (c.run w) hd1 hdet1
      (fun c' hc' => h c' (List.mem_cons_of_mem _ hc'))
    exact ⟨hd2, hdet2, hv2.trans hv1, hc2.trans hc1, hs2.trans hs1,
      fun r ob hob => ho2 r ob (ho1 r ob hob)⟩

/-- C8 (amended): in every well-formed store, for every list of registered dependency keys,
every compute function and every key that is not itself one of the dependencies, after
`unsubscribeAll()` is called on the Observable returned by
`createDerivedState(key, dependencies, computeFn)`, every later sequence of `setState` and
`updateState` calls on keys of `dependencies` (and of subscriptions of caller-supplied
functions) leaves the value of `key` unchanged and makes no call to a subscriber of `key`,
while a `setState` on a dependency still calls every caller-supplied observer of that
dependency once, among them all those subscribed before the derived state was created. -/
theorem unsubscribeAll_keeps_derived_state_detached (w : World) (key : String)
    (deps : List String) (f : List JSValue → JSValue) (hw : w.wellFormed = true)
    (hreg : w.registered deps = true) (hkey : key ∉ deps) :
    StaysDetached w key deps f := by
  obtain ⟨args, unsubs, hargs, hok, hcreated⟩ := createDerivedState_created key f hw hreg
  obtain ⟨hd, _, _⟩ := hcreated.derived hw hreg hkey hargs
  obtain ⟨hok2, hp, hd2, hdet, hcb⟩ := unsubscribeAll_detaches hcreated hw hd
  refine ⟨w.heap.length, hok, hok2, fun calls hcalls => ?_⟩
  obtain ⟨hd3, _, hv3, hc3, _, ho3⟩ := runCalls_keeps_detached calls _ hd2 hdet hcalls
  refine ⟨?_, ?_, ?_⟩
  · unfold afterDetach
    rw [getValue_own hd3.bound, getValue_own hd.bound]
    exact value_eq_of_valueAt (hv3.trans (hp.values _))
  · unfold afterDetach
    rw [hc3, hp.calls]
  · intro dep _ r o hl hr
    unfold afterDetach at hl hr ⊢
    refine ⟨fun fn hfn => ?_, fun v => ?_⟩
    · have := ho3 r _ (hcb r fn hfn)
      rwa [observers_of_get hr] at this
    · rw [setState_own v hl]
      obtain ⟨h1, _, _, _, h5, _⟩ := setValue_spec hd3.wf hr v
      exact ⟨h1, h5⟩

/-- Witness for C8: in the store built from `{a: 1, b: 2}` the derived state `x` of `a` and
`b` is detached; after `setState("a", 5)` its value is still `3`. -/
theorem unsubscribeAll_keeps_derived_state_detached_witness :
    (exampleStore.wellFormed = true ∧ exampleStore.registered ["a", "b"] = true ∧
      "x" ∉ ["a", "b"]) ∧
    StaysDetached exampleStore "x" ["a", "b"] addNumbers ∧
    Store.getValue
      (afterDetach exampleStore "x" ["a", "b"] addNumbers 2 [.setState "a" (.number 5)])
      "x" = .ok (.number 3) :=
  ⟨⟨rfl, rfl, by decide⟩,
    unsubscribeAll_keeps_derived_state_detached exampleStore "x" ["a", "b"] addNumbers
      rfl rfl (by decide),
    rfl⟩

/-- C8 as stated fails when the key is one of its own dependencies: in the store built from
`{a: 1, b: 2}`, after `createDerivedState("a", ["a", "b"], (a, b) => a + b)` and
`unsubscribeAll()`, the call `setState("a", 5)` is a call on a dependency key and changes
the value of `a` from `3` to `5`. -/
theorem unsubscribeAll_counterexample :
    exampleStore.wellFormed = true ∧ exampleStore.registered ["a", "b"] = true ∧
      ¬ StaysDetached exampleStore "a" ["a", "b"] addNumbers := by
  refine ⟨rfl, rfl, ?_⟩
  rintro ⟨d, hd, _, h⟩
  have e0 : (Store.createDerivedState exampleStore "a" ["a", "b"] addNumbers).1 = .ok 2 := rfl
  rw [e0] at hd
  cases hd
  have h1 := (h [.setState "a" (.number 5)] (by
    intro c hc
    simp only [List.mem_singleton] at hc
    subst hc
    simp [StoreCall.onDependencies])).1
  have e1 : Store.getValue
      (afterDetach exampleStore "a" ["a", "b"] addNumbers 2 [.setState "a" (.number 5)])
      "a" = .ok (.number 5) := rfl
  have e2 : Store.getValue
      (Store.createDerivedState exampleStore "a" ["a", "b"] addNumbers).2 "a" =
      .ok (.number 3) := rfl
  rw [e1, e2] at h1
  simp at h1

/-! ## Every world built through the interface is well-formed -/

theorem lookup_isSome_assign (w : World) (key : String) (r : Nat) (dep : String)
    (h : (w.lookup dep).isSome = true) :
    (plainObjectGet (assign w._state key r) dep).isSome = true := by
  by_cases hk : dep = key
  · subst hk
    simp [lookup_assign_key]
  · rw [lookup_assign_ne w r hk]; exact h

/-- Creating an Observable and binding a key to it keeps the world well-formed. -/
theorem wellFormed_new_assign {w : World} (hw : w.wellFormed = true) (key : String)
    (v : JSValue) :
    ({ (Observable.new w v).1 with
        _state := assign (Observable.new w v).1._state key (Observable.new w v).2 } :
      World).wellFormed = true := by
  rw [wellFormed_iff]
  constructor
  · intro p hp
    have hlen : ({ (Observable.new w v).1 with
        _state := assign (Observable.new w v).1._state key (Observable.new w v).2 } :
        World).heap.length = w.heap.length + 1 := by simp [Observable.new]
    rw [hlen]
    rcases mem_assign _ _ _ _ hp with h | h
    · subst h
      exact Nat.lt_succ_self _
    · exact Nat.lt_succ_of_lt (wellFormed_state hw h)
  · intro r ob hob
    have hobs : ob ∈ w.observers r := by
      rw [← observers_new w v r]
      exact hob
    exact wired_mono (wellFormed_wired hw hobs) (by simp [Observable.new]) (Nat.le_refl _)
      (fun dep h => lookup_isSome_assign w key _ dep h)

theorem wellFormed_empty : World.empty.wellFormed = true := rfl

theorem wellFormed_store_new (initialState : Props) :
    (Store.new initialState).wellFormed = true := by
  unfold Store.new
  generalize initialState.map (fun kv => kv.1) = keys
  suffices h : ∀ (l : List String) (w : World), w.wellFormed = true →
      (l.foldl (fun w key =>
        let created := Observable.new w ((getOwn initialState key).getD .undefined)
        { created.1 with _state := assign created.1._state key created.2 }) w).wellFormed
        = true from h keys World.empty wellFormed_empty
  intro l
  induction l with
  | nil => intro w hw; exact hw
  | cons key rest ih =>
    intro w hw
    exact ih _ (wellFormed_new_assign hw key _)

theorem wellFormed_assignValue {w : World} (hw : w.wellFormed = true) (fuel r : Nat)
    (v : JSValue) :
    (Observable.assignValue (Observable._notifyObservers fuel) w r v).2.wellFormed = true := by
  unfold Observable.assignValue
  cases hr : w.heap[r]? with
  | none => exact hw
  | some o =>
    exact ((sameWiring_store_value v hr).andThen
      (notifyObservers_sameWiring fuel _ r _ _)).wellFormed hw

theorem wellFormed_update {w : World} (hw : w.wellFormed = true) (r : Nat) (u : JSValue) :
    (Observable.update w r u).2.wellFormed = true := by
  cases hr : w.heap[r]? with
  | none => simpa [Observable.update, hr] using hw
  | some o =>
    rcases update_cases u hr with h | ⟨merged, old, h⟩
    · rw [h]; exact hw
    · rw [h]
      exact ((sameWiring_store_value merged hr).andThen
        (notifyObservers_sameWiring _ _ r _ _)).wellFormed hw

theorem wellFormed_setState {w : World} (hw : w.wellFormed = true) (key : String)
    (v : JSValue) : (Store.setState w key v).2.wellFormed = true := by
  unfold Store.setState
  cases hl : w.lookup key with
  | none => exact wellFormed_new_assign hw key v
  | some m =>
    cases m with
    | own r => exact wellFormed_assignValue hw _ r v
    | inherited name => exact hw

theorem wellFormed_updateState {w : World} (hw : w.wellFormed = true) (key : String)
    (u : JSValue) : (Store.updateState w key u).2.wellFormed = true := by
  unfold Store.updateState
  have h1 : (match w.lookup key with
      | some _ => w
      | none =>
        let created := Observable.new w (.object [])
        { created.1 with _state := assign created.1._state key created.2 }).wellFormed
      = true := by
    cases w.lookup key with
    | some m => exact hw
    | none => exact wellFormed_new_assign hw key _
  generalize (match w.lookup key with
      | some _ => w
      | none =>
        let created := Observable.new w (.object [])
        { created.1 with _state := assign created.1._state key created.2 }) = w1 at h1
  simp only
  cases w1.lookup key with
  | none => exact h1
  | some m =>
    cases m with
    | own r => exact wellFormed_update h1 r u
    | inherited name => exact h1

theorem wellFormed_store_subscribe {w : World} (hw : w.wellFormed = true) (key : String)
    (fn : Nat) : (Store.subscribe w key (.callback fn)).2.wellFormed = true := by
  rcases store_subscribe_cases w key fn with h | ⟨r, o, hr, h⟩
  · rw [h]; exact hw
  · rw [h]
    have := wellFormed_subscribe_callback (r := r) fn hw
    rwa [subscribe_callback_spec fn hr] at this

theorem wellFormed_callEach : ∀ (unsubs : List Unsubscribe) (w : World),
    w.wellFormed = true → (callEach unsubs w).2.wellFormed = true
  | [], _, hw => hw
  | u :: rest, w, hw => by
    have h1 := wellFormed_unsubscribe u hw
    unfold callEach
    rcases hs : Unsubscribe.call w u with ⟨res, w1⟩
    rw [hs] at h1
    cases res with
    | error e => exact h1
    | ok x => exact wellFormed_callEach rest w1 h1

theorem wellFormed_callUnsubscribeAll {w : World} (hw : w.wellFormed = true) (r : Nat) :
    (Observable.callUnsubscribeAll w r).2.wellFormed = true := by
  unfold Observable.callUnsubscribeAll
  cases w.heap[r]? with
  | none => exact hw
  | some o =>
    simp only
    cases o.unsubscribeAll with
    | none => exact hw
    | some unsubs => exact wellFormed_callEach unsubs w hw

theorem lookup_isSome_of_getValue {w : World} {key : String} {v : JSValue}
    (h : Store.getValue w key = .ok v) : (w.lookup key).isSome = true := by
  unfold Store.getValue Store.getState at h
  cases hl : w.lookup key with
  | none => simp [hl] at h
  | some m => rfl

theorem lookup_isSome_of_getValues {w : World} : ∀ {keys : List String} {vs : List JSValue},
    Store.getValues w keys = .ok vs → ∀ key ∈ keys, (w.lookup key).isSome = true
  | [], _, _, _, hk => by simp at hk
  | k :: rest, vs, h, key, hk => by
    simp only [Store.getValues] at h
    cases hv : Store.getValue w k with
    | error e => simp [hv] at h
    | ok v =>
      cases hvs : Store.getValues w rest with
      | error e => simp [hv, hvs] at h
      | ok vs' =>
        rcases List.mem_cons.mp hk with heq | hmem
        · subst heq
          exact lookup_isSome_of_getValue hv
        · exact lookup_isSome_of_getValues hvs key hmem

theorem wellFormed_more_arrows {w : World} (hw : w.wellFormed = true) :
    ({ w with arrows := w.arrows + 1 } : World).wellFormed = true := by
  rw [wellFormed_iff]
  obtain ⟨h1, h2⟩ := wellFormed_iff.mp hw
  exact ⟨h1, fun r ob hob =>
    wired_mono (h2 r ob hob) (Nat.le_refl _) (Nat.le_succ _) (fun _ h => h)⟩

/-- One round of the subscription loop keeps the world well-formed, whether it subscribes
or throws. -/
theorem wellFormed_subscribe_arrow {w : World} (deps : List String)
    (f : List JSValue → JSValue) (d : Nat) (dep : String) (hw : w.wellFormed = true)
    (hd : d < w.heap.length) (hb : ∀ p ∈ w._state, p.2 < d)
    (hdeps : ∀ x ∈ deps, (w.lookup x).isSome = true) :
    (Store.subscribe { w with arrows := w.arrows + 1 } dep
        (.recompute w.arrows deps f d)).2.wellFormed = true ∧
      (Store.subscribe { w with arrows := w.arrows + 1 } dep
        (.recompute w.arrows deps f d)).2.heap.length = w.heap.length ∧
      (Store.subscribe { w with arrows := w.arrows + 1 } dep
        (.recompute w.arrows deps f d)).2._state = w._state := by
  have hw1 := wellFormed_more_arrows hw
  unfold Store.subscribe Store.getState
  cases hl : World.lookup { w with arrows := w.arrows + 1 } dep with
  | none => exact ⟨hw1, rfl, rfl⟩
  | some m =>
    cases m with
    | inherited name => exact ⟨hw1, rfl, rfl⟩
    | own r =>
      simp only [Observable.subscribe]
      cases hr : ({ w with arrows := w.arrows + 1 } : World).heap[r]? with
      | none => exact ⟨hw1, rfl, rfl⟩
      | some o =>
        refine ⟨?_, by simp [World.store], rfl⟩
        have hmem := mem_of_lookup _ _ _ (plainObjectGet_own.mp hl)
        have hrd : r < d := hb _ hmem
        obtain ⟨h1, h2⟩ := wellFormed_iff.mp hw1
        rw [wellFormed_iff]
        refine ⟨fun p hp => by simpa [World.store] using h1 p hp, ?_⟩
        intro t ob hob
        rw [observers_store (lt_of_get hr)] at hob
        have hsame : ∀ x, Observer.wired (({ w with arrows := w.arrows + 1 } : World).store
            r ⟨o._value, o._observers ++ [.recompute w.arrows deps f d],
              o.unsubscribeAll⟩) t x =
            Observer.wired { w with arrows := w.arrows + 1 } t x := by
          intro x
          cases x with
          | callback id => rfl
          | recompute id deps' f' t' => simp [Observer.wired, World.store, World.lookup]
        rw [hsame]
        by_cases ht : t = r
        · subst ht
          simp only [if_true, List.mem_append, List.mem_singleton] at hob
          rcases hob with h | h
          · exact h2 t ob (by rw [observers_of_get hr]; exact h)
          · subst h
            simp only [Observer.wired, Bool.and_eq_true, decide_eq_true_eq,
              List.all_eq_true]
            exact ⟨⟨⟨hrd, hd⟩, Nat.lt_succ_self _⟩, hdeps⟩
        · simp only [ht, if_false] at hob
          exact h2 t ob hob

/-- The subscription loop keeps a world well-formed whether it completes or throws, as
long as the derived Observable `d` exists, was created after every bound Observable, and
the dependencies resolve. -/
theorem wellFormed_subscribeDependencies (deps : List String) (f : List JSValue → JSValue)
    (d : Nat) : ∀ (todo : List String) (w : World), w.wellFormed = true →
      d < w.heap.length → (∀ p ∈ w._state, p.2 < d) →
      (∀ dep ∈ deps, (w.lookup dep).isSome = true) →
      (Store.subscribeDependencies deps f d todo w).2.wellFormed = true ∧
        (Store.subscribeDependencies deps f d todo w).2.heap.length = w.heap.length ∧
        (Store.subscribeDependencies deps f d todo w).2._state = w._state
  | [], w, hw, _, _, _ => ⟨hw, rfl, rfl⟩
  | dep :: rest, w, hw, hd, hb, hdeps => by
    have hstep := wellFormed_subscribe_arrow deps f d dep hw hd hb hdeps
    unfold Store.subscribeDependencies
    simp only
    rcases hs : Store.subscribe { w with arrows := w.arrows + 1 } dep
        (.recompute w.arrows deps f d) with ⟨res, w1⟩
    rw [hs] at hstep
    obtain ⟨hwf1, hlen1, hst1⟩ := hstep
    simp only at hwf1 hlen1 hst1
    cases res with
    | error e => exact ⟨hwf1, hlen1, hst1⟩
    | ok unsub =>
      simp only
      obtain ⟨hwf2, hlen2, hst2⟩ := wellFormed_subscribeDependencies deps f d rest w1 hwf1
        (by rw [hlen1]; exact hd) (by rw [hst1]; exact hb)
        (fun dep' hdep' => by
          have : w1.lookup dep' = w.lookup dep' := by simp [World.lookup, hst1]
          rw [this]; exact hdeps dep' hdep')
      rcases hs2 : Store.subscribeDependencies deps f d rest w1 with ⟨res2, w2⟩
      rw [hs2] at hwf2 hlen2 hst2
      simp only at hwf2 hlen2 hst2
      cases res2 with
      | error e => exact ⟨hwf2, hlen2.trans hlen1, hst2.trans hst1⟩
      | ok unsubs => exact ⟨hwf2, hlen2.trans hlen1, hst2.trans hst1⟩

theorem wellFormed_set_unsubscribeAll {w : World} {r : Nat} {o : Observable}
    (hw : w.wellFormed = true) (hr : w.heap[r]? = some o) (unsubs : List Unsubscribe) :
    (w.store r { o with unsubscribeAll := some unsubs }).wellFormed = true := by
  obtain ⟨h1, h2⟩ := wellFormed_iff.mp hw
  rw [wellFormed_iff]
  have hl := lt_of_get hr
  refine ⟨fun p hp => by simpa [World.store] using h1 p hp, fun t ob hob => ?_⟩
  rw [observers_store hl] at hob
  have hmem : ob ∈ w.observers t := by
    by_cases ht : t = r
    · subst ht
      rw [observers_of_get hr]
      simpa using hob
    · simpa [ht] using hob
  have := h2 t ob hmem
  cases ob with
  | callback id => rfl
  | recompute id deps f t' => simpa [Observer.wired, World.store, World.lookup] using this

theorem wellFormed_createDerivedState {w : World} (hw : w.wellFormed = true) (key : String)
    (deps : List String) (f : List JSValue → JSValue) :
    (Store.createDerivedState w key deps f).2.wellFormed = true := by
  unfold Store.createDerivedState
  cases hargs : Store.getValues w deps with
  | error e => exact hw
  | ok args =>
    simp only
    have hw1 : (Observable.new w (f args)).1.wellFormed = true := by
      rw [wellFormed_iff]
      obtain ⟨h1, h2⟩ := wellFormed_iff.mp hw
      refine ⟨fun p hp => ?_, fun r ob hob => ?_⟩
      · have := h1 p hp
        simp only [Observable.new, List.length_append, List.length_singleton]
        omega
      · rw [observers_new] at hob
        exact wired_mono (h2 r ob hob) (by simp [Observable.new]) (Nat.le_refl _)
          (fun _ h => h)
    obtain ⟨hwf, hlen, hst⟩ := wellFormed_subscribeDependencies deps f
      (Observable.new w (f args)).2 deps (Observable.new w (f args)).1 hw1
      (by simp [Observable.new]) (fun p hp => wellFormed_state hw hp)
      (fun dep hdep => by
        have : (Observable.new w (f args)).1.lookup dep = w.lookup dep := rfl
        rw [this]
        exact lookup_isSome_of_getValues hargs dep hdep)
    rcases hs : Store.subscribeDependencies deps f (Observable.new w (f args)).2 deps
        (Observable.new w (f args)).1 with ⟨res, w2⟩
    rw [hs] at hwf hlen hst
    simp only at hwf hlen hst
    cases res with
    | error e => exact hwf
    | ok unsubs =>
      simp only
      have hbound : ({ w2 with _state := assign w2._state key (Observable.new w (f args)).2 } :
          World).wellFormed = true := by
        rw [wellFormed_iff]
        obtain ⟨h1, h2⟩ := wellFormed_iff.mp hwf
        refine ⟨fun p hp => ?_, fun r ob hob => ?_⟩
        · rcases mem_assign _ _ _ _ hp with h | h
          · subst h
            show w.heap.length < w2.heap.length
            rw [hlen]
            simp [Observable.new]
          · exact h1 p h
        · exact wired_mono (h2 r ob hob) (Nat.le_refl _) (Nat.le_refl _)
            (fun dep h => lookup_isSome_assign w2 key _ dep h)
      cases ho : ({ w2 with _state := assign w2._state key (Observable.new w (f args)).2 } :
          World).heap[(Observable.new w (f args)).2]? with
      | none => exact hbound
      | some o => exact wellFormed_set_unsubscribeAll hbound ho unsubs

/-- Every world that callers can bring about through the interface is well-formed. -/
theorem reachable_wellFormed {w : World} (h : Reachable w) : w.wellFormed = true := by
  induction h with
  | new initialState => exact wellFormed_store_new initialState
  | setState key value _ ih => exact wellFormed_setState ih key value
  | updateState key updates _ ih => exact wellFormed_updateState ih key updates
  | subscribe key fn _ ih => exact wellFormed_store_subscribe ih key fn
  | unsubscribe u _ ih => exact wellFormed_unsubscribe u ih
  | createDerivedState key deps f _ ih => exact wellFormed_createDerivedState ih key deps f
  | unsubscribeAll r _ ih => exact wellFormed_callUnsubscribeAll ih r

/-! ## setState on registered and on absent keys -/

/-- On a registered key `setState` returns normally, the key then reads the new value,
every caller-supplied observer of the key is called once with the new and the previous
value, all observer lists and bindings stay as they are, and every Observable that does
not depend on the key keeps its value. -/
theorem setState_registered_key {w : World} {key : String} {r : Nat} {o : Observable}
    (hw : w.wellFormed = true) (hl : w.lookup key = some (.own r))
    (hr : w.heap[r]? = some o) (v : JSValue) :
    (Store.setState w key v).1 = .ok () ∧
      Store.getValue (Store.setState w key v).2 key = .ok v ∧
      callsFrom r (Store.setState w key v).2.calls =
        callsFrom r w.calls ++ callbackCalls r v o._value o._observers ∧
      (Store.setState w key v).2.observers = w.observers ∧
      (Store.setState w key v).2._state = w._state ∧
      ∀ t, t ≠ r → ¬ DependsOn w t r → (Store.setState w key v).2.heap[t]? = w.heap[t]? := by
  rw [setState_own v hl]
  obtain ⟨h1, h2, h3, h4, h5, _⟩ := setValue_spec hw hr v
  refine ⟨h1, ?_, h5, h2.observers, h2.state, h4⟩
  rw [getValue_own (by rw [h2.lookup]; exact hl)]
  simp [Observable.value, h3]

/-- On a key that resolves to nothing `setState` creates an Observable holding the value
and binds the key to it; nobody is called, and every other key and every Observable that
was there stays as it is. -/
theorem setState_absent_key {w : World} {key : String} (hl : w.lookup key = none)
    (v : JSValue) :
    (Store.setState w key v).1 = .ok () ∧
      (Store.setState w key v).2.lookup key = some (.own w.heap.length) ∧
      Store.getValue (Store.setState w key v).2 key = .ok v ∧
      (Store.setState w key v).2.calls = w.calls ∧
      (∀ j, j ≠ key → (Store.setState w key v).2.lookup j = w.lookup j) ∧
      ∀ t, t < w.heap.length → (Store.setState w key v).2.heap[t]? = w.heap[t]? := by
  have hres : Store.setState w key v = (.ok (),
      { (Observable.new w v).1 with
        _state := assign (Observable.new w v).1._state key (Observable.new w v).2 }) := by
    simp [Store.setState, hl]
  rw [hres]
  have hkey : World.lookup { (Observable.new w v).1 with
      _state := assign (Observable.new w v).1._state key (Observable.new w v).2 } key =
      some (.own w.heap.length) := lookup_assign_key w key _
  refine ⟨rfl, hkey, ?_, rfl, fun j hj => lookup_assign_ne w _ hj, fun t ht => ?_⟩
  · rw [getValue_own hkey]
    simp [Observable.value, Observable.new]
  · simp [Observable.new, List.getElem?_append_left ht]

/-- The method `getValue` is `getState` followed by reading the value. -/
theorem getValue_eq_getState_value (w : World) (key : String) (r : Nat)
    (h : Store.getState w key = .ok (.own r)) :
    Store.getValue w key = Observable.value w r := by
  simp [Store.getValue, h]

/-! ## The example of the specification for filteredCourses -/

/-- C11 as stated fails: on the two records of the example, which carry no description,
the computation does not complete. The first record matches on its title; the second
does not, so `course.description.toLowerCase()` is evaluated on a record without
description and raises a `TypeError`. -/
theorem filteredCourses_example_counterexample :
    filteredCourses asciiLower (specCourses none none) specFilters = .error .typeError ∧
      filteredCourses asciiLower (specCourses none none) specFilters ≠
        .ok [{ id := 1, title := some "HTML Basics", description := none,
               category := some "web", difficulty := some "beginner" }] := by
  have h : filteredCourses asciiLower (specCourses none none) specFilters =
      .error .typeError := rfl
  exact ⟨h, by rw [h]; simp⟩

/-- C11 (amended): when the second record of the example carries a description in which
the search text does not occur, the computation completes and its result is exactly the
list containing course 1, whether or not the first record carries a description.
`toLowerCase` is any function that lower-cases the three texts of the example. -/
theorem filteredCourses_example (toLowerCase : String → String)
    (description1 : Option String) (description2 : String)
    (h1 : toLowerCase "HTML Basics" = "html basics")
    (h2 : toLowerCase "Advanced JS" = "advanced js")
    (h3 : toLowerCase "html" = "html")
    (hd : includes (toLowerCase description2) "html" = false) :
    filteredCourses toLowerCase (specCourses description1 (some description2)) specFilters =
      .ok [{ id := 1, title := some "HTML Basics", description := description1,
             category := some "web", difficulty := some "beginner" }] := by
  have ha : includes "html basics" "html" = true := by decide
  have hb : includes "advanced js" "html" = false := by decide
  have hs : specFilters.search ≠ "" := by decide
  simp [filteredCourses, filterArray, matchesFilters, specCourses, matchesExact, specFilters,
    h1, h2, h3, ha, hb, hd]

/-- Witness for C11 (amended): the example with the description `"Closures and more"` on
the second record and none on the first. -/
theorem filteredCourses_example_witness :
    (asciiLower "HTML Basics" = "html basics" ∧ asciiLower "Advanced JS" = "advanced js" ∧
      asciiLower "html" = "html" ∧
      includes (asciiLower "Closures and more") "html" = false) ∧
    filteredCourses asciiLower (specCourses none (some "Closures and more")) specFilters =
      .ok [{ id := 1, title := some "HTML Basics", description := none,
             category := some "web", difficulty := some "beginner" }] :=
  ⟨⟨by decide, by decide, by decide, by decide⟩,
    filteredCourses_example asciiLower none "Closures and more" (by decide) (by decide)
      (by decide) (by decide)⟩

/-! ## Primary keys -/

theorem unfed_iff {w : World} {r : Nat} : w.unfed r = true ↔ ∀ s, ¬ Feeds w s r := by
  simp only [World.unfed, List.all_eq_true, bne_iff_ne, ne_eq]
  constructor
  · rintro h s ⟨observer, hmem, htarget⟩
    unfold World.observers at hmem
    cases hs : w.heap[s]? with
    | none => simp [hs] at hmem
    | some o =>
      rw [hs] at hmem
      exact h o (List.getElem?_mem hs) observer hmem htarget
  · intro h o ho observer hmem htarget
    obtain ⟨s, hs⟩ := List.mem_iff_getElem?.mp ho
    exact h s ⟨observer, by simp [World.observers, hs, hmem], htarget⟩

theorem primary_iff {w : World} {keys : List String} :
    w.primary keys = true ↔
      w.wellFormed = true ∧
        (∀ key ∈ keys, ∃ r, w.lookup key = some (.own r) ∧ ∀ s, ¬ Feeds w s r) ∧
        (keys.map w.lookup).Nodup := by
  simp only [World.primary, Bool.and_eq_true, List.all_eq_true, decide_eq_true_eq]
  constructor
  · rintro ⟨⟨hw, hk⟩, hn⟩
    refine ⟨hw, fun key hkey => ?_, hn⟩
    have := hk key hkey
    split at this
    · next r hl => exact ⟨r, hl, unfed_iff.mp this⟩
    · simp at this
  · rintro ⟨hw, hk, hn⟩
    refine ⟨⟨hw, fun key hkey => ?_⟩, hn⟩
    obtain ⟨r, hl, hu⟩ := hk key hkey
    simp only [hl]
    exact unfed_iff.mpr hu

theorem primary_of_sameWiring {w w' : World} {keys : List String} (h : SameWiring w w')
    (hp : w.primary keys = true) : w'.primary keys = true := by
  rw [primary_iff] at hp ⊢
  obtain ⟨hw, hk, hn⟩ := hp
  have hl : w'.lookup = w.lookup := funext h.lookup
  refine ⟨h.wellFormed hw, ?_, by rw [hl]; exact hn⟩
  intro key hkey
  obtain ⟨r, hr, hu⟩ := hk key hkey
  refine ⟨r, by rw [hl]; exact hr, ?_⟩
  intro s hf
  apply hu s
  unfold Feeds at hf ⊢
  rwa [h.observers] at hf

theorem not_dependsOn_of_unfed {w : World} {t : Nat} (h : ∀ s, ¬ Feeds w s t) (r : Nat) :
    ¬ DependsOn w t r := by
  intro hd
  unfold DependsOn at hd
  cases hd with
  | single hf => exact h _ hf
  | tail _ hf => exact h _ hf

/-- What holds of a primary key: it is bound to an Observable that exists, and reading the
key reads that Observable. -/
theorem primary_key {w : World} {keys : List String} {key : String}
    (hp : w.primary keys = true) (hk : key ∈ keys) :
    ∃ r o, w.lookup key = some (.own r) ∧ w.heap[r]? = some o ∧
      Store.getValue w key = .ok o._value ∧ ∀ s, ¬ Feeds w s r := by
  obtain ⟨hw, hkeys, _⟩ := primary_iff.mp hp
  obtain ⟨r, hl, hu⟩ := hkeys key hk
  obtain ⟨o, ho⟩ : ∃ o, w.heap[r]? = some o := get_of_lt (lookup_own_lt hw hl)
  exact ⟨r, o, hl, ho, by rw [getValue_own hl]; simp [Observable.value, ho], hu⟩

/-- A write at one primary key leaves the other primary keys as they read before. -/
theorem primary_frame {w w' : World} {keys : List String} {key : String} {r : Nat}
    (hp : w.primary keys = true) (hk : key ∈ keys) (hl : w.lookup key = some (.own r))
    (hs : SameWiring w w')
    (hf : ∀ t, t ≠ r → ¬ DependsOn w t r → w'.heap[t]? = w.heap[t]?) :
    ∀ k ∈ keys, k ≠ key → Store.getValue w' k = Store.getValue w k := by
  intro k hkk hne
  obtain ⟨_, _, hn⟩ := primary_iff.mp hp
  obtain ⟨t, o, hlt, _, _, hu⟩ := primary_key hp hkk
  have htr : t ≠ r := by
    intro heq
    apply hne
    apply List.inj_on_of_nodup_map hn hkk hk
    rw [hlt, hl, heq]
  rw [getValue_own (by rw [hs.lookup]; exact hlt), getValue_own hlt]
  simp only [Observable.value, hf t htr (not_dependsOn_of_unfed hu r)]

/-- Method `setState` on a primary key: it returns normally, the key then reads the new value,
the keys stay primary, and the other primary keys read as before. -/
theorem setState_primary {w : World} {keys : List String} {key : String}
    (hp : w.primary keys = true) (hk : key ∈ keys) (v : JSValue) :
    ∃ w', Store.setState w key v = (.ok (), w') ∧ w'.primary keys = true ∧
      Store.getValue w' key = .ok v ∧
      ∀ k ∈ keys, k ≠ key → Store.getValue w' k = Store.getValue w k := by
  obtain ⟨hw, _, _⟩ := primary_iff.mp hp
  obtain ⟨r, o, hl, ho, _, _⟩ := primary_key hp hk
  obtain ⟨h1, h2, h3, h4, _, _⟩ := setValue_spec hw ho v
  refine ⟨(Observable.setValue w r v).2, ?_, primary_of_sameWiring h2 hp, ?_,
    primary_frame hp hk hl h2 h4⟩
  · rw [setState_own v hl]
    exact Prod.ext h1 rfl
  · rw [getValue_own (by rw [h2.lookup]; exact hl)]
    simp [Observable.value, h3]

/-- Method `updateState` on a primary key: when `update` accepts the stored value, the call
returns normally, the key then reads the merged record, the keys stay primary and the other
primary keys read as before; when `update` rejects the stored value, nothing changes. -/
theorem updateState_primary {w : World} {keys : List String} {key : String} {value : JSValue}
    (hp : w.primary keys = true) (hk : key ∈ keys) (hv : Store.getValue w key = .ok value)
    (u : JSValue) :
    match updateValue value u with
    | .ok merged =>
      ∃ w', Store.updateState w key u = (.ok (), w') ∧ w'.primary keys = true ∧
        Store.getValue w' key = .ok merged ∧
        ∀ k ∈ keys, k ≠ key → Store.getValue w' k = Store.getValue w k
    | .error e => Store.updateState w key u = (.error e, w) := by
  obtain ⟨hw, _, _⟩ := primary_iff.mp hp
  obtain ⟨r, o, hl, ho, hget, _⟩ := primary_key hp hk
  have hval : o._value = value := by
    rw [hget] at hv
    exact Except.ok.inj hv
  rw [updateState_own u hl]
  unfold updateValue
  split_ifs with hg
  · have hupd : Observable.update w r u =
        Observable._notifyObservers w.heap.length
          (w.store r { o with _value := .object (spread (spread [] value) u) }) r
          (.object (spread (spread [] value) u)) (.object (spread [] value)) := by
      simp only [Observable.update, ho, hval]
      rw [if_pos hg]
    obtain ⟨h1, h2, h3, h4, _, _⟩ :=
      store_notify hw ho (.object (spread (spread [] value) u)) (.object (spread [] value))
    rw [← hupd] at h1 h2 h3 h4
    refine ⟨(Observable.update w r u).2, Prod.ext h1 rfl, primary_of_sameWiring h2 hp, ?_,
      primary_frame hp hk hl h2 h4⟩
    rw [getValue_own (by rw [h2.lookup]; exact hl)]
    simp [Observable.value, h3]
  · simp only [Observable.update, ho, hval]
    rw [if_neg hg]

/-! ## The progress methods and the values -/

theorem Holds.setAchievements {page : Page} {v : Values} (h : Holds page v) (x : JSValue) :
    ∃ w', Store.setState page.stateManager.progressStore "achievements" x = (.ok (), w') ∧
      Holds (page.withProgressStore w') { v with achievements := x } := by
  obtain ⟨w', hset, hp, hget, hframe⟩ :=
    setState_primary h.primary (show "achievements" ∈ progressKeys by decide) x
  refine ⟨w', hset, hp, h.courses, ?_, ?_, hget, ?_, h.dispatched⟩
  · exact (hframe "courseProgress" (by decide) (by decide)).trans h.courseProgress
  · exact (hframe "lessonProgress" (by decide) (by decide)).trans h.lessonProgress
  · exact (hframe "streaks" (by decide) (by decide)).trans h.streaks

theorem Holds.setStreaks {page : Page} {v : Values} (h : Holds page v) (x : JSValue) :
    ∃ w', Store.setState page.stateManager.progressStore "streaks" x = (.ok (), w') ∧
      Holds (page.withProgressStore w') { v with streaks := x } := by
  obtain ⟨w', hset, hp, hget, hframe⟩ :=
    setState_primary h.primary (show "streaks" ∈ progressKeys by decide) x
  refine ⟨w', hset, hp, h.courses, ?_, ?_, ?_, hget, h.dispatched⟩
  · exact (hframe "courseProgress" (by decide) (by decide)).trans h.courseProgress
  · exact (hframe "lessonProgress" (by decide) (by decide)).trans h.lessonProgress
  · exact (hframe "achievements" (by decide) (by decide)).trans h.achievements

theorem Holds.updateLessons {page : Page} {v : Values} (h : Holds page v) (u : JSValue) :
    match updateValue v.lessonProgress u with
    | .ok merged =>
      ∃ w', Store.updateState page.stateManager.progressStore "lessonProgress" u =
          (.ok (), w') ∧
        Holds (page.withProgressStore w') { v with lessonProgress := merged }
    | .error e =>
      Store.updateState page.stateManager.progressStore "lessonProgress" u =
        (.error e, page.stateManager.progressStore) := by
  have := updateState_primary h.primary (show "lessonProgress" ∈ progressKeys by decide)
    h.lessonProgress u
  cases hu : updateValue v.lessonProgress u with
  | error e => simpa [hu] using this
  | ok merged =>
    rw [hu] at this
    obtain ⟨w', hset, hp, hget, hframe⟩ := this
    refine ⟨w', hset, hp, h.courses, ?_, hget, ?_, ?_, h.dispatched⟩
    · exact (hframe "courseProgress" (by decide) (by decide)).trans h.courseProgress
    · exact (hframe "achievements" (by decide) (by decide)).trans h.achievements
    · exact (hframe "streaks" (by decide) (by decide)).trans h.streaks

theorem Holds.updateCourses {page : Page} {v : Values} (h : Holds page v) (u : JSValue) :
    match updateValue v.courseProgress u with
    | .ok merged =>
      ∃ w', Store.updateState page.stateManager.progressStore "courseProgress" u =
          (.ok (), w') ∧
        Holds (page.withProgressStore w') { v with courseProgress := merged }
    | .error e =>
      Store.updateState page.stateManager.progressStore "courseProgress" u =
        (.error e, page.stateManager.progressStore) := by
  have := updateState_primary h.primary (show "courseProgress" ∈ progressKeys by decide)
    h.courseProgress u
  cases hu : updateValue v.courseProgress u with
  | error e => simpa [hu] using this
  | ok merged =>
    rw [hu] at this
    obtain ⟨w', hset, hp, hget, hframe⟩ := this
    refine ⟨w', hset, hp, h.courses, hget, ?_, ?_, ?_, h.dispatched⟩
    · exact (hframe "lessonProgress" (by decide) (by decide)).trans h.lessonProgress
    · exact (hframe "achievements" (by decide) (by decide)).trans h.achievements
    · exact (hframe "streaks" (by decide) (by decide)).trans h.streaks

theorem Holds.dispatch {page : Page} {v : Values} (h : Holds page v)
    (events : List CustomEvent) :
    Holds { stateManager := page.stateManager, dispatched := page.dispatched ++ events }
      { v with dispatched := v.dispatched ++ events } :=
  ⟨h.primary, h.courses, h.courseProgress, h.lessonProgress, h.achievements, h.streaks,
    by simp [h.dispatched]⟩

/-- The method `_checkCourseCompletionAchievements` does to a page what
`Values._checkCourseCompletionAchievements` does to the values it holds. -/
theorem checkCourseCompletionAchievements_values {page : Page} {v : Values}
    (h : Holds page v) (courseId : String) :
    ∃ page', StateManager._checkCourseCompletionAchievements page courseId =
        ((Values._checkCourseCompletionAchievements v courseId).1, page') ∧
      Holds page' (Values._checkCourseCompletionAchievements v courseId).2 := by
  unfold StateManager._checkCourseCompletionAchievements
    Values._checkCourseCompletionAchievements
  rw [h.achievements]
  dsimp only
  cases hf : filterArray (isNewCourseAchievement v.achievements courseId)
      (achievementDefinitions courseId) with
  | error e => exact ⟨page, rfl, h⟩
  | ok courseAchievements =>
    dsimp only
    split_ifs with hlen
    · cases he : v.achievements.elements with
      | error e => exact ⟨page, rfl, h⟩
      | ok items =>
        dsimp only
        obtain ⟨w', hset, hh⟩ := h.setAchievements
          (.array (items ++ (courseAchievements.map (fun a : AchievementDefinition => a.id)).map JSValue.string))
        rw [hset]
        exact ⟨_, rfl, hh.dispatch
          ((courseAchievements.map (fun a : AchievementDefinition => a.id)).map CustomEvent.achievementUnlocked)⟩
    · exact ⟨page, rfl, h⟩

/-- The method `_checkStreakAchievements` does to a page what
`Values._checkStreakAchievements` does to the values it holds. -/
theorem checkStreakAchievements_values {page : Page} {v : Values} (h : Holds page v)
    (currentStreak : JSValue) :
    ∃ page', StateManager._checkStreakAchievements page currentStreak =
        ((Values._checkStreakAchievements v currentStreak).1, page') ∧
      Holds page' (Values._checkStreakAchievements v currentStreak).2 := by
  unfold StateManager._checkStreakAchievements Values._checkStreakAchievements
  cases streakMilestones.find? (fun m => currentStreak.isNumber m) with
  | none => exact ⟨page, rfl, h⟩
  | some milestone =>
    dsimp only
    split_ifs with hm
    · exact ⟨page, rfl, h⟩
    · rw [h.achievements]
      dsimp only
      cases hi : v.achievements.includes ("ach-streak-" ++ toString milestone) with
      | error e => exact ⟨page, rfl, h⟩
      | ok found =>
        cases found with
        | true => exact ⟨page, rfl, h⟩
        | false =>
          dsimp only
          cases he : v.achievements.elements with
          | error e => exact ⟨page, rfl, h⟩
          | ok items =>
            dsimp only
            obtain ⟨w', hset, hh⟩ := h.setAchievements
              (.array (items ++ [.string ("ach-streak-" ++ toString milestone)]))
            rw [hset]
            exact ⟨_, rfl, hh.dispatch
              [.achievementUnlocked ("ach-streak-" ++ toString milestone)]⟩

/-- The method `_updateStreak` does to a page what `Values._updateStreak` does to the
values it holds. -/
theorem updateStreak_values {page : Page} {v : Values} (h : Holds page v) (clock : Clock) :
    ∃ page', StateManager._updateStreak page clock =
        ((Values._updateStreak v clock).1, page') ∧
      Holds page' (Values._updateStreak v clock).2 := by
  unfold StateManager._updateStreak Values._updateStreak
  rw [h.streaks]
  dsimp only
  cases v.streaks.field "lastActive" with
  | error e => exact ⟨page, rfl, h⟩
  | ok lastActive =>
    dsimp only
    split_ifs with ht
    · exact ⟨page, rfl, h⟩
    · cases updatedStreak clock v.streaks lastActive with
      | error e => exact ⟨page, rfl, h⟩
      | ok updated =>
        dsimp only
        obtain ⟨w', hset, hh⟩ := h.setStreaks (.object updated)
        rw [hset]
        exact checkStreakAchievements_values hh _

/-- The block of `updateLessonProgress` for a completed lesson does to a page what
`Values.updateCourseProgress` does to the values it holds. -/
theorem updateCourseProgress_values {page : Page} {v : Values} (h : Holds page v)
    (clock : Clock) (courseId : String) :
    ∃ page', StateManager.updateCourseProgress page clock courseId =
        ((Values.updateCourseProgress v clock courseId).1, page') ∧
      Holds page' (Values.updateCourseProgress v clock courseId).2 := by
  unfold StateManager.updateCourseProgress Values.updateCourseProgress
  rw [h.courses]
  obtain ⟨vcourses, vcourseProgress, vlessonProgress, vachievements, vstreaks, vdispatched⟩ := v
  cases vcourses with
  | array courses =>
    dsimp only
    cases findCourse courseId courses with
    | error e => exact ⟨page, rfl, h⟩
    | ok found =>
      cases found with
      | none => exact ⟨page, rfl, h⟩
      | some course =>
        dsimp only
        rw [h.lessonProgress, h.courseProgress]
        dsimp only
        cases courseProgressUpdate clock courseId course vlessonProgress
            (.ok vcourseProgress) with
        | error e => exact ⟨page, rfl, h⟩
        | ok result =>
          obtain ⟨updates, allLessonsCompleted⟩ := result
          dsimp only
          have hu := h.updateCourses updates
          dsimp only at hu
          cases hm : updateValue vcourseProgress updates with
          | error e =>
            rw [hm] at hu
            rw [hu]
            exact ⟨page, rfl, h⟩
          | ok merged =>
            rw [hm] at hu
            obtain ⟨w', hset, hh⟩ := hu
            rw [hset]
            dsimp only
            split_ifs with ha
            · exact checkCourseCompletionAchievements_values hh courseId
            · exact ⟨_, rfl, hh⟩
  | _ => exact ⟨page, rfl, h⟩

/-- The method `updateLessonProgress` does to a page what `Values.updateLessonProgress`
does to the values it holds: the same outcome, and a page that holds the new values. -/
theorem updateLessonProgress_values {page : Page} {v : Values} (h : Holds page v)
    (clock : Clock) (courseId lessonId : String) (progressUpdate : JSValue) :
    ∃ page', StateManager.updateLessonProgress page clock courseId lessonId progressUpdate =
        ((Values.updateLessonProgress v clock courseId lessonId progressUpdate).1, page') ∧
      Holds page' (Values.updateLessonProgress v clock courseId lessonId progressUpdate).2 := by
  unfold StateManager.updateLessonProgress Values.updateLessonProgress
  rw [h.lessonProgress]
  dsimp only
  cases v.lessonProgress.member lessonId with
  | error e => exact ⟨page, rfl, h⟩
  | ok member =>
    dsimp only
    have hu := h.updateLessons
      (.object [(lessonId, .object (spread (spreadOrEmpty member) progressUpdate))])
    cases hm : updateValue v.lessonProgress
        (.object [(lessonId, .object (spread (spreadOrEmpty member) progressUpdate))]) with
    | error e =>
      rw [hm] at hu
      rw [hu]
      exact ⟨page, rfl, h⟩
    | ok merged =>
      rw [hm] at hu
      obtain ⟨w', hset, hh⟩ := hu
      rw [hset]
      dsimp only
      cases progressUpdate.field "completed" with
      | error e => exact ⟨_, rfl, hh⟩
      | ok completed =>
        dsimp only
        by_cases hc : completed.truthy = true
        · simp only [hc, if_true]
          obtain ⟨page2, hrun, hh2⟩ := updateCourseProgress_values hh clock courseId
          rw [hrun]
          cases hres : (Values.updateCourseProgress { v with lessonProgress := merged }
              clock courseId).1 with
          | error e =>
            refine ⟨page2, ?_, ?_⟩
            · have : Values.updateCourseProgress { v with lessonProgress := merged }
                  clock courseId = (.error e, (Values.updateCourseProgress
                    { v with lessonProgress := merged } clock courseId).2) :=
                Prod.ext hres rfl
              rw [this]
            · have : Values.updateCourseProgress { v with lessonProgress := merged }
                  clock courseId = (.error e, (Values.updateCourseProgress
                    { v with lessonProgress := merged } clock courseId).2) :=
                Prod.ext hres rfl
              rw [this]
              exact hh2
          | ok u =>
            have : Values.updateCourseProgress { v with lessonProgress := merged }
                clock courseId = (.ok u, (Values.updateCourseProgress
                  { v with lessonProgress := merged } clock courseId).2) :=
              Prod.ext hres rfl
            rw [this]
            exact updateStreak_values hh2 clock
        · simp only [hc, if_false, Bool.false_eq_true]
          exact updateStreak_values hh clock

/-! ## Values with the shapes of the data model -/

theorem distinctKeys_iff {props : Props} :
    distinctKeys props = true ↔ (props.map (fun p => p.1)).Nodup := by
  simp [distinctKeys]

theorem typed_courses {v : Values} (h : v.typed = true) :
    ∃ courses, v.courses = .array courses ∧ ∀ c ∈ courses, isCourse c = true := by
  simp only [Values.typed, Bool.and_eq_true] at h
  obtain ⟨⟨⟨⟨h1, _⟩, _⟩, _⟩, _⟩ := h
  split at h1
  · next courses hc => exact ⟨courses, hc, by simpa [List.all_eq_true] using h1⟩
  · simp at h1

theorem typed_courseProgress {v : Values} (h : v.typed = true) :
    ∃ props, v.courseProgress = .object props ∧ (props.map (fun p => p.1)).Nodup := by
  simp only [Values.typed, Bool.and_eq_true] at h
  obtain ⟨⟨⟨⟨_, h2⟩, _⟩, _⟩, _⟩ := h
  split at h2
  · next props hc => exact ⟨props, hc, distinctKeys_iff.mp h2⟩
  · simp at h2

theorem typed_lessonProgress {v : Values} (h : v.typed = true) :
    ∃ props, v.lessonProgress = .object props ∧ (props.map (fun p => p.1)).Nodup := by
  simp only [Values.typed, Bool.and_eq_true] at h
  obtain ⟨⟨⟨_, h3⟩, _⟩, _⟩ := h
  split at h3
  · next props hc => exact ⟨props, hc, distinctKeys_iff.mp h3⟩
  · simp at h3

theorem typed_achievements {v : Values} (h : v.typed = true) :
    ∃ items, v.achievements = .array items := by
  simp only [Values.typed, Bool.and_eq_true] at h
  obtain ⟨⟨_, h4⟩, _⟩ := h
  split at h4
  · next items hc => exact ⟨items, hc⟩
  · simp at h4

theorem isInteger_iff {x : Option JSValue} : isInteger x = true ↔ ∃ n, x = some (.number n) := by
  unfold isInteger
  split
  · next n => simp
  · next hx =>
    simp only [Bool.false_eq_true, false_iff, not_exists]
    intro n hn
    exact hx n hn

theorem typed_streaks {v : Values} (h : v.typed = true) :
    ∃ props n m, v.streaks = .object props ∧ (props.map (fun p => p.1)).Nodup ∧
      getOwn props "current" = some (.number n) ∧
      getOwn props "longest" = some (.number m) := by
  simp only [Values.typed, Bool.and_eq_true] at h
  obtain ⟨_, h5⟩ := h
  split at h5
  · next props hc =>
    simp only [Bool.and_eq_true] at h5
    obtain ⟨⟨hd, hn⟩, hm⟩ := h5
    obtain ⟨n, hn⟩ := isInteger_iff.mp hn
    obtain ⟨m, hm⟩ := isInteger_iff.mp hm
    exact ⟨props, n, m, hc, distinctKeys_iff.mp hd, hn, hm⟩
  · simp at h5

theorem typed_intro {v : Values} {courses : List JSValue} {cp lp st : Props}
    {items : List JSValue} {n m : Int}
    (h1 : v.courses = .array courses) (h1' : ∀ c ∈ courses, isCourse c = true)
    (h2 : v.courseProgress = .object cp) (h2' : (cp.map (fun p => p.1)).Nodup)
    (h3 : v.lessonProgress = .object lp) (h3' : (lp.map (fun p => p.1)).Nodup)
    (h4 : v.achievements = .array items)
    (h5 : v.streaks = .object st) (h5' : (st.map (fun p => p.1)).Nodup)
    (hn : getOwn st "current" = some (.number n))
    (hm : getOwn st "longest" = some (.number m)) : v.typed = true := by
  simp only [Values.typed, h1, h2, h3, h4, h5, Bool.and_eq_true, List.all_eq_true,
    distinctKeys_iff, hn, hm, isInteger, and_true]
  exact ⟨⟨⟨h1', h2'⟩, h3'⟩, h5'⟩

/-! ## The streak -/

theorem isString_self (s : String) : (JSValue.string s).isString s = true := by
  simp [JSValue.isString]

theorem isString_iff {value : JSValue} {s : String} :
    value.isString s = true ↔ value = .string s := by
  cases value <;> simp [JSValue.isString]

theorem isNumber_iff {value : JSValue} {n : Int} :
    value.isNumber n = true ↔ value = .number n := by
  cases value <;> simp [JSValue.isNumber]

theorem any_isString_iff {items : List JSValue} {s : String} :
    items.any (fun item => item.isString s) = true ↔ JSValue.string s ∈ items := by
  simp only [List.any_eq_true, isString_iff]
  constructor
  · rintro ⟨x, hx, rfl⟩
    exact hx
  · intro h
    exact ⟨_, h, rfl⟩

theorem milestone_ne_zero {current : JSValue} {milestone : Int}
    (h : streakMilestones.find? (fun m => current.isNumber m) = some milestone) :
    milestone ≠ 0 := by
  have hmem := List.mem_of_find?_eq_some h
  have hall : ∀ m ∈ streakMilestones, m ≠ 0 := by decide
  exact hall milestone hmem

/-- On a list of achievements the milestone check returns normally; it appends and
announces what `streakAward` names, and touches nothing else. -/
theorem Values.checkStreak_array {v : Values} {items : List JSValue}
    (hA : v.achievements = .array items) (current : JSValue) :
    Values._checkStreakAchievements v current =
      (.ok (), v.award items (streakAward items current)) := by
  obtain ⟨vcourses, vcourseProgress, vlessonProgress, vachievements, vstreaks, vdispatched⟩ := v
  simp only at hA
  subst hA
  unfold Values._checkStreakAchievements streakAward Values.award
  cases hf : streakMilestones.find? (fun m => current.isNumber m) with
  | none => simp
  | some milestone =>
    have hne := milestone_ne_zero hf
    simp only [hne, if_false, JSValue.includes, JSValue.elements]
    cases hany : items.any (fun item => item.isString ("ach-streak-" ++ toString milestone)) with
    | true => simp
    | false => simp

/-- The copy of the streak record with the date set reads like the record at every other
key. -/
theorem getOwn_streak_copy {st : Props} (hd : (st.map (fun p => p.1)).Nodup) (today : String)
    {k : String} (hk : k ≠ "lastActive") :
    getOwn (setOwn (spread [] (.object st)) "lastActive" (.string today)) k = getOwn st k := by
  rw [spread_nil_object hd, getOwn_setOwn_other _ _ _ _ hk]

/-- Every streak record that `_updateStreak` stores carries today's date. -/
theorem updatedStreak_lastActive {clock : Clock} {currentStreaks lastActive : JSValue}
    {updated : Props} (h : updatedStreak clock currentStreaks lastActive = .ok updated) :
    getOwn updated "lastActive" = some (.string clock.today) := by
  unfold updatedStreak at h
  have hcopy : getOwn (setOwn (spread [] currentStreaks) "lastActive" (.string clock.today))
      "lastActive" = some (.string clock.today) := getOwn_setOwn_self _ _ _
  have hc : ("lastActive" : String) ≠ "current" := by decide
  have hl : ("lastActive" : String) ≠ "longest" := by decide
  simp only at h
  split_ifs at h
  · split at h
    · simp at h
    · split at h
      · simp at h
      · injection h with h
        subst h
        rw [getOwn_setOwn_other _ _ _ _ hl, getOwn_setOwn_other _ _ _ _ hc, hcopy]
      · injection h with h
        subst h
        rw [getOwn_setOwn_other _ _ _ _ hc, hcopy]
  · injection h with h
    subst h
    rw [getOwn_setOwn_other _ _ _ _ hc, hcopy]
  · injection h with h
    subst h
    rw [getOwn_setOwn_other _ _ _ _ hl, getOwn_setOwn_other _ _ _ _ hc, hcopy]

theorem keys_setOwn : ∀ (ps : Props) (k : String) (v : JSValue),
    (setOwn ps k v).map (fun p => p.1) =
      if k ∈ ps.map (fun p => p.1) then ps.map (fun p => p.1)
      else ps.map (fun p => p.1) ++ [k]
  | [], k, v => by simp [setOwn]
  | (k', v') :: rest, k, v => by
    by_cases h : k' = k
    · subst h
      simp [setOwn]
    · have ih := keys_setOwn rest k v
      simp only [setOwn, h, if_false, List.map_cons, ih, List.mem_cons, Ne.symm h, false_or]
      split_ifs <;> simp

theorem nodup_setOwn {ps : Props} (h : (ps.map (fun p => p.1)).Nodup) (k : String)
    (v : JSValue) : ((setOwn ps k v).map (fun p => p.1)).Nodup := by
  rw [keys_setOwn]
  split_ifs with hk
  · exact h
  · exact List.Nodup.append h (List.nodup_singleton k) (by simpa using hk)

theorem nodup_foldl_setOwn : ∀ (src target : Props), (target.map (fun p => p.1)).Nodup →
    ((src.foldl (fun acc kv => setOwn acc kv.1 kv.2) target).map (fun p => p.1)).Nodup
  | [], _, h => h
  | kv :: rest, _, h => nodup_foldl_setOwn rest _ (nodup_setOwn h kv.1 kv.2)

/-- An object literal built by spreading has distinct keys. -/
theorem nodup_spread {target : Props} (h : (target.map (fun p => p.1)).Nodup)
    (source : JSValue) : ((spread target source).map (fun p => p.1)).Nodup :=
  nodup_foldl_setOwn _ _ h

theorem nodup_spread_nil (source : JSValue) :
    ((spread [] source).map (fun p => p.1)).Nodup :=
  nodup_spread (by simp) source

/-- The streak record of a continued streak: `lastActive` is the date that the method
computes for yesterday, and `current += 1` gives `n'`. -/
theorem updatedStreak_continue (clock : Clock) {st : Props} {n m : Int}
    (hd : (st.map (fun p => p.1)).Nodup)
    (hn : getOwn st "current" = some (.number n))
    (hm : getOwn st "longest" = some (.number m))
    {n' : Int} (hadd : addOne (.number n) = .ok (.number n'))
    (hy : clock.yesterdayStr ≠ "") :
    ∃ updated, updatedStreak clock (.object st) (.string clock.yesterdayStr) = .ok updated ∧
      (updated.map (fun p => p.1)).Nodup ∧
      getOwn updated "current" = some (.number n') ∧
      getOwn updated "longest" = some (.number (max m n')) ∧
      getOwn updated "lastActive" = some (.string clock.today) ∧
      ∀ k, k ≠ "current" → k ≠ "longest" → k ≠ "lastActive" →
        getOwn updated k = getOwn st k := by
  have hc : getOwn (setOwn (spread [] (.object st)) "lastActive" (.string clock.today))
      "current" = some (.number n) := by
    rw [getOwn_streak_copy hd _ (by decide), hn]
  have hl : getOwn (setOwn (spread [] (.object st)) "lastActive" (.string clock.today))
      "longest" = some (.number m) := by
    rw [getOwn_streak_copy hd _ (by decide), hm]
  have hcopy : ((setOwn (spread [] (.object st)) "lastActive"
      (.string clock.today)).map (fun p => p.1)).Nodup :=
    nodup_setOwn (nodup_spread_nil _) _ _
  have htruthy : (JSValue.string clock.yesterdayStr).truthy = true := by
    simp [JSValue.truthy, hy]
  have h1 : ("longest" : String) ≠ "current" := by decide
  have h2 : ("current" : String) ≠ "longest" := by decide
  have h3 : ("lastActive" : String) ≠ "current" := by decide
  have h4 : ("lastActive" : String) ≠ "longest" := by decide
  by_cases hgt : n' > m
  · refine ⟨setOwn (setOwn (setOwn (spread [] (.object st)) "lastActive"
      (.string clock.today)) "current" (.number n')) "longest" (.number n'),
      ?_, nodup_setOwn (nodup_setOwn hcopy _ _) _ _, ?_, ?_, ?_, ?_⟩
    · simp [updatedStreak, htruthy, isString_self, hc, hl, hadd, greaterThan, hgt]
    · rw [getOwn_setOwn_other _ _ _ _ h2, getOwn_setOwn_self]
    · rw [getOwn_setOwn_self, max_eq_right (le_of_lt hgt)]
    · rw [getOwn_setOwn_other _ _ _ _ h4, getOwn_setOwn_other _ _ _ _ h3, getOwn_setOwn_self]
    · intro k hk1 hk2 hk3
      rw [getOwn_setOwn_other _ _ _ _ hk2, getOwn_setOwn_other _ _ _ _ hk1,
        getOwn_streak_copy hd _ hk3]
  · refine ⟨setOwn (setOwn (spread [] (.object st)) "lastActive"
      (.string clock.today)) "current" (.number n'),
      ?_, nodup_setOwn hcopy _ _, ?_, ?_, ?_, ?_⟩
    · simp [updatedStreak, htruthy, isString_self, hc, hl, hadd, greaterThan, hgt]
    · rw [getOwn_setOwn_self]
    · rw [getOwn_setOwn_other _ _ _ _ h1, hl, max_eq_left (le_of_not_lt hgt)]
    · rw [getOwn_setOwn_other _ _ _ _ h3, getOwn_setOwn_self]
    · intro k hk1 hk2 hk3
      rw [getOwn_setOwn_other _ _ _ _ hk1, getOwn_streak_copy hd _ hk3]

/-- The streak record of a broken streak: `lastActive` is a date, neither today nor the
day before. -/
theorem updatedStreak_broken (clock : Clock) {st : Props} {day : String}
    (hd : (st.map (fun p => p.1)).Nodup) (hday : day ≠ "")
    (hy : day ≠ clock.yesterdayStr) :
    ∃ updated, updatedStreak clock (.object st) (.string day) = .ok updated ∧
      (updated.map (fun p => p.1)).Nodup ∧
      getOwn updated "current" = some (.number 1) ∧
      getOwn updated "lastActive" = some (.string clock.today) ∧
      ∀ k, k ≠ "current" → k ≠ "lastActive" → getOwn updated k = getOwn st k := by
  have htruthy : (JSValue.string day).truthy = true := by
    simp [JSValue.truthy, hday]
  have hnot : (JSValue.string day).isString clock.yesterdayStr = false := by
    simp [JSValue.isString, hy]
  refine ⟨setOwn (setOwn (spread [] (.object st)) "lastActive" (.string clock.today))
    "current" (.number 1), ?_, nodup_setOwn (nodup_setOwn (nodup_spread_nil _) _ _) _ _,
    getOwn_setOwn_self _ _ _, ?_, ?_⟩
  · simp [updatedStreak, htruthy, hnot]
  · rw [getOwn_setOwn_other _ _ _ _ (by decide), getOwn_setOwn_self]
  · intro k hk1 hk3
    rw [getOwn_setOwn_other _ _ _ _ hk1, getOwn_streak_copy hd _ hk3]

/-- The streak record of a first activity: `lastActive` is `null`. -/
theorem updatedStreak_first (clock : Clock) {st : Props}
    (hd : (st.map (fun p => p.1)).Nodup) :
    ∃ updated, updatedStreak clock (.object st) .null = .ok updated ∧
      (updated.map (fun p => p.1)).Nodup ∧
      getOwn updated "current" = some (.number 1) ∧
      getOwn updated "longest" = some (.number 1) ∧
      getOwn updated "lastActive" = some (.string clock.today) ∧
      ∀ k, k ≠ "current" → k ≠ "longest" → k ≠ "lastActive" →
        getOwn updated k = getOwn st k := by
  refine ⟨setOwn (setOwn (setOwn (spread [] (.object st)) "lastActive"
    (.string clock.today)) "current" (.number 1)) "longest" (.number 1), ?_,
    nodup_setOwn (nodup_setOwn (nodup_setOwn (nodup_spread_nil _) _ _) _ _) _ _, ?_,
    getOwn_setOwn_self _ _ _, ?_, ?_⟩
  · simp [updatedStreak, JSValue.truthy]
  · rw [getOwn_setOwn_other _ _ _ _ (by decide), getOwn_setOwn_self]
  · rw [getOwn_setOwn_other _ _ _ _ (by decide), getOwn_setOwn_other _ _ _ _ (by decide),
      getOwn_setOwn_self]
  · intro k hk1 hk2 hk3
    rw [getOwn_setOwn_other _ _ _ _ hk2, getOwn_setOwn_other _ _ _ _ hk1,
      getOwn_streak_copy hd _ hk3]

theorem streakAward_fresh {items : List JSValue} {current : JSValue} {id : String}
    (h : id ∈ streakAward items current) : JSValue.string id ∉ items := by
  unfold streakAward at h
  split at h
  · next milestone _ =>
    split_ifs at h with hany
    · simp at h
    · simp only [List.mem_singleton] at h
      subst h
      rw [← any_isString_iff]
      exact hany
  · simp at h

theorem streakAward_nodup (items : List JSValue) (current : JSValue) :
    (streakAward items current).Nodup := by
  unfold streakAward
  split
  · split_ifs <;> simp
  · simp

theorem streakAward_one (items : List JSValue) : streakAward items (.number 1) = [] := by
  have : streakMilestones.find? (fun m => (JSValue.number 1).isNumber m) = none := by decide
  simp [streakAward, this]

/-- On a streak record with distinct keys and integer counters the record to store is
computed without error, whatever `lastActive` holds, and it has the same shape. -/
theorem updatedStreak_typed (clock : Clock) {st : Props} {n m : Int} (lastActive : JSValue)
    (hd : (st.map (fun p => p.1)).Nodup)
    (hn : getOwn st "current" = some (.number n))
    (hm : getOwn st "longest" = some (.number m)) :
    ∃ updated n' m', updatedStreak clock (.object st) lastActive = .ok updated ∧
      (updated.map (fun p => p.1)).Nodup ∧
      getOwn updated "current" = some (.number n') ∧
      getOwn updated "longest" = some (.number m') := by
  have hc : getOwn (setOwn (spread [] (.object st)) "lastActive" (.string clock.today))
      "current" = some (.number n) := by
    rw [getOwn_streak_copy hd _ (by decide), hn]
  have hl : getOwn (setOwn (spread [] (.object st)) "lastActive" (.string clock.today))
      "longest" = some (.number m) := by
    rw [getOwn_streak_copy hd _ (by decide), hm]
  have hcopy : ((setOwn (spread [] (.object st)) "lastActive"
      (.string clock.today)).map (fun p => p.1)).Nodup :=
    nodup_setOwn (nodup_spread_nil _) _ _
  have h1 : ("longest" : String) ≠ "current" := by decide
  have h2 : ("current" : String) ≠ "longest" := by decide
  obtain ⟨k, hk, _, _⟩ := addOne_number n
  unfold updatedStreak
  simp only [hc, hl, hk, greaterThan, Option.getD_some]
  by_cases ht : lastActive.truthy = true
  · by_cases hy : lastActive.isString clock.yesterdayStr = true
    · by_cases hgt : k > m
      · simp only [ht, hy, hgt, if_true, decide_True]
        exact ⟨_, k, k, rfl, nodup_setOwn (nodup_setOwn hcopy _ _) _ _,
          by rw [getOwn_setOwn_other _ _ _ _ h2, getOwn_setOwn_self],
          getOwn_setOwn_self _ _ _⟩
      · simp only [ht, hy, hgt, if_true, decide_False]
        exact ⟨_, k, m, rfl, nodup_setOwn hcopy _ _, getOwn_setOwn_self _ _ _,
          by rw [getOwn_setOwn_other _ _ _ _ h1, hl]⟩
    · simp only [ht, hy, if_true, if_false]
      exact ⟨_, 1, m, rfl, nodup_setOwn hcopy _ _, getOwn_setOwn_self _ _ _,
        by rw [getOwn_setOwn_other _ _ _ _ h1, hl]⟩
  · simp only [ht, if_false]
    exact ⟨_, 1, 1, rfl, nodup_setOwn (nodup_setOwn hcopy _ _) _ _,
      by rw [getOwn_setOwn_other _ _ _ _ h2, getOwn_setOwn_self], getOwn_setOwn_self _ _ _⟩

/-- The streak recomputation when the date differs and the record to store is `updated`:
it stores the record and runs the milestone check on its counter. -/
theorem Values.updateStreak_of_updated {v : Values} {clock : Clock} {items : List JSValue}
    {lastActive : JSValue} {updated : Props}
    (hA : v.achievements = .array items)
    (hf : v.streaks.field "lastActive" = .ok lastActive)
    (hne : lastActive.isString clock.today = false)
    (hu : updatedStreak clock v.streaks lastActive = .ok updated) :
    Values._updateStreak v clock =
      (.ok (), Values.award { v with streaks := .object updated } items
        (streakAward items ((getOwn updated "current").getD .undefined))) := by
  unfold Values._updateStreak
  simp only [hf, hne, hu, Bool.false_eq_true, if_false]
  exact Values.checkStreak_array (v := { v with streaks := .object updated }) hA _

/-- The streak recomputation on values with the shapes of the data model: it returns
normally, keeps the shapes, leaves courses and progress alone, stores a streak record
dated today, and appends to the achievements at most one id, one that was not there. -/
theorem Values.updateStreak_typed {v : Values} (ht : v.typed = true) (clock : Clock) :
    ∃ (v' : Values) (items : List JSValue) (ids : List String),
      Values._updateStreak v clock = (.ok (), v') ∧ v'.typed = true ∧
      v'.courses = v.courses ∧ v'.courseProgress = v.courseProgress ∧
      v'.lessonProgress = v.lessonProgress ∧
      v.achievements = .array items ∧
      v'.achievements = .array (items ++ ids.map JSValue.string) ∧
      v'.dispatched = v.dispatched ++ ids.map CustomEvent.achievementUnlocked ∧
      ids.Nodup ∧ (∀ id ∈ ids, JSValue.string id ∉ items) ∧
      v'.streaks.field "lastActive" = .ok (.string clock.today) := by
  obtain ⟨courses, hcs, hcs'⟩ := typed_courses ht
  obtain ⟨cp, hcp, hcp'⟩ := typed_courseProgress ht
  obtain ⟨lp, hlp, hlp'⟩ := typed_lessonProgress ht
  obtain ⟨items, hA⟩ := typed_achievements ht
  obtain ⟨st, n, m, hst, hd, hn, hm⟩ := typed_streaks ht
  have hf : v.streaks.field "lastActive" =
      .ok ((getOwn st "lastActive").getD .undefined) := by
    simp [hst, JSValue.field, JSValue.fieldOr]
  by_cases hsame : ((getOwn st "lastActive").getD .undefined).isString clock.today = true
  · refine ⟨v, items, [], ?_, ht, rfl, rfl, rfl, hA, by simpa using hA, by simp, by simp,
      by simp, ?_⟩
    · unfold Values._updateStreak
      simp [hf, hsame]
    · rw [hf, isString_iff.mp hsame]
  · have hsame' : ((getOwn st "lastActive").getD .undefined).isString clock.today = false := by
      simpa using hsame
    obtain ⟨updated, n', m', hu, hud, hun, hum⟩ :=
      updatedStreak_typed clock ((getOwn st "lastActive").getD .undefined) hd hn hm
    rw [← hst] at hu
    refine ⟨_, items, _, Values.updateStreak_of_updated hA hf hsame' hu, ?_, rfl, rfl, rfl,
      hA, rfl, rfl, streakAward_nodup _ _, fun id hid => streakAward_fresh hid, ?_⟩
    · exact typed_intro (v := Values.award { v with streaks := .object updated } items _)
        hcs hcs' hcp hcp' hlp hlp' rfl rfl hud hun hum
    · simp [Values.award, JSValue.field, JSValue.fieldOr, updatedStreak_lastActive hu]

/-! ## The streak recomputation -/

/-- C18: for every page whose streak record has `lastActive` equal to today's date, the
recomputation returns at once and leaves the page exactly as it is: streak, achievements
and every other state key are unchanged, no store key is written, no subscriber is called
and no event is dispatched. Consequently, on a page that holds values with the shapes of
the data model, a recomputation followed by another one on the same day returns normally
both times, and the second leaves the page as the first left it. -/
theorem streak_same_day_noop (page : Page) (clock : Clock) :
    (∀ streaks, Store.getValue page.stateManager.progressStore "streaks" = .ok streaks →
      streaks.field "lastActive" = .ok (.string clock.today) →
      StateManager._updateStreak page clock = (.ok (), page)) ∧
    (∀ (v : Values) (later : Clock), Holds page v → v.typed = true →
      later.today = clock.today →
      ∃ page1, StateManager._updateStreak page clock = (.ok (), page1) ∧
        StateManager._updateStreak page1 later = (.ok (), page1)) := by
  have first : ∀ (page : Page) (clock : Clock) (streaks : JSValue),
      Store.getValue page.stateManager.progressStore "streaks" = .ok streaks →
      streaks.field "lastActive" = .ok (.string clock.today) →
      StateManager._updateStreak page clock = (.ok (), page) := by
    intro page clock streaks hget hfield
    unfold StateManager._updateStreak
    simp [hget, hfield, isString_self]
  refine ⟨first page clock, ?_⟩
  intro v later h ht hday
  obtain ⟨v', items, ids, hrun, _, _, _, _, _, _, _, _, _, hla⟩ :=
    Values.updateStreak_typed ht clock
  obtain ⟨page1, hone, hh⟩ := updateStreak_values h clock
  rw [hrun] at hone hh
  refine ⟨page1, hone, first page1 later _ hh.streaks ?_⟩
  rw [hday]
  exact hla

/-- Witness for C18: with the streak `(3, 5, today)` the recomputation changes nothing, and
from the streak `(1, 1, yesterday)` a second recomputation on the same day changes nothing
more. -/
theorem streak_same_day_noop_witness :
    (Store.getValue (streakPage (.object streakToday)).stateManager.progressStore "streaks" =
        .ok (.object streakToday) ∧
      (JSValue.object streakToday).field "lastActive" = .ok (.string exampleClock.today)) ∧
    StateManager._updateStreak (streakPage (.object streakToday)) exampleClock =
      (.ok (), streakPage (.object streakToday)) ∧
    (Holds (streakPage (.object streakOfOne)) (streakValues (.object streakOfOne)) ∧
      (streakValues (.object streakOfOne)).typed = true) ∧
    ∃ page1, StateManager._updateStreak (streakPage (.object streakOfOne)) exampleClock =
        (.ok (), page1) ∧
      StateManager._updateStreak page1 exampleClock = (.ok (), page1) :=
  ⟨⟨rfl, rfl⟩,
    (streak_same_day_noop (streakPage (.object streakToday)) exampleClock).1
      (.object streakToday) rfl rfl,
    ⟨⟨rfl, rfl, rfl, rfl, rfl, rfl, rfl⟩, by decide⟩,
    (streak_same_day_noop (streakPage (.object streakOfOne)) exampleClock).2
      (streakValues (.object streakOfOne)) exampleClock ⟨rfl, rfl, rfl, rfl, rfl, rfl, rfl⟩
      (by decide) rfl⟩

/-- The branch `Continue streak`: for every page that holds a streak record with
`current = n`, where `n + 1` does not exceed `2 ^ 53`, with `longest = m` and with
`lastActive` equal to the text that the method computes for yesterday (a non-empty text
different from today's date) and a list of achievements, the recomputation returns
normally and the streak record then has `current = n + 1`, `longest = max(m, n + 1)` and
`lastActive` = today. -/
theorem updateStreak_continues (page : Page) (v : Values) (clock : Clock) (st : Props)
    (items : List JSValue) (n m : Int) (h : Holds page v)
    (hs : v.streaks = .object st) (hd : distinctKeys st = true)
    (hA : v.achievements = .array items)
    (hn : getOwn st "current" = some (.number n))
    (hm : getOwn st "longest" = some (.number m))
    (hla : getOwn st "lastActive" = some (.string clock.yesterdayStr))
    (hy : clock.yesterdayStr ≠ "") (hne : clock.yesterdayStr ≠ clock.today)
    (hsmall : |n + 1| ≤ 2 ^ 53) :
    ∃ page' st', StateManager._updateStreak page clock = (.ok (), page') ∧
      Store.getValue page'.stateManager.progressStore "streaks" = .ok (.object st') ∧
      getOwn st' "current" = some (.number (n + 1)) ∧
      getOwn st' "longest" = some (.number (max m (n + 1))) ∧
      getOwn st' "lastActive" = some (.string clock.today) := by
  obtain ⟨updated, hu, _, hc, hl, hlast, _⟩ :=
    updatedStreak_continue clock (distinctKeys_iff.mp hd) hn hm (addOne_small hsmall) hy
  have hf : v.streaks.field "lastActive" = .ok (.string clock.yesterdayStr) := by
    simp [hs, JSValue.field, JSValue.fieldOr, hla]
  have hnot : (JSValue.string clock.yesterdayStr).isString clock.today = false := by
    simp [JSValue.isString, hne]
  rw [← hs] at hu
  have hrun := Values.updateStreak_of_updated hA hf hnot hu
  obtain ⟨page', hone, hh⟩ := updateStreak_values h clock
  rw [hrun] at hone hh
  exact ⟨page', updated, hone, hh.streaks, hc, hl, hlast⟩

/-- An example of the branch `Continue streak`: with a clock whose readings are two
consecutive dates, the streak `(1, 1, yesterday)` becomes `(2, 2, today)`. -/
theorem updateStreak_continues_example :
    (Holds (streakPage (.object streakOfOne)) (streakValues (.object streakOfOne)) ∧
      exampleClock.yesterdayStr ≠ "" ∧ exampleClock.yesterdayStr ≠ exampleClock.today ∧
      |(1 : Int) + 1| ≤ 2 ^ 53) ∧
    (∃ page' st', StateManager._updateStreak (streakPage (.object streakOfOne))
        exampleClock = (.ok (), page') ∧
      Store.getValue page'.stateManager.progressStore "streaks" = .ok (.object st') ∧
      getOwn st' "current" = some (.number (1 + 1)) ∧
      getOwn st' "longest" = some (.number (max 1 (1 + 1))) ∧
      getOwn st' "lastActive" = some (.string exampleClock.today)) ∧
    Store.getValue (StateManager._updateStreak (streakPage (.object streakOfOne))
        exampleClock).2.stateManager.progressStore "streaks" =
      .ok (.object [("current", .number 2), ("longest", .number 2),
        ("lastActive", .string "2024-05-02")]) :=
  ⟨⟨⟨rfl, rfl, rfl, rfl, rfl, rfl, rfl⟩, by decide, by decide, by decide⟩,
    updateStreak_continues (streakPage (.object streakOfOne))
      (streakValues (.object streakOfOne)) exampleClock streakOfOne [] 1 1
      ⟨rfl, rfl, rfl, rfl, rfl, rfl, rfl⟩ rfl (by decide) rfl rfl rfl rfl
      (by decide) (by decide) (by decide),
    by with_unfolding_all rfl⟩

/-- The branches `First activity` and `Streak broken`: for every page that holds a streak
record with distinct keys, the recomputation returns normally and the streak record then has
`lastActive` = today and `current = 1`, with `longest = 1` when `lastActive` was `null`,
and with `longest` as it was when `lastActive` was a non-empty text that is neither
today's date nor the text that the method computes for yesterday. -/
theorem updateStreak_resets (page : Page) (v : Values) (clock : Clock) (st : Props)
    (h : Holds page v) (hs : v.streaks = .object st) (hd : distinctKeys st = true) :
    (getOwn st "lastActive" = some .null →
      ∃ page' st', StateManager._updateStreak page clock = (.ok (), page') ∧
        Store.getValue page'.stateManager.progressStore "streaks" = .ok (.object st') ∧
        getOwn st' "current" = some (.number 1) ∧
        getOwn st' "longest" = some (.number 1) ∧
        getOwn st' "lastActive" = some (.string clock.today)) ∧
    (∀ day, getOwn st "lastActive" = some (.string day) → day ≠ "" →
      day ≠ clock.today → day ≠ clock.yesterdayStr →
      ∃ page' st', StateManager._updateStreak page clock = (.ok (), page') ∧
        Store.getValue page'.stateManager.progressStore "streaks" = .ok (.object st') ∧
        getOwn st' "current" = some (.number 1) ∧
        getOwn st' "longest" = getOwn st "longest" ∧
        getOwn st' "lastActive" = some (.string clock.today)) := by
  have hone : ∀ w : Values, Values._checkStreakAchievements w (.number 1) = (.ok (), w) := by
    intro w
    have : streakMilestones.find? (fun m => (JSValue.number 1).isNumber m) = none := by
      decide
    simp [Values._checkStreakAchievements, this]
  constructor
  · intro hla
    obtain ⟨updated, hu, _, hc, hl, hlast, _⟩ :=
      updatedStreak_first clock (distinctKeys_iff.mp hd)
    have hrun : Values._updateStreak v clock =
        (.ok (), { v with streaks := .object updated }) := by
      unfold Values._updateStreak
      simp [hs, JSValue.field, JSValue.fieldOr, hla, JSValue.isString, hu, hc, hone]
    obtain ⟨page', hmeth, hh⟩ := updateStreak_values h clock
    rw [hrun] at hmeth hh
    exact ⟨page', updated, hmeth, hh.streaks, hc, hl, hlast⟩
  · intro day hla hday hnt hny
    obtain ⟨updated, hu, _, hc, hlast, hrest⟩ :=
      updatedStreak_broken clock (distinctKeys_iff.mp hd) hday hny
    have hrun : Values._updateStreak v clock =
        (.ok (), { v with streaks := .object updated }) := by
      unfold Values._updateStreak
      simp [hs, JSValue.field, JSValue.fieldOr, hla, JSValue.isString, hnt, hu, hc, hone]
    obtain ⟨page', hmeth, hh⟩ := updateStreak_values h clock
    rw [hrun] at hmeth hh
    exact ⟨page', updated, hmeth, hh.streaks, hc,
      hrest "longest" (by decide) (by decide), hlast⟩

/-- An example of the branch `Streak broken`: with a clock whose readings are two
consecutive dates, the streak `(2, 2, two days ago)` becomes `(1, 2, today)`. -/
theorem updateStreak_resets_example :
    (Holds (streakPage (.object streakOfTwo)) (streakValues (.object streakOfTwo)) ∧
      distinctKeys streakOfTwo = true) ∧
    (∃ page' st', StateManager._updateStreak (streakPage (.object streakOfTwo))
        exampleClock = (.ok (), page') ∧
      Store.getValue page'.stateManager.progressStore "streaks" = .ok (.object st') ∧
      getOwn st' "current" = some (.number 1) ∧
      getOwn st' "longest" = getOwn streakOfTwo "longest" ∧
      getOwn st' "lastActive" = some (.string exampleClock.today)) ∧
    Store.getValue (StateManager._updateStreak (streakPage (.object streakOfTwo))
        exampleClock).2.stateManager.progressStore "streaks" =
      .ok (.object [("current", .number 1), ("longest", .number 2),
        ("lastActive", .string "2024-05-02")]) :=
  ⟨⟨⟨rfl, rfl, rfl, rfl, rfl, rfl, rfl⟩, by decide⟩,
    (updateStreak_resets (streakPage (.object streakOfTwo))
      (streakValues (.object streakOfTwo))
      exampleClock streakOfTwo ⟨rfl, rfl, rfl, rfl, rfl, rfl, rfl⟩ rfl (by decide)).2
      "2024-04-30" rfl (by decide) (by decide) (by decide),
    rfl⟩

/-! ## The date of yesterday -/

/-- In a time zone whose offset from UTC never changes, the text that `_updateStreak`
computes for yesterday is the date of the day before today. -/
theorem reading_fixed (offset t : Int) :
    (Clock.reading (TimeZone.fixed offset) t).today = isoDate t ∧
      (Clock.reading (TimeZone.fixed offset) t).yesterdayStr = isoDate (t - msPerDay) := by
  refine ⟨rfl, ?_⟩
  show isoDate (t + offset - msPerDay - offset) = isoDate (t - msPerDay)
  congr 1
  ring

/-- C19 at the failing input: on a platform in the time zone of New York, at the time
`2024-11-04T00:30:00.000Z`, the evening of the day on which the clocks went back, today is
`2024-11-04` and the day before today is `2024-11-03`, but the text that the method
computes for yesterday is `2024-11-02`. For the streak `(3, 3, 2024-11-03)`, whose
`lastActive` is the day before today, the recomputation returns normally and stores
`(1, 3, 2024-11-04)`: the streak is reset and not continued to `(4, 4, 2024-11-04)`. -/
theorem streak_continuation_lost_after_clock_change :
    Clock.reading newYork 1730680200000 =
      { now := "2024-11-04T00:30:00.000Z", today := "2024-11-04",
        yesterdayStr := "2024-11-02" } ∧
    isoDate (1730680200000 - msPerDay) = "2024-11-03" ∧
    (StateManager._updateStreak (streakPage (.object (streakOfThree "2024-11-03")))
      (Clock.reading newYork 1730680200000)).1 = .ok () ∧
    Store.getValue (StateManager._updateStreak
        (streakPage (.object (streakOfThree "2024-11-03")))
        (Clock.reading newYork 1730680200000)).2.stateManager.progressStore "streaks" =
      .ok (.object [("current", .number 1), ("longest", .number 3),
        ("lastActive", .string "2024-11-04")]) :=
  ⟨by decide, by decide, by with_unfolding_all rfl, by with_unfolding_all rfl⟩

/-- C20 at the failing input: on a platform in the time zone of New York, at the time
`2024-11-04T00:30:00.000Z`, today is `2024-11-04` and the day before today is
`2024-11-03`, but the text that the method computes for yesterday is `2024-11-02`, the
date two days before today. For the streak `(3, 3, 2024-11-02)`, whose `lastActive` is
neither today nor the day before today, the recomputation returns normally and stores
`(4, 4, 2024-11-04)`: the streak is continued and not reset to `(1, 3, 2024-11-04)`. -/
theorem streak_reset_missed_after_clock_change :
    Clock.reading newYork 1730680200000 =
      { now := "2024-11-04T00:30:00.000Z", today := "2024-11-04",
        yesterdayStr := "2024-11-02" } ∧
    isoDate (1730680200000 - msPerDay) = "2024-11-03" ∧
    isoDate (1730680200000 - 2 * msPerDay) = "2024-11-02" ∧
    (StateManager._updateStreak (streakPage (.object (streakOfThree "2024-11-02")))
      (Clock.reading newYork 1730680200000)).1 = .ok () ∧
    Store.getValue (StateManager._updateStreak
        (streakPage (.object (streakOfThree "2024-11-02")))
        (Clock.reading newYork 1730680200000)).2.stateManager.progressStore "streaks" =
      .ok (.object [("current", .number 4), ("longest", .number 4),
        ("lastActive", .string "2024-11-04")]) :=
  ⟨by decide, by decide, by decide, by with_unfolding_all rfl, by with_unfolding_all rfl⟩

/-! ## Achievements for a completed course -/

theorem Values.award_nil {v : Values} {items : List JSValue}
    (hA : v.achievements = .array items) : v.award items [] = v := by
  obtain ⟨vcourses, vcourseProgress, vlessonProgress, vachievements, vstreaks, vdispatched⟩ := v
  simp only at hA
  subst hA
  simp [Values.award]

theorem isNewCourseAchievement_array (items : List JSValue) (courseId : String)
    (achievement : AchievementDefinition) :
    isNewCourseAchievement (.array items) courseId achievement =
      .ok (achievement.type == "course_completion" && achievement.courseId == courseId &&
        !(items.any (fun item => item.isString achievement.id))) := by
  unfold isNewCourseAchievement
  by_cases h1 : achievement.type = "course_completion"
  · by_cases h2 : achievement.courseId = courseId
    · simp [h1, h2, JSValue.includes]
    · simp [h1, h2]
  · simp [h1]

/-- On a list of achievements the course-completion check returns normally; it appends
and announces what `newCourseAchievements` names, and touches nothing else. -/
theorem Values.checkCourse_array {v : Values} {items : List JSValue}
    (hA : v.achievements = .array items) (courseId : String) :
    Values._checkCourseCompletionAchievements v courseId =
      (.ok (), v.award items (newCourseAchievements items courseId)) := by
  have hf := filterArray_ok (isNewCourseAchievement (.array items) courseId)
    (fun achievement => achievement.type == "course_completion" &&
      achievement.courseId == courseId &&
      !(items.any (fun item => item.isString achievement.id)))
    (achievementDefinitions courseId)
    (fun x _ => isNewCourseAchievement_array items courseId x)
  unfold Values._checkCourseCompletionAchievements
  rw [hA, hf]
  dsimp only
  split_ifs with hlen
  · simp [JSValue.elements, Values.award, newCourseAchievements, hA]
  · have hnil : newCourseAchievements items courseId = [] := by
      unfold newCourseAchievements
      rw [List.map_eq_nil_iff]
      exact List.length_eq_zero.mp (by omega)
    rw [hnil, Values.award_nil hA]

/-- The ids that the course-completion check awards are those of the definitions of type
`course_completion` for the course that are not among the achievements yet. -/
theorem mem_newCourseAchievements {items : List JSValue} {courseId id : String} :
    id ∈ newCourseAchievements items courseId ↔
      ∃ achievement ∈ achievementDefinitions courseId, achievement.id = id ∧
        achievement.type = "course_completion" ∧ achievement.courseId = courseId ∧
        JSValue.string id ∉ items := by
  simp only [newCourseAchievements, List.mem_map, List.mem_filter, Bool.and_eq_true,
    beq_iff_eq, Bool.not_eq_true', ← Bool.not_eq_true, any_isString_iff]
  constructor
  · rintro ⟨a, ⟨ha, ⟨h1, h2⟩, h3⟩, rfl⟩
    exact ⟨a, ha, rfl, h1, h2, h3⟩
  · rintro ⟨a, ha, rfl, h1, h2, h3⟩
    exact ⟨a, ⟨ha, ⟨h1, h2⟩, h3⟩, rfl⟩

/-- C16: for every page that holds a list `items` of achievements and every course id, the
course-completion check returns normally; afterwards the achievements are `items` followed
by the ids of the `course_completion` definitions whose `criteria.courseId` is the course
and whose id is not in `items`, in definition order; the events dispatched are those
dispatched before followed by one `achievement:unlocked` event per appended id, in the same
order; course progress, lesson progress and streak are as before; and when no definition
qualifies the page is left exactly as it was, with nothing written and nothing dispatched. -/
theorem course_completion_award (page : Page) (v : Values) (items : List JSValue)
    (courseId : String) (h : Holds page v) (hA : v.achievements = .array items) :
    ∃ page', StateManager._checkCourseCompletionAchievements page courseId = (.ok (), page') ∧
      Store.getValue page'.stateManager.progressStore "achievements" =
        .ok (.array (items ++ (newCourseAchievements items courseId).map JSValue.string)) ∧
      page'.dispatched = page.dispatched ++
        (newCourseAchievements items courseId).map CustomEvent.achievementUnlocked ∧
      Holds page' (v.award items (newCourseAchievements items courseId)) ∧
      (newCourseAchievements items courseId = [] → page' = page) := by
  obtain ⟨page', hrun, hh⟩ := checkCourseCompletionAchievements_values h courseId
  rw [Values.checkCourse_array hA courseId] at hrun hh
  refine ⟨page', hrun, hh.achievements, ?_, hh, ?_⟩
  · rw [hh.dispatched, h.dispatched]
    rfl
  · intro hnil
    have hf := filterArray_ok (isNewCourseAchievement (.array items) courseId)
      (fun achievement => achievement.type == "course_completion" &&
        achievement.courseId == courseId &&
        !(items.any (fun item => item.isString achievement.id)))
      (achievementDefinitions courseId)
      (fun x _ => isNewCourseAchievement_array items courseId x)
    have hempty : (achievementDefinitions courseId).filter (fun achievement =>
        achievement.type == "course_completion" && achievement.courseId == courseId &&
          !(items.any (fun item => item.isString achievement.id))) = [] := by
      unfold newCourseAchievements at hnil
      exact List.map_eq_nil_iff.mp hnil
    have hdirect : StateManager._checkCourseCompletionAchievements page courseId =
        (.ok (), page) := by
      unfold StateManager._checkCourseCompletionAchievements
      rw [h.achievements, hA]
      dsimp only
      rw [hf, hempty]
      simp
    rw [hdirect] at hrun
    exact (Prod.ext_iff.mp hrun).2.symm

/-- Witness for C16: on a new page, completing course `c` awards both definitions. -/
theorem course_completion_award_witness :
    (Holds (examplePage exampleCatalog) exampleValues ∧
      exampleValues.achievements = .array []) ∧
    (∃ page', StateManager._checkCourseCompletionAchievements (examplePage exampleCatalog)
        "c" = (.ok (), page') ∧
      Store.getValue page'.stateManager.progressStore "achievements" =
        .ok (.array ([] ++ (newCourseAchievements [] "c").map JSValue.string)) ∧
      page'.dispatched = (examplePage exampleCatalog).dispatched ++
        (newCourseAchievements [] "c").map CustomEvent.achievementUnlocked ∧
      Holds page' (exampleValues.award [] (newCourseAchievements [] "c")) ∧
      (newCourseAchievements [] "c" = [] → page' = examplePage exampleCatalog)) ∧
    newCourseAchievements [] "c" = ["ach-course-complete", "ach-perfect-score"] :=
  ⟨⟨⟨rfl, rfl, rfl, rfl, rfl, rfl, rfl⟩, rfl⟩,
    course_completion_award (examplePage exampleCatalog) exampleValues [] "c"
      ⟨rfl, rfl, rfl, rfl, rfl, rfl, rfl⟩ rfl,
    by decide⟩

/-! ## What updateLessonProgress stores -/

theorem lookup_eq_getOwn : ∀ (ps : Props) (k : String), ps.lookup k = getOwn ps k
  | [], _ => rfl
  | (k', v) :: rest, k => by
    by_cases h : k' = k
    · subst h
      simp [List.lookup, getOwn]
    · have h' : (k == k') = false := by simpa using Ne.symm h
      simp [List.lookup, getOwn, h, h', lookup_eq_getOwn rest k]

theorem previousEntry_own {record : Props} {key : String} {value : JSValue}
    (h : getOwn record key = some value) :
    previousEntry record key = if value.truthy then spread [] value else [] := by
  simp [previousEntry, plainObjectGet, lookup_eq_getOwn, h, spreadOrEmpty]

theorem previousEntry_none {record : Props} {key : String} (h : getOwn record key = none) :
    previousEntry record key = [] := by
  unfold previousEntry plainObjectGet
  rw [lookup_eq_getOwn, h]
  dsimp only
  split_ifs <;> rfl

theorem previousEntry_record {record : Props} {key : String} {entry : Props}
    (h : getOwn record key = some (.object entry))
    (hd : (entry.map (fun p => p.1)).Nodup) : previousEntry record key = entry := by
  rw [previousEntry_own h]
  simp [JSValue.truthy, spread_nil_object hd]

theorem nodup_previousEntry (record : Props) (key : String) :
    ((previousEntry record key).map (fun p => p.1)).Nodup := by
  unfold previousEntry spreadOrEmpty
  split
  · split_ifs
    · exact nodup_spread_nil _
    · simp
  · simp
  · simp

theorem completedOf_member (lessonProgress : Props) (key : String) :
    (completedOf (plainObjectGet lessonProgress key)).truthy =
      completedIn lessonProgress key := by
  unfold plainObjectGet completedIn
  rw [lookup_eq_getOwn]
  cases getOwn lessonProgress key with
  | some entry => rfl
  | none =>
    dsimp only
    split_ifs <;> rfl

theorem lessonCompleted_record (lessonProgress : Props) {id : JSValue}
    (h : isLessonId id = true) :
    lessonCompleted (.object lessonProgress) id =
      .ok (completedIn lessonProgress (lessonKey id)) := by
  cases id <;> simp [isLessonId] at h <;>
    simp [lessonCompleted, JSValue.toPropertyKey, JSValue.member, lessonKey,
      completedOf_member]

theorem everyArray_ok {α : Type} (test : α → Except JSError Bool) (p : α → Bool) :
    ∀ (xs : List α), (∀ x ∈ xs, test x = .ok (p x)) → everyArray test xs = .ok (xs.all p)
  | [], _ => rfl
  | x :: xs, h => by
    have hx := h x (List.mem_cons_self _ _)
    have hxs := everyArray_ok test p xs (fun y hy => h y (List.mem_cons_of_mem _ hy))
    cases hp : p x with
    | true => simp [everyArray, hx, hp, hxs]
    | false => simp [everyArray, hx, hp]

/-- The object literal for `updateState` with one computed key, merged into a record with
distinct keys: the record with that key set. -/
theorem updateValue_entry {record : Props} (hd : (record.map (fun p => p.1)).Nodup)
    (key : String) (value : JSValue) :
    updateValue (.object record) (.object [(key, value)]) =
      .ok (.object (setOwn record key value)) := by
  have h1 : spread (spread [] (.object record)) (.object [(key, value)]) =
      setOwn record key value := by
    rw [spread_nil_object hd]
    simp [spread, ownEnumerable]
  simp [updateValue, JSValue.typeof, JSValue.isArray, h1]

theorem lessons_of_course {course : JSValue} (h : isCourse course = true) :
    (if (course.fieldOr "lessons").truthy then course.fieldOr "lessons" else .array []) =
      .array (lessonIdsOf course) ∧
    ∀ id ∈ lessonIdsOf course, isLessonId id = true := by
  cases course with
  | object props =>
    simp only [isCourse] at h
    simp only [JSValue.fieldOr, lessonIdsOf]
    cases hl : getOwn props "lessons" with
    | none => simp [JSValue.truthy]
    | some lessons =>
      rw [hl] at h
      cases lessons <;> simp_all [JSValue.truthy]
  | _ => simp [isCourse] at h

/-- The object literal that `updateLessonProgress` passes for the course, on a course
record of the catalog and two records of progress. -/
theorem courseProgressUpdate_typed (clock : Clock) (courseId : String) {course : JSValue}
    (lessonProgress courseProgress : Props) (h : isCourse course = true) :
    courseProgressUpdate clock courseId course (.object lessonProgress)
        (.ok (.object courseProgress)) =
      .ok (.object [(courseId, .object
          (courseEntry clock (lessonIdsOf course) lessonProgress courseProgress courseId))],
        allCompleted lessonProgress (lessonIdsOf course)) := by
  obtain ⟨hl, hids⟩ := lessons_of_course h
  have hevery := everyArray_ok (lessonCompleted (.object lessonProgress))
    (fun id => completedIn lessonProgress (lessonKey id)) (lessonIdsOf course)
    (fun id hid => lessonCompleted_record lessonProgress (hids id hid))
  have hfilter := filterArray_ok (lessonCompleted (.object lessonProgress))
    (fun id => completedIn lessonProgress (lessonKey id)) (lessonIdsOf course)
    (fun id hid => lessonCompleted_record lessonProgress (hids id hid))
  unfold courseProgressUpdate
  simp only [hl, hevery, hfilter, JSValue.member]
  rfl

theorem findCourse_typed (courseId : String) : ∀ (courses : List JSValue),
    (∀ c ∈ courses, isCourse c = true) →
    ∃ found, findCourse courseId courses = .ok found ∧
      ∀ course, found = some course → isCourse course = true
  | [], _ => ⟨none, rfl, by simp⟩
  | c :: rest, h => by
    have hc := h c (List.mem_cons_self _ _)
    obtain ⟨found, hf, hfound⟩ :=
      findCourse_typed courseId rest (fun y hy => h y (List.mem_cons_of_mem _ hy))
    have hfield : c.field "id" = .ok (c.fieldOr "id") := by
      cases c <;> first | rfl | simp [isCourse] at hc
    by_cases hid : (c.fieldOr "id").isString courseId = true
    · refine ⟨some c, by simp [findCourse, hfield, hid], ?_⟩
      intro course hcourse
      injection hcourse with hcourse
      subst hcourse
      exact hc
    · refine ⟨found, by simp [findCourse, hfield, hid, hf], hfound⟩


theorem Values.typed_lessonStep {v : Values} (ht : v.typed = true) (lessonId : String)
    (progressUpdate : JSValue) : (v.lessonStep lessonId progressUpdate).typed = true := by
  obtain ⟨courses, hcs, hcs'⟩ := typed_courses ht
  obtain ⟨cp, hcp, hcp'⟩ := typed_courseProgress ht
  obtain ⟨lp, hlp, hlp'⟩ := typed_lessonProgress ht
  obtain ⟨items, hA⟩ := typed_achievements ht
  obtain ⟨st, n, m, hst, hd, hn, hm⟩ := typed_streaks ht
  exact typed_intro (v := v.lessonStep lessonId progressUpdate) hcs hcs' hcp hcp' rfl
    (nodup_setOwn (by rw [hlp]; exact hlp') _ _) hA hst hd hn hm

theorem Values.typed_courseStep {v : Values} (ht : v.typed = true) (clock : Clock)
    (courseId : String) (course : JSValue) :
    (v.courseStep clock courseId course).typed = true := by
  obtain ⟨courses, hcs, hcs'⟩ := typed_courses ht
  obtain ⟨cp, hcp, hcp'⟩ := typed_courseProgress ht
  obtain ⟨lp, hlp, hlp'⟩ := typed_lessonProgress ht
  obtain ⟨items, hA⟩ := typed_achievements ht
  obtain ⟨st, n, m, hst, hd, hn, hm⟩ := typed_streaks ht
  exact typed_intro (v := v.courseStep clock courseId course) hcs hcs' rfl
    (nodup_setOwn (by rw [hcp]; exact hcp') _ _) hlp hlp' rfl hst hd hn hm

theorem Values.typed_progressStep {v : Values} (ht : v.typed = true) (clock : Clock)
    (courseId lessonId : String) (progressUpdate : JSValue) (found : Option JSValue) :
    (v.progressStep clock courseId lessonId progressUpdate found).typed = true := by
  unfold Values.progressStep
  split_ifs
  · cases found with
    | none => exact Values.typed_lessonStep ht _ _
    | some course => exact Values.typed_courseStep (Values.typed_lessonStep ht _ _) _ _ _
  · exact Values.typed_lessonStep ht _ _

/-- The block for a completed lesson on values with the shapes of the data model: `find`
returns without error, and the block returns normally with the values of `courseStep`,
or with the values as they are when no course has the id. -/
theorem Values.updateCourseProgress_typed {v : Values} (ht : v.typed = true) (clock : Clock)
    (courseId : String) :
    ∃ found, findCourse courseId v.courses.items = .ok found ∧
      (∀ course, found = some course → isCourse course = true) ∧
      Values.updateCourseProgress v clock courseId =
        (.ok (), match found with
          | some course => v.courseStep clock courseId course
          | none => v) := by
  obtain ⟨courses, hcs, hcs'⟩ := typed_courses ht
  obtain ⟨cp, hcp, hcp'⟩ := typed_courseProgress ht
  obtain ⟨lp, hlp, hlp'⟩ := typed_lessonProgress ht
  obtain ⟨items, hA⟩ := typed_achievements ht
  obtain ⟨found, hf, hfound⟩ := findCourse_typed courseId courses hcs'
  obtain ⟨vcourses, vcourseProgress, vlessonProgress, vachievements, vstreaks, vdispatched⟩ := v
  simp only at hcs hcp hlp hA
  subst hcs hcp hlp hA
  refine ⟨found, hf, hfound, ?_⟩
  unfold Values.updateCourseProgress
  dsimp only
  rw [hf]
  cases found with
  | none => rfl
  | some course =>
    have hc := hfound course rfl
    dsimp only
    rw [courseProgressUpdate_typed clock courseId lp cp hc]
    dsimp only
    rw [updateValue_entry hcp']
    dsimp only
    unfold Values.courseStep
    simp only [JSValue.props, JSValue.items]
    split_ifs with hall
    · exact Values.checkCourse_array rfl courseId
    · exact congrArg (Prod.mk (Except.ok ())) (Values.award_nil rfl).symm

/-- The method on values with the shapes of the data model and a record of updates: the
lesson entry is merged, the block for a completed lesson runs when the record says
`completed`, and the method ends with the streak recomputation on the values of
`progressStep`. -/
theorem Values.updateLessonProgress_typed {v : Values} (ht : v.typed = true) (clock : Clock)
    (courseId lessonId : String) (upd : Props) :
    ∃ found, findCourse courseId v.courses.items = .ok found ∧
      (∀ course, found = some course → isCourse course = true) ∧
      Values.updateLessonProgress v clock courseId lessonId (.object upd) =
        Values._updateStreak
          (v.progressStep clock courseId lessonId (.object upd) found) clock := by
  obtain ⟨lp, hlp, hlp'⟩ := typed_lessonProgress ht
  have ht1 := Values.typed_lessonStep ht lessonId (.object upd)
  obtain ⟨found, hf, hfound, hrun⟩ :=
    Values.updateCourseProgress_typed ht1 clock courseId
  refine ⟨found, hf, hfound, ?_⟩
  have hstep : ({ v with lessonProgress := .object (setOwn lp lessonId
      (.object (spread (spreadOrEmpty (plainObjectGet lp lessonId)) (.object upd)))) } :
      Values) = v.lessonStep lessonId (.object upd) := by
    simp [Values.lessonStep, hlp, JSValue.props, lessonEntry, previousEntry]
  unfold Values.updateLessonProgress
  simp only [hlp, JSValue.member, updateValue_entry hlp', JSValue.field, hstep]
  unfold Values.progressStep
  by_cases hc : (JSValue.fieldOr (.object upd) "completed").truthy = true
  · simp only [hc, if_true, hrun]
  · simp only [hc, if_false, Bool.false_eq_true]

/-! ## updateLessonProgress on a page -/

theorem Values.award_fields (v : Values) (items : List JSValue) (ids : List String) :
    (v.award items ids).courses = v.courses ∧
      (v.award items ids).courseProgress = v.courseProgress ∧
      (v.award items ids).lessonProgress = v.lessonProgress ∧
      (v.award items ids).streaks = v.streaks :=
  ⟨rfl, rfl, rfl, rfl⟩

theorem Values.progressStep_lessonProgress (v : Values) (clock : Clock)
    (courseId lessonId : String) (progressUpdate : JSValue) (found : Option JSValue) :
    (v.progressStep clock courseId lessonId progressUpdate found).lessonProgress =
      .object (setOwn v.lessonProgress.props lessonId
        (.object (lessonEntry v.lessonProgress.props lessonId progressUpdate))) := by
  unfold Values.progressStep
  split_ifs
  · cases found <;> rfl
  · rfl

theorem Values.progressStep_courses (v : Values) (clock : Clock)
    (courseId lessonId : String) (progressUpdate : JSValue) (found : Option JSValue) :
    (v.progressStep clock courseId lessonId progressUpdate found).courses = v.courses := by
  unfold Values.progressStep
  split_ifs
  · cases found <;> rfl
  · rfl

/-- The method on a page that holds values with the shapes of the data model, called with
a record of updates: it returns normally, and the page then holds values of the same
shapes, in which courses, course progress and lesson progress are those of `progressStep`,
the streak record is dated today, and the achievements are those of `progressStep`
followed by at most one more id, announced by an event. -/
theorem updateLessonProgress_page {page : Page} {v : Values} (h : Holds page v)
    (ht : v.typed = true) (clock : Clock) (courseId lessonId : String) (upd : Props) :
    ∃ (found : Option JSValue) (page' : Page) (v' : Values) (items : List JSValue)
        (ids : List String),
      findCourse courseId v.courses.items = .ok found ∧
      (∀ course, found = some course → isCourse course = true) ∧
      StateManager.updateLessonProgress page clock courseId lessonId (.object upd) =
        (.ok (), page') ∧
      Holds page' v' ∧ v'.typed = true ∧
      v'.courses = v.courses ∧
      v'.courseProgress =
        (v.progressStep clock courseId lessonId (.object upd) found).courseProgress ∧
      v'.lessonProgress =
        (v.progressStep clock courseId lessonId (.object upd) found).lessonProgress ∧
      (v.progressStep clock courseId lessonId (.object upd) found).achievements =
        .array items ∧
      v'.achievements = .array (items ++ ids.map JSValue.string) ∧
      v'.dispatched =
        (v.progressStep clock courseId lessonId (.object upd) found).dispatched ++
          ids.map CustomEvent.achievementUnlocked ∧
      ids.Nodup ∧ (∀ id ∈ ids, JSValue.string id ∉ items) ∧
      v'.streaks.field "lastActive" = .ok (.string clock.today) := by
  obtain ⟨found, hf, hfound, hrun⟩ :=
    Values.updateLessonProgress_typed ht clock courseId lessonId upd
  have htm := Values.typed_progressStep ht clock courseId lessonId (.object upd) found
  obtain ⟨v', items, ids, hstreak, ht', h1, h2, h3, h4, h5, h6, h7, h8, h9⟩ :=
    Values.updateStreak_typed htm clock
  obtain ⟨page', hmeth, hh⟩ :=
    updateLessonProgress_values h clock courseId lessonId (.object upd)
  rw [hrun, hstreak] at hmeth hh
  exact ⟨found, page', v', items, ids, hf, hfound, hmeth, hh, ht',
    h1.trans (Values.progressStep_courses _ _ _ _ _ _), h2, h3, h4, h5, h6, h7, h8, h9⟩

/-! ## The lesson entry -/

theorem getOwn_spread_record {target upd : Props} (hupd : (upd.map (fun p => p.1)).Nodup)
    (k : String) :
    getOwn (spread target (.object upd)) k =
      match getOwn upd k with
      | some x => some x
      | none => getOwn target k := by
  simpa [spread, ownEnumerable] using getOwn_foldl_setOwn upd target k hupd

/-- C12: for every page that holds values with the shapes of the data model, every course
id, lesson id and record `upd` of updates, `updateLessonProgress` returns normally; the
entry of the lesson in `lessonProgress` is then a record that has the value of `upd` at
every key of `upd` and the value of the previous entry at every other key, where the
previous entry `entry` is the record stored before or the empty record when there was
none; and `lessonProgress` reads as before at every other lesson id. -/
theorem updateLessonProgress_merges_lesson_entry (page : Page) (v : Values) (clock : Clock)
    (courseId lessonId : String) (lp upd entry : Props)
    (h : Holds page v) (ht : v.typed = true) (hlp : v.lessonProgress = .object lp)
    (hupd : (upd.map (fun p => p.1)).Nodup)
    (hentry : (getOwn lp lessonId = some (.object entry) ∧
        (entry.map (fun p => p.1)).Nodup) ∨
      (getOwn lp lessonId = none ∧ entry = [])) :
    ∃ page' lp' entry',
      StateManager.updateLessonProgress page clock courseId lessonId (.object upd) =
        (.ok (), page') ∧
      Store.getValue page'.stateManager.progressStore "lessonProgress" = .ok (.object lp') ∧
      getOwn lp' lessonId = some (.object entry') ∧
      (∀ k, getOwn entry' k =
        match getOwn upd k with
        | some x => some x
        | none => getOwn entry k) ∧
      ∀ other, other ≠ lessonId → getOwn lp' other = getOwn lp other := by
  obtain ⟨found, page', v', items, ids, _, _, hrun, hh, _, _, _, hl, _⟩ :=
    updateLessonProgress_page h ht clock courseId lessonId upd
  rw [Values.progressStep_lessonProgress, hlp] at hl
  simp only [JSValue.props] at hl
  have hprev : previousEntry lp lessonId = entry := by
    rcases hentry with ⟨he, hd⟩ | ⟨he, rfl⟩
    · exact previousEntry_record he hd
    · exact previousEntry_none he
  refine ⟨page', setOwn lp lessonId (.object (lessonEntry lp lessonId (.object upd))),
    lessonEntry lp lessonId (.object upd), hrun, by rw [hh.lessonProgress, hl],
    getOwn_setOwn_self _ _ _, ?_, fun other ho => getOwn_setOwn_other _ _ _ _ ho⟩
  intro k
  simp only [lessonEntry, hprev]
  exact getOwn_spread_record hupd k

/-- Witness for C12: on a new page the entry of lesson `10` becomes the record of updates. -/
theorem updateLessonProgress_merges_lesson_entry_witness :
    (Holds (examplePage exampleCatalog) exampleValues ∧ exampleValues.typed = true ∧
      exampleValues.lessonProgress = .object [] ∧
      ([("completed", JSValue.boolean true)].map (fun p => p.1)).Nodup) ∧
    ∃ page' lp' entry',
      StateManager.updateLessonProgress (examplePage exampleCatalog) exampleClock "c" "10"
        (.object [("completed", .boolean true)]) = (.ok (), page') ∧
      Store.getValue page'.stateManager.progressStore "lessonProgress" = .ok (.object lp') ∧
      getOwn lp' "10" = some (.object entry') ∧
      (∀ k, getOwn entry' k =
        match getOwn [("completed", JSValue.boolean true)] k with
        | some x => some x
        | none => getOwn [] k) ∧
      ∀ other, other ≠ "10" → getOwn lp' other = getOwn [] other :=
  ⟨⟨⟨rfl, rfl, rfl, rfl, rfl, rfl, rfl⟩, by decide, rfl, by decide⟩,
    updateLessonProgress_merges_lesson_entry (examplePage exampleCatalog) exampleValues
      exampleClock "c" "10" [] [("completed", .boolean true)] []
      ⟨rfl, rfl, rfl, rfl, rfl, rfl, rfl⟩ (by decide) rfl (by decide) (Or.inr ⟨rfl, rfl⟩)⟩

/-! ## The course entry -/

/-- Rounding a non-negative number to a double, multiplying by 100 and rounding again
gives 100 times the number up to the `2 ^ 51`-th part of that. -/
theorem percent_near {x : ℚ} (hx : 0 ≤ x) :
    |toDouble (toDouble x * 100) - 100 * x| ≤ 100 * x / 2 ^ 51 := by
  rcases hx.eq_or_lt with h0 | hpos
  · rw [← h0, toDouble_zero]
    simp [toDouble_zero]
  · have ha := toDouble_pos hpos
    have h1 := abs_le.mp (toDouble_near hpos)
    have h2 := abs_le.mp (toDouble_near (mul_pos ha (by norm_num : (0 : ℚ) < 100)))
    rw [abs_le]
    constructor <;> linarith [h1.1, h1.2, h2.1, h2.2]

/-- Rounding a number between 0 and 1 to a double, multiplying by 100 and rounding again
gives a number between 0 and 100. -/
theorem percent_range {x : ℚ} (hx : 0 ≤ x) (h1 : x ≤ 1) :
    0 ≤ toDouble (toDouble x * 100) ∧ toDouble (toDouble x * 100) ≤ 100 := by
  have e1 : toDouble 1 = 1 := by
    have := toDouble_natCast_small (by norm_num : 1 ≤ 2 ^ 53)
    simpa using this
  have e100 : toDouble 100 = 100 := by
    have := toDouble_natCast_small (by norm_num : 100 ≤ 2 ^ 53)
    simpa using this
  have e0 := toDouble_zero
  have ha0 : 0 ≤ toDouble x := by
    have := toDouble_mono (le_refl 0) hx
    rwa [e0] at this
  have ha1 : toDouble x ≤ 1 := by
    have := toDouble_mono hx h1
    rwa [e1] at this
  constructor
  · have := toDouble_mono (le_refl 0) (by positivity : (0 : ℚ) ≤ toDouble x * 100)
    rwa [e0] at this
  · have := toDouble_mono (by positivity : (0 : ℚ) ≤ toDouble x * 100)
      (by linarith : toDouble x * 100 ≤ 100)
    rwa [e100] at this

/-- With every lesson counted the percentage is exactly 100. -/
theorem percentComplete_full {n : Nat} (hn : n ≠ 0) : percentComplete n n = .number 100 := by
  have e1 : toDouble 1 = 1 := by
    have := toDouble_natCast_small (by norm_num : 1 ≤ 2 ^ 53)
    simpa using this
  have e100 : toDouble 100 = 100 := by
    have := toDouble_natCast_small (by norm_num : 100 ≤ 2 ^ 53)
    simpa using this
  have hq : ((n : ℚ) / (n : ℚ)) = 1 := div_self (by exact_mod_cast hn)
  unfold percentComplete
  rw [if_neg hn, hq, e1, one_mul, e100]
  exact ofRat_intCast 100

/-- With no lesson counted the percentage of a course with lessons is exactly 0. -/
theorem percentComplete_none {n : Nat} (hn : n ≠ 0) : percentComplete 0 n = .number 0 := by
  unfold percentComplete
  rw [if_neg hn]
  simp only [Nat.cast_zero, zero_div, toDouble_zero, zero_mul]
  exact ofRat_intCast 0

/-- Of 20 lessons, 11 give `55.00000000000001` percent, which is `55 + 2 ^ (-47)`. -/
theorem percentComplete_eleven_of_twenty :
    percentComplete 11 20 = .fraction (7740561859543041 / 140737488355328) := by
  with_unfolding_all rfl

theorem Values.progressStep_courseProgress {v : Values} (clock : Clock)
    (courseId lessonId : String) {progressUpdate course : JSValue}
    (hc : (progressUpdate.fieldOr "completed").truthy = true) :
    (v.progressStep clock courseId lessonId progressUpdate (some course)).courseProgress =
      .object (setOwn v.courseProgress.props courseId
        (.object (courseEntry clock (lessonIdsOf course)
          (setOwn v.lessonProgress.props lessonId
            (.object (lessonEntry v.lessonProgress.props lessonId progressUpdate)))
          v.courseProgress.props courseId))) := by
  unfold Values.progressStep
  rw [if_pos hc]
  rfl

theorem getOwn_courseEntry (clock : Clock) (lessonIds : List JSValue)
    (lessonProgress courseProgress : Props) (courseId : String) :
    getOwn (courseEntry clock lessonIds lessonProgress courseProgress courseId)
        "percentComplete" =
      some (percentComplete (completedCount lessonProgress lessonIds) lessonIds.length) ∧
    getOwn (courseEntry clock lessonIds lessonProgress courseProgress courseId) "completed" =
      some (.boolean (allCompleted lessonProgress lessonIds)) ∧
    getOwn (courseEntry clock lessonIds lessonProgress courseProgress courseId)
        "lastAccessed" = some (.string clock.now) ∧
    ∀ k, k ≠ "percentComplete" → k ≠ "completed" → k ≠ "lastAccessed" →
      getOwn (courseEntry clock lessonIds lessonProgress courseProgress courseId) k =
        getOwn (previousEntry courseProgress courseId) k := by
  unfold courseEntry
  refine ⟨?_, ?_, getOwn_setOwn_self _ _ _, ?_⟩
  · rw [getOwn_setOwn_other _ _ _ _ (by decide), getOwn_setOwn_other _ _ _ _ (by decide),
      getOwn_setOwn_self]
  · rw [getOwn_setOwn_other _ _ _ _ (by decide), getOwn_setOwn_self]
  · intro k h1 h2 h3
    rw [getOwn_setOwn_other _ _ _ _ h3, getOwn_setOwn_other _ _ _ _ h2,
      getOwn_setOwn_other _ _ _ _ h1]

/-- C13: for every page that holds values with the shapes of the data model, in which
`find` returns for the course id a course whose lesson ids are `lessonIdsOf course`, and
for every record `upd` of updates whose `completed` is truthy, `updateLessonProgress`
returns normally and the entry of the course in `courseProgress` is then a record with
`percentComplete` = `(k / n) * 100` in double-precision arithmetic, where `k` is the number
of the lesson ids that are completed in the updated `lessonProgress` and `n` the number of
lesson ids: the double nearest to 100 times the double nearest to `k / n`, which differs
from `100 * k / n` by at most the `2 ^ 51`-th part of it, and which is `NaN` for a course
without lesson ids; with `completed` = whether every lesson id is completed in the updated
`lessonProgress`; with `lastAccessed` = the time the clock gave; and with every other
field as in the previous entry. `courseProgress` reads as before at every other course
id. -/
theorem updateLessonProgress_recomputes_course (page : Page) (v : Values) (clock : Clock)
    (courseId lessonId : String) (cp upd previous : Props) (course : JSValue)
    (h : Holds page v) (ht : v.typed = true)
    (hfind : findCourse courseId v.courses.items = .ok (some course))
    (hcp : v.courseProgress = .object cp)
    (hcompleted : (JSValue.fieldOr (.object upd) "completed").truthy = true)
    (hprev : (getOwn cp courseId = some (.object previous) ∧
        (previous.map (fun p => p.1)).Nodup) ∨
      (getOwn cp courseId = none ∧ previous = [])) :
    ∃ page' lp' cp' entry',
      StateManager.updateLessonProgress page clock courseId lessonId (.object upd) =
        (.ok (), page') ∧
      Store.getValue page'.stateManager.progressStore "lessonProgress" = .ok (.object lp') ∧
      Store.getValue page'.stateManager.progressStore "courseProgress" = .ok (.object cp') ∧
      getOwn cp' courseId = some (.object entry') ∧
      getOwn entry' "percentComplete" =
        some (if (lessonIdsOf course).length = 0 then .nan
          else JSValue.ofRat (toDouble (toDouble
            ((completedCount lp' (lessonIdsOf course) : ℚ) /
              ((lessonIdsOf course).length : ℚ)) * 100))) ∧
      |toDouble (toDouble ((completedCount lp' (lessonIdsOf course) : ℚ) /
          ((lessonIdsOf course).length : ℚ)) * 100) -
        100 * ((completedCount lp' (lessonIdsOf course) : ℚ) /
          ((lessonIdsOf course).length : ℚ))| ≤
        100 * ((completedCount lp' (lessonIdsOf course) : ℚ) /
          ((lessonIdsOf course).length : ℚ)) / 2 ^ 51 ∧
      getOwn entry' "completed" =
        some (.boolean (decide (∀ id ∈ lessonIdsOf course,
          completedIn lp' (lessonKey id) = true))) ∧
      getOwn entry' "lastAccessed" = some (.string clock.now) ∧
      (∀ k, k ≠ "percentComplete" → k ≠ "completed" → k ≠ "lastAccessed" →
        getOwn entry' k = getOwn previous k) ∧
      ∀ other, other ≠ courseId → getOwn cp' other = getOwn cp other := by
  obtain ⟨found, page', v', items, ids, hf, _, hrun, hh, _, _, hc, hl, _⟩ :=
    updateLessonProgress_page h ht clock courseId lessonId upd
  rw [hfind] at hf
  injection hf with hf
  subst hf
  rw [Values.progressStep_lessonProgress] at hl
  rw [Values.progressStep_courseProgress clock courseId lessonId hcompleted, hcp] at hc
  have hprops : (JSValue.object cp).props = cp := rfl
  rw [hprops] at hc
  have hp : previousEntry cp courseId = previous := by
    rcases hprev with ⟨he, hd⟩ | ⟨he, rfl⟩
    · exact previousEntry_record he hd
    · exact previousEntry_none he
  obtain ⟨g1, g2, g3, g4⟩ := getOwn_courseEntry clock (lessonIdsOf course)
    (setOwn v.lessonProgress.props lessonId
      (.object (lessonEntry v.lessonProgress.props lessonId (.object upd)))) cp courseId
  refine ⟨page',
    setOwn v.lessonProgress.props lessonId
      (.object (lessonEntry v.lessonProgress.props lessonId (.object upd))),
    setOwn cp courseId (.object (courseEntry clock (lessonIdsOf course)
      (setOwn v.lessonProgress.props lessonId
        (.object (lessonEntry v.lessonProgress.props lessonId (.object upd)))) cp courseId)),
    courseEntry clock (lessonIdsOf course)
      (setOwn v.lessonProgress.props lessonId
        (.object (lessonEntry v.lessonProgress.props lessonId (.object upd)))) cp courseId,
    hrun, by rw [hh.lessonProgress, hl], by rw [hh.courseProgress, hc],
    getOwn_setOwn_self _ _ _, ?_, percent_near (by positivity), ?_, g3, ?_,
    fun other ho => getOwn_setOwn_other _ _ _ _ ho⟩
  · rw [g1]
    rfl
  · rw [g2]
    congr 2
    rw [Bool.eq_iff_iff]
    simp [allCompleted, List.all_eq_true]
  · intro k h1 h2 h3
    rw [g4 k h1 h2 h3, hp]

/-- Witness for C13: on a new page with a course of two lessons, completing lesson `10`
stores 50 percent and `completed: false` for the course. -/
theorem updateLessonProgress_recomputes_course_witness :
    (Holds (examplePage exampleCatalog) exampleValues ∧ exampleValues.typed = true ∧
      findCourse "c" exampleValues.courses.items =
        .ok (some (.object [("id", .string "c"),
          ("lessons", .array [.number 10, .number 11])])) ∧
      exampleValues.courseProgress = .object [] ∧
      (JSValue.fieldOr (.object [("completed", .boolean true)]) "completed").truthy = true) ∧
    (∃ page' lp' cp' entry',
      StateManager.updateLessonProgress (examplePage exampleCatalog) exampleClock "c" "10"
        (.object [("completed", .boolean true)]) = (.ok (), page') ∧
      Store.getValue page'.stateManager.progressStore "lessonProgress" = .ok (.object lp') ∧
      Store.getValue page'.stateManager.progressStore "courseProgress" = .ok (.object cp') ∧
      getOwn cp' "c" = some (.object entry') ∧
      getOwn entry' "percentComplete" =
        some (if (lessonIdsOf (.object [("id", .string "c"),
            ("lessons", .array [.number 10, .number 11])])).length = 0 then .nan
          else JSValue.ofRat (toDouble (toDouble
            ((completedCount lp' (lessonIdsOf (.object [("id", .string "c"),
            ("lessons", .array [.number 10, .number 11])])) : ℚ) /
              ((lessonIdsOf (.object [("id", .string "c"),
            ("lessons", .array [.number 10, .number 11])])).length : ℚ)) * 100))) ∧
      |toDouble (toDouble ((completedCount lp' (lessonIdsOf (.object [("id", .string "c"),
            ("lessons", .array [.number 10, .number 11])])) : ℚ) /
          ((lessonIdsOf (.object [("id", .string "c"),
            ("lessons", .array [.number 10, .number 11])])).length : ℚ)) * 100) -
        100 * ((completedCount lp' (lessonIdsOf (.object [("id", .string "c"),
            ("lessons", .array [.number 10, .number 11])])) : ℚ) /
          ((lessonIdsOf (.object [("id", .string "c"),
            ("lessons", .array [.number 10, .number 11])])).length : ℚ))| ≤
        100 * ((completedCount lp' (lessonIdsOf (.object [("id", .string "c"),
            ("lessons", .array [.number 10, .number 11])])) : ℚ) /
          ((lessonIdsOf (.object [("id", .string "c"),
            ("lessons", .array [.number 10, .number 11])])).length : ℚ)) / 2 ^ 51 ∧
      getOwn entry' "completed" =
        some (.boolean (decide (∀ id ∈ lessonIdsOf (.object [("id", .string "c"),
          ("lessons", .array [.number 10, .number 11])]),
          completedIn lp' (lessonKey id) = true))) ∧
      getOwn entry' "lastAccessed" = some (.string exampleClock.now) ∧
      (∀ k, k ≠ "percentComplete" → k ≠ "completed" → k ≠ "lastAccessed" →
        getOwn entry' k = getOwn [] k) ∧
      ∀ other, other ≠ "c" → getOwn cp' other = getOwn [] other) ∧
    Store.getValue (StateManager.updateLessonProgress (examplePage exampleCatalog)
        exampleClock "c" "10"
        (.object [("completed", .boolean true)])).2.stateManager.progressStore
      "courseProgress" =
      .ok (.object [("c", .object [("percentComplete", .number 50),
        ("completed", .boolean false),
        ("lastAccessed", .string "2024-05-02T10:00:00.000Z")])]) :=
  ⟨⟨⟨rfl, rfl, rfl, rfl, rfl, rfl, rfl⟩, by decide, rfl, rfl, rfl⟩,
    updateLessonProgress_recomputes_course (examplePage exampleCatalog) exampleValues
      exampleClock "c" "10" [] [("completed", .boolean true)] []
      (.object [("id", .string "c"), ("lessons", .array [.number 10, .number 11])])
      ⟨rfl, rfl, rfl, rfl, rfl, rfl, rfl⟩ (by decide) rfl rfl rfl (Or.inr ⟨rfl, rfl⟩),
    by with_unfolding_all rfl⟩

/-- The claim C13 as stated fails on a course of twenty lessons: when the call completes
the eleventh of them, the percentage stored is `55 + 2 ^ (-47)`, which the language prints
as `55.00000000000001`, and not `100 * 11 / 20 = 55`. -/
theorem recomputed_percent_counterexample :
    Store.getValue (StateManager.updateLessonProgress twentyLessonsPage exampleClock "c"
        "11" (.object [("completed", .boolean true)])).2.stateManager.progressStore
      "courseProgress" =
      .ok (.object [("c", .object [
        ("percentComplete", .fraction (7740561859543041 / 140737488355328)),
        ("completed", .boolean false),
        ("lastAccessed", .string "2024-05-02T10:00:00.000Z")])]) ∧
    (∃ lp', Store.getValue (StateManager.updateLessonProgress twentyLessonsPage exampleClock
        "c" "11" (.object [("completed", .boolean true)])).2.stateManager.progressStore
        "lessonProgress" = .ok (.object lp') ∧
      completedCount lp' (lessonIdsOf (.object [("id", .string "c"),
        ("lessons", .array [.number 1, .number 2, .number 3, .number 4, .number 5,
          .number 6, .number 7, .number 8, .number 9, .number 10, .number 11, .number 12,
          .number 13, .number 14, .number 15, .number 16, .number 17, .number 18,
          .number 19, .number 20])])) = 11) ∧
    (7740561859543041 / 140737488355328 : ℚ) = 55 + 1 / 2 ^ 47 ∧
    JSValue.fraction (7740561859543041 / 140737488355328) ≠
      JSValue.ofRat (100 * ((11 : Nat) : ℚ) / ((20 : Nat) : ℚ)) := by
  refine ⟨by with_unfolding_all rfl, ⟨_, by with_unfolding_all rfl, by with_unfolding_all rfl⟩,
    by norm_num, ?_⟩
  have h : JSValue.ofRat (100 * ((11 : Nat) : ℚ) / ((20 : Nat) : ℚ)) = .number 55 := by
    with_unfolding_all rfl
  rw [h]
  intro hne
  cases hne

/-! ## Achievements stay free of duplicates -/

theorem newCourseAchievements_fresh {items : List JSValue} {courseId id : String}
    (h : id ∈ newCourseAchievements items courseId) : JSValue.string id ∉ items := by
  obtain ⟨_, _, _, _, _, hfresh⟩ := mem_newCourseAchievements.mp h
  exact hfresh

theorem newCourseAchievements_nodup (items : List JSValue) (courseId : String) :
    (newCourseAchievements items courseId).Nodup := by
  have hall : ((achievementDefinitions courseId).map (fun a => a.id)).Nodup := by
    simp [achievementDefinitions]
  exact List.Nodup.sublist (List.Sublist.map _ (List.filter_sublist _)) hall

/-- Appending ids that are new and distinct to a list without repetition gives a list
without repetition. -/
theorem nodup_append_ids {items : List JSValue} {ids : List String} (hn : items.Nodup)
    (hd : ids.Nodup) (hf : ∀ id ∈ ids, JSValue.string id ∉ items) :
    (items ++ ids.map JSValue.string).Nodup := by
  refine List.Nodup.append hn ?_ ?_
  · exact List.Nodup.map (fun a b hab => by injection hab) hd
  · intro x hx hx'
    obtain ⟨id, hid, rfl⟩ := List.mem_map.mp hx'
    exact hf id hid hx

/-- What the statements before the streak recomputation do to the achievements: they
append nothing, or the achievements of the completed course. -/
theorem Values.progressStep_achievements {v : Values} {items : List JSValue}
    (hA : v.achievements = .array items) (clock : Clock) (courseId lessonId : String)
    (progressUpdate : JSValue) (found : Option JSValue) :
    ∃ ids : List String,
      (v.progressStep clock courseId lessonId progressUpdate found).achievements =
        .array (items ++ ids.map JSValue.string) ∧
      (v.progressStep clock courseId lessonId progressUpdate found).dispatched =
        v.dispatched ++ ids.map CustomEvent.achievementUnlocked ∧
      (ids = [] ∨ ids = newCourseAchievements items courseId) := by
  have hnone : ∃ ids : List String,
      (v.lessonStep lessonId progressUpdate).achievements =
        .array (items ++ ids.map JSValue.string) ∧
      (v.lessonStep lessonId progressUpdate).dispatched =
        v.dispatched ++ ids.map CustomEvent.achievementUnlocked ∧
      (ids = [] ∨ ids = newCourseAchievements items courseId) :=
    ⟨[], by simp [Values.lessonStep, hA], by simp [Values.lessonStep], Or.inl rfl⟩
  unfold Values.progressStep
  split_ifs
  · cases found with
    | none => exact hnone
    | some course =>
      simp only [Values.courseStep, Values.award, Values.lessonStep, hA, JSValue.items]
      split_ifs
      · exact ⟨_, rfl, rfl, Or.inr rfl⟩
      · exact ⟨[], rfl, rfl, Or.inl rfl⟩
  · exact hnone

/-- C17: for every page that holds values with the shapes of the data model and a list of
achievements without repetition, and every record of updates, `updateLessonProgress`
returns normally and the list of achievements then is the previous list followed by new
entries, so that every entry held before is still there in the same order, and it has no
repetition. -/
theorem achievements_stay_duplicate_free (page : Page) (v : Values) (clock : Clock)
    (courseId lessonId : String) (upd : Props) (items : List JSValue)
    (h : Holds page v) (ht : v.typed = true) (hA : v.achievements = .array items)
    (hn : items.Nodup) :
    ∃ page' items',
      StateManager.updateLessonProgress page clock courseId lessonId (.object upd) =
        (.ok (), page') ∧
      Store.getValue page'.stateManager.progressStore "achievements" = .ok (.array items') ∧
      items'.Nodup ∧ items <+: items' := by
  obtain ⟨found, page', v', mids, ids, _, _, hrun, hh, _, _, _, _, hmid, hach, _, hd, hf, _⟩ :=
    updateLessonProgress_page h ht clock courseId lessonId upd
  obtain ⟨ids1, h1, _, hids1⟩ :=
    Values.progressStep_achievements hA clock courseId lessonId (.object upd) found
  rw [h1] at hmid
  injection hmid with hmid
  subst hmid
  have hd1 : ids1.Nodup := by
    rcases hids1 with rfl | rfl
    · simp
    · exact newCourseAchievements_nodup _ _
  have hf1 : ∀ id ∈ ids1, JSValue.string id ∉ items := by
    rcases hids1 with rfl | rfl
    · simp
    · exact fun id hid => newCourseAchievements_fresh hid
  refine ⟨page', _, hrun, by rw [hh.achievements, hach],
    nodup_append_ids (nodup_append_ids hn hd1 hf1) hd hf, ?_⟩
  rw [List.append_assoc]
  exact List.prefix_append _ _

/-- Witness for C17: on a page that holds the achievement `ach-course-complete` and a streak
of two days, the call that completes the only lesson of the course attempts the award for
the completed course again and reaches the streak milestone 3: the list becomes
`ach-course-complete`, `ach-perfect-score`, `ach-streak-3`, with the id held before in
front and without repetition, and two events are dispatched. -/
theorem achievements_stay_duplicate_free_witness :
    (Holds awardPage awardValues ∧ awardValues.typed = true ∧
      awardValues.achievements = .array [.string "ach-course-complete"] ∧
      ([JSValue.string "ach-course-complete"] : List JSValue).Nodup) ∧
    (∃ page' items',
      StateManager.updateLessonProgress awardPage exampleClock "c" "10"
        (.object [("completed", .boolean true)]) = (.ok (), page') ∧
      Store.getValue page'.stateManager.progressStore "achievements" = .ok (.array items') ∧
      items'.Nodup ∧ [JSValue.string "ach-course-complete"] <+: items') ∧
    Store.getValue (StateManager.updateLessonProgress awardPage exampleClock "c" "10"
        (.object [("completed", .boolean true)])).2.stateManager.progressStore
      "achievements" =
      .ok (.array [.string "ach-course-complete", .string "ach-perfect-score",
        .string "ach-streak-3"]) ∧
    (StateManager.updateLessonProgress awardPage exampleClock "c" "10"
        (.object [("completed", .boolean true)])).2.dispatched =
      [.achievementUnlocked "ach-perfect-score", .achievementUnlocked "ach-streak-3"] :=
  ⟨⟨⟨rfl, rfl, rfl, rfl, rfl, rfl, rfl⟩, by decide, rfl, List.nodup_singleton _⟩,
    achievements_stay_duplicate_free awardPage awardValues exampleClock
      "c" "10" [("completed", .boolean true)] [.string "ach-course-complete"]
      ⟨rfl, rfl, rfl, rfl, rfl, rfl, rfl⟩ (by decide) rfl (List.nodup_singleton _),
    by with_unfolding_all rfl, by with_unfolding_all rfl⟩

/-! ## Calling updateLessonProgress twice -/

theorem setOwn_same : ∀ (ps : Props) (k : String) (x : JSValue),
    getOwn ps k = some x → setOwn ps k x = ps
  | [], _, _, h => by simp [getOwn] at h
  | (k', v') :: rest, k, x, h => by
    by_cases hk : k' = k
    · subst hk
      simp only [getOwn, if_true, Option.some.injEq] at h
      subst h
      simp [setOwn]
    · simp only [getOwn, hk, if_false] at h
      simp [setOwn, hk, setOwn_same rest k x h]

theorem nodup_courseEntry (clock : Clock) (lessonIds : List JSValue)
    (lessonProgress courseProgress : Props) (courseId : String) :
    ((courseEntry clock lessonIds lessonProgress courseProgress courseId).map
      (fun p => p.1)).Nodup :=
  nodup_setOwn (nodup_setOwn (nodup_setOwn (nodup_previousEntry _ _) _ _) _ _) _ _

/-- Recomputing the course entry on top of itself, with the same lessons, the same lesson
progress and the same clock, gives the same entry. -/
theorem courseEntry_again (clock : Clock) (lessonIds : List JSValue)
    (lessonProgress before after : Props) (courseId : String)
    (h : getOwn after courseId =
      some (.object (courseEntry clock lessonIds lessonProgress before courseId))) :
    courseEntry clock lessonIds lessonProgress after courseId =
      courseEntry clock lessonIds lessonProgress before courseId := by
  obtain ⟨g1, g2, g3, _⟩ := getOwn_courseEntry clock lessonIds lessonProgress before courseId
  have hp := previousEntry_record h (nodup_courseEntry _ _ _ _ _)
  conv_lhs => unfold courseEntry
  rw [hp, setOwn_same _ _ _ g1, setOwn_same _ _ _ g2, setOwn_same _ _ _ g3]

/-- Merging `{completed: true}` into a lesson entry that already says so gives the same
entry. -/
theorem lessonEntry_again {lessonProgress entry : Props} {lessonId : String}
    (he : getOwn lessonProgress lessonId = some (.object entry))
    (hd : (entry.map (fun p => p.1)).Nodup)
    (hc : getOwn entry "completed" = some (.boolean true)) :
    lessonEntry lessonProgress lessonId (.object [("completed", .boolean true)]) = entry := by
  unfold lessonEntry
  rw [previousEntry_record he hd]
  simp only [spread, ownEnumerable, List.foldl_cons, List.foldl_nil]
  exact setOwn_same _ _ _ hc

theorem Values.lessonStep_fixed {v : Values} {lp entry : Props} {lessonId : String}
    (hlp : v.lessonProgress = .object lp)
    (he : getOwn lp lessonId = some (.object entry))
    (hd : (entry.map (fun p => p.1)).Nodup)
    (hc : getOwn entry "completed" = some (.boolean true)) :
    v.lessonStep lessonId (.object [("completed", .boolean true)]) = v := by
  obtain ⟨vcourses, vcourseProgress, vlessonProgress, vachievements, vstreaks, vdispatched⟩ := v
  simp only at hlp
  subst hlp
  simp only [Values.lessonStep, JSValue.props, lessonEntry_again he hd hc,
    setOwn_same _ _ _ he]

theorem Values.courseStep_fixed {v : Values} {clock : Clock} {courseId : String}
    {course : JSValue} {lp before cp : Props} {items : List JSValue}
    (hlp : v.lessonProgress = .object lp) (hcp : v.courseProgress = .object cp)
    (hA : v.achievements = .array items)
    (he : getOwn cp courseId =
      some (.object (courseEntry clock (lessonIdsOf course) lp before courseId)))
    (hnew : allCompleted lp (lessonIdsOf course) = true →
      newCourseAchievements items courseId = []) :
    v.courseStep clock courseId course = v := by
  obtain ⟨vcourses, vcourseProgress, vlessonProgress, vachievements, vstreaks, vdispatched⟩ := v
  simp only at hlp hcp hA
  subst hlp hcp hA
  have hids : (if allCompleted lp (lessonIdsOf course) then
      newCourseAchievements items courseId else []) = [] := by
    split_ifs with hall
    · exact hnew hall
    · rfl
  simp only [Values.courseStep, JSValue.props, JSValue.items, hids,
    courseEntry_again clock (lessonIdsOf course) lp before cp courseId he,
    setOwn_same _ _ _ he, Values.award, List.map_nil, List.append_nil]

theorem Values.updateStreak_same_day {v : Values} {clock : Clock}
    (h : v.streaks.field "lastActive" = .ok (.string clock.today)) :
    Values._updateStreak v clock = (.ok (), v) := by
  unfold Values._updateStreak
  simp [h, isString_self]

theorem Values.progressStep_some_achievements {v : Values} {items : List JSValue}
    (hA : v.achievements = .array items) (clock : Clock) (courseId lessonId : String)
    {progressUpdate : JSValue} (course : JSValue)
    (hc : (progressUpdate.fieldOr "completed").truthy = true) :
    (v.progressStep clock courseId lessonId progressUpdate (some course)).achievements =
      .array (items ++ (if allCompleted (setOwn v.lessonProgress.props lessonId
          (.object (lessonEntry v.lessonProgress.props lessonId progressUpdate)))
          (lessonIdsOf course) then newCourseAchievements items courseId
        else []).map JSValue.string) := by
  unfold Values.progressStep
  rw [if_pos hc]
  simp only [Values.courseStep, Values.award, Values.lessonStep, hA, JSValue.items,
    JSValue.props]

/-- Once the achievements of a completed course are in the list, the check finds nothing
new. -/
theorem newCourseAchievements_again {items items' : List JSValue} {courseId : String}
    (h : ∀ x, x ∈ items ++ (newCourseAchievements items courseId).map JSValue.string →
      x ∈ items') :
    newCourseAchievements items' courseId = [] := by
  rw [List.eq_nil_iff_forall_not_mem]
  intro id hid
  obtain ⟨a, ha, rfl, h1, h2, hfresh⟩ := mem_newCourseAchievements.mp hid
  apply hfresh
  apply h
  by_cases hin : JSValue.string a.id ∈ items
  · exact List.mem_append_left _ hin
  · exact List.mem_append_right _ (List.mem_map.mpr
      ⟨a.id, mem_newCourseAchievements.mpr ⟨a, ha, rfl, h1, h2, hin⟩, rfl⟩)

/-- C15: for every page that holds values with the shapes of the data model and a list of
achievements without repetition, every course id and every lesson id, calling
`updateLessonProgress(courseId, lessonId, {completed: true})` twice at the same clock
reading returns normally both times; after the second call the page holds the very values
it held after the first, so `courseProgress`, `lessonProgress`, `achievements` and
`streaks` read the same and the second call dispatched no event; and the keys of
`lessonProgress` and of `courseProgress` are distinct and the list of achievements has no
repetition. -/
theorem updateLessonProgress_idempotent (page : Page) (v : Values) (clock : Clock)
    (courseId lessonId : String) (items : List JSValue)
    (h : Holds page v) (ht : v.typed = true) (hA : v.achievements = .array items)
    (hn : items.Nodup) :
    ∃ page1 page2 v1,
      StateManager.updateLessonProgress page clock courseId lessonId
        (.object [("completed", .boolean true)]) = (.ok (), page1) ∧
      Holds page1 v1 ∧
      StateManager.updateLessonProgress page1 clock courseId lessonId
        (.object [("completed", .boolean true)]) = (.ok (), page2) ∧
      Holds page2 v1 ∧
      (∀ key ∈ progressKeys, Store.getValue page2.stateManager.progressStore key =
        Store.getValue page1.stateManager.progressStore key) ∧
      page2.dispatched = page1.dispatched ∧
      ∃ lp1 cp1 items1, v1.lessonProgress = .object lp1 ∧ v1.courseProgress = .object cp1 ∧
        v1.achievements = .array items1 ∧ (lp1.map (fun p => p.1)).Nodup ∧
        (cp1.map (fun p => p.1)).Nodup ∧ items1.Nodup := by
  have hcompleted : (JSValue.fieldOr (.object [("completed", .boolean true)])
      "completed").truthy = true := rfl
  obtain ⟨found, page1, v1, mids, ids, hf, hfound, hrun, hh, ht1, hcs, hc, hl, hmid, hach,
    _, hd, hfresh, hla⟩ :=
    updateLessonProgress_page h ht clock courseId lessonId [("completed", .boolean true)]
  -- the lesson entry after the first call
  rw [Values.progressStep_lessonProgress] at hl
  have he : getOwn (setOwn v.lessonProgress.props lessonId (.object
      (lessonEntry v.lessonProgress.props lessonId (.object [("completed", .boolean true)]))))
      lessonId = some (.object (lessonEntry v.lessonProgress.props lessonId
        (.object [("completed", .boolean true)]))) := getOwn_setOwn_self _ _ _
  have hed : ((lessonEntry v.lessonProgress.props lessonId
      (.object [("completed", .boolean true)])).map (fun p => p.1)).Nodup :=
    nodup_spread (nodup_previousEntry _ _) _
  have hec : getOwn (lessonEntry v.lessonProgress.props lessonId
      (.object [("completed", .boolean true)])) "completed" = some (.boolean true) := by
    unfold lessonEntry
    rw [getOwn_spread_record (by decide)]
    rfl
  -- the achievements after the first call
  obtain ⟨ids1, h1, _, hids1⟩ := Values.progressStep_achievements hA clock courseId lessonId
    (.object [("completed", .boolean true)]) found
  have hmids : mids = items ++ ids1.map JSValue.string := by
    rw [h1] at hmid
    injection hmid with hmid
    exact hmid.symm
  have hd1 : ids1.Nodup := by
    rcases hids1 with rfl | rfl
    · simp
    · exact newCourseAchievements_nodup _ _
  have hf1 : ∀ id ∈ ids1, JSValue.string id ∉ items := by
    rcases hids1 with rfl | rfl
    · simp
    · exact fun id hid => newCourseAchievements_fresh hid
  -- the second call
  obtain ⟨found', hf', _, hrun'⟩ := Values.updateLessonProgress_typed ht1 clock courseId
    lessonId [("completed", .boolean true)]
  have hfound' : found' = found := by
    rw [hcs, hf] at hf'
    injection hf' with hf'
    exact hf'.symm
  subst hfound'
  have hls : v1.lessonStep lessonId (.object [("completed", .boolean true)]) = v1 :=
    Values.lessonStep_fixed hl he hed hec
  have hfixed : v1.progressStep clock courseId lessonId
      (.object [("completed", .boolean true)]) found' = v1 := by
    unfold Values.progressStep
    rw [if_pos hcompleted]
    cases found' with
    | none => exact hls
    | some course =>
      dsimp only
      rw [hls]
      rw [Values.progressStep_courseProgress clock courseId lessonId hcompleted] at hc
      refine Values.courseStep_fixed hl hc hach (getOwn_setOwn_self _ _ _) ?_
      intro hall
      apply newCourseAchievements_again
      intro x hx
      have hm := Values.progressStep_some_achievements hA clock courseId lessonId course
        hcompleted
      rw [hmid, if_pos hall] at hm
      injection hm with hm
      rw [hm]
      exact List.mem_append_left _ hx
  rw [hfixed, Values.updateStreak_same_day hla] at hrun'
  obtain ⟨page2, hmeth, hh2⟩ := updateLessonProgress_values hh clock courseId lessonId
    (.object [("completed", .boolean true)])
  rw [hrun'] at hmeth hh2
  obtain ⟨lp1, hlp1, hlpd⟩ := typed_lessonProgress ht1
  obtain ⟨cp1, hcp1, hcpd⟩ := typed_courseProgress ht1
  refine ⟨page1, page2, v1, hrun, hh, hmeth, hh2, ?_, by rw [hh2.dispatched, hh.dispatched],
    lp1, cp1, _, hlp1, hcp1, hach, hlpd, hcpd, ?_⟩
  · intro key hkey
    simp only [progressKeys, List.mem_cons, List.mem_singleton, List.not_mem_nil,
      or_false] at hkey
    rcases hkey with rfl | rfl | rfl | rfl
    · rw [hh2.courseProgress, hh.courseProgress]
    · rw [hh2.lessonProgress, hh.lessonProgress]
    · rw [hh2.achievements, hh.achievements]
    · rw [hh2.streaks, hh.streaks]
  · rw [hmids]
    exact nodup_append_ids (nodup_append_ids hn hd1 hf1) hd (by rw [← hmids]; exact hfresh)

/-- Witness for C15: two calls for lesson `10` of course `c` on a new page. -/
theorem updateLessonProgress_idempotent_witness :
    (Holds (examplePage exampleCatalog) exampleValues ∧ exampleValues.typed = true ∧
      exampleValues.achievements = .array [] ∧ ([] : List JSValue).Nodup) ∧
    ∃ page1 page2 v1,
      StateManager.updateLessonProgress (examplePage exampleCatalog) exampleClock "c" "10"
        (.object [("completed", .boolean true)]) = (.ok (), page1) ∧
      Holds page1 v1 ∧
      StateManager.updateLessonProgress page1 exampleClock "c" "10"
        (.object [("completed", .boolean true)]) = (.ok (), page2) ∧
      Holds page2 v1 ∧
      (∀ key ∈ progressKeys, Store.getValue page2.stateManager.progressStore key =
        Store.getValue page1.stateManager.progressStore key) ∧
      page2.dispatched = page1.dispatched ∧
      ∃ lp1 cp1 items1, v1.lessonProgress = .object lp1 ∧ v1.courseProgress = .object cp1 ∧
        v1.achievements = .array items1 ∧ (lp1.map (fun p => p.1)).Nodup ∧
        (cp1.map (fun p => p.1)).Nodup ∧ items1.Nodup :=
  ⟨⟨⟨rfl, rfl, rfl, rfl, rfl, rfl, rfl⟩, by decide, rfl, List.nodup_nil⟩,
    updateLessonProgress_idempotent (examplePage exampleCatalog) exampleValues exampleClock
      "c" "10" [] ⟨rfl, rfl, rfl, rfl, rfl, rfl, rfl⟩ (by decide) rfl List.nodup_nil⟩

/-! ## Completing the lessons of a course one by one -/

theorem completedIn_setOwn (lp : Props) (l : String) (entry : JSValue) (k : String) :
    completedIn (setOwn lp l entry) k =
      if k = l then (entry.fieldOr "completed").truthy else completedIn lp k := by
  unfold completedIn
  split_ifs with h
  · subst h
    rw [getOwn_setOwn_self]
  · rw [getOwn_setOwn_other _ _ _ _ h]

/-- Among lesson ids with distinct keys, those whose key is in a list of distinct keys of
the course are as many as the list is long. -/
theorem count_done {lessonIds : List JSValue} {done : List String}
    (hkeys : (lessonIds.map lessonKey).Nodup) (hd : done.Nodup)
    (hsub : ∀ l ∈ done, l ∈ lessonIds.map lessonKey) :
    (lessonIds.filter (fun id => decide (lessonKey id ∈ done))).length = done.length := by
  have hperm : ((lessonIds.filter (fun id => decide (lessonKey id ∈ done))).map lessonKey).Perm
      done := by
    rw [List.perm_ext_iff_of_nodup
      (List.Nodup.sublist (List.Sublist.map _ (List.filter_sublist _)) hkeys) hd]
    intro k
    simp only [List.mem_map, List.mem_filter, decide_eq_true_eq]
    constructor
    · rintro ⟨id, ⟨_, hin⟩, rfl⟩
      exact hin
    · intro hk
      obtain ⟨id, hid, rfl⟩ := List.mem_map.mp (hsub k hk)
      exact ⟨id, ⟨hid, hk⟩, rfl⟩
  simpa using hperm.length_eq

theorem all_done_iff {lessonIds : List JSValue} {done : List String}
    (hkeys : (lessonIds.map lessonKey).Nodup) (hd : done.Nodup)
    (hsub : ∀ l ∈ done, l ∈ lessonIds.map lessonKey) :
    lessonIds.all (fun id => decide (lessonKey id ∈ done)) =
      decide (done.length = lessonIds.length) := by
  rw [Bool.eq_iff_iff, List.all_eq_true, decide_eq_true_eq, ← count_done hkeys hd hsub,
    List.filter_length_eq_length]

theorem completedCount_marked {v : Values} {courseId : String} {course : JSValue}
    {done : List String} (hm : Marked v courseId course done)
    (hkeys : ((lessonIdsOf course).map lessonKey).Nodup) (hd : done.Nodup)
    (hsub : ∀ l ∈ done, l ∈ (lessonIdsOf course).map lessonKey) :
    completedCount v.lessonProgress.props (lessonIdsOf course) = done.length ∧
      allCompleted v.lessonProgress.props (lessonIdsOf course) =
        decide (done.length = (lessonIdsOf course).length) := by
  have hfun : ∀ id ∈ lessonIdsOf course,
      (fun id => completedIn v.lessonProgress.props (lessonKey id)) id =
        (fun id => decide (lessonKey id ∈ done)) id := hm.completed
  constructor
  · unfold completedCount
    rw [List.filter_congr hfun]
    exact count_done hkeys hd hsub
  · unfold allCompleted
    rw [← all_done_iff hkeys hd hsub, Bool.eq_iff_iff, List.all_eq_true, List.all_eq_true]
    constructor
    · intro hall id hid
      rw [← hm.completed id hid]
      exact hall id hid
    · intro hall id hid
      rw [hm.completed id hid]
      exact hall id hid

/-- One call for a lesson of a course in progress: it returns normally, the lesson joins
the completed ones, and the entry of the course is recomputed from the lessons that are
then completed. -/
theorem complete_step {page : Page} {v : Values} {courseId : String} {course : JSValue}
    {done : List String} (clock : Clock) (lessonId : String) (h : Holds page v)
    (hm : Marked v courseId course done) :
    ∃ page' v' cp entry,
      StateManager.updateLessonProgress page clock courseId lessonId
        (.object [("completed", .boolean true)]) = (.ok (), page') ∧
      Holds page' v' ∧ Marked v' courseId course (lessonId :: done) ∧
      v'.courseProgress = .object cp ∧ getOwn cp courseId = some (.object entry) ∧
      getOwn entry "percentComplete" =
        some (percentComplete (completedCount v'.lessonProgress.props (lessonIdsOf course))
          (lessonIdsOf course).length) ∧
      getOwn entry "completed" =
        some (.boolean (allCompleted v'.lessonProgress.props (lessonIdsOf course))) := by
  have hcompleted : (JSValue.fieldOr (.object [("completed", .boolean true)])
      "completed").truthy = true := rfl
  obtain ⟨found, page', v', mids, ids, hf, _, hrun, hh, ht1, hcs, hc, hl, _⟩ :=
    updateLessonProgress_page h hm.typed clock courseId lessonId
      [("completed", .boolean true)]
  rw [hm.find] at hf
  injection hf with hf
  subst hf
  rw [Values.progressStep_lessonProgress] at hl
  rw [Values.progressStep_courseProgress clock courseId lessonId hcompleted] at hc
  have hec : getOwn (lessonEntry v.lessonProgress.props lessonId
      (.object [("completed", .boolean true)])) "completed" = some (.boolean true) := by
    unfold lessonEntry
    rw [getOwn_spread_record (by decide)]
    rfl
  have hprops : v'.lessonProgress.props = setOwn v.lessonProgress.props lessonId
      (.object (lessonEntry v.lessonProgress.props lessonId
        (.object [("completed", .boolean true)]))) := by
    rw [hl]
    rfl
  obtain ⟨g1, g2, _, _⟩ := getOwn_courseEntry clock (lessonIdsOf course)
    (setOwn v.lessonProgress.props lessonId (.object (lessonEntry v.lessonProgress.props
      lessonId (.object [("completed", .boolean true)])))) v.courseProgress.props courseId
  refine ⟨page', v', _, _, hrun, hh, ⟨ht1, by rw [hcs]; exact hm.find, ?_⟩, hc,
    getOwn_setOwn_self _ _ _, by rw [hprops]; exact g1, by rw [hprops]; exact g2⟩
  intro id hid
  rw [hprops, completedIn_setOwn]
  by_cases hk : lessonKey id = lessonId
  · simp [hk, JSValue.fieldOr, hec, JSValue.truthy]
  · simp [hk, hm.completed id hid]

/-- A row of calls for lessons of a course in progress, each lesson called once and none
of them completed before: every call returns normally, and the entry of the course then
counts the lessons completed before and those of the row. -/
theorem complete_run {courseId : String} {course : JSValue}
    (hkeys : ((lessonIdsOf course).map lessonKey).Nodup) :
    ∀ (steps : List (Clock × String)) (page : Page) (v : Values) (done : List String),
      steps ≠ [] → Holds page v → Marked v courseId course done → done.Nodup →
      (∀ l ∈ done, l ∈ (lessonIdsOf course).map lessonKey) →
      (steps.map Prod.snd).Nodup →
      (∀ l ∈ steps.map Prod.snd, l ∈ (lessonIdsOf course).map lessonKey ∧ l ∉ done) →
      ∃ page' cp entry, completeLessons page courseId steps = (.ok (), page') ∧
        Store.getValue page'.stateManager.progressStore "courseProgress" =
          .ok (.object cp) ∧
        getOwn cp courseId = some (.object entry) ∧
        getOwn entry "percentComplete" =
          some (percentComplete (done.length + steps.length) (lessonIdsOf course).length) ∧
        getOwn entry "completed" = some (.boolean
          (decide (done.length + steps.length = (lessonIdsOf course).length)))
  | [], _, _, _, hne, _, _, _, _, _, _ => absurd rfl hne
  | (clock, lessonId) :: rest, page, v, done, _, h, hm, hd, hsub, hsteps, hnew => by
    obtain ⟨page1, v1, cp, entry, hrun, hh, hm1, hcp, he, hp, hc⟩ :=
      complete_step clock lessonId h hm
    have hl := hnew lessonId (by simp)
    have hd1 : (lessonId :: done).Nodup := List.nodup_cons.mpr ⟨hl.2, hd⟩
    have hsub1 : ∀ l ∈ lessonId :: done, l ∈ (lessonIdsOf course).map lessonKey := by
      intro l hmem
      rcases List.mem_cons.mp hmem with rfl | hmem
      · exact hl.1
      · exact hsub l hmem
    simp only [completeLessons, hrun]
    cases rest with
    | nil =>
      obtain ⟨hcount, hall⟩ := completedCount_marked hm1 hkeys hd1 hsub1
      rw [hcount] at hp
      rw [hall] at hc
      exact ⟨page1, cp, entry, rfl, by rw [hh.courseProgress, hcp], he,
        by simpa using hp, by simpa using hc⟩
    | cons step rest' =>
      simp only [List.map_cons, List.nodup_cons] at hsteps
      have hrec := complete_run hkeys (step :: rest') page1 v1 (lessonId :: done)
        (by simp) hh hm1 hd1 hsub1 (by simpa using hsteps.2) (by
          intro l hmem
          have hmem' : l ∈ ((clock, lessonId) :: step :: rest').map Prod.snd := by
            simp only [List.map_cons, List.mem_cons] at hmem ⊢
            exact Or.inr hmem
          refine ⟨(hnew l hmem').1, ?_⟩
          intro hin
          rcases List.mem_cons.mp hin with rfl | hin
          · exact hsteps.1 (by simpa using hmem)
          · exact (hnew l hmem').2 hin)
      obtain ⟨page', cp', entry', hrun', hget, he', hp', hc'⟩ := hrec
      refine ⟨page', cp', entry', hrun', hget, he', ?_, ?_⟩
      · rw [hp']
        simp only [List.length_cons]
        congr 2
        omega
      · rw [hc']
        simp only [List.length_cons]
        congr 2
        rw [Bool.eq_iff_iff]
        simp only [decide_eq_true_eq]
        omega

/-- C14: for every page that holds values with the shapes of the data model, every course
that `find` returns for the course id, whose lesson ids have distinct keys and are not
completed, and every non-empty row of calls `updateLessonProgress(courseId, lessonId,
{completed: true})` for `k` different lessons of the course, in any order and at any clock
readings: every call returns normally, and the entry of the course then has
`percentComplete = (k / n) * 100` in double-precision arithmetic, where `n` is the number
of lesson ids: the double nearest to 100 times the double nearest to `k / n`, which differs
from `100 * k / n` by at most the `2 ^ 51`-th part of it; and it has `completed = (k = n)`;
so after the last lesson `percentComplete` is 100 and `completed` is true. -/
theorem course_completion_scenario (page : Page) (v : Values) (courseId : String)
    (course : JSValue) (steps : List (Clock × String)) (h : Holds page v)
    (ht : v.typed = true)
    (hfind : findCourse courseId v.courses.items = .ok (some course))
    (hkeys : ((lessonIdsOf course).map lessonKey).Nodup)
    (hnone : ∀ id ∈ lessonIdsOf course,
      completedIn v.lessonProgress.props (lessonKey id) = false)
    (hne : steps ≠ []) (hsteps : (steps.map Prod.snd).Nodup)
    (hsub : ∀ l ∈ steps.map Prod.snd, l ∈ (lessonIdsOf course).map lessonKey) :
    ∃ page' cp entry, completeLessons page courseId steps = (.ok (), page') ∧
      Store.getValue page'.stateManager.progressStore "courseProgress" = .ok (.object cp) ∧
      getOwn cp courseId = some (.object entry) ∧
      getOwn entry "percentComplete" =
        some (JSValue.ofRat (toDouble (toDouble
          ((steps.length : ℚ) / ((lessonIdsOf course).length : ℚ)) * 100))) ∧
      |toDouble (toDouble ((steps.length : ℚ) / ((lessonIdsOf course).length : ℚ)) * 100) -
          100 * ((steps.length : ℚ) / ((lessonIdsOf course).length : ℚ))| ≤
        100 * ((steps.length : ℚ) / ((lessonIdsOf course).length : ℚ)) / 2 ^ 51 ∧
      getOwn entry "completed" =
        some (.boolean (decide (steps.length = (lessonIdsOf course).length))) ∧
      (steps.length = (lessonIdsOf course).length →
        getOwn entry "percentComplete" = some (.number 100) ∧
        getOwn entry "completed" = some (.boolean true)) := by
  have hm : Marked v courseId course [] :=
    ⟨ht, hfind, fun id hid => by simp [hnone id hid]⟩
  obtain ⟨page', cp, entry, hrun, hget, he, hp, hc⟩ :=
    complete_run hkeys steps page v [] hne h hm List.nodup_nil (by simp) hsteps
      (fun l hl => ⟨hsub l hl, by simp⟩)
  have hn : (lessonIdsOf course).length ≠ 0 := by
    obtain ⟨step, rest, hsplit⟩ : ∃ step rest, steps = step :: rest := by
      cases steps with
      | nil => exact absurd rfl hne
      | cons step rest => exact ⟨step, rest, rfl⟩
    intro hzero
    have hmem := hsub step.2 (by simp [hsplit])
    rw [List.length_eq_zero.mp hzero] at hmem
    simp at hmem
  simp only [List.length_nil, Nat.zero_add] at hp hc
  refine ⟨page', cp, entry, hrun, hget, he, ?_, percent_near (by positivity), hc, ?_⟩
  · rw [hp]
    unfold percentComplete
    rw [if_neg hn]
  · intro hall
    constructor
    · rw [hp, hall, percentComplete_full hn]
    · rw [hc]
      simp [hall]

/-- Witness for C14: the course with lessons `10` and `11`, marking `10` and then `11`. -/
theorem course_completion_scenario_witness :
    (Holds (examplePage exampleCatalog) exampleValues ∧ exampleValues.typed = true ∧
      findCourse "c" exampleValues.courses.items =
        .ok (some (.object [("id", .string "c"),
          ("lessons", .array [.number 10, .number 11])])) ∧
      ((lessonIdsOf (.object [("id", .string "c"),
        ("lessons", .array [.number 10, .number 11])])).map lessonKey).Nodup) ∧
    (∃ page' cp entry,
      completeLessons (examplePage exampleCatalog) "c"
        [(exampleClock, "10"), (exampleClock, "11")] = (.ok (), page') ∧
      Store.getValue page'.stateManager.progressStore "courseProgress" = .ok (.object cp) ∧
      getOwn cp "c" = some (.object entry) ∧
      getOwn entry "percentComplete" =
        some (JSValue.ofRat (toDouble (toDouble
          ((([(exampleClock, "10"), (exampleClock, "11")] : List (Clock × String)).length : ℚ) /
          ((lessonIdsOf (.object [("id", .string "c"),
            ("lessons", .array [.number 10, .number 11])])).length : ℚ)) * 100))) ∧
      |toDouble (toDouble
          ((([(exampleClock, "10"), (exampleClock, "11")] : List (Clock × String)).length : ℚ) /
          ((lessonIdsOf (.object [("id", .string "c"),
            ("lessons", .array [.number 10, .number 11])])).length : ℚ)) * 100) -
          100 * ((([(exampleClock, "10"), (exampleClock, "11")] : List (Clock × String)).length : ℚ) /
          ((lessonIdsOf (.object [("id", .string "c"),
            ("lessons", .array [.number 10, .number 11])])).length : ℚ))| ≤
        100 * ((([(exampleClock, "10"), (exampleClock, "11")] : List (Clock × String)).length : ℚ) /
          ((lessonIdsOf (.object [("id", .string "c"),
            ("lessons", .array [.number 10, .number 11])])).length : ℚ)) / 2 ^ 51 ∧
      getOwn entry "completed" =
        some (.boolean (decide
          (([(exampleClock, "10"), (exampleClock, "11")] : List (Clock × String)).length =
            (lessonIdsOf (.object [("id", .string "c"),
              ("lessons", .array [.number 10, .number 11])])).length))) ∧
      (([(exampleClock, "10"), (exampleClock, "11")] : List (Clock × String)).length =
          (lessonIdsOf (.object [("id", .string "c"),
            ("lessons", .array [.number 10, .number 11])])).length →
        getOwn entry "percentComplete" = some (.number 100) ∧
        getOwn entry "completed" = some (.boolean true))) ∧
    (completeLessons (examplePage exampleCatalog) "c"
      [(exampleClock, "10"), (exampleClock, "11")]).2.dispatched =
      [.achievementUnlocked "ach-course-complete", .achievementUnlocked "ach-perfect-score"] :=
  ⟨⟨⟨rfl, rfl, rfl, rfl, rfl, rfl, rfl⟩, by decide, rfl, by decide⟩,
    course_completion_scenario (examplePage exampleCatalog) exampleValues "c"
      (.object [("id", .string "c"), ("lessons", .array [.number 10, .number 11])])
      [(exampleClock, "10"), (exampleClock, "11")] ⟨rfl, rfl, rfl, rfl, rfl, rfl, rfl⟩
      (by decide) rfl (by decide) (by decide) (by simp) (by decide) (by decide),
    rfl⟩

/-- The claim C14 as stated fails in two ways. On a course of twenty lessons of which
none is completed, after the calls for eleven of them the percentage stored is
`55 + 2 ^ (-47)`, which the language prints as `55.00000000000001`, and not
`100 * 11 / 20 = 55`. On a course with the two distinct lesson ids `10` and `"10"`, which
are the same property key of `lessonProgress`, one call stores `percentComplete: 100` and
`completed: true` although `k = 1` and `n = 2`. -/
theorem course_completion_counterexample :
    (Store.getValue (completeLessons (examplePage twentyLessons) "c"
        [(exampleClock, "1"), (exampleClock, "2"), (exampleClock, "3"), (exampleClock, "4"),
          (exampleClock, "5"), (exampleClock, "6"), (exampleClock, "7"), (exampleClock, "8"),
          (exampleClock, "9"), (exampleClock, "10"),
          (exampleClock, "11")]).2.stateManager.progressStore "courseProgress" =
      .ok (.object [("c", .object [
        ("percentComplete", .fraction (7740561859543041 / 140737488355328)),
        ("completed", .boolean false),
        ("lastAccessed", .string "2024-05-02T10:00:00.000Z")])]) ∧
      (7740561859543041 / 140737488355328 : ℚ) = 55 + 1 / 2 ^ 47 ∧
      JSValue.fraction (7740561859543041 / 140737488355328) ≠
        JSValue.ofRat (100 * ((11 : Nat) : ℚ) / ((20 : Nat) : ℚ))) ∧
    (Store.getValue (completeLessons
        (examplePage (.array [.object [("id", .string "c"),
          ("lessons", .array [.number 10, .string "10"])]])) "c"
        [(exampleClock, "10")]).2.stateManager.progressStore "courseProgress" =
      .ok (.object [("c", .object [("percentComplete", .number 100),
        ("completed", .boolean true),
        ("lastAccessed", .string "2024-05-02T10:00:00.000Z")])]) ∧
      JSValue.number 10 ≠ JSValue.string "10" ∧
      JSValue.number 100 ≠ JSValue.ofRat (100 * ((1 : Nat) : ℚ) / ((2 : Nat) : ℚ))) := by
  have h55 : JSValue.ofRat (100 * ((11 : Nat) : ℚ) / ((20 : Nat) : ℚ)) = .number 55 := by
    with_unfolding_all rfl
  have h50 : JSValue.ofRat (100 * ((1 : Nat) : ℚ) / ((2 : Nat) : ℚ)) = .number 50 := by
    with_unfolding_all rfl
  refine ⟨⟨by with_unfolding_all rfl, by norm_num, ?_⟩, by with_unfolding_all rfl, ?_, ?_⟩
  · rw [h55]
    intro hne
    cases hne
  · intro hne
    cases hne
  · rw [h50]
    intro hne
    injection hne with hne
    exact absurd hne (by decide)

/-! ## Streak milestones -/

theorem find_isNumber (n : Int) : ∀ (l : List Int),
    l.find? (fun m => (JSValue.number n).isNumber m) = if n ∈ l then some n else none
  | [] => by simp
  | m :: rest => by
    by_cases h : n = m
    · subst h
      simp [List.find?, JSValue.isNumber]
    · have hb : (n == m) = false := by simpa using h
      have ih := find_isNumber n rest
      simp only [JSValue.isNumber] at ih
      simp [List.find?, JSValue.isNumber, h, hb, ih]

/-- A streak of `n` days, `n` a milestone, unlocks `ach-streak-n` when the id is not among
the achievements yet. -/
theorem streakAward_new {items : List JSValue} {n : Int} (hm : n ∈ streakMilestones)
    (hin : JSValue.string ("ach-streak-" ++ toString n) ∉ items) :
    streakAward items (.number n) = ["ach-streak-" ++ toString n] := by
  have hany : items.any (fun item => item.isString ("ach-streak-" ++ toString n)) =
      false := by
    rw [← Bool.not_eq_true, any_isString_iff]
    exact hin
  unfold streakAward
  rw [find_isNumber, if_pos hm]
  simp [hany]

/-- A streak of `n` days unlocks nothing when `n` is no milestone or the id is among the
achievements already. -/
theorem streakAward_none {items : List JSValue} {n : Int}
    (h : ¬ (n ∈ streakMilestones ∧ JSValue.string ("ach-streak-" ++ toString n) ∉ items)) :
    streakAward items (.number n) = [] := by
  unfold streakAward
  rw [find_isNumber]
  by_cases hm : n ∈ streakMilestones
  · have hin : JSValue.string ("ach-streak-" ++ toString n) ∈ items := by
      by_contra hnot
      exact h ⟨hm, hnot⟩
    simp [hm, any_isString_iff.mpr hin]
  · simp [hm]

/-- C21: for every page that holds values with the shapes of the data model, whose streak
record is not dated today, the streak recomputation returns normally and stores a streak
record with an integer `current = n`; when `n` is one of 3, 7, 14, 30, 60, 90, 180, 365
and `ach-streak-n` is not among the achievements, the achievements then are the previous
ones followed by `ach-streak-n` and one `achievement:unlocked` event for that id was
dispatched; in every other case the achievements read as before and no event was
dispatched. -/
theorem streak_milestone_award (page : Page) (v : Values) (clock : Clock) (st : Props)
    (items : List JSValue) (h : Holds page v) (ht : v.typed = true)
    (hs : v.streaks = .object st) (hA : v.achievements = .array items)
    (hchange : ((getOwn st "lastActive").getD .undefined).isString clock.today = false) :
    ∃ page' st' n, StateManager._updateStreak page clock = (.ok (), page') ∧
      Store.getValue page'.stateManager.progressStore "streaks" = .ok (.object st') ∧
      getOwn st' "current" = some (.number n) ∧
      ((n ∈ streakMilestones ∧ JSValue.string ("ach-streak-" ++ toString n) ∉ items) →
        Store.getValue page'.stateManager.progressStore "achievements" =
          .ok (.array (items ++ [.string ("ach-streak-" ++ toString n)])) ∧
        page'.dispatched =
          page.dispatched ++ [.achievementUnlocked ("ach-streak-" ++ toString n)]) ∧
      (¬ (n ∈ streakMilestones ∧ JSValue.string ("ach-streak-" ++ toString n) ∉ items) →
        Store.getValue page'.stateManager.progressStore "achievements" =
          .ok (.array items) ∧
        page'.dispatched = page.dispatched) := by
  obtain ⟨st0, n0, m0, hst, hd, hn, hm⟩ := typed_streaks ht
  rw [hs] at hst
  injection hst with hst
  subst hst
  obtain ⟨updated, n, m, hu, _, hun, _⟩ :=
    updatedStreak_typed clock ((getOwn st "lastActive").getD .undefined) hd hn hm
  have hf : v.streaks.field "lastActive" =
      .ok ((getOwn st "lastActive").getD .undefined) := by
    simp [hs, JSValue.field, JSValue.fieldOr]
  rw [← hs] at hu
  have hrun := Values.updateStreak_of_updated hA hf hchange hu
  rw [hun, Option.getD_some] at hrun
  obtain ⟨page', hmeth, hh⟩ := updateStreak_values h clock
  rw [hrun] at hmeth hh
  refine ⟨page', updated, n, hmeth, hh.streaks, hun, ?_, ?_⟩
  · intro hyes
    have ha := hh.achievements
    have hdis := hh.dispatched
    rw [streakAward_new hyes.1 hyes.2] at ha hdis
    exact ⟨ha, by rw [hdis, h.dispatched]; rfl⟩
  · intro hno
    have ha := hh.achievements
    have hdis := hh.dispatched
    rw [streakAward_none hno] at ha hdis
    exact ⟨by simpa [Values.award] using ha, by rw [hdis, h.dispatched]; simp [Values.award]⟩

/-- Witness for C21: from the streak `(2, 2, yesterday)` the recomputation reaches 3 days
and unlocks `ach-streak-3`. -/
theorem streak_milestone_award_witness :
    (Holds (streakPage (.object streakBeforeThree))
        (streakValues (.object streakBeforeThree)) ∧
      (streakValues (.object streakBeforeThree)).typed = true ∧
      ((getOwn streakBeforeThree "lastActive").getD .undefined).isString
        exampleClock.today = false) ∧
    (∃ page' st' n, StateManager._updateStreak (streakPage (.object streakBeforeThree))
        exampleClock = (.ok (), page') ∧
      Store.getValue page'.stateManager.progressStore "streaks" = .ok (.object st') ∧
      getOwn st' "current" = some (.number n) ∧
      ((n ∈ streakMilestones ∧ JSValue.string ("ach-streak-" ++ toString n) ∉ []) →
        Store.getValue page'.stateManager.progressStore "achievements" =
          .ok (.array ([] ++ [.string ("ach-streak-" ++ toString n)])) ∧
        page'.dispatched = (streakPage (.object streakBeforeThree)).dispatched ++
          [.achievementUnlocked ("ach-streak-" ++ toString n)]) ∧
      (¬ (n ∈ streakMilestones ∧ JSValue.string ("ach-streak-" ++ toString n) ∉ []) →
        Store.getValue page'.stateManager.progressStore "achievements" = .ok (.array []) ∧
        page'.dispatched = (streakPage (.object streakBeforeThree)).dispatched)) ∧
    (StateManager._updateStreak (streakPage (.object streakBeforeThree))
      exampleClock).2.dispatched = [.achievementUnlocked "ach-streak-3"] :=
  ⟨⟨⟨rfl, rfl, rfl, rfl, rfl, rfl, rfl⟩, by decide, rfl⟩,
    streak_milestone_award (streakPage (.object streakBeforeThree))
      (streakValues (.object streakBeforeThree)) exampleClock streakBeforeThree []
      ⟨rfl, rfl, rfl, rfl, rfl, rfl, rfl⟩ (by decide) rfl rfl rfl,
    by with_unfolding_all rfl⟩

/-! ## A course that is not in the catalog -/

theorem findCourse_none (courseId : String) : ∀ (courses : List JSValue),
    (∀ c ∈ courses, isCourse c = true) →
    (∀ c ∈ courses, (c.fieldOr "id").isString courseId = false) →
    findCourse courseId courses = .ok none
  | [], _, _ => rfl
  | c :: rest, h, hid => by
    have hc := h c (List.mem_cons_self _ _)
    have hfield : c.field "id" = .ok (c.fieldOr "id") := by
      cases c <;> first | rfl | simp [isCourse] at hc
    simp [findCourse, hfield, hid c (List.mem_cons_self _ _),
      findCourse_none courseId rest (fun y hy => h y (List.mem_cons_of_mem _ hy))
        (fun y hy => hid y (List.mem_cons_of_mem _ hy))]

theorem streakAward_mem {items : List JSValue} {current : JSValue} {id : String}
    (h : id ∈ streakAward items current) :
    ∃ m ∈ streakMilestones, id = "ach-streak-" ++ toString m := by
  unfold streakAward at h
  split at h
  · next milestone hfind =>
    split_ifs at h
    · simp at h
    · simp only [List.mem_singleton] at h
      exact ⟨milestone, List.mem_of_find?_eq_some hfind, h⟩
  · simp at h

/-- No streak achievement has the id of a course-completion achievement. -/
theorem streak_id_not_course (courseId : String) {id : String}
    (h : ∃ m ∈ streakMilestones, id = "ach-streak-" ++ toString m) :
    id ∉ (achievementDefinitions courseId).map (fun a => a.id) := by
  obtain ⟨m, hm, rfl⟩ := h
  have hall : ∀ m ∈ streakMilestones,
      "ach-streak-" ++ toString m ∉ ["ach-course-complete", "ach-perfect-score"] := by
    decide
  exact hall m hm

/-- The streak recomputation on values with the shapes of the data model appends to the
achievements nothing but ids of streak achievements. -/
theorem Values.updateStreak_streakIds {v : Values} (ht : v.typed = true) (clock : Clock) :
    ∃ (v' : Values) (items : List JSValue) (ids : List String),
      Values._updateStreak v clock = (.ok (), v') ∧
      v'.courseProgress = v.courseProgress ∧ v'.lessonProgress = v.lessonProgress ∧
      v.achievements = .array items ∧
      v'.achievements = .array (items ++ ids.map JSValue.string) ∧
      v'.dispatched = v.dispatched ++ ids.map CustomEvent.achievementUnlocked ∧
      (∀ id ∈ ids, ∃ m ∈ streakMilestones, id = "ach-streak-" ++ toString m) ∧
      v'.streaks.field "lastActive" = .ok (.string clock.today) := by
  obtain ⟨items, hA⟩ := typed_achievements ht
  obtain ⟨st, n, m, hst, hd, hn, hm⟩ := typed_streaks ht
  have hf : v.streaks.field "lastActive" =
      .ok ((getOwn st "lastActive").getD .undefined) := by
    simp [hst, JSValue.field, JSValue.fieldOr]
  by_cases hsame : ((getOwn st "lastActive").getD .undefined).isString clock.today = true
  · refine ⟨v, items, [], ?_, rfl, rfl, hA, by simpa using hA, by simp, by simp, ?_⟩
    · unfold Values._updateStreak
      simp [hf, hsame]
    · rw [hf, isString_iff.mp hsame]
  · have hsame' : ((getOwn st "lastActive").getD .undefined).isString clock.today = false := by
      simpa using hsame
    obtain ⟨updated, n', m', hu, hud, hun, hum⟩ :=
      updatedStreak_typed clock ((getOwn st "lastActive").getD .undefined) hd hn hm
    rw [← hst] at hu
    refine ⟨_, items, _, Values.updateStreak_of_updated hA hf hsame' hu, rfl, rfl,
      hA, rfl, rfl, fun id hid => streakAward_mem hid, ?_⟩
    simp [Values.award, JSValue.field, JSValue.fieldOr, updatedStreak_lastActive hu]

/-- C22: for every page that holds values with the shapes of the data model, every course
id that is the id of no course in the list, every lesson id and every record of updates,
`updateLessonProgress` returns normally; `courseProgress` reads as before; the achievements
are the previous ones followed by ids none of which is a course-completion id, with one
event per appended id; the entry of the lesson is the merge of the previous entry with the
updates; and the streak record is dated today. -/
theorem updateLessonProgress_missing_course (page : Page) (v : Values) (clock : Clock)
    (courseId lessonId : String) (upd : Props) (courses items : List JSValue) (lp : Props)
    (h : Holds page v) (ht : v.typed = true) (hcs : v.courses = .array courses)
    (hmissing : ∀ c ∈ courses, (c.fieldOr "id").isString courseId = false)
    (hA : v.achievements = .array items) (hlp : v.lessonProgress = .object lp) :
    ∃ (page' : Page) (ids : List String) (streaks : JSValue),
      StateManager.updateLessonProgress page clock courseId lessonId (.object upd) =
        (.ok (), page') ∧
      Store.getValue page'.stateManager.progressStore "courseProgress" =
        Store.getValue page.stateManager.progressStore "courseProgress" ∧
      Store.getValue page'.stateManager.progressStore "achievements" =
        .ok (.array (items ++ ids.map JSValue.string)) ∧
      page'.dispatched = page.dispatched ++ ids.map CustomEvent.achievementUnlocked ∧
      (∀ id ∈ ids, id ∉ (achievementDefinitions courseId).map (fun a => a.id)) ∧
      Store.getValue page'.stateManager.progressStore "lessonProgress" =
        .ok (.object (setOwn lp lessonId (.object (lessonEntry lp lessonId (.object upd))))) ∧
      Store.getValue page'.stateManager.progressStore "streaks" = .ok streaks ∧
      streaks.field "lastActive" = .ok (.string clock.today) := by
  obtain ⟨courses', hcs', hall⟩ := typed_courses ht
  rw [hcs] at hcs'
  injection hcs' with hcs'
  subst hcs'
  have hnone : findCourse courseId v.courses.items = .ok none := by
    rw [hcs]
    exact findCourse_none courseId courses hall hmissing
  obtain ⟨found, hf, _, hrun⟩ :=
    Values.updateLessonProgress_typed ht clock courseId lessonId upd
  rw [hnone] at hf
  injection hf with hf
  subst hf
  have hstep : v.progressStep clock courseId lessonId (.object upd) none =
      v.lessonStep lessonId (.object upd) := by
    unfold Values.progressStep
    split_ifs <;> rfl
  rw [hstep] at hrun
  obtain ⟨v', items', ids, hstreak, h1, h2, h3, h4, h5, h6, h7⟩ :=
    Values.updateStreak_streakIds (Values.typed_lessonStep ht lessonId (.object upd)) clock
  have hitems : items' = items := by
    have : (v.lessonStep lessonId (.object upd)).achievements = .array items := hA
    rw [this] at h3
    injection h3 with h3
    exact h3.symm
  subst hitems
  obtain ⟨page', hmeth, hh⟩ :=
    updateLessonProgress_values h clock courseId lessonId (.object upd)
  rw [hrun, hstreak] at hmeth hh
  refine ⟨page', ids, v'.streaks, hmeth, ?_, by rw [hh.achievements, h4], ?_,
    fun id hid => streak_id_not_course courseId (h6 id hid), ?_, hh.streaks, h7⟩
  · rw [hh.courseProgress, h.courseProgress, h1]
    rfl
  · rw [hh.dispatched, h5, h.dispatched]
    rfl
  · rw [hh.lessonProgress, h2]
    simp [Values.lessonStep, hlp, JSValue.props]

/-- Witness for C22: on the example page, completing a lesson of the course `"zz"`, which the
catalog does not have, leaves `courseProgress` empty and awards nothing. -/
theorem updateLessonProgress_missing_course_witness :
    (Holds (examplePage exampleCatalog) exampleValues ∧ exampleValues.typed = true ∧
      (∀ c ∈ [JSValue.object [("id", .string "c"), ("lessons", .array [.number 10, .number 11])]],
        (c.fieldOr "id").isString "zz" = false)) ∧
    (∃ (page' : Page) (ids : List String) (streaks : JSValue),
      StateManager.updateLessonProgress (examplePage exampleCatalog) exampleClock "zz" "10"
          (.object [("completed", .boolean true)]) = (.ok (), page') ∧
      Store.getValue page'.stateManager.progressStore "courseProgress" =
        Store.getValue (examplePage exampleCatalog).stateManager.progressStore
          "courseProgress" ∧
      Store.getValue page'.stateManager.progressStore "achievements" =
        .ok (.array ([] ++ ids.map JSValue.string)) ∧
      page'.dispatched = (examplePage exampleCatalog).dispatched ++
        ids.map CustomEvent.achievementUnlocked ∧
      (∀ id ∈ ids, id ∉ (achievementDefinitions "zz").map (fun a => a.id)) ∧
      Store.getValue page'.stateManager.progressStore "lessonProgress" =
        .ok (.object (setOwn [] "10"
          (.object (lessonEntry [] "10" (.object [("completed", .boolean true)]))))) ∧
      Store.getValue page'.stateManager.progressStore "streaks" = .ok streaks ∧
      streaks.field "lastActive" = .ok (.string exampleClock.today)) ∧
    Store.getValue (StateManager.updateLessonProgress (examplePage exampleCatalog)
      exampleClock "zz" "10" (.object [("completed", .boolean true)])).2.stateManager.progressStore
      "courseProgress" = .ok (.object []) :=
  ⟨⟨⟨rfl, rfl, rfl, rfl, rfl, rfl, rfl⟩, by decide, by decide⟩,
    updateLessonProgress_missing_course (examplePage exampleCatalog) exampleValues exampleClock
      "zz" "10" [("completed", .boolean true)] _ [] []
      ⟨rfl, rfl, rfl, rfl, rfl, rfl, rfl⟩ (by decide) rfl (by decide) rfl rfl,
    rfl⟩

/-! ## The percentage of a course without lessons -/

/-- For a course with lessons, the stored percentage is a number between 0 and 100. -/
theorem percentComplete_in_range (lessonProgress : Props) (lessonIds : List JSValue)
    (hne : lessonIds ≠ []) :
    ∃ q : ℚ, percentComplete (completedCount lessonProgress lessonIds) lessonIds.length =
        JSValue.ofRat q ∧ 0 ≤ q ∧ q ≤ 100 := by
  have hlen : 0 < lessonIds.length := List.length_pos.mpr hne
  have hle : completedCount lessonProgress lessonIds ≤ lessonIds.length :=
    List.length_filter_le _ _
  have hpos : (0 : ℚ) < (lessonIds.length : ℚ) := by exact_mod_cast hlen
  have hq : (completedCount lessonProgress lessonIds : ℚ) / (lessonIds.length : ℚ) ≤ 1 := by
    rw [div_le_one hpos]
    exact_mod_cast hle
  obtain ⟨h0, h100⟩ := percent_range (by positivity :
    (0 : ℚ) ≤ (completedCount lessonProgress lessonIds : ℚ) / (lessonIds.length : ℚ)) hq
  refine ⟨_, ?_, h0, h100⟩
  unfold percentComplete
  rw [if_neg (by omega)]

/-- For a course without lessons, whatever the lesson progress, the entry that
`updateLessonProgress` stores has `NaN` as its percentage and `true` as `completed`. -/
theorem courseEntry_no_lessons (clock : Clock) (lessonProgress courseProgress : Props)
    (courseId : String) :
    getOwn (courseEntry clock [] lessonProgress courseProgress courseId) "percentComplete" =
        some .nan ∧
      getOwn (courseEntry clock [] lessonProgress courseProgress courseId) "completed" =
        some (.boolean true) := by
  obtain ⟨h1, h2, _⟩ := getOwn_courseEntry clock [] lessonProgress courseProgress courseId
  exact ⟨h1, h2⟩

/-- C25 at the failing input: with a catalog whose course `"c"` has an empty list of lessons,
or no list at all, `updateLessonProgress("c", "x", {completed: true})` on new stores writes
the entry `{percentComplete: NaN, completed: true, lastAccessed}` for the course and awards
both course-completion achievements. -/
theorem percentComplete_not_a_number :
    Store.getValue (StateManager.updateLessonProgress (examplePage emptyCourseCatalog)
        exampleClock "c" "x" (.object [("completed", .boolean true)])).2.stateManager.progressStore
        "courseProgress" =
      .ok (.object [("c", .object [("percentComplete", .nan), ("completed", .boolean true),
        ("lastAccessed", .string "2024-05-02T10:00:00.000Z")])]) ∧
    Store.getValue (StateManager.updateLessonProgress (examplePage bareCourseCatalog)
        exampleClock "c" "x" (.object [("completed", .boolean true)])).2.stateManager.progressStore
        "courseProgress" =
      .ok (.object [("c", .object [("percentComplete", .nan), ("completed", .boolean true),
        ("lastAccessed", .string "2024-05-02T10:00:00.000Z")])]) ∧
    (StateManager.updateLessonProgress (examplePage emptyCourseCatalog)
        exampleClock "c" "x" (.object [("completed", .boolean true)])).1 = .ok () ∧
    Store.getValue (StateManager.updateLessonProgress (examplePage emptyCourseCatalog)
        exampleClock "c" "x" (.object [("completed", .boolean true)])).2.stateManager.progressStore
        "achievements" =
      .ok (.array [.string "ach-course-complete", .string "ach-perfect-score"]) :=
  ⟨rfl, rfl, rfl, rfl⟩

/-! ## Course-completion awards do not depend on the course -/

/-- Whatever the course, the ids the check awards are those of `ach-course-complete` and
`ach-perfect-score`, in this order, that are not among the achievements. -/
theorem newCourseAchievements_eq (items : List JSValue) (courseId : String) :
    newCourseAchievements items courseId =
      ["ach-course-complete", "ach-perfect-score"].filter
        (fun id => !(items.any (fun item => item.isString id))) := by
  simp [newCourseAchievements, achievementDefinitions, List.filter_cons]
  split_ifs <;> simp

/-- When no definition qualifies, the course-completion check leaves the page as it is. -/
theorem checkCourseCompletionAchievements_none {page : Page} {v : Values}
    {items : List JSValue} {courseId : String} (h : Holds page v)
    (hA : v.achievements = .array items) (hnil : newCourseAchievements items courseId = []) :
    StateManager._checkCourseCompletionAchievements page courseId = (.ok (), page) := by
  have hf := filterArray_ok (isNewCourseAchievement (.array items) courseId)
    (fun achievement => achievement.type == "course_completion" &&
      achievement.courseId == courseId &&
      !(items.any (fun item => item.isString achievement.id)))
    (achievementDefinitions courseId)
    (fun x _ => isNewCourseAchievement_array items courseId x)
  have hempty : (achievementDefinitions courseId).filter (fun achievement =>
      achievement.type == "course_completion" && achievement.courseId == courseId &&
        !(items.any (fun item => item.isString achievement.id))) = [] := by
    unfold newCourseAchievements at hnil
    exact List.map_eq_nil_iff.mp hnil
  unfold StateManager._checkCourseCompletionAchievements
  rw [h.achievements, hA]
  dsimp only
  rw [hf, hempty]
  simp

/-- C30: for every page that holds a list `items` of achievements and all course ids `c`
and `d`, the course-completion check for `c` returns normally and leaves as achievements
`items` followed by those of `ach-course-complete`, `ach-perfect-score`, in this order, that
are not in `items`, with one event per appended id; so when `ach-perfect-score` is not in
`items` it is awarded, with no score looked at; and the check for `d` afterwards returns
normally and leaves the page exactly as it is: nothing is awarded and no event is
dispatched. -/
theorem course_completion_awards_any_course (page : Page) (v : Values)
    (items : List JSValue) (c d : String) (h : Holds page v)
    (hA : v.achievements = .array items) :
    ∃ page', StateManager._checkCourseCompletionAchievements page c = (.ok (), page') ∧
      Store.getValue page'.stateManager.progressStore "achievements" =
        .ok (.array (items ++ (["ach-course-complete", "ach-perfect-score"].filter
          (fun id => !(items.any (fun item => item.isString id)))).map JSValue.string)) ∧
      page'.dispatched = page.dispatched ++
        (["ach-course-complete", "ach-perfect-score"].filter
          (fun id => !(items.any (fun item => item.isString id)))).map
            CustomEvent.achievementUnlocked ∧
      (JSValue.string "ach-perfect-score" ∉ items →
        CustomEvent.achievementUnlocked "ach-perfect-score" ∈ page'.dispatched) ∧
      StateManager._checkCourseCompletionAchievements page' d = (.ok (), page') := by
  obtain ⟨page', hrun, hh⟩ := checkCourseCompletionAchievements_values h c
  rw [Values.checkCourse_array hA c] at hrun hh
  have hd : page'.dispatched = page.dispatched ++
      (newCourseAchievements items c).map CustomEvent.achievementUnlocked := by
    rw [hh.dispatched, h.dispatched]
    rfl
  refine ⟨page', hrun, ?_, ?_, ?_, ?_⟩
  · rw [hh.achievements, ← newCourseAchievements_eq items c]
    rfl
  · rw [hd, newCourseAchievements_eq]
  · intro hfresh
    rw [hd]
    refine List.mem_append_right _ (List.mem_map.mpr ⟨"ach-perfect-score", ?_, rfl⟩)
    rw [newCourseAchievements_eq]
    simp only [List.mem_filter, Bool.not_eq_true', ← Bool.not_eq_true, any_isString_iff]
    exact ⟨by simp, hfresh⟩
  · exact checkCourseCompletionAchievements_none hh rfl
      (@newCourseAchievements_again items _ d (fun x hx => by
        rw [newCourseAchievements_eq items d, ← newCourseAchievements_eq items c] at hx
        exact hx))

/-- Witness for C30: on a new page the check for course `c` awards both achievements, and
the check for course `d` afterwards changes nothing. -/
theorem course_completion_awards_any_course_witness :
    (Holds (examplePage exampleCatalog) exampleValues ∧
      exampleValues.achievements = .array []) ∧
    (∃ page', StateManager._checkCourseCompletionAchievements (examplePage exampleCatalog)
        "c" = (.ok (), page') ∧
      Store.getValue page'.stateManager.progressStore "achievements" =
        .ok (.array ([] ++ (["ach-course-complete", "ach-perfect-score"].filter
          (fun id => !(([] : List JSValue).any (fun item => item.isString id)))).map
            JSValue.string)) ∧
      page'.dispatched = (examplePage exampleCatalog).dispatched ++
        (["ach-course-complete", "ach-perfect-score"].filter
          (fun id => !(([] : List JSValue).any (fun item => item.isString id)))).map
            CustomEvent.achievementUnlocked ∧
      (JSValue.string "ach-perfect-score" ∉ ([] : List JSValue) →
        CustomEvent.achievementUnlocked "ach-perfect-score" ∈ page'.dispatched) ∧
      StateManager._checkCourseCompletionAchievements page' "d" = (.ok (), page')) ∧
    (StateManager._checkCourseCompletionAchievements (examplePage exampleCatalog)
      "c").2.dispatched =
        [.achievementUnlocked "ach-course-complete", .achievementUnlocked "ach-perfect-score"] :=
  ⟨⟨⟨rfl, rfl, rfl, rfl, rfl, rfl, rfl⟩, rfl⟩,
    course_completion_awards_any_course (examplePage exampleCatalog) exampleValues [] "c" "d"
      ⟨rfl, rfl, rfl, rfl, rfl, rfl, rfl⟩ rfl,
    by decide⟩

/-! ## The streak invariant -/

/-- The record that `_updateStreak` stores, from a record with `0 ≤ current ≤ longest` and
with `1 ≤ current` when `lastActive` is truthy: its counters satisfy
`1 ≤ current ≤ longest`. -/
theorem updatedStreak_invariant (clock : Clock) {st : Props} {n m : Int}
    (lastActive : JSValue) (hd : (st.map (fun p => p.1)).Nodup)
    (hn : getOwn st "current" = some (.number n))
    (hm : getOwn st "longest" = some (.number m))
    (h0 : 0 ≤ n) (hnm : n ≤ m) (h1 : lastActive.truthy = true → 1 ≤ n) :
    ∃ updated n' m', updatedStreak clock (.object st) lastActive = .ok updated ∧
      (updated.map (fun p => p.1)).Nodup ∧
      getOwn updated "current" = some (.number n') ∧
      getOwn updated "longest" = some (.number m') ∧ 1 ≤ n' ∧ n' ≤ m' := by
  have hc : getOwn (setOwn (spread [] (.object st)) "lastActive" (.string clock.today))
      "current" = some (.number n) := by
    rw [getOwn_streak_copy hd _ (by decide), hn]
  have hl : getOwn (setOwn (spread [] (.object st)) "lastActive" (.string clock.today))
      "longest" = some (.number m) := by
    rw [getOwn_streak_copy hd _ (by decide), hm]
  have hcopy : ((setOwn (spread [] (.object st)) "lastActive"
      (.string clock.today)).map (fun p => p.1)).Nodup :=
    nodup_setOwn (nodup_spread_nil _) _ _
  have hlc : ("longest" : String) ≠ "current" := by decide
  have hcl : ("current" : String) ≠ "longest" := by decide
  obtain ⟨k, hk, hk1, _⟩ := addOne_number n
  have hk1 := hk1 h0
  unfold updatedStreak
  simp only [hc, hl, hk, greaterThan, Option.getD_some]
  by_cases ht : lastActive.truthy = true
  · by_cases hy : lastActive.isString clock.yesterdayStr = true
    · by_cases hgt : k > m
      · simp only [ht, hy, hgt, if_true, decide_True]
        exact ⟨_, k, k, rfl, nodup_setOwn (nodup_setOwn hcopy _ _) _ _,
          by rw [getOwn_setOwn_other _ _ _ _ hcl, getOwn_setOwn_self],
          getOwn_setOwn_self _ _ _, by omega, le_refl _⟩
      · simp only [ht, hy, hgt, if_true, decide_False]
        exact ⟨_, k, m, rfl, nodup_setOwn hcopy _ _, getOwn_setOwn_self _ _ _,
          by rw [getOwn_setOwn_other _ _ _ _ hlc, hl], by omega, by omega⟩
    · simp only [ht, hy, if_true, if_false]
      have := h1 ht
      exact ⟨_, 1, m, rfl, nodup_setOwn hcopy _ _, getOwn_setOwn_self _ _ _,
        by rw [getOwn_setOwn_other _ _ _ _ hlc, hl], le_refl _, by omega⟩
  · simp only [ht, if_false]
    exact ⟨_, 1, 1, rfl, nodup_setOwn (nodup_setOwn hcopy _ _) _ _,
      by rw [getOwn_setOwn_other _ _ _ _ hcl, getOwn_setOwn_self], getOwn_setOwn_self _ _ _,
      le_refl _, le_refl _⟩

/-- One recomputation keeps the streak invariant and dates the record today. -/
theorem Values.updateStreak_invariant {v : Values} {latest : Option String}
    (h : StreakInvariant v latest) (clock : Clock) :
    ∃ v', Values._updateStreak v clock = (.ok (), v') ∧
      StreakInvariant v' (some clock.today) := by
  obtain ⟨ht, st, n, m, hst, hd, hn, hm, h0, hnm, hlast⟩ := h
  obtain ⟨courses, hcs, hcs'⟩ := typed_courses ht
  obtain ⟨cp, hcp, hcp'⟩ := typed_courseProgress ht
  obtain ⟨lp, hlp, hlp'⟩ := typed_lessonProgress ht
  obtain ⟨items, hA⟩ := typed_achievements ht
  have hf : v.streaks.field "lastActive" =
      .ok ((getOwn st "lastActive").getD .undefined) := by
    simp [hst, JSValue.field, JSValue.fieldOr]
  by_cases hsame : ((getOwn st "lastActive").getD .undefined).isString clock.today = true
  · have hday := isString_iff.mp hsame
    refine ⟨v, ?_, ht, st, n, m, hst, hd, hn, hm, h0, hnm, ?_⟩
    · unfold Values._updateStreak
      simp [hf, hsame]
    · cases latest with
      | none =>
        simp only at hlast
        rw [hlast] at hday
        simp at hday
      | some day =>
        obtain ⟨hl, h1⟩ := hlast
        rw [hl] at hday
        simp only [Option.getD_some] at hday
        injection hday with hday
        subst hday
        exact ⟨hl, h1⟩
  · have hsame' : ((getOwn st "lastActive").getD .undefined).isString clock.today = false := by
      simpa using hsame
    have h1 : ((getOwn st "lastActive").getD .undefined).truthy = true → 1 ≤ n := by
      intro htruthy
      cases latest with
      | none =>
        simp only at hlast
        rw [hlast] at htruthy
        simp [JSValue.truthy] at htruthy
      | some day => exact hlast.2
    obtain ⟨updated, n', m', hu, hud, hun, hum, h1', hnm'⟩ :=
      updatedStreak_invariant clock ((getOwn st "lastActive").getD .undefined) hd hn hm
        h0 hnm h1
    rw [← hst] at hu
    refine ⟨_, Values.updateStreak_of_updated hA hf hsame' hu, ?_, updated, n', m', rfl, hud,
      hun, hum, by omega, hnm', updatedStreak_lastActive hu, h1'⟩
    exact typed_intro (v := Values.award { v with streaks := .object updated } items _)
      hcs hcs' hcp hcp' hlp hlp' rfl rfl hud hun hum

/-- The date of the latest of the recomputations at `clocks`, after those dated `latest`. -/
theorem latest_day (latest : Option String) : ∀ clocks : List Clock,
    clocks.foldl (fun _ clock => some clock.today) latest =
      match clocks.getLast? with
      | some clock => some clock.today
      | none => latest
  | [] => rfl
  | [clock] => rfl
  | clock :: next :: rest => by
    have ih := latest_day (some clock.today) (next :: rest)
    simp only [List.foldl_cons] at ih ⊢
    rw [ih, List.getLast?_cons_cons]
    cases hlast : (next :: rest).getLast? with
    | none => simp at hlast
    | some c => rfl

/-- A row of recomputations keeps the streak invariant. -/
theorem recomputeStreaks_invariant : ∀ (clocks : List Clock) (page : Page) (v : Values)
    (latest : Option String), Holds page v → StreakInvariant v latest →
    ∃ page' v', recomputeStreaks page clocks = (.ok (), page') ∧ Holds page' v' ∧
      StreakInvariant v' (clocks.foldl (fun _ clock => some clock.today) latest)
  | [], page, v, latest, h, hi => ⟨page, v, rfl, h, hi⟩
  | clock :: rest, page, v, latest, h, hi => by
    obtain ⟨v1, hrun, hi1⟩ := Values.updateStreak_invariant hi clock
    obtain ⟨page1, hmeth, hh⟩ := updateStreak_values h clock
    rw [hrun] at hmeth hh
    obtain ⟨page', v', hrest, hh', hi'⟩ :=
      recomputeStreaks_invariant rest page1 v1 (some clock.today) hh hi1
    refine ⟨page', v', ?_, hh', hi'⟩
    simp only [recomputeStreaks, hmeth]
    exact hrest

/-- C29: for every page that holds values with the shapes of the data model and the initial
streak record `(0, 0, null)`, and every row of clock readings, in whatever order of dates,
the recomputations all return normally; the streak record then has integer counters with
`0 ≤ current ≤ longest`; with no recomputation `lastActive` is still `null`; after at least
one, `lastActive` is the date of the latest recomputation and `1 ≤ current`; so whenever
`lastActive` is not `null`, `1 ≤ current`. -/
theorem streak_invariant (page : Page) (v : Values) (clocks : List Clock)
    (h : Holds page v) (ht : v.typed = true) (hs : v.streaks = .object initialStreaks) :
    ∃ (page' : Page) (st : Props) (current longest : Int),
      recomputeStreaks page clocks = (.ok (), page') ∧
      Store.getValue page'.stateManager.progressStore "streaks" = .ok (.object st) ∧
      getOwn st "current" = some (.number current) ∧
      getOwn st "longest" = some (.number longest) ∧
      0 ≤ current ∧ current ≤ longest ∧
      (clocks = [] → getOwn st "lastActive" = some .null) ∧
      (∀ clock, clocks.getLast? = some clock →
        getOwn st "lastActive" = some (.string clock.today) ∧ 1 ≤ current) ∧
      (getOwn st "lastActive" ≠ some .null → 1 ≤ current) := by
  have hi : StreakInvariant v none :=
    ⟨ht, initialStreaks, 0, 0, hs, by decide, rfl, rfl, le_refl _, le_refl _, rfl⟩
  obtain ⟨page', v', hrun, hh, _, st, n, m, hst, _, hn, hm, h0, hnm, hlast⟩ :=
    recomputeStreaks_invariant clocks page v none h hi
  rw [latest_day] at hlast
  have hget : Store.getValue page'.stateManager.progressStore "streaks" = .ok (.object st) := by
    rw [hh.streaks, hst]
  refine ⟨page', st, n, m, hrun, hget, hn, hm, h0, hnm, ?_, ?_, ?_⟩
  · intro hnil
    subst hnil
    exact hlast
  · intro clock hclock
    rw [hclock] at hlast
    exact hlast
  · intro hne
    cases hl : clocks.getLast? with
    | none =>
      rw [hl] at hlast
      exact absurd hlast hne
    | some clock =>
      rw [hl] at hlast
      exact hlast.2

/-- Witness for C29: on a new page, recomputations on two consecutive days leave the streak
`(2, 2, "2024-05-02")`. -/
theorem streak_invariant_witness :
    (Holds (examplePage exampleCatalog) exampleValues ∧ exampleValues.typed = true ∧
      exampleValues.streaks = .object initialStreaks) ∧
    (∃ (page' : Page) (st : Props) (current longest : Int),
      recomputeStreaks (examplePage exampleCatalog) twoDays = (.ok (), page') ∧
      Store.getValue page'.stateManager.progressStore "streaks" = .ok (.object st) ∧
      getOwn st "current" = some (.number current) ∧
      getOwn st "longest" = some (.number longest) ∧
      0 ≤ current ∧ current ≤ longest ∧
      (twoDays = [] → getOwn st "lastActive" = some .null) ∧
      (∀ clock, twoDays.getLast? = some clock →
        getOwn st "lastActive" = some (.string clock.today) ∧ 1 ≤ current) ∧
      (getOwn st "lastActive" ≠ some .null → 1 ≤ current)) ∧
    Store.getValue (recomputeStreaks (examplePage exampleCatalog)
        twoDays).2.stateManager.progressStore "streaks" =
      .ok (.object [("current", .number 2), ("longest", .number 2),
        ("lastActive", .string "2024-05-02")]) :=
  ⟨⟨⟨rfl, rfl, rfl, rfl, rfl, rfl, rfl⟩, by decide, rfl⟩,
    streak_invariant (examplePage exampleCatalog) exampleValues twoDays
      ⟨rfl, rfl, rfl, rfl, rfl, rfl, rfl⟩ (by decide) rfl,
    by with_unfolding_all rfl⟩

/-! ## Lesson progress and course progress stay in step -/

theorem findCourse_some {courseId : String} {course : JSValue} :
    ∀ {courses : List JSValue}, findCourse courseId courses = .ok (some course) →
      course ∈ courses ∧ (course.fieldOr "id").isString courseId = true
  | [], h => by simp [findCourse] at h
  | c :: rest, h => by
    unfold findCourse at h
    cases hf : c.field "id" with
    | error e => simp [hf] at h
    | ok id =>
      have hid : id = c.fieldOr "id" := by
        cases c <;> simp [JSValue.field] at hf <;> exact hf.symm
      simp only [hf] at h
      split_ifs at h with hs
      · injection h with h
        injection h with h
        subst h
        exact ⟨List.mem_cons_self _ _, by rw [← hid]; exact hs⟩
      · obtain ⟨hm, hi⟩ := findCourse_some h
        exact ⟨List.mem_cons_of_mem _ hm, hi⟩

/-- Storing an entry for a lesson that is not among `lessonIds` changes neither whether all
of them are completed nor how many of them are. -/
theorem completed_unchanged (lp : Props) (l : String) (entry : JSValue)
    {lessonIds : List JSValue} (h : l ∉ lessonIds.map lessonKey) :
    allCompleted (setOwn lp l entry) lessonIds = allCompleted lp lessonIds ∧
      completedCount (setOwn lp l entry) lessonIds = completedCount lp lessonIds := by
  have hfun : ∀ id ∈ lessonIds,
      completedIn (setOwn lp l entry) (lessonKey id) = completedIn lp (lessonKey id) := by
    intro id hid
    rw [completedIn_setOwn, if_neg]
    rintro rfl
    exact h (List.mem_map.mpr ⟨id, hid, rfl⟩)
  constructor
  · unfold allCompleted
    rw [Bool.eq_iff_iff, List.all_eq_true, List.all_eq_true]
    exact ⟨fun hall id hid => by rw [← hfun id hid]; exact hall id hid,
      fun hall id hid => by rw [hfun id hid]; exact hall id hid⟩
  · unfold completedCount
    rw [List.filter_congr hfun]

/-- Storing an entry for a lesson under which the lesson is completed or not as it was
changes neither whether all of `lessonIds` are completed nor how many of them are. -/
theorem completed_kept (lp : Props) (l : String) (entry : JSValue)
    {lessonIds : List JSValue}
    (h : l ∈ lessonIds.map lessonKey →
      (entry.fieldOr "completed").truthy = completedIn lp l) :
    allCompleted (setOwn lp l entry) lessonIds = allCompleted lp lessonIds ∧
      completedCount (setOwn lp l entry) lessonIds = completedCount lp lessonIds := by
  have hfun : ∀ id ∈ lessonIds,
      completedIn (setOwn lp l entry) (lessonKey id) = completedIn lp (lessonKey id) := by
    intro id hid
    rw [completedIn_setOwn]
    split_ifs with hk
    · rw [hk]
      exact h (List.mem_map.mpr ⟨id, hid, hk⟩)
    · rfl
  constructor
  · unfold allCompleted
    rw [Bool.eq_iff_iff, List.all_eq_true, List.all_eq_true]
    exact ⟨fun hall id hid => by rw [← hfun id hid]; exact hall id hid,
      fun hall id hid => by rw [hfun id hid]; exact hall id hid⟩
  · unfold completedCount
    rw [List.filter_congr hfun]

theorem Values.progressStep_falsy_courseProgress (v : Values) (clock : Clock)
    (courseId lessonId : String) (progressUpdate : JSValue) (found : Option JSValue)
    (h : ¬ (progressUpdate.fieldOr "completed").truthy = true) :
    (v.progressStep clock courseId lessonId progressUpdate found).courseProgress =
      v.courseProgress := by
  unfold Values.progressStep
  rw [if_neg h]
  rfl

theorem Values.progressStep_none_courseProgress (v : Values) (clock : Clock)
    (courseId lessonId : String) (progressUpdate : JSValue) :
    (v.progressStep clock courseId lessonId progressUpdate none).courseProgress =
      v.courseProgress := by
  unfold Values.progressStep
  split_ifs <;> rfl

/-- One call that spares the course entries it does not recompute keeps the course entries
in step with the lesson progress. -/
theorem updateLessonProgress_inStep {page : Page} {v : Values} (h : Holds page v)
    (ht : v.typed = true) (hi : v.inStep) (call : ProgressCall)
    (hcall : call.sparesOthers v.courses.items v.lessonProgress.props
      v.courseProgress.props) :
    ∃ (page' : Page) (v' : Values),
      StateManager.updateLessonProgress page call.clock call.courseId call.lessonId
        (.object call.progressUpdate) = (.ok (), page') ∧
      Holds page' v' ∧ v'.typed = true ∧ v'.inStep ∧ v'.courses = v.courses := by
  obtain ⟨found, page', v', items, ids, hf, _, hrun, hh, ht', hcs, hc, hl, _⟩ :=
    updateLessonProgress_page h ht call.clock call.courseId call.lessonId call.progressUpdate
  refine ⟨page', v', hrun, hh, ht', ?_, hcs⟩
  rw [Values.progressStep_lessonProgress] at hl
  intro k course entry hfind hentry
  rw [hcs] at hfind
  rw [hl]
  have hprops : ∀ ps : Props, (JSValue.object ps).props = ps := fun _ => rfl
  rw [hprops]
  -- an entry that the call has not recomputed is as good as before
  have hold : getOwn v.courseProgress.props k = some entry →
      ((JSValue.fieldOr (.object call.progressUpdate) "completed").truthy = true →
        k ≠ call.courseId) →
      ∃ e : Props, entry = .object e ∧
        getOwn e "completed" = some (.boolean (allCompleted
          (setOwn v.lessonProgress.props call.lessonId
            (.object (lessonEntry v.lessonProgress.props call.lessonId
              (.object call.progressUpdate)))) (lessonIdsOf course))) ∧
        getOwn e "percentComplete" = some (percentComplete (completedCount
          (setOwn v.lessonProgress.props call.lessonId
            (.object (lessonEntry v.lessonProgress.props call.lessonId
              (.object call.progressUpdate)))) (lessonIdsOf course))
          (lessonIdsOf course).length) := by
    intro hentry hother
    obtain ⟨e, he, h1, h2⟩ := hi k course entry hfind hentry
    have hkept : call.lessonId ∈ (lessonIdsOf course).map lessonKey →
        (JSValue.fieldOr (.object (lessonEntry v.lessonProgress.props call.lessonId
          (.object call.progressUpdate))) "completed").truthy =
          completedIn v.lessonProgress.props call.lessonId := by
      intro hin
      rcases hcall k course hfind (by rw [hentry]; simp) hin with hsame | ⟨htr, hk⟩
      · exact hsame
      · exact absurd hk (hother htr)
    obtain ⟨g1, g2⟩ := completed_kept v.lessonProgress.props call.lessonId
      (.object (lessonEntry v.lessonProgress.props call.lessonId (.object call.progressUpdate)))
      hkept
    exact ⟨e, he, by rw [g1]; exact h1, by rw [g2]; exact h2⟩
  by_cases hcompleted : (JSValue.fieldOr (.object call.progressUpdate) "completed").truthy = true
  · cases found with
    | none =>
      rw [hc, Values.progressStep_none_courseProgress] at hentry
      refine hold hentry (fun _ hk => ?_)
      subst hk
      rw [hf] at hfind
      simp at hfind
    | some c0 =>
      rw [hc, Values.progressStep_courseProgress call.clock call.courseId call.lessonId
        hcompleted, hprops] at hentry
      by_cases hk : k = call.courseId
      · subst hk
        rw [hf] at hfind
        injection hfind with hfind
        injection hfind with hfind
        subst hfind
        rw [getOwn_setOwn_self] at hentry
        injection hentry with hentry
        obtain ⟨g1, g2, _⟩ := getOwn_courseEntry call.clock (lessonIdsOf c0)
          (setOwn v.lessonProgress.props call.lessonId
            (.object (lessonEntry v.lessonProgress.props call.lessonId
              (.object call.progressUpdate)))) v.courseProgress.props call.courseId
        exact ⟨_, hentry.symm, g2, g1⟩
      · rw [getOwn_setOwn_other _ _ _ _ hk] at hentry
        exact hold hentry (fun _ => hk)
  · rw [hc, Values.progressStep_falsy_courseProgress _ _ _ _ _ _ hcompleted] at hentry
    exact hold hentry (fun htr => absurd htr hcompleted)

/-- A row of calls, each of which spares the course entries it does not recompute, keeps
the course entries in step with the lesson progress. -/
theorem updateLessonProgressCalls_inStep : ∀ (calls : List ProgressCall) (page : Page)
    (v : Values), Holds page v → v.typed = true → v.inStep → sparingCalls page calls →
    ∃ (page' : Page) (v' : Values), updateLessonProgressCalls page calls = (.ok (), page') ∧
      Holds page' v' ∧ v'.typed = true ∧ v'.inStep ∧ v'.courses = v.courses
  | [], page, v, h, ht, hi, _ => ⟨page, v, rfl, h, ht, hi, rfl⟩
  | call :: rest, page, v, h, ht, hi, hcalls => by
    obtain ⟨hfirst, hrest⟩ := hcalls
    obtain ⟨courses, hcs0, _⟩ := typed_courses ht
    obtain ⟨cp, hcp0, _⟩ := typed_courseProgress ht
    obtain ⟨lp, hlp0, _⟩ := typed_lessonProgress ht
    have hspare : call.sparesOthers v.courses.items v.lessonProgress.props
        v.courseProgress.props := by
      rw [hcs0, hcp0, hlp0]
      exact hfirst courses lp cp (by rw [h.courses, hcs0]) (by rw [h.lessonProgress, hlp0])
        (by rw [h.courseProgress, hcp0])
    obtain ⟨page1, v1, hrun, hh, ht1, hi1, hcs⟩ :=
      updateLessonProgress_inStep h ht hi call hspare
    rw [hrun] at hrest
    obtain ⟨page', v', hrest', hh', ht', hi', hcs'⟩ :=
      updateLessonProgressCalls_inStep rest page1 v1 hh ht1 hi1 hrest
    refine ⟨page', v', ?_, hh', ht', hi', hcs'.trans hcs⟩
    simp only [updateLessonProgressCalls, hrun]
    exact hrest'

/-- A call on a page without course entries spares them all. -/
theorem sparesOthers_nil (call : ProgressCall) (courses : List JSValue)
    (lessonProgress : Props) : call.sparesOthers courses lessonProgress [] := by
  intro k course _ hentry _
  exact absurd rfl hentry

/-- A call with a truthy `completed` spares the other course entries when the only entry
is the one under its course id. -/
theorem sparesOthers_single (call : ProgressCall) (courses : List JSValue)
    (lessonProgress : Props) (entry : JSValue)
    (htruthy : (JSValue.fieldOr (.object call.progressUpdate) "completed").truthy = true) :
    call.sparesOthers courses lessonProgress [(call.courseId, entry)] := by
  intro k course _ hentry _
  refine Or.inr ⟨htruthy, ?_⟩
  by_contra hk
  apply hentry
  have hk' : ¬ call.courseId = k := fun h => hk h.symm
  simp [getOwn, hk']

/-- C26, amended: for every page that holds values with the shapes of the data model and an
empty record of course progress, and every row of calls of `updateLessonProgress` each of
which, on the page as it is when the call is made, spares the course entries that it does
not recompute (for every course with an entry that has the lesson, the call either leaves
the lesson completed or not completed as it was, or has a truthy `completed` in its updates
and names the id of that course), the calls all return normally, and afterwards, for every
course id under which `find` returns a course and `courseProgress` has an entry, the
entry's `completed` is `true` exactly when every lesson id of the course is completed in
`lessonProgress`, and, when the course has at least one lesson id, its `percentComplete`
is `(k / n) * 100` in double-precision arithmetic for `k` completed lessons out of `n`,
which differs from `100 * k / n` by at most the `2 ^ 51`-th part of it. -/
theorem progress_stays_in_step (page : Page) (v : Values) (calls : List ProgressCall)
    (h : Holds page v) (ht : v.typed = true) (hcp : v.courseProgress = .object [])
    (hcalls : sparingCalls page calls) :
    ∃ page', updateLessonProgressCalls page calls = (.ok (), page') ∧
      InStep page' (fun course => lessonIdsOf course ≠ []) PercentInStep ∧
      ∀ (lessonProgress : Props) (course : JSValue),
        |toDouble (toDouble ((completedCount lessonProgress (lessonIdsOf course) : ℚ) /
            ((lessonIdsOf course).length : ℚ)) * 100) -
          100 * ((completedCount lessonProgress (lessonIdsOf course) : ℚ) /
            ((lessonIdsOf course).length : ℚ))| ≤
          100 * ((completedCount lessonProgress (lessonIdsOf course) : ℚ) /
            ((lessonIdsOf course).length : ℚ)) / 2 ^ 51 := by
  have hi : v.inStep := by
    intro k course entry _ hentry
    rw [hcp] at hentry
    simp [JSValue.props, getOwn] at hentry
  obtain ⟨page', v', hrun, hh, ht', hi', hcs'⟩ :=
    updateLessonProgressCalls_inStep calls page v h ht hi hcalls
  obtain ⟨courses, hcs, _⟩ := typed_courses ht'
  obtain ⟨cp, hcp', _⟩ := typed_courseProgress ht'
  obtain ⟨lp, hlp', _⟩ := typed_lessonProgress ht'
  refine ⟨page', hrun, ⟨courses, lp, cp, by rw [hh.courses, hcs],
    by rw [hh.lessonProgress, hlp'], by rw [hh.courseProgress, hcp'], ?_⟩,
    fun _ _ => percent_near (by positivity)⟩
  intro k course entry hfind hentry
  have hfind' : findCourse k v'.courses.items = .ok (some course) := by
    rw [hcs]
    exact hfind
  have hentry' : getOwn v'.courseProgress.props k = some entry := by
    rw [hcp']
    exact hentry
  obtain ⟨e, he, h1, h2⟩ := hi' k course entry hfind' hentry'
  rw [hlp'] at h1 h2
  have hprops : (JSValue.object lp).props = lp := rfl
  rw [hprops] at h1 h2
  subst he
  constructor
  · unfold CompletedInStep
    simp only [JSValue.fieldOr, h1, Option.getD_some, JSValue.boolean.injEq, allCompleted,
      List.all_eq_true]
  · intro hne
    have hlen : (lessonIdsOf course).length ≠ 0 := by
      intro h0
      exact hne (List.length_eq_zero.mp h0)
    unfold PercentInStep
    simp only [JSValue.fieldOr, h2, Option.getD_some, percentComplete, if_neg hlen]

/-- Witness for C26: on the example page, a call with `completed: false` for lesson `10`,
which was not completed, and then the calls that complete the two lessons of course `c`
leave the course entry at 100 and completed. -/
theorem progress_stays_in_step_witness :
    (Holds (examplePage exampleCatalog) exampleValues ∧ exampleValues.typed = true ∧
      exampleValues.courseProgress = .object [] ∧
      sparingCalls (examplePage exampleCatalog)
        [exampleCall "c" "10" false, exampleCall "c" "10" true,
          exampleCall "c" "11" true]) ∧
    (∃ page', updateLessonProgressCalls (examplePage exampleCatalog)
        [exampleCall "c" "10" false, exampleCall "c" "10" true,
          exampleCall "c" "11" true] = (.ok (), page') ∧
      InStep page' (fun course => lessonIdsOf course ≠ []) PercentInStep ∧
      ∀ (lessonProgress : Props) (course : JSValue),
        |toDouble (toDouble ((completedCount lessonProgress (lessonIdsOf course) : ℚ) /
            ((lessonIdsOf course).length : ℚ)) * 100) -
          100 * ((completedCount lessonProgress (lessonIdsOf course) : ℚ) /
            ((lessonIdsOf course).length : ℚ))| ≤
          100 * ((completedCount lessonProgress (lessonIdsOf course) : ℚ) /
            ((lessonIdsOf course).length : ℚ)) / 2 ^ 51) ∧
    Store.getValue (updateLessonProgressCalls (examplePage exampleCatalog)
        [exampleCall "c" "10" false, exampleCall "c" "10" true,
          exampleCall "c" "11" true]).2.stateManager.progressStore
        "courseProgress" =
      .ok (.object [("c", .object [("percentComplete", .number 100),
        ("completed", .boolean true), ("lastAccessed", .string "2024-05-02T10:00:00.000Z")])]) :=
  have hsparing : sparingCalls (examplePage exampleCatalog)
      [exampleCall "c" "10" false, exampleCall "c" "10" true, exampleCall "c" "11" true] := by
    refine ⟨?_, ?_, ?_, trivial⟩
    · intro courses lp cp _ _ h3
      have e3 : Store.getValue (examplePage exampleCatalog).stateManager.progressStore
          "courseProgress" = .ok (.object []) := rfl
      rw [e3] at h3
      cases h3
      exact sparesOthers_nil _ _ _
    · intro courses lp cp _ _ h3
      have e3 : Store.getValue (StateManager.updateLessonProgress
          (examplePage exampleCatalog) (exampleCall "c" "10" false).clock
          (exampleCall "c" "10" false).courseId (exampleCall "c" "10" false).lessonId
          (.object (exampleCall "c" "10" false).progressUpdate)).2.stateManager.progressStore
          "courseProgress" = .ok (.object []) := rfl
      rw [e3] at h3
      cases h3
      exact sparesOthers_nil _ _ _
    · intro courses lp cp _ _ h3
      have e3 : Store.getValue (StateManager.updateLessonProgress
          (StateManager.updateLessonProgress
            (examplePage exampleCatalog) (exampleCall "c" "10" false).clock
            (exampleCall "c" "10" false).courseId (exampleCall "c" "10" false).lessonId
            (.object (exampleCall "c" "10" false).progressUpdate)).2
          (exampleCall "c" "10" true).clock
          (exampleCall "c" "10" true).courseId (exampleCall "c" "10" true).lessonId
          (.object (exampleCall "c" "10" true).progressUpdate)).2.stateManager.progressStore
          "courseProgress" =
          .ok (.object [("c", .object [("percentComplete", .number 50),
            ("completed", .boolean false),
            ("lastAccessed", .string "2024-05-02T10:00:00.000Z")])]) := by
        with_unfolding_all rfl
      rw [e3] at h3
      cases h3
      exact sparesOthers_single (exampleCall "c" "11" true) _ _ _ rfl
  ⟨⟨⟨rfl, rfl, rfl, rfl, rfl, rfl, rfl⟩, by decide, rfl, hsparing⟩,
    progress_stays_in_step (examplePage exampleCatalog) exampleValues
      [exampleCall "c" "10" false, exampleCall "c" "10" true, exampleCall "c" "11" true]
      ⟨rfl, rfl, rfl, rfl, rfl, rfl, rfl⟩ (by decide) rfl hsparing,
    by with_unfolding_all rfl⟩

/-- C26 as stated fails in four ways. A call with `completed: false` rewrites the lesson
entry and leaves the course entry alone: after completing both lessons of course `c` and
then un-completing lesson 10, the course entry still says `completed: true`. A call that
passes a lesson of another course leaves that other course's entry stale: with courses
`c1` (lesson `a`) and `c2` (lesson `b`), after the calls `("c2", "a")` and `("c1", "b")` the
entry of `c2` says `completed: false` while its only lesson is completed. For a course
without lessons the stored `percentComplete` is `NaN`, which is no number. And on a course
of twenty lessons, after the calls that complete eleven of them the stored percentage is
`55 + 2 ^ (-47)`, not `100 * 11 / 20`. -/
theorem progress_diverges_counterexample :
    ¬ InStep (updateLessonProgressCalls (examplePage exampleCatalog)
        [exampleCall "c" "10" true, exampleCall "c" "11" true,
          exampleCall "c" "10" false]).2 (fun _ => True) PercentExact ∧
    ¬ InStep (updateLessonProgressCalls (examplePage twoCourses)
        [exampleCall "c2" "a" true, exampleCall "c1" "b" true]).2 (fun _ => True)
        PercentExact ∧
    ¬ InStep (updateLessonProgressCalls (examplePage emptyCourseCatalog)
        [exampleCall "c" "x" true]).2 (fun _ => True) PercentExact ∧
    ¬ InStep (updateLessonProgressCalls (examplePage twentyLessons)
        [exampleCall "c" "1" true, exampleCall "c" "2" true, exampleCall "c" "3" true,
          exampleCall "c" "4" true, exampleCall "c" "5" true, exampleCall "c" "6" true,
          exampleCall "c" "7" true, exampleCall "c" "8" true, exampleCall "c" "9" true,
          exampleCall "c" "10" true, exampleCall "c" "11" true]).2 (fun _ => True)
        PercentExact := by
  refine ⟨?_, ?_, ?_, ?_⟩
  · rintro ⟨courses, lp, cp, h1, h2, h3, hall⟩
    have e1 : Store.getValue (updateLessonProgressCalls (examplePage exampleCatalog)
        [exampleCall "c" "10" true, exampleCall "c" "11" true,
          exampleCall "c" "10" false]).2.stateManager.courseStore "courses" =
        .ok exampleCatalog := rfl
    have e2 : Store.getValue (updateLessonProgressCalls (examplePage exampleCatalog)
        [exampleCall "c" "10" true, exampleCall "c" "11" true,
          exampleCall "c" "10" false]).2.stateManager.progressStore "lessonProgress" =
        .ok (.object [("10", .object [("completed", .boolean false)]),
          ("11", .object [("completed", .boolean true)])]) := rfl
    have e3 : Store.getValue (updateLessonProgressCalls (examplePage exampleCatalog)
        [exampleCall "c" "10" true, exampleCall "c" "11" true,
          exampleCall "c" "10" false]).2.stateManager.progressStore "courseProgress" =
        .ok (.object [("c", .object [("percentComplete", .number 100),
          ("completed", .boolean true),
          ("lastAccessed", .string "2024-05-02T10:00:00.000Z")])]) := by
      with_unfolding_all rfl
    rw [e1] at h1
    rw [e2] at h2
    rw [e3] at h3
    cases h1
    cases h2
    cases h3
    have := ((hall "c" _ _ rfl rfl).1.mp rfl) (.number 10) (by simp [lessonIdsOf, JSValue.fieldOr, getOwn])
    revert this
    decide
  · rintro ⟨courses, lp, cp, h1, h2, h3, hall⟩
    have e1 : Store.getValue (updateLessonProgressCalls (examplePage twoCourses)
        [exampleCall "c2" "a" true, exampleCall "c1" "b" true]).2.stateManager.courseStore
        "courses" = .ok twoCourses := rfl
    have e2 : Store.getValue (updateLessonProgressCalls (examplePage twoCourses)
        [exampleCall "c2" "a" true, exampleCall "c1" "b" true]).2.stateManager.progressStore
        "lessonProgress" =
        .ok (.object [("a", .object [("completed", .boolean true)]),
          ("b", .object [("completed", .boolean true)])]) := rfl
    have e3 : Store.getValue (updateLessonProgressCalls (examplePage twoCourses)
        [exampleCall "c2" "a" true, exampleCall "c1" "b" true]).2.stateManager.progressStore
        "courseProgress" =
        .ok (.object [("c2", .object [("percentComplete", .number 0),
            ("completed", .boolean false),
            ("lastAccessed", .string "2024-05-02T10:00:00.000Z")]),
          ("c1", .object [("percentComplete", .number 100),
            ("completed", .boolean true),
            ("lastAccessed", .string "2024-05-02T10:00:00.000Z")])]) := by
      with_unfolding_all rfl
    rw [e1] at h1
    rw [e2] at h2
    rw [e3] at h3
    cases h1
    cases h2
    cases h3
    have hstale := (hall "c2" _ _ rfl rfl).1.mpr (by decide)
    have hval : JSValue.fieldOr (.object [("percentComplete", .number 0),
        ("completed", .boolean false),
        ("lastAccessed", .string "2024-05-02T10:00:00.000Z")]) "completed" =
        .boolean false := rfl
    rw [hval] at hstale
    injection hstale with hstale
    cases hstale
  · rintro ⟨courses, lp, cp, h1, h2, h3, hall⟩
    have e1 : Store.getValue (updateLessonProgressCalls (examplePage emptyCourseCatalog)
        [exampleCall "c" "x" true]).2.stateManager.courseStore "courses" =
        .ok emptyCourseCatalog := rfl
    have e2 : Store.getValue (updateLessonProgressCalls (examplePage emptyCourseCatalog)
        [exampleCall "c" "x" true]).2.stateManager.progressStore "lessonProgress" =
        .ok (.object [("x", .object [("completed", .boolean true)])]) := rfl
    have e3 : Store.getValue (updateLessonProgressCalls (examplePage emptyCourseCatalog)
        [exampleCall "c" "x" true]).2.stateManager.progressStore "courseProgress" =
        .ok (.object [("c", .object [("percentComplete", .nan),
          ("completed", .boolean true),
          ("lastAccessed", .string "2024-05-02T10:00:00.000Z")])]) := rfl
    rw [e1] at h1
    rw [e2] at h2
    rw [e3] at h3
    cases h1
    cases h2
    cases h3
    obtain ⟨q, hq, _⟩ := (hall "c" _ _ rfl rfl).2 trivial
    have hnan : JSValue.fieldOr (.object [("percentComplete", .nan),
        ("completed", .boolean true),
        ("lastAccessed", .string "2024-05-02T10:00:00.000Z")]) "percentComplete" = .nan := rfl
    rw [hnan] at hq
    unfold JSValue.ofRat at hq
    split_ifs at hq
  · rintro ⟨courses, lp, cp, h1, h2, h3, hall⟩
    have e1 : Store.getValue (updateLessonProgressCalls (examplePage twentyLessons)
        [exampleCall "c" "1" true, exampleCall "c" "2" true, exampleCall "c" "3" true,
          exampleCall "c" "4" true, exampleCall "c" "5" true, exampleCall "c" "6" true,
          exampleCall "c" "7" true, exampleCall "c" "8" true, exampleCall "c" "9" true,
          exampleCall "c" "10" true, exampleCall "c" "11" true]).2.stateManager.courseStore
        "courses" = .ok twentyLessons := rfl
    have e2 : Store.getValue (updateLessonProgressCalls (examplePage twentyLessons)
        [exampleCall "c" "1" true, exampleCall "c" "2" true, exampleCall "c" "3" true,
          exampleCall "c" "4" true, exampleCall "c" "5" true, exampleCall "c" "6" true,
          exampleCall "c" "7" true, exampleCall "c" "8" true, exampleCall "c" "9" true,
          exampleCall "c" "10" true, exampleCall "c" "11" true]).2.stateManager.progressStore
        "lessonProgress" =
        .ok (.object [("1", .object [("completed", .boolean true)]),
          ("2", .object [("completed", .boolean true)]),
          ("3", .object [("completed", .boolean true)]),
          ("4", .object [("completed", .boolean true)]),
          ("5", .object [("completed", .boolean true)]),
          ("6", .object [("completed", .boolean true)]),
          ("7", .object [("completed", .boolean true)]),
          ("8", .object [("completed", .boolean true)]),
          ("9", .object [("completed", .boolean true)]),
          ("10", .object [("completed", .boolean true)]),
          ("11", .object [("completed", .boolean true)])]) := by
      with_unfolding_all rfl
    have e3 : Store.getValue (updateLessonProgressCalls (examplePage twentyLessons)
        [exampleCall "c" "1" true, exampleCall "c" "2" true, exampleCall "c" "3" true,
          exampleCall "c" "4" true, exampleCall "c" "5" true, exampleCall "c" "6" true,
          exampleCall "c" "7" true, exampleCall "c" "8" true, exampleCall "c" "9" true,
          exampleCall "c" "10" true, exampleCall "c" "11" true]).2.stateManager.progressStore
        "courseProgress" =
        .ok (.object [("c", .object [
          ("percentComplete", .fraction (7740561859543041 / 140737488355328)),
          ("completed", .boolean false),
          ("lastAccessed", .string "2024-05-02T10:00:00.000Z")])]) := by
      with_unfolding_all rfl
    rw [e1] at h1
    rw [e2] at h2
    rw [e3] at h3
    cases h1
    cases h2
    cases h3
    obtain ⟨q, hq, hmul⟩ := (hall "c" _ _ rfl rfl).2 trivial
    have hval : JSValue.fieldOr (.object [
        ("percentComplete", .fraction (7740561859543041 / 140737488355328)),
        ("completed", .boolean false),
        ("lastAccessed", .string "2024-05-02T10:00:00.000Z")]) "percentComplete" =
        .fraction (7740561859543041 / 140737488355328) := rfl
    rw [hval] at hq
    have hqv : q = 7740561859543041 / 140737488355328 := by
      unfold JSValue.ofRat at hq
      split_ifs at hq
      injection hq with hq
      exact hq.symm
    have hlen : (lessonIdsOf (.object [("id", .string "c"),
        ("lessons", .array [.number 1, .number 2, .number 3, .number 4, .number 5, .number 6,
          .number 7, .number 8, .number 9, .number 10, .number 11, .number 12, .number 13,
          .number 14, .number 15, .number 16, .number 17, .number 18, .number 19,
          .number 20])])).length = 20 := rfl
    have hcount : (completedCount [("1", .object [("completed", .boolean true)]),
          ("2", .object [("completed", .boolean true)]),
          ("3", .object [("completed", .boolean true)]),
          ("4", .object [("completed", .boolean true)]),
          ("5", .object [("completed", .boolean true)]),
          ("6", .object [("completed", .boolean true)]),
          ("7", .object [("completed", .boolean true)]),
          ("8", .object [("completed", .boolean true)]),
          ("9", .object [("completed", .boolean true)]),
          ("10", .object [("completed", .boolean true)]),
          ("11", .object [("completed", .boolean true)])]
        (lessonIdsOf (.object [("id", .string "c"),
        ("lessons", .array [.number 1, .number 2, .number 3, .number 4, .number 5, .number 6,
          .number 7, .number 8, .number 9, .number 10, .number 11, .number 12, .number 13,
          .number 14, .number 15, .number 16, .number 17, .number 18, .number 19,
          .number 20])]))) = 11 := by
      with_unfolding_all rfl
    rw [hlen, hcount, hqv] at hmul
    norm_num at hmul

/-! ## Chained derived states -/

theorem Quiet.unchanged (a : World) (d : Nat) : Quiet a a d :=
  ⟨⟨[], by simp⟩, rfl⟩

theorem Quiet.chain {a b c : World} {d : Nat} (h1 : Quiet a b d) (h2 : Quiet b c d) :
    Quiet a c d := by
  obtain ⟨⟨e1, hc1⟩, hv1⟩ := h1
  obtain ⟨⟨e2, hc2⟩, hv2⟩ := h2
  exact ⟨⟨e1 ++ e2, by rw [hc2, hc1, List.append_assoc]⟩, hv2.trans hv1⟩

theorem Announced.thenQuiet {a b c : World} {d : Nat} (h1 : Announced a b d)
    (hs : SameWiring b c) (h2 : Quiet b c d) : Announced a c d := by
  obtain ⟨e1, hc1, hall⟩ := h1
  obtain ⟨⟨e2, hc2⟩, hv2⟩ := h2
  refine ⟨e1 ++ e2, by rw [hc2, hc1, List.append_assoc], ?_⟩
  intro fn hfn
  rw [hs.observers] at hfn
  obtain ⟨c, hc, h3, h4, h5⟩ := hall fn hfn
  exact ⟨c, List.mem_append_left _ hc, h3, h4, by rw [hv2]; exact h5⟩

theorem Announced.after {a b c : World} {d : Nat} (h1 : ∃ extra, b.calls = a.calls ++ extra)
    (h2 : Announced b c d) : Announced a c d := by
  obtain ⟨e1, hc1⟩ := h1
  obtain ⟨e2, hc2, hall⟩ := h2
  refine ⟨e1 ++ e2, by rw [hc2, hc1, List.append_assoc], ?_⟩
  intro fn hfn
  obtain ⟨c, hc, h3⟩ := hall fn hfn
  exact ⟨c, List.mem_append_right _ hc, h3⟩

theorem calls_grow {a b : World} {d : Nat} (h : Quiet a b d ∨ Announced a b d) :
    ∃ extra, b.calls = a.calls ++ extra := by
  rcases h with h | ⟨e, he, _⟩
  · exact h.1
  · exact ⟨e, he⟩

theorem announce_seq {a b c : World} {d : Nat} (h1 : Quiet a b d ∨ Announced a b d)
    (hs : SameWiring b c) (h2 : Quiet b c d ∨ Announced b c d) :
    Quiet a c d ∨ Announced a c d := by
  rcases h2 with h2 | h2
  · rcases h1 with h1 | h1
    · exact Or.inl (h1.chain h2)
    · exact Or.inr (h1.thenQuiet hs h2)
  · exact Or.inr (Announced.after (calls_grow h1) h2)

theorem announce_first {a b c : World} {d : Nat} (h1 : Announced a b d)
    (hs : SameWiring b c) (h2 : Quiet b c d ∨ Announced b c d) : Announced a c d := by
  rcases h2 with h2 | h2
  · exact h1.thenQuiet hs h2
  · exact Announced.after ⟨h1.choose, h1.choose_spec.1⟩ h2

/-- The first link of a chain of derived states. -/
theorem dependsOn_first {w : World} {d t : Nat} (h : DependsOn w d t) :
    ∃ t', Feeds w t t' ∧ (t' = d ∨ DependsOn w d t') := by
  unfold DependsOn at h ⊢
  induction h with
  | single h1 => exact ⟨_, h1, Or.inl rfl⟩
  | tail _ h2 ih =>
    obtain ⟨t', hf, hrest⟩ := ih
    refine ⟨t', hf, Or.inr ?_⟩
    rcases hrest with rfl | hrest
    · exact Relation.TransGen.single h2
    · exact Relation.TransGen.tail hrest h2

/-- An assignment to the Observable `t` during a notification: it tells the subscribers of
`d` when `t` is `d` or `d` depends on `t`, given that nested notifications do. -/
theorem assign_announces {w : World} (hw : w.wellFormed = true) (d fuel : Nat)
    (ih : ∀ wb t n o, SameWiring w wb →
      (Observable._notifyObservers fuel wb t n o).1 = .ok () →
      (Quiet wb (Observable._notifyObservers fuel wb t n o).2 d ∨
        Announced wb (Observable._notifyObservers fuel wb t n o).2 d) ∧
      (DependsOn w d t → Announced wb (Observable._notifyObservers fuel wb t n o).2 d))
    {wb : World} (hwb : SameWiring w wb) (t : Nat) (val : JSValue)
    (hok : (Observable.assignValue (Observable._notifyObservers fuel) wb t val).1 = .ok ()) :
    SameWiring wb (Observable.assignValue (Observable._notifyObservers fuel) wb t val).2 ∧
      (Quiet wb (Observable.assignValue (Observable._notifyObservers fuel) wb t val).2 d ∨
        Announced wb (Observable.assignValue (Observable._notifyObservers fuel) wb t val).2 d) ∧
      ((t = d ∨ DependsOn w d t) →
        Announced wb (Observable.assignValue (Observable._notifyObservers fuel) wb t val).2
          d) := by
  unfold Observable.assignValue at hok ⊢
  cases ht : wb.heap[t]? with
  | none => simp [ht] at hok
  | some o =>
    simp only [ht] at hok ⊢
    have hsw := sameWiring_store_value val ht
    have hws := hwb.andThen hsw
    obtain ⟨hweak, hstrong⟩ := ih _ t val o._value hws hok
    have hsame := notifyObservers_sameWiring fuel (wb.store t { o with _value := val }) t val
      o._value
    have hcalls : (wb.store t { o with _value := val }).calls = wb.calls := rfl
    have hpre : ∃ extra, (wb.store t { o with _value := val }).calls = wb.calls ++ extra :=
      ⟨[], by simp [hcalls]⟩
    have hself : Announced (wb.store t { o with _value := val })
        (Observable._notifyObservers fuel (wb.store t { o with _value := val }) t val
          o._value).2 t := by
      have hno : ¬ DependsOn (wb.store t { o with _value := val }) t t :=
        not_dependsOn_self (hws.wellFormed hw) t
      have hcf := notifyObservers_callsFrom fuel _ t val o._value hno hok
      obtain ⟨_, hframe, extra, hextra, _⟩ :=
        notifyObservers_within fuel (wb.store t { o with _value := val }) t val o._value
      have hval : valueAt (Observable._notifyObservers fuel
          (wb.store t { o with _value := val }) t val o._value).2 t = some val := by
        unfold valueAt
        rw [hframe t hno, store_get_self (lt_of_get ht)]
        rfl
      refine ⟨extra, hextra, ?_⟩
      intro fn hfn
      rw [hsame.observers] at hfn
      rw [hextra, callsFrom_append] at hcf
      have hcf' := List.append_cancel_left hcf
      have hmem : ({ source := t, callback := fn, newValue := val, oldValue := o._value } :
          Call) ∈ callsFrom t extra := by
        rw [hcf']
        unfold callbackCalls
        rw [List.mem_filterMap]
        exact ⟨.callback fn, hfn, rfl⟩
      exact ⟨_, (List.mem_filter.mp hmem).1, rfl, rfl, hval⟩
    refine ⟨hsw.andThen hsame, ?_, ?_⟩
    · by_cases htd : t = d
      · subst htd
        exact Or.inr (Announced.after hpre hself)
      · have hq : Quiet wb (wb.store t { o with _value := val }) d :=
          ⟨hpre, valueAt_store_other (fun h => htd h.symm)⟩
        exact announce_seq (Or.inl hq) hsame hweak
    · rintro (rfl | hdep)
      · exact Announced.after hpre hself
      · exact Announced.after hpre (hstrong hdep)

/-- One observer of `r` is called during a notification. -/
theorem invoke_announces {w : World} (hw : w.wellFormed = true) (d fuel : Nat)
    (ih : ∀ wb t n o, SameWiring w wb →
      (Observable._notifyObservers fuel wb t n o).1 = .ok () →
      (Quiet wb (Observable._notifyObservers fuel wb t n o).2 d ∨
        Announced wb (Observable._notifyObservers fuel wb t n o).2 d) ∧
      (DependsOn w d t → Announced wb (Observable._notifyObservers fuel wb t n o).2 d))
    {r : Nat} {w1 : World} (hw1 : SameWiring w w1) (observer : Observer)
    (newValue oldValue : JSValue)
    (hok : (Observer.invoke (Observable.assignValue (Observable._notifyObservers fuel))
      r newValue oldValue w1 observer).1 = .ok ()) :
    SameWiring w1 (Observer.invoke (Observable.assignValue (Observable._notifyObservers fuel))
        r newValue oldValue w1 observer).2 ∧
      (Quiet w1 (Observer.invoke (Observable.assignValue (Observable._notifyObservers fuel))
          r newValue oldValue w1 observer).2 d ∨
        Announced w1 (Observer.invoke
          (Observable.assignValue (Observable._notifyObservers fuel))
          r newValue oldValue w1 observer).2 d) ∧
      ((∃ t, observer.target = some t ∧ (t = d ∨ DependsOn w d t)) →
        Announced w1 (Observer.invoke
          (Observable.assignValue (Observable._notifyObservers fuel))
          r newValue oldValue w1 observer).2 d) := by
  cases observer with
  | callback id =>
    refine ⟨sameWiring_call w1 _, Or.inl ⟨⟨_, rfl⟩, rfl⟩, ?_⟩
    rintro ⟨t, ht, _⟩
    simp [Observer.target] at ht
  | recompute id deps f t =>
    simp only [Observer.invoke] at hok ⊢
    cases hargs : Store.getValues w1 deps with
    | error e => simp [hargs] at hok
    | ok args =>
      simp only [hargs] at hok ⊢
      obtain ⟨h1, h2, h3⟩ := assign_announces hw d fuel ih hw1 t (f args) hok
      refine ⟨h1, h2, ?_⟩
      rintro ⟨t', ht', hreach⟩
      simp only [Observer.target, Option.some.injEq] at ht'
      subst ht'
      exact h3 hreach

/-- The loop over the observers of `r` during a notification. -/
theorem forEachObserver_announces {w : World} (hw : w.wellFormed = true) (d fuel : Nat)
    (ih : ∀ wb t n o, SameWiring w wb →
      (Observable._notifyObservers fuel wb t n o).1 = .ok () →
      (Quiet wb (Observable._notifyObservers fuel wb t n o).2 d ∨
        Announced wb (Observable._notifyObservers fuel wb t n o).2 d) ∧
      (DependsOn w d t → Announced wb (Observable._notifyObservers fuel wb t n o).2 d))
    (r : Nat) (newValue oldValue : JSValue) :
    ∀ (l : List Observer) (w1 : World), SameWiring w w1 →
      (forEachObserver (fun w2 observer =>
        Observer.invoke (Observable.assignValue (Observable._notifyObservers fuel))
          r newValue oldValue w2 observer) l w1).1 = .ok () →
      SameWiring w1 (forEachObserver (fun w2 observer =>
        Observer.invoke (Observable.assignValue (Observable._notifyObservers fuel))
          r newValue oldValue w2 observer) l w1).2 ∧
      (Quiet w1 (forEachObserver (fun w2 observer =>
          Observer.invoke (Observable.assignValue (Observable._notifyObservers fuel))
            r newValue oldValue w2 observer) l w1).2 d ∨
        Announced w1 (forEachObserver (fun w2 observer =>
          Observer.invoke (Observable.assignValue (Observable._notifyObservers fuel))
            r newValue oldValue w2 observer) l w1).2 d) ∧
      ((∃ observer ∈ l, ∃ t, observer.target = some t ∧ (t = d ∨ DependsOn w d t)) →
        Announced w1 (forEachObserver (fun w2 observer =>
          Observer.invoke (Observable.assignValue (Observable._notifyObservers fuel))
            r newValue oldValue w2 observer) l w1).2 d)
  | [], w1, _, _ =>
    ⟨SameWiring.stay w1, Or.inl (Quiet.unchanged w1 d), fun h => by simp at h⟩
  | observer :: rest, w1, hw1, hok => by
    unfold forEachObserver at hok ⊢
    rcases hs : Observer.invoke (Observable.assignValue (Observable._notifyObservers fuel))
        r newValue oldValue w1 observer with ⟨res, wa⟩
    simp only [hs] at hok ⊢
    cases res with
    | error e => simp at hok
    | ok u =>
      simp only at hok ⊢
      have hstep := invoke_announces hw d fuel ih hw1 observer newValue oldValue
        (r := r) (by rw [hs])
      rw [hs] at hstep
      obtain ⟨hsa, hweak, hstrong⟩ := hstep
      obtain ⟨hsr, hweakr, hstrongr⟩ := forEachObserver_announces hw d fuel ih r newValue
        oldValue rest wa (hw1.andThen hsa) hok
      refine ⟨hsa.andThen hsr, announce_seq hweak hsr hweakr, ?_⟩
      rintro ⟨ob, hob, hreach⟩
      rcases List.mem_cons.mp hob with heq | hin
      · subst heq
        exact announce_first (hstrong hreach) hsr hweakr
      · exact Announced.after (calls_grow hweak) (hstrongr ⟨ob, hin, hreach⟩)

/-- A notification that returns normally in a well-formed world either leaves the
Observable `d` alone or assigns it and tells its subscribers the value it then holds; and
it does the latter when `d` depends on the Observable where the notification starts. -/
theorem notifyObservers_announces {w : World} (hw : w.wellFormed = true) (d : Nat) :
    ∀ (fuel : Nat) (wb : World) (t : Nat) (n o : JSValue), SameWiring w wb →
      (Observable._notifyObservers fuel wb t n o).1 = .ok () →
      (Quiet wb (Observable._notifyObservers fuel wb t n o).2 d ∨
        Announced wb (Observable._notifyObservers fuel wb t n o).2 d) ∧
      (DependsOn w d t → Announced wb (Observable._notifyObservers fuel wb t n o).2 d)
  | 0, wb, t, n, o, _, hok => by simp [Observable._notifyObservers] at hok
  | fuel + 1, wb, t, n, o, hwb, hok => by
    rw [notifyObservers_succ] at hok ⊢
    cases ht : wb.heap[t]? with
    | none => simp [ht] at hok
    | some ob =>
      simp only [ht] at hok ⊢
      have hobs : w.observers t = ob._observers := by
        rw [← hwb.observers, observers_of_get ht]
      obtain ⟨_, h2, h3⟩ := forEachObserver_announces hw d fuel
        (notifyObservers_announces hw d fuel) t n o ob._observers wb hwb hok
      refine ⟨h2, fun hdep => ?_⟩
      obtain ⟨t', ⟨observer, hmem, htarget⟩, hreach⟩ := dependsOn_first hdep
      exact h3 ⟨observer, by rw [← hobs]; exact hmem, t', htarget, hreach⟩

/-- Functions subscribed to a key sit on the Observable the key is bound to, also after
further subscriptions. -/
theorem subscribed_observers (key : String) (d : Nat) :
    ∀ (subs : List StoreCall) (w : World),
      (∀ c ∈ subs, ∃ k fn, c = StoreCall.subscribe k fn) →
      w.lookup key = some (.own d) → d < w.heap.length →
      (∀ ob, ob ∈ w.observers d → ob ∈ (runCalls w subs).observers d) ∧
        ∀ fn, StoreCall.subscribe key fn ∈ subs →
          Observer.callback fn ∈ (runCalls w subs).observers d
  | [], w, _, _, _ => ⟨fun _ h => h, fun fn h => by simp at h⟩
  | c :: rest, w, hsubs, hl, hlt => by
    obtain ⟨k, fn, rfl⟩ := hsubs _ (List.mem_cons_self _ _)
    have hkeep : (StoreCall.run w (.subscribe k fn)).lookup key = some (.own d) ∧
        d < (StoreCall.run w (.subscribe k fn)).heap.length ∧
        (∀ ob, ob ∈ w.observers d → ob ∈ (StoreCall.run w (.subscribe k fn)).observers d) := by
      simp only [StoreCall.run]
      rcases store_subscribe_cases w k fn with h | ⟨r, o, hr, h⟩
      · rw [h]
        exact ⟨hl, hlt, fun _ h => h⟩
      · rw [h]
        refine ⟨hl, by simpa [World.store] using hlt, ?_⟩
        intro ob hob
        rw [observers_store (lt_of_get hr)]
        by_cases hdr : d = r
        · subst hdr
          rw [observers_of_get hr] at hob
          simp [hob]
        · simpa [hdr] using hob
    obtain ⟨h1, h2, h3⟩ := hkeep
    obtain ⟨ih1, ih2⟩ := subscribed_observers key d rest _
      (fun c hc => hsubs c (List.mem_cons_of_mem _ hc)) h1 h2
    have hrun : runCalls w (StoreCall.subscribe k fn :: rest) =
        runCalls (StoreCall.run w (.subscribe k fn)) rest := rfl
    rw [hrun]
    refine ⟨fun ob hob => ih1 ob (h3 ob hob), ?_⟩
    intro fn' hfn'
    rcases List.mem_cons.mp hfn' with heq | hin
    · injection heq with hk hf
      subst hk hf
      apply ih1
      obtain ⟨o, hr⟩ := get_of_lt hlt
      simp only [StoreCall.run, store_subscribe_own (.callback fn') hl hr]
      rw [observers_store hlt]
      simp
    · exact ih2 fn' hin

/-- C28: for every well-formed store with a registered key `a`, keys `x` and `y` distinct
from `a` and from each other, compute functions `f` and `g`, and functions subscribed
afterwards to any keys, `createDerivedState(x, [a], f)` and then
`createDerivedState(y, [x], g)` return normally, and `setState(a, v)` returns normally
with `a` holding `v`, `x` holding `f(v)` and `y` holding `g(f(v))`; and during that call
every function subscribed to `y` was called by the Observable of `y` with the new value
`g(f(v))`. -/
theorem chained_derived_states (w : World) (a x y : String)
    (f g : List JSValue → JSValue) (subs : List StoreCall) (v : JSValue)
    (hw : w.wellFormed = true) (ha : w.registered [a] = true)
    (hxa : x ≠ a) (hya : y ≠ a) (hyx : y ≠ x)
    (hsubs : ∀ c ∈ subs, ∃ k fn, c = StoreCall.subscribe k fn) :
    (Store.createDerivedState w x [a] f).1 = .ok w.heap.length ∧
    (Store.createDerivedState (Store.createDerivedState w x [a] f).2 y [x] g).1 =
      .ok (w.heap.length + 1) ∧
    (Store.setState (runCalls
      (Store.createDerivedState (Store.createDerivedState w x [a] f).2 y [x] g).2 subs)
      a v).1 = .ok () ∧
    Store.getValue (Store.setState (runCalls
      (Store.createDerivedState (Store.createDerivedState w x [a] f).2 y [x] g).2 subs)
      a v).2 a = .ok v ∧
    Store.getValue (Store.setState (runCalls
      (Store.createDerivedState (Store.createDerivedState w x [a] f).2 y [x] g).2 subs)
      a v).2 x = .ok (f [v]) ∧
    Store.getValue (Store.setState (runCalls
      (Store.createDerivedState (Store.createDerivedState w x [a] f).2 y [x] g).2 subs)
      a v).2 y = .ok (g [f [v]]) ∧
    ∃ extra, (Store.setState (runCalls
        (Store.createDerivedState (Store.createDerivedState w x [a] f).2 y [x] g).2 subs)
        a v).2.calls =
      (runCalls (Store.createDerivedState (Store.createDerivedState w x [a] f).2 y [x] g).2
        subs).calls ++ extra ∧
      ∀ fn, StoreCall.subscribe y fn ∈ subs →
        ∃ c ∈ extra, c.source = w.heap.length + 1 ∧ c.callback = fn ∧
          c.newValue = g [f [v]] := by
  -- the derived state `x`
  obtain ⟨args1, unsubs1, hargs1, hok1, hcr1⟩ := createDerivedState_created x f hw ha
  obtain ⟨hdx, hax, hcx⟩ := hcr1.derived hw ha (by simpa using hxa) hargs1
  have hreg1 : (Store.createDerivedState w x [a] f).2.registered [x] = true := by
    simp [World.registered, hcr1.lookup_key]
  have hlen1 : (Store.createDerivedState w x [a] f).2.heap.length = w.heap.length + 1 :=
    hcr1.length
  -- the derived state `y`
  obtain ⟨args2, unsubs2, hargs2, hok2, hcr2⟩ := createDerivedState_created y g hdx.wf hreg1
  obtain ⟨hdy, hay, hcy⟩ := hcr2.derived hdx.wf hreg1 (by simpa using hyx) hargs2
  rw [hlen1] at hok2 hdy hay hcy
  have hxy : x ≠ y := fun h => hyx h.symm
  have hay' : a ≠ y := fun h => hya h.symm
  have hdx2 : DerivedAt
      (Store.createDerivedState (Store.createDerivedState w x [a] f).2 y [x] g).2
      x w.heap.length [a] f :=
    { wf := hdy.wf
      bound := by rw [hcr2.lookup_ne hxy]; exact hdx.bound
      deps := fun dep hd => by
        obtain ⟨r, hr, hne⟩ := hdx.deps dep hd
        simp only [List.mem_singleton] at hd
        subst hd
        exact ⟨r, by rw [hcr2.lookup_ne hay']; exact hr, hne⟩
      only := fun r ob hob htarget => by
        rcases hcr2.added r ob hob with h | ⟨⟨id, he, _, _⟩, _⟩
        · exact hdx.only r ob h htarget
        · subst he
          simp only [Observer.target, Option.some.injEq] at htarget
          omega }
  have hax2 : Attached
      (Store.createDerivedState (Store.createDerivedState w x [a] f).2 y [x] g).2
      w.heap.length [a] f := by
    intro dep hd r hl
    simp only [List.mem_singleton] at hd
    subst hd
    rw [hcr2.lookup_ne hay'] at hl
    obtain ⟨id, hid⟩ := hax dep (List.mem_singleton.mpr rfl) r hl
    exact ⟨id, hcr2.old r _ hid⟩
  have hcx2 : Consistent
      (Store.createDerivedState (Store.createDerivedState w x [a] f).2 y [x] g).2
      w.heap.length [a] f := by
    obtain ⟨args, hargs, hval⟩ := hcx
    refine ⟨args, ?_, ?_⟩
    · rw [getValues_eq_of_lookup hcr2.inherited [a]
        (fun dep hd => by
          simp only [List.mem_singleton] at hd
          subst hd
          exact hcr2.lookup_ne hay')
        (fun dep hd r hl => hcr2.values r (lookup_own_lt hdx.wf hl))]
      exact hargs
    · rw [hcr2.values _ (by omega)]
      exact hval
  -- the subscriptions
  have hon : ∀ (deps : List String), ∀ c ∈ subs, c.onDependencies deps := by
    intro deps c hc
    obtain ⟨k, fn, rfl⟩ := hsubs c hc
    trivial
  obtain ⟨hdx3, hax3, hcx3⟩ := runCalls_keeps_consistent subs _ hdx2 hax2 hcx2 (hon [a])
  obtain ⟨hdy3, hay3, hcy3⟩ := runCalls_keeps_consistent subs _ hdy hay hcy (hon [x])
  have hsubscribed := (subscribed_observers y (w.heap.length + 1) subs _ hsubs hdy.bound
    (lookup_own_lt hdy.wf hdy.bound)).2
  generalize runCalls
    (Store.createDerivedState (Store.createDerivedState w x [a] f).2 y [x] g).2 subs = w3
    at hdx3 hax3 hcx3 hdy3 hay3 hcy3 hsubscribed ⊢
  -- the write
  obtain ⟨ra, hla, hne⟩ := hdx3.deps a (List.mem_singleton.mpr rfl)
  obtain ⟨o, hr⟩ := get_of_lt (lookup_own_lt hdx3.wf hla)
  have hfeed1 : Feeds w3 ra w.heap.length := by
    obtain ⟨id, hid⟩ := hax3 a (List.mem_singleton.mpr rfl) ra hla
    exact ⟨_, hid, rfl⟩
  have hfeed2 : Feeds w3 w.heap.length (w.heap.length + 1) := by
    obtain ⟨id, hid⟩ := hay3 x (List.mem_singleton.mpr rfl) _ hdx3.bound
    exact ⟨_, hid, rfl⟩
  have hdep : DependsOn w3 (w.heap.length + 1) ra :=
    Relation.TransGen.tail (Relation.TransGen.single hfeed1) hfeed2
  have hlt := dependsOn_lt hdx3.wf hdep
  have hset : Store.setState w3 a v = Observable._notifyObservers w3.heap.length
      (w3.store ra { o with _value := v }) ra v o._value := by
    rw [setState_own v hla]
    simp [Observable.setValue, Observable.assignValue, hr]
  obtain ⟨hok, hsame, hheap, _, _, _⟩ := store_notify hdx3.wf hr v o._value
  have hsw := sameWiring_store_value v hr
  have hinner := notifyObservers_sameWiring w3.heap.length
    (w3.store ra { o with _value := v }) ra v o._value
  obtain ⟨_, _, hcxr⟩ := run_keeps_consistent hdx3 hax3 hcx3 (.setState a v)
    (List.mem_singleton.mpr rfl)
  simp only [StoreCall.run] at hcxr
  obtain ⟨_, hweak, _⟩ := notifyObservers_consistent hdy3 hay3 w3.heap.length
    (w3.store ra { o with _value := v }) ra v o._value hsw hok
  obtain ⟨extra, hextra, hcalled⟩ := (notifyObservers_announces hdx3.wf (w.heap.length + 1)
    w3.heap.length (w3.store ra { o with _value := v }) ra v o._value hsw hok).2 hdep
  rw [← hset] at hok hsame hheap hweak hextra hcalled hinner
  generalize Store.setState w3 a v = res at hok hsame hheap hweak hextra hcalled hcxr hinner ⊢
  have hva : Store.getValue res.2 a = .ok v := by
    rw [getValue_own (by rw [hsame.lookup]; exact hla), value_eq_ok_iff]
    simp [valueAt, hheap]
  have hargsa : Store.getValues res.2 [a] = .ok [v] := by
    simp [Store.getValues, hva]
  have hvx : valueAt res.2 w.heap.length = some (f [v]) := by
    obtain ⟨args, hargs, hval⟩ := hcxr
    rw [hargsa] at hargs
    injection hargs with hargs
    rw [← hargs] at hval
    exact hval
  have hgx : Store.getValue res.2 x = .ok (f [v]) := by
    rw [getValue_own (by rw [hsame.lookup]; exact hdx3.bound), value_eq_ok_iff]
    exact hvx
  have hargsx : Store.getValues res.2 [x] = .ok [f [v]] := by
    simp [Store.getValues, hgx]
  have hcyr : Consistent res.2 (w.heap.length + 1) [x] g := by
    rcases hweak with h | h
    · exact h
    · have hcs : Consistent (w3.store ra { o with _value := v }) (w.heap.length + 1) [x] g := by
        refine hcy3.of_agree hsw (fun t ht => valueAt_store_other ?_)
        rcases ht with rfl | ⟨dep, hd, hl⟩
        · omega
        · simp only [List.mem_singleton] at hd
          subst hd
          rw [hdx3.bound] at hl
          injection hl with hl
          injection hl with hl
          rw [← hl]
          exact fun h => hne h.symm
      exact hcs.of_agree hinner (fun t ht => h t ((relevant_congr hsw.state _ _ t).mp ht))
  have hvy : valueAt res.2 (w.heap.length + 1) = some (g [f [v]]) := by
    obtain ⟨args, hargs, hval⟩ := hcyr
    rw [hargsx] at hargs
    injection hargs with hargs
    rw [← hargs] at hval
    exact hval
  have hgy : Store.getValue res.2 y = .ok (g [f [v]]) := by
    rw [getValue_own (by rw [hsame.lookup]; exact hdy3.bound), value_eq_ok_iff]
    exact hvy
  refine ⟨hok1, hok2, hok, hva, hgx, hgy, extra, hextra, ?_⟩
  intro fn hfn
  obtain ⟨c, hc, h1, h2, h3⟩ := hcalled fn (by
    rw [hsame.observers]
    exact hsubscribed fn hfn)
  rw [hvy] at h3
  injection h3 with h3
  exact ⟨c, hc, h1, h2, h3.symm⟩

/-- Witness for C28: in the store built from `{a: 1, b: 2}`, with `x = a + 1`, `y = 2 * x`
and the function `7` subscribed to `y`, `setState("a", 5)` leaves `x = 6` and `y = 12` and
calls the function with `12`. -/
theorem chained_derived_states_witness :
    (exampleStore.wellFormed = true ∧ exampleStore.registered ["a"] = true ∧
      "x" ≠ "a" ∧ "y" ≠ "a" ∧ "y" ≠ "x" ∧
      ∀ c ∈ [StoreCall.subscribe "y" 7], ∃ k fn, c = StoreCall.subscribe k fn) ∧
    ((Store.createDerivedState exampleStore "x" ["a"] addOneTo).1 =
        .ok exampleStore.heap.length ∧
      (Store.createDerivedState (Store.createDerivedState exampleStore "x" ["a"] addOneTo).2
        "y" ["x"] doubleOf).1 = .ok (exampleStore.heap.length + 1) ∧
      (Store.setState (runCalls
        (Store.createDerivedState (Store.createDerivedState exampleStore "x" ["a"] addOneTo).2
          "y" ["x"] doubleOf).2 [StoreCall.subscribe "y" 7]) "a" (.number 5)).1 = .ok () ∧
      Store.getValue (Store.setState (runCalls
        (Store.createDerivedState (Store.createDerivedState exampleStore "x" ["a"] addOneTo).2
          "y" ["x"] doubleOf).2 [StoreCall.subscribe "y" 7]) "a" (.number 5)).2 "a" =
        .ok (.number 5) ∧
      Store.getValue (Store.setState (runCalls
        (Store.createDerivedState (Store.createDerivedState exampleStore "x" ["a"] addOneTo).2
          "y" ["x"] doubleOf).2 [StoreCall.subscribe "y" 7]) "a" (.number 5)).2 "x" =
        .ok (addOneTo [.number 5]) ∧
      Store.getValue (Store.setState (runCalls
        (Store.createDerivedState (Store.createDerivedState exampleStore "x" ["a"] addOneTo).2
          "y" ["x"] doubleOf).2 [StoreCall.subscribe "y" 7]) "a" (.number 5)).2 "y" =
        .ok (doubleOf [addOneTo [.number 5]]) ∧
      ∃ extra, (Store.setState (runCalls
          (Store.createDerivedState
            (Store.createDerivedState exampleStore "x" ["a"] addOneTo).2
            "y" ["x"] doubleOf).2 [StoreCall.subscribe "y" 7]) "a" (.number 5)).2.calls =
        (runCalls (Store.createDerivedState
          (Store.createDerivedState exampleStore "x" ["a"] addOneTo).2
          "y" ["x"] doubleOf).2 [StoreCall.subscribe "y" 7]).calls ++ extra ∧
        ∀ fn, StoreCall.subscribe "y" fn ∈ [StoreCall.subscribe "y" 7] →
          ∃ c ∈ extra, c.source = exampleStore.heap.length + 1 ∧ c.callback = fn ∧
            c.newValue = doubleOf [addOneTo [.number 5]]) ∧
    (Store.setState (runCalls
      (Store.createDerivedState (Store.createDerivedState exampleStore "x" ["a"] addOneTo).2
        "y" ["x"] doubleOf).2 [StoreCall.subscribe "y" 7]) "a" (.number 5)).2.calls =
      [{ source := 3, callback := 7, newValue := .number 12, oldValue := .number 4 }] :=
  ⟨⟨rfl, rfl, by decide, by decide, by decide, fun c hc => by
      simp only [List.mem_singleton] at hc
      exact ⟨"y", 7, hc⟩⟩,
    chained_derived_states exampleStore "a" "x" "y" addOneTo doubleOf
      [StoreCall.subscribe "y" 7] (.number 5) rfl rfl (by decide) (by decide) (by decide)
      (fun c hc => by
        simp only [List.mem_singleton] at hc
        exact ⟨"y", 7, hc⟩),
    rfl⟩

/-! ## A preferences entry that cannot be parsed -/

/-- When `JSON.parse` throws on the preferences entry, the `try` block ends there: the
stores are left as they were, whatever the progress entry holds. -/
theorem loadPersisted_unparsable (parse : String → Except JSError JSValue)
    (this : StateManager) (text : String) (progress : Option String) (e : JSError)
    (htext : text ≠ "") (hparse : parse text = .error e) :
    StateManager.loadPersistedState parse ⟨some text, progress⟩ this = this := by
  simp [StateManager.loadPersistedState, StateManager.loadPersisted,
    StateManager.loadPreferences, htext, hparse]

/-- With no preferences entry the progress entry is what decides. -/
theorem loadPersisted_absent (parse : String → Except JSError JSValue)
    (this : StateManager) (progress : Option String) :
    StateManager.loadPersistedState parse ⟨none, progress⟩ this =
      (StateManager.loadProgress parse this progress).2 := by
  simp [StateManager.loadPersistedState, StateManager.loadPersisted,
    StateManager.loadPreferences]

/-- C24 at the failing input: with the preferences entry `{`, on which `JSON.parse`
throws, and a valid progress entry, the loading part of `_setupPersistence` leaves the new
stores as they are, so the stored course progress and achievements are not loaded; with no
preferences entry and the same progress entry they are loaded. -/
theorem unparsable_preferences_skip_progress :
    StateManager.loadPersistedState exampleParse ⟨some "\x7b", some exampleProgressText⟩
        StateManager.newStores = StateManager.newStores ∧
    Store.getValue (StateManager.loadPersistedState exampleParse
        ⟨some "\x7b", some exampleProgressText⟩ StateManager.newStores).progressStore
        "achievements" = .ok (.array []) ∧
    Store.getValue (StateManager.loadPersistedState exampleParse
        ⟨none, some exampleProgressText⟩ StateManager.newStores).progressStore
        "achievements" = .ok (.array [.string "ach-course-complete"]) ∧
    Store.getValue (StateManager.loadPersistedState exampleParse
        ⟨some "\x7b", some exampleProgressText⟩ StateManager.newStores).progressStore
        "courseProgress" = .ok (.object []) ∧
    Store.getValue (StateManager.loadPersistedState exampleParse
        ⟨none, some exampleProgressText⟩ StateManager.newStores).progressStore
        "courseProgress" = .ok (.object [("c", .object [("completed", .boolean true)])]) ∧
    Store.getValue (StateManager.loadPersistedState exampleParse
        ⟨none, some exampleProgressText⟩ StateManager.newStores).progressStore
        "lessonProgress" = .ok (.object []) :=
  ⟨loadPersisted_unparsable exampleParse _ "\x7b" _ .syntaxError (by decide) rfl,
    rfl, rfl, rfl, rfl, rfl⟩

/-! ## Observables written by observers, with or without a state key

The three lemmas on notifications around a derived state are stated once more for an
Observable that no state key needs to be bound to, such as an entry of `localStorage`. -/

/-- One observer is called while the fed Observable `d` is attached: afterwards `d` is
consistent or no relevant Observable has changed, and `d` is consistent when the observer
writes `d`. -/
theorem invoke_current{w : World} {d : Nat} {deps : List String}
    {f : List JSValue → JSValue} (hd : Fed w d deps f) (ha : Attached w d deps f)
    {notify : World → Nat → JSValue → JSValue → Except JSError Unit × World}
    (hnotify : ∀ wb t n o, SameWiring w wb → (notify wb t n o).1 = .ok () →
      SameWiring wb (notify wb t n o).2 ∧
      (Consistent (notify wb t n o).2 d deps f ∨
        ∀ x, Relevant w d deps x → valueAt (notify wb t n o).2 x = valueAt wb x) ∧
      ((∃ id, Observer.recompute id deps f d ∈ w.observers t) →
        Consistent (notify wb t n o).2 d deps f))
    {r : Nat} {w1 : World} (hw1 : SameWiring w w1) {observer : Observer}
    (hmem : observer ∈ w.observers r) (newValue oldValue : JSValue)
    (hok : (Observer.invoke (Observable.assignValue notify) r newValue oldValue w1 observer).1
      = .ok ()) :
    SameWiring w1
        (Observer.invoke (Observable.assignValue notify) r newValue oldValue w1 observer).2 ∧
      (Consistent
          (Observer.invoke (Observable.assignValue notify) r newValue oldValue w1 observer).2
          d deps f ∨
        ∀ x, Relevant w d deps x →
          valueAt (Observer.invoke (Observable.assignValue notify) r newValue oldValue w1
            observer).2 x = valueAt w1 x) ∧
      (observer.target = some d →
        Consistent
          (Observer.invoke (Observable.assignValue notify) r newValue oldValue w1 observer).2
          d deps f) := by
  cases observer with
  | callback id =>
    refine ⟨sameWiring_call w1 _, Or.inr (fun _ _ => rfl), ?_⟩
    intro h
    simp [Observer.target] at h
  | recompute id deps' f' t =>
    simp only [Observer.invoke] at hok ⊢
    cases hargs : Store.getValues w1 deps' with
    | error e => simp [hargs] at hok
    | ok args =>
      simp only [hargs, Observable.assignValue] at hok ⊢
      cases ht : w1.heap[t]? with
      | none => simp [ht] at hok
      | some target =>
        simp only [ht] at hok ⊢
        have hsw := sameWiring_store_value (f' args) ht
        have hwb := hw1.andThen hsw
        obtain ⟨hsame, hweak, hstrong⟩ := hnotify _ t (f' args) target._value hwb hok
        have hlt := lt_of_get ht
        refine ⟨hsw.andThen hsame, ?_, ?_⟩
        · by_cases htd : t = d
          · -- the observer writes `d`: consistent right after the write
            subst htd
            obtain ⟨id', heq⟩ := hd.only r _ hmem rfl
            simp only [Observer.recompute.injEq] at heq
            obtain ⟨_, hdeps, hf, _⟩ := heq
            subst hdeps hf
            have hcons : Consistent (w1.store t { target with _value := f' args }) t deps' f' := by
              refine ⟨args, ?_, valueAt_store_self hlt⟩
              rw [getValues_eq_of_agree hsw.state hsw.inherited deps' (fun dep hdep x hl => by
                obtain ⟨x', hl', hne⟩ := hd.deps dep hdep
                rw [hw1.lookup, hl'] at hl
                cases hl
                exact valueAt_store_other hne)]
              exact hargs
            rcases hweak with h | h
            · exact Or.inl h
            · exact Or.inl ((hcons.of_agree hsame (fun x hx => h x (by
                simpa [Relevant, World.lookup, hwb.state] using hx))))
          · by_cases hrel : ∃ dep ∈ deps, w.lookup dep = some (.own t)
            · obtain ⟨dep, hdep, hl⟩ := hrel
              exact Or.inl (hstrong (ha dep hdep t hl))
            · rcases hweak with h | h
              · exact Or.inl h
              · refine Or.inr (fun x hx => ?_)
                rw [h x hx]
                apply valueAt_store_other
                rintro rfl
                rcases hx with hx | hx
                · exact htd hx
                · exact hrel hx
        · intro htarget
          simp only [Observer.target, Option.some.injEq] at htarget
          subst htarget
          obtain ⟨id', heq⟩ := hd.only r _ hmem rfl
          simp only [Observer.recompute.injEq] at heq
          obtain ⟨_, hdeps, hf, _⟩ := heq
          subst hdeps hf
          have hcons : Consistent (w1.store t { target with _value := f' args }) t deps' f' := by
            refine ⟨args, ?_, valueAt_store_self hlt⟩
            rw [getValues_eq_of_agree hsw.state hsw.inherited deps' (fun dep hdep x hl => by
              obtain ⟨x', hl', hne⟩ := hd.deps dep hdep
              rw [hw1.lookup, hl'] at hl
              cases hl
              exact valueAt_store_other hne)]
            exact hargs
          rcases hweak with h | h
          · exact h
          · exact hcons.of_agree hsame (fun x hx => h x (by
              simpa [Relevant, World.lookup, hwb.state] using hx))

/-- The loop over observers while the fed Observable `d` is attached: afterwards `d` is
consistent or no relevant Observable has changed, and `d` is consistent when one of the
observers writes `d`. -/
theorem forEachObserver_current {w : World} {d : Nat} {deps : List String}
    {f : List JSValue → JSValue} (hd : Fed w d deps f) (ha : Attached w d deps f)
    {notify : World → Nat → JSValue → JSValue → Except JSError Unit × World}
    (hnotify : ∀ wb t n o, SameWiring w wb → (notify wb t n o).1 = .ok () →
      SameWiring wb (notify wb t n o).2 ∧
      (Consistent (notify wb t n o).2 d deps f ∨
        ∀ x, Relevant w d deps x → valueAt (notify wb t n o).2 x = valueAt wb x) ∧
      ((∃ id, Observer.recompute id deps f d ∈ w.observers t) →
        Consistent (notify wb t n o).2 d deps f))
    {r : Nat} (newValue oldValue : JSValue) :
    ∀ (l : List Observer) (w1 : World), (∀ observer ∈ l, observer ∈ w.observers r) →
      SameWiring w w1 →
      (forEachObserver (fun w2 observer =>
        Observer.invoke (Observable.assignValue notify) r newValue oldValue w2 observer)
        l w1).1 = .ok () →
      SameWiring w1 (forEachObserver (fun w2 observer =>
        Observer.invoke (Observable.assignValue notify) r newValue oldValue w2 observer)
        l w1).2 ∧
      (Consistent (forEachObserver (fun w2 observer =>
          Observer.invoke (Observable.assignValue notify) r newValue oldValue w2 observer)
          l w1).2 d deps f ∨
        ∀ x, Relevant w d deps x →
          valueAt (forEachObserver (fun w2 observer =>
            Observer.invoke (Observable.assignValue notify) r newValue oldValue w2 observer)
            l w1).2 x = valueAt w1 x) ∧
      ((∃ observer ∈ l, observer.target = some d) →
        Consistent (forEachObserver (fun w2 observer =>
          Observer.invoke (Observable.assignValue notify) r newValue oldValue w2 observer)
          l w1).2 d deps f)
  | [], w1, _, _, _ =>
    ⟨SameWiring.stay w1, Or.inr (fun _ _ => rfl), fun h => by simp at h⟩
  | observer :: rest, w1, hl, hw1, hok => by
    have hmem := hl observer (List.mem_cons_self _ _)
    unfold forEachObserver at hok ⊢
    rcases hs : Observer.invoke (Observable.assignValue notify) r newValue oldValue w1
        observer with ⟨res, wa⟩
    simp only [hs] at hok ⊢
    cases res with
    | error e => simp at hok
    | ok u =>
      simp only at hok ⊢
      have hstep := invoke_current hd ha hnotify hw1 hmem newValue oldValue
        (by rw [hs])
      rw [hs] at hstep
      obtain ⟨hsa, hweak, hstrong⟩ := hstep
      have hwa := hw1.andThen hsa
      obtain ⟨hsr, hweakr, hstrongr⟩ := forEachObserver_current hd ha hnotify
        newValue oldValue rest wa (fun o ho => hl o (List.mem_cons_of_mem _ ho)) hwa hok
      have hcarry : Consistent wa d deps f →
          Consistent (forEachObserver (fun w2 observer =>
            Observer.invoke (Observable.assignValue notify) r newValue oldValue w2 observer)
            rest wa).2 d deps f := by
        intro hc
        rcases hweakr with h | h
        · exact h
        · exact hc.of_agree hsr (fun x hx =>
            h x ((relevant_congr hwa.state d deps x).mp hx))
      refine ⟨hsa.andThen hsr, ?_, ?_⟩
      · rcases hweakr with h | h
        · exact Or.inl h
        · rcases hweak with h1 | h1
          · exact Or.inl (hcarry h1)
          · exact Or.inr (fun x hx => (h x hx).trans (h1 x hx))
      · rintro ⟨ob, hob, htarget⟩
        rcases List.mem_cons.mp hob with heq | hin
        · subst heq
          exact hcarry (hstrong htarget)
        · exact hstrongr ⟨ob, hin, htarget⟩

/-- A notification that returns normally while the fed Observable `d` is attached leaves `d`
consistent or leaves every relevant Observable alone; and it leaves `d` consistent when it
is started at an Observable that carries an arrow function of `d`. -/
theorem notifyObservers_current {w : World} {d : Nat} {deps : List String}
    {f : List JSValue → JSValue} (hd : Fed w d deps f) (ha : Attached w d deps f) :
    ∀ (fuel : Nat) (wb : World) (t : Nat) (n o : JSValue), SameWiring w wb →
      (Observable._notifyObservers fuel wb t n o).1 = .ok () →
      SameWiring wb (Observable._notifyObservers fuel wb t n o).2 ∧
      (Consistent (Observable._notifyObservers fuel wb t n o).2 d deps f ∨
        ∀ x, Relevant w d deps x →
          valueAt (Observable._notifyObservers fuel wb t n o).2 x = valueAt wb x) ∧
      ((∃ id, Observer.recompute id deps f d ∈ w.observers t) →
        Consistent (Observable._notifyObservers fuel wb t n o).2 d deps f)
  | 0, wb, t, n, o, _, hok => by simp [Observable._notifyObservers] at hok
  | fuel + 1, wb, t, n, o, hwb, hok => by
    rw [notifyObservers_succ] at hok ⊢
    cases ht : wb.heap[t]? with
    | none => simp [ht] at hok
    | some ob =>
      simp only [ht] at hok ⊢
      have hobs : w.observers t = ob._observers := by
        rw [← hwb.observers, observers_of_get ht]
      obtain ⟨h1, h2, h3⟩ := forEachObserver_current hd ha
        (notifyObservers_current hd ha fuel) n o ob._observers wb
        (fun x hx => by rw [hobs]; exact hx) hwb hok
      refine ⟨h1, h2, ?_⟩
      rintro ⟨id, hid⟩
      exact h3 ⟨Observer.recompute id deps f d, by rw [← hobs]; exact hid, rfl⟩

theorem DerivedAt.fed {w : World} {key : String} {d : Nat} {deps : List String}
    {f : List JSValue → JSValue} (h : DerivedAt w key d deps f) : Fed w d deps f :=
  ⟨h.wf, h.deps, h.only⟩

theorem Fed.rewired {w w' : World} {d : Nat} {deps : List String}
    {f : List JSValue → JSValue} (h : Fed w d deps f) (hs : SameWiring w w') :
    Fed w' d deps f :=
  { wf := hs.wellFormed h.wf
    deps := fun dep hd => by rw [hs.lookup]; exact h.deps dep hd
    only := fun r ob hob => by rw [hs.observers] at hob; exact h.only r ob hob }

/-- Storing a value at an Observable other than `d` and notifying: the call returns
normally and keeps the wiring, and `d` holds `computeFn` of the values read afterwards when
it did before or when the Observable written is bound to one of the keys read. -/
theorem notify_current {w : World} {d : Nat} {deps : List String}
    {f : List JSValue → JSValue} (hd : Fed w d deps f) (ha : Attached w d deps f)
    {r : Nat} {o : Observable} (hr : w.heap[r]? = some o) (hrd : r ≠ d)
    (merged old : JSValue) :
    (Observable._notifyObservers w.heap.length (w.store r { o with _value := merged })
        r merged old).1 = .ok () ∧
      SameWiring w (Observable._notifyObservers w.heap.length
        (w.store r { o with _value := merged }) r merged old).2 ∧
      ((Consistent w d deps f ∨ ∃ dep ∈ deps, w.lookup dep = some (.own r)) →
        Consistent (Observable._notifyObservers w.heap.length
          (w.store r { o with _value := merged }) r merged old).2 d deps f) := by
  obtain ⟨hok, hsame, _⟩ := store_notify hd.wf hr merged old
  have hsw := sameWiring_store_value merged hr
  obtain ⟨hinner, hweak, hstrong⟩ := notifyObservers_current hd ha w.heap.length
    (w.store r { o with _value := merged }) r merged old hsw hok
  refine ⟨hok, hsame, ?_⟩
  intro hpre
  by_cases hrel : ∃ dep ∈ deps, w.lookup dep = some (.own r)
  · obtain ⟨dep, hdep, hl⟩ := hrel
    exact hstrong (ha dep hdep r hl)
  · rcases hpre with hc | hc
    · rcases hweak with h | h
      · exact h
      · have hcs : Consistent (w.store r { o with _value := merged }) d deps f := by
          refine hc.of_agree hsw (fun t ht => valueAt_store_other ?_)
          rcases ht with rfl | ht
          · exact fun h => hrd h.symm
          · exact fun h => hrel (h ▸ ht)
        exact hcs.of_agree hinner (fun t ht => h t ((relevant_congr hsw.state _ _ t).mp ht))
    · exact absurd hc hrel

theorem Fed.withCallback {w : World} {d : Nat} {deps : List String}
    {f : List JSValue → JSValue} (h : Fed w d deps f) {r : Nat} {o : Observable}
    (hr : w.heap[r]? = some o) (fn : Nat) :
    Fed (w.store r { o with _observers := o._observers ++ [.callback fn] }) d deps f :=
  { wf := wellFormed_store_observers h.wf hr _ (fun ob hob => by
      rcases List.mem_append.mp hob with h1 | h1
      · exact Or.inl h1
      · simp only [List.mem_singleton] at h1
        subst h1
        exact Or.inr rfl)
    deps := h.deps
    only := fun t ob hob htarget => by
      rw [observers_store (lt_of_get hr)] at hob
      by_cases ht : t = r
      · subst ht
        simp only [if_true, List.mem_append, List.mem_singleton] at hob
        rcases hob with h1 | h1
        · exact h.only t ob (by rw [observers_of_get hr]; exact h1) htarget
        · subst h1
          simp [Observer.target] at htarget
      · simp only [ht, if_false] at hob
        exact h.only t ob hob htarget }

/-- A call that writes a registered key not bound to `d`, or subscribes a function, keeps
the state keys and the arrow functions of `d` in place, and keeps `d` current. -/
theorem run_keeps_current {w : World} {d : Nat} {deps : List String}
    {f : List JSValue → JSValue} (hd : Fed w d deps f) (ha : Attached w d deps f)
    (c : StoreCall) (hcall : c.besides w d) :
    (c.run w)._state = w._state ∧ Fed (c.run w) d deps f ∧ Attached (c.run w) d deps f ∧
      (Consistent w d deps f → Consistent (c.run w) d deps f) := by
  cases c with
  | setState k v =>
    obtain ⟨r, hl, hrd⟩ := hcall
    obtain ⟨o, hr⟩ := get_of_lt (lookup_own_lt hd.wf hl)
    simp only [StoreCall.run, setState_own v hl, Observable.setValue, Observable.assignValue,
      hr]
    obtain ⟨_, hsame, hcur⟩ := notify_current hd ha hr hrd v o._value
    exact ⟨hsame.state, hd.rewired hsame, ha.carry hsame, fun hc => hcur (Or.inl hc)⟩
  | updateState k u =>
    obtain ⟨r, hl, hrd⟩ := hcall
    obtain ⟨o, hr⟩ := get_of_lt (lookup_own_lt hd.wf hl)
    simp only [StoreCall.run, updateState_own u hl]
    rcases update_cases u hr with h | ⟨merged, old, h⟩
    · rw [h]
      exact ⟨rfl, hd, ha, fun hc => hc⟩
    · rw [h]
      obtain ⟨_, hsame, hcur⟩ := notify_current hd ha hr hrd merged old
      exact ⟨hsame.state, hd.rewired hsame, ha.carry hsame, fun hc => hcur (Or.inl hc)⟩
  | subscribe k fn =>
    simp only [StoreCall.run]
    rcases store_subscribe_cases w k fn with h | ⟨r, o, hr, h⟩
    · rw [h]
      exact ⟨rfl, hd, ha, fun hc => hc⟩
    · rw [h]
      have hlt := lt_of_get hr
      refine ⟨rfl, hd.withCallback hr fn, ?_, ?_⟩
      · intro dep hdep t hl
        obtain ⟨id, hid⟩ := ha dep hdep t hl
        refine ⟨id, ?_⟩
        rw [observers_store hlt]
        by_cases ht : t = r
        · subst ht
          rw [observers_of_get hr] at hid
          simp [hid]
        · simpa [ht] using hid
      · rintro ⟨args, hargs, hval⟩
        have hv : ∀ t, valueAt (w.store r { o with _observers :=
            o._observers ++ [.callback fn] }) t = valueAt w t := by
          intro t
          by_cases ht : t = r
          · subst ht
            simp [valueAt, store_get_self hlt, hr]
          · exact valueAt_store_other ht
        have hs : (w.store r
            ⟨o._value, o._observers ++ [.callback fn], o.unsubscribeAll⟩)._state =
            w._state := rfl
        have hi : (w.store r
            ⟨o._value, o._observers ++ [.callback fn], o.unsubscribeAll⟩).inheritedValue =
            w.inheritedValue := rfl
        have hg := getValues_eq_of_agree hs hi deps (fun _ _ t _ => hv t)
        exact ⟨args, hg.trans hargs, by rw [hv]; exact hval⟩

theorem besides_congr {w w' : World} (hs : w'._state = w._state) (d : Nat) (c : StoreCall) :
    c.besides w' d ↔ c.besides w d := by
  cases c <;> simp [StoreCall.besides, World.lookup, hs]

/-- A sequence of such calls. -/
theorem runCalls_keeps_current {d : Nat} {deps : List String} {f : List JSValue → JSValue} :
    ∀ (calls : List StoreCall) (w : World), Fed w d deps f → Attached w d deps f →
      (∀ c ∈ calls, c.besides w d) →
      (runCalls w calls)._state = w._state ∧ Fed (runCalls w calls) d deps f ∧
        Attached (runCalls w calls) d deps f ∧
        (Consistent w d deps f → Consistent (runCalls w calls) d deps f)
  | [], _, hd, ha, _ => ⟨rfl, hd, ha, fun hc => hc⟩
  | c :: rest, w, hd, ha, h => by
    obtain ⟨hs1, hd1, ha1, hc1⟩ := run_keeps_current hd ha c (h c (List.mem_cons_self _ _))
    obtain ⟨hs2, hd2, ha2, hc2⟩ := runCalls_keeps_current rest (c.run w) hd1 ha1
      (fun c' hc' => (besides_congr hs1 d c').mpr (h c' (List.mem_cons_of_mem _ hc')))
    exact ⟨hs2.trans hs1, hd2, ha2, fun hc => hc2 (hc1 hc)⟩

/-- A write to one of the keys read that returns normally makes `d` current. -/
theorem write_makes_current {w : World} {d : Nat} {deps : List String}
    {f : List JSValue → JSValue} (hd : Fed w d deps f) (ha : Attached w d deps f)
    (c : StoreCall) (hcall : c.writes w deps) : Consistent (c.run w) d deps f := by
  cases c with
  | setState k v =>
    obtain ⟨hk, _⟩ := hcall
    obtain ⟨r, hl, hrd⟩ := hd.deps k hk
    obtain ⟨o, hr⟩ := get_of_lt (lookup_own_lt hd.wf hl)
    simp only [StoreCall.run, setState_own v hl, Observable.setValue, Observable.assignValue,
      hr]
    exact (notify_current hd ha hr hrd v o._value).2.2 (Or.inr ⟨k, hk, hl⟩)
  | updateState k u =>
    obtain ⟨hk, hok⟩ := hcall
    obtain ⟨r, hl, hrd⟩ := hd.deps k hk
    obtain ⟨o, hr⟩ := get_of_lt (lookup_own_lt hd.wf hl)
    rw [updateState_own u hl] at hok
    simp only [StoreCall.run, updateState_own u hl]
    rcases update_cases u hr with h | ⟨merged, old, h⟩
    · rw [h] at hok
      simp at hok
    · rw [h]
      exact (notify_current hd ha hr hrd merged old).2.2 (Or.inr ⟨k, hk, hl⟩)
  | subscribe k fn => exact absurd hcall (by simp [StoreCall.writes])

/-! ## The progress methods as sequences of writes -/

theorem runCalls_append (w : World) (a b : List StoreCall) :
    runCalls w (a ++ b) = runCalls (runCalls w a) b := by
  simp [runCalls, List.foldl_append]

theorem checkStreakAchievements_writes (page : Page) (currentStreak : JSValue) :
    ∃ calls : List StoreCall, (∀ c ∈ calls, c.onDependencies progressKeys) ∧
      (StateManager._checkStreakAchievements page
        currentStreak).2.stateManager.progressStore =
        runCalls page.stateManager.progressStore calls := by
  unfold StateManager._checkStreakAchievements
  cases streakMilestones.find? (fun m => currentStreak.isNumber m) with
  | none => exact ⟨[], by simp, rfl⟩
  | some milestone =>
    simp only
    split_ifs
    · exact ⟨[], by simp, rfl⟩
    · cases Store.getValue page.stateManager.progressStore "achievements" with
      | error e => exact ⟨[], by simp, rfl⟩
      | ok currentAchievements =>
        simp only
        cases currentAchievements.includes ("ach-streak-" ++ toString milestone) with
        | error e => exact ⟨[], by simp, rfl⟩
        | ok found =>
          cases found with
          | true => exact ⟨[], by simp, rfl⟩
          | false =>
            simp only
            cases currentAchievements.elements with
            | error e => exact ⟨[], by simp, rfl⟩
            | ok items =>
              simp only
              refine ⟨[.setState "achievements"
                (.array (items ++ [.string ("ach-streak-" ++ toString milestone)]))],
                by simp [StoreCall.onDependencies, progressKeys], ?_⟩
              rcases hs : Store.setState page.stateManager.progressStore "achievements"
                (.array (items ++ [.string ("ach-streak-" ++ toString milestone)]))
                with ⟨res, ps⟩
              cases res <;> simp [runCalls, StoreCall.run, hs, Page.withProgressStore]

theorem checkCourseCompletionAchievements_writes (page : Page) (courseId : String) :
    ∃ calls : List StoreCall, (∀ c ∈ calls, c.onDependencies progressKeys) ∧
      (StateManager._checkCourseCompletionAchievements page
        courseId).2.stateManager.progressStore =
        runCalls page.stateManager.progressStore calls := by
  unfold StateManager._checkCourseCompletionAchievements
  cases Store.getValue page.stateManager.progressStore "achievements" with
  | error e => exact ⟨[], by simp, rfl⟩
  | ok currentAchievements =>
    simp only
    cases filterArray (isNewCourseAchievement currentAchievements courseId)
        (achievementDefinitions courseId) with
    | error e => exact ⟨[], by simp, rfl⟩
    | ok courseAchievements =>
      simp only
      split_ifs
      · cases currentAchievements.elements with
        | error e => exact ⟨[], by simp, rfl⟩
        | ok items =>
          simp only
          refine ⟨[.setState "achievements" (.array (items ++
            (courseAchievements.map (fun achievement => achievement.id)).map
              JSValue.string))],
            by simp [StoreCall.onDependencies, progressKeys], ?_⟩
          show _ = (Store.setState page.stateManager.progressStore "achievements"
            (.array (items ++
              (courseAchievements.map (fun achievement => achievement.id)).map
                JSValue.string))).2
          generalize Store.setState page.stateManager.progressStore "achievements"
            (.array (items ++
              (courseAchievements.map (fun achievement => achievement.id)).map
                JSValue.string)) = result
          obtain ⟨res, ps⟩ := result
          cases res <;> rfl
      · exact ⟨[], by simp, rfl⟩

theorem updateStreak_writes (page : Page) (clock : Clock) :
    ∃ calls : List StoreCall, (∀ c ∈ calls, c.onDependencies progressKeys) ∧
      (StateManager._updateStreak page clock).2.stateManager.progressStore =
        runCalls page.stateManager.progressStore calls := by
  unfold StateManager._updateStreak
  cases Store.getValue page.stateManager.progressStore "streaks" with
  | error e => exact ⟨[], by simp, rfl⟩
  | ok currentStreaks =>
    simp only
    cases currentStreaks.field "lastActive" with
    | error e => exact ⟨[], by simp, rfl⟩
    | ok lastActive =>
      simp only
      split_ifs
      · exact ⟨[], by simp, rfl⟩
      · cases updatedStreak clock currentStreaks lastActive with
        | error e => exact ⟨[], by simp, rfl⟩
        | ok updated =>
          simp only
          rcases hs : Store.setState page.stateManager.progressStore "streaks"
            (.object updated) with ⟨res, ps⟩
          cases res with
          | error e =>
            exact ⟨[.setState "streaks" (.object updated)],
              by simp [StoreCall.onDependencies, progressKeys],
              by simp [runCalls, StoreCall.run, hs, Page.withProgressStore]⟩
          | ok u =>
            simp only
            obtain ⟨calls, hcalls, hrun⟩ := checkStreakAchievements_writes
              (page.withProgressStore ps) ((getOwn updated "current").getD .undefined)
            refine ⟨.setState "streaks" (.object updated) :: calls, ?_, ?_⟩
            · intro c hc
              rcases List.mem_cons.mp hc with rfl | hc
              · simp [StoreCall.onDependencies, progressKeys]
              · exact hcalls c hc
            · rw [hrun]
              simp [runCalls, StoreCall.run, hs, Page.withProgressStore]

theorem updateCourseProgress_writes (page : Page) (clock : Clock) (courseId : String) :
    ∃ calls : List StoreCall, (∀ c ∈ calls, c.onDependencies progressKeys) ∧
      (StateManager.updateCourseProgress page clock
        courseId).2.stateManager.progressStore =
        runCalls page.stateManager.progressStore calls := by
  unfold StateManager.updateCourseProgress
  cases Store.getValue page.stateManager.courseStore "courses" with
  | error e => exact ⟨[], by simp, rfl⟩
  | ok coursesValue =>
    cases coursesValue with
    | array courses =>
      simp only
      cases findCourse courseId courses with
      | error e => exact ⟨[], by simp, rfl⟩
      | ok found =>
        cases found with
        | none => exact ⟨[], by simp, rfl⟩
        | some course =>
          simp only
          cases Store.getValue page.stateManager.progressStore "lessonProgress" with
          | error e => exact ⟨[], by simp, rfl⟩
          | ok lessonProgress =>
            simp only
            cases courseProgressUpdate clock courseId course lessonProgress
                (Store.getValue page.stateManager.progressStore "courseProgress") with
            | error e => exact ⟨[], by simp, rfl⟩
            | ok pair =>
              obtain ⟨updates, allLessonsCompleted⟩ := pair
              simp only
              rcases hs : Store.updateState page.stateManager.progressStore "courseProgress"
                updates with ⟨res, ps⟩
              cases res with
              | error e =>
                exact ⟨[.updateState "courseProgress" updates],
                  by simp [StoreCall.onDependencies, progressKeys],
                  by simp [runCalls, StoreCall.run, hs, Page.withProgressStore]⟩
              | ok u =>
                simp only
                split_ifs
                · obtain ⟨calls, hcalls, hrun⟩ := checkCourseCompletionAchievements_writes
                    (page.withProgressStore ps) courseId
                  refine ⟨.updateState "courseProgress" updates :: calls, ?_, ?_⟩
                  · intro c hc
                    rcases List.mem_cons.mp hc with rfl | hc
                    · simp [StoreCall.onDependencies, progressKeys]
                    · exact hcalls c hc
                  · rw [hrun]
                    simp [runCalls, StoreCall.run, hs, Page.withProgressStore]
                · exact ⟨[.updateState "courseProgress" updates],
                    by simp [StoreCall.onDependencies, progressKeys],
                    by simp [runCalls, StoreCall.run, hs, Page.withProgressStore]⟩
    | _ => exact ⟨[], by simp, rfl⟩

/-- What `updateLessonProgress` does to the progress store is a sequence of writes to the
progress keys; when the method returns normally the first of them is the `updateState` of
`lessonProgress`, and that one returned normally. -/
theorem updateLessonProgress_writes (page : Page) (clock : Clock)
    (courseId lessonId : String) (progressUpdate : JSValue)
    (hok : (StateManager.updateLessonProgress page clock courseId lessonId
      progressUpdate).1 = .ok ()) :
    ∃ (updates : JSValue) (calls : List StoreCall),
      (Store.updateState page.stateManager.progressStore "lessonProgress" updates).1 =
        .ok () ∧
      (∀ c ∈ calls, c.onDependencies progressKeys) ∧
      (StateManager.updateLessonProgress page clock courseId lessonId
        progressUpdate).2.stateManager.progressStore =
        runCalls page.stateManager.progressStore
          (.updateState "lessonProgress" updates :: calls) := by
  unfold StateManager.updateLessonProgress at hok ⊢
  cases hg : Store.getValue page.stateManager.progressStore "lessonProgress" with
  | error e => simp [hg] at hok
  | ok lessonProgress =>
    simp only [hg] at hok ⊢
    cases hm : lessonProgress.member lessonId with
    | error e => simp [hm] at hok
    | ok member =>
      simp only [hm] at hok ⊢
      rcases hs : Store.updateState page.stateManager.progressStore "lessonProgress"
        (.object [(lessonId, .object (spread (spreadOrEmpty member) progressUpdate))])
        with ⟨res, ps⟩
      simp only [hs] at hok ⊢
      cases res with
      | error e => simp at hok
      | ok u =>
        simp only at hok ⊢
        refine ⟨.object [(lessonId, .object (spread (spreadOrEmpty member) progressUpdate))],
          ?_⟩
        cases hf : progressUpdate.field "completed" with
        | error e => simp [hf] at hok
        | ok completed =>
          simp only [hf] at hok ⊢
          have hmid : ∃ calls : List StoreCall,
              (∀ c ∈ calls, c.onDependencies progressKeys) ∧
              (if completed.truthy = true then
                StateManager.updateCourseProgress (page.withProgressStore ps) clock courseId
              else (.ok (), page.withProgressStore ps)).2.stateManager.progressStore =
                runCalls ps calls := by
            split_ifs
            · exact updateCourseProgress_writes (page.withProgressStore ps) clock courseId
            · exact ⟨[], by simp, rfl⟩
          obtain ⟨calls1, hcalls1, hrun1⟩ := hmid
          rcases hmidres : (if completed.truthy = true then
              StateManager.updateCourseProgress (page.withProgressStore ps) clock courseId
            else (.ok (), page.withProgressStore ps)) with ⟨res2, page2⟩
          rw [hmidres] at hrun1 hok
          simp only at hrun1 hok ⊢
          cases res2 with
          | error e => simp at hok
          | ok u2 =>
            simp only at hok ⊢
            obtain ⟨calls2, hcalls2, hrun2⟩ := updateStreak_writes page2 clock
            refine ⟨calls1 ++ calls2, by rw [hs], ?_, ?_⟩
            · intro c hc
              rcases List.mem_append.mp hc with h | h
              · exact hcalls1 c h
              · exact hcalls2 c h
            · rw [hrun2, hrun1]
              have hps : ps = (Store.updateState page.stateManager.progressStore
                  "lessonProgress" (.object [(lessonId,
                    .object (spread (spreadOrEmpty member) progressUpdate))])).2 := by
                rw [hs]
              rw [hps]
              show _ = runCalls (StoreCall.run page.stateManager.progressStore _)
                (calls1 ++ calls2)
              rw [runCalls_append]
              rfl

/-! ## The persisted entries follow the state -/

theorem wellFormed_new (w : World) (hw : w.wellFormed = true) (v : JSValue) :
    (Observable.new w v).1.wellFormed = true := by
  rw [wellFormed_iff]
  obtain ⟨h1, h2⟩ := wellFormed_iff.mp hw
  refine ⟨fun p hp => ?_, fun r ob hob => ?_⟩
  · have := h1 p hp
    simp only [Observable.new, List.length_append, List.length_singleton]
    omega
  · rw [observers_new] at hob
    exact wired_mono (h2 r ob hob) (by simp [Observable.new]) (Nat.le_refl _)
      (fun _ h => h)

/-- In a well-formed store with registered keys the subscriptions return normally; the
entry is then written by the subscriber only, the subscriber sits on every key, the state
keys are as before, none is bound to the entry, and the values are as before. -/
theorem subscribePersisting_spec {w : World} {keys : List String}
    (f : List JSValue → JSValue) (stored : JSValue) (hw : w.wellFormed = true)
    (hreg : w.registered keys = true) :
    ∃ w1, Store.subscribePersisting w keys f stored = (.ok w.heap.length, w1) ∧
      Fed w1 w.heap.length keys f ∧ Attached w1 w.heap.length keys f ∧
      w1._state = w._state ∧ w1.inheritedValue = w.inheritedValue ∧
      (∀ r, r < w.heap.length → valueAt w1 r = valueAt w r) ∧
      (∀ r ob, ob ∈ w.observers r → ob ∈ w1.observers r) := by
  have hloop := subscribeDependencies_grown keys f w.heap.length keys
    (Observable.new w stored).1 (by
      intro dep hd
      obtain ⟨r, hr⟩ := registered_own hreg hd
      have hlt := lookup_own_lt hw hr
      refine ⟨r, w.heap[r], hr, ?_⟩
      simp [Observable.new, List.getElem?_append_left hlt, List.getElem?_eq_getElem hlt])
  obtain ⟨unsubs, w1, heq, hgrown, hattached⟩ := hloop
  have hw0 := wellFormed_new w hw stored
  obtain ⟨hwf, _, _⟩ := wellFormed_subscribeDependencies keys f
    (Observable.new w stored).2 keys (Observable.new w stored).1 hw0
    (by simp [Observable.new]) (fun p hp => wellFormed_state hw hp)
    (fun dep hdep => by
      obtain ⟨r, hr⟩ := registered_own hreg hdep
      have : (Observable.new w stored).1.lookup dep = w.lookup dep := rfl
      rw [this, hr]
      rfl)
  have hnew2 : (Observable.new w stored).2 = w.heap.length := rfl
  rw [hnew2, heq] at hwf
  have hstate : w1._state = w._state := hgrown.state
  have hlook : ∀ key, w1.lookup key = w.lookup key := fun key => by
    simp [World.lookup, hstate]
  refine ⟨w1, by simp only [Store.subscribePersisting, hnew2, heq], ?_, ?_, hstate,
    hgrown.inherited, ?_, ?_⟩
  · exact
      { wf := hwf
        deps := fun dep hd => by
          obtain ⟨r, hr⟩ := registered_own hreg hd
          exact ⟨r, by rw [hlook]; exact hr, Nat.ne_of_lt (lookup_own_lt hw hr)⟩
        only := fun r ob hob htarget => by
          rcases hgrown.added r ob hob with h | ⟨⟨id, he, _, _⟩, _⟩
          · rw [observers_new] at h
            have hwired := wellFormed_wired hw h
            cases ob with
            | callback id => simp [Observer.target] at htarget
            | recompute id deps' f' t =>
              simp only [Observer.target, Option.some.injEq] at htarget
              subst htarget
              have := (wired_recompute hwired).2.1
              omega
          · exact ⟨id, he⟩ }
  · intro dep hd r hl
    rw [hlook] at hl
    exact hattached dep hd r hl
  · intro r hr
    have h2 : valueAt w1 r = valueAt (Observable.new w stored).1 r := hgrown.values r
    rw [h2, valueAt_new_old w _ hr]
  · intro r ob hob
    exact hgrown.old r ob (by rw [observers_new]; exact hob)

theorem registered_congr {w w' : World} (hs : w'._state = w._state) (keys : List String) :
    w'.registered keys = w.registered keys := by
  simp [World.registered, World.lookup, hs]

theorem registered_sublist {w : World} {keys keys' : List String}
    (h : w.registered keys = true) (hsub : ∀ k ∈ keys', k ∈ keys) :
    w.registered keys' = true := by
  simp only [World.registered, List.all_eq_true] at h ⊢
  exact fun k hk => h k (hsub k hk)

theorem besides_of_registered {w : World} {keys : List String} {d : Nat}
    (hreg : w.registered keys = true)
    (hun : ∀ key r, w.lookup key = some (.own r) → r ≠ d) {c : StoreCall}
    (hc : c.onDependencies keys) : c.besides w d := by
  cases c with
  | setState k v =>
    obtain ⟨r, hr⟩ := registered_own hreg hc
    exact ⟨r, hr, hun k r hr⟩
  | updateState k u =>
    obtain ⟨r, hr⟩ := registered_own hreg hc
    exact ⟨r, hr, hun k r hr⟩
  | subscribe k fn => trivial

theorem run_length (w : World) (c : StoreCall) (hw : w.wellFormed = true)
    (hreg : ∀ k, (∃ v, c = .setState k v) ∨ (∃ u, c = .updateState k u) →
      ∃ r, w.lookup k = some (.own r)) :
    (c.run w).heap.length = w.heap.length := by
  cases c with
  | setState k v =>
    obtain ⟨r, hl⟩ := hreg k (Or.inl ⟨v, rfl⟩)
    obtain ⟨o, hr⟩ := get_of_lt (lookup_own_lt hw hl)
    simp only [StoreCall.run, setState_own v hl, Observable.setValue, Observable.assignValue,
      hr]
    exact (store_notify hw hr v o._value).2.1.length
  | updateState k u =>
    obtain ⟨r, hl⟩ := hreg k (Or.inr ⟨u, rfl⟩)
    obtain ⟨o, hr⟩ := get_of_lt (lookup_own_lt hw hl)
    simp only [StoreCall.run, updateState_own u hl]
    rcases update_cases u hr with h | ⟨merged, old, h⟩
    · rw [h]
    · rw [h]
      exact (store_notify hw hr merged old).2.1.length
  | subscribe k fn =>
    simp only [StoreCall.run]
    rcases store_subscribe_cases w k fn with h | ⟨r, o, _, h⟩
    · rw [h]
    · rw [h]
      simp [World.store]

/-- A write to a registered key, or a subscription, keeps the store persisting. -/
theorem Persisting.afterCall {w : World} {d : Nat} {keys slices : List String}
    {f : List JSValue → JSValue} (h : Persisting w d keys slices f) (c : StoreCall)
    (hc : c.onDependencies keys) :
    Persisting (c.run w) d keys slices f ∧
      (Consistent w d slices f → Consistent (c.run w) d slices f) := by
  obtain ⟨hs, hd, ha, hkeep⟩ := run_keeps_current h.fed h.attached c
    (besides_of_registered h.registered h.unbound hc)
  refine ⟨⟨hd, ha, by rw [registered_congr hs]; exact h.registered, h.slices_sub, ?_, ?_⟩,
    hkeep⟩
  · intro key r hl
    exact h.unbound key r (by simpa [World.lookup, hs] using hl)
  · rw [run_length w c h.fed.wf (fun k hk => by
      rcases hk with ⟨v, rfl⟩ | ⟨u, rfl⟩
      · exact registered_own h.registered hc
      · exact registered_own h.registered hc)]
    exact h.inHeap

/-- A derived state created for a key outside `keys` keeps the store persisting, and
leaves the entry and the slices as they are. -/
theorem Persisting.afterDerive {w : World} {d : Nat} {keys slices : List String}
    {f : List JSValue → JSValue} (h : Persisting w d keys slices f) (key : String)
    (deps : List String) (g : List JSValue → JSValue) (hkey : key ∉ keys)
    (hreg : w.registered deps = true) :
    Persisting (Store.createDerivedState w key deps g).2 d keys slices f ∧
      (Consistent w d slices f →
        Consistent (Store.createDerivedState w key deps g).2 d slices f) := by
  obtain ⟨args, unsubs, hargs, _, hcr⟩ := createDerivedState_created key g h.fed.wf hreg
  have hne : ∀ k ∈ keys, k ≠ key := fun k hk heq => hkey (heq ▸ hk)
  have hnes : ∀ k ∈ slices, k ≠ key := fun k hk => hne k (h.slices_sub k hk)
  refine ⟨⟨?_, ?_, ?_, h.slices_sub, ?_, ?_⟩, ?_⟩
  · exact
      { wf := hcr.wf_after h.fed.wf hreg
        deps := fun dep hd => by
          obtain ⟨r, hr, hrd⟩ := h.fed.deps dep hd
          exact ⟨r, by rw [hcr.lookup_ne (hnes dep hd)]; exact hr, hrd⟩
        only := fun r ob hob htarget => by
          rcases hcr.added r ob hob with hold | ⟨⟨id, he, _, _⟩, _⟩
          · exact h.fed.only r ob hold htarget
          · subst he
            simp only [Observer.target, Option.some.injEq] at htarget
            have := h.inHeap
            omega }
  · intro dep hd r hl
    rw [hcr.lookup_ne (hnes dep hd)] at hl
    obtain ⟨id, hid⟩ := h.attached dep hd r hl
    exact ⟨id, hcr.old r _ hid⟩
  · have hreg0 := h.registered
    simp only [World.registered, List.all_eq_true] at hreg0 ⊢
    intro k hk
    rw [hcr.lookup_ne (hne k hk)]
    exact hreg0 k hk
  · intro k r hl
    by_cases hk : k = key
    · subst hk
      rw [hcr.lookup_key] at hl
      injection hl with hl
      injection hl with hl
      have := h.inHeap
      omega
    · rw [hcr.lookup_ne hk] at hl
      exact h.unbound k r hl
  · rw [hcr.length]
    exact Nat.lt_succ_of_lt h.inHeap
  · rintro ⟨vals, hvals, hval⟩
    refine ⟨vals, ?_, ?_⟩
    · rw [getValues_eq_of_lookup hcr.inherited slices
        (fun dep hd => hcr.lookup_ne (hnes dep hd))
        (fun dep hd r hl => hcr.values r (lookup_own_lt h.fed.wf hl))]
      exact hvals
    · rw [hcr.values d h.inHeap]
      exact hval

/-- Every world reached later is persisting, and an entry that followed the state still
does. -/
theorem Persisting.later {w w' : World} {d : Nat} {keys slices : List String}
    {f : List JSValue → JSValue} (h : Persisting w d keys slices f)
    (hl : Later keys w w') :
    Persisting w' d keys slices f ∧
      (Consistent w d slices f → Consistent w' d slices f) := by
  induction hl with
  | same => exact ⟨h, fun hc => hc⟩
  | call c _ hc ih =>
    obtain ⟨h1, k1⟩ := ih
    obtain ⟨h2, k2⟩ := h1.afterCall c hc
    exact ⟨h2, fun hc0 => k2 (k1 hc0)⟩
  | derive key deps g _ hkey hreg ih =>
    obtain ⟨h1, k1⟩ := ih
    obtain ⟨h2, k2⟩ := h1.afterDerive key deps g hkey hreg
    exact ⟨h2, fun hc0 => k2 (k1 hc0)⟩

/-- A call of `updateLessonProgress` that returns normally on a persisting progress store
leaves the entry holding `entryOf` of the current values, when `lessonProgress` is one of
the slices. -/
theorem persisted_after_lesson {w : World} {d : Nat} {slices : List String}
    {f : List JSValue → JSValue} (h : Persisting w d progressKeys slices f)
    (hslice : "lessonProgress" ∈ slices)
    (page : Page) (hpage : page.stateManager.progressStore = w)
    (clock : Clock) (courseId lessonId : String) (progressUpdate : JSValue)
    (hok : (StateManager.updateLessonProgress page clock courseId lessonId
      progressUpdate).1 = .ok ()) :
    Consistent (StateManager.updateLessonProgress page clock courseId lessonId
      progressUpdate).2.stateManager.progressStore d slices f := by
  obtain ⟨updates, calls, hfirst, hcalls, hrun⟩ :=
    updateLessonProgress_writes page clock courseId lessonId progressUpdate hok
  rw [hrun, hpage]
  rw [hpage] at hfirst
  have hc1 : Consistent (StoreCall.run w (.updateState "lessonProgress" updates))
      d slices f :=
    write_makes_current h.fed h.attached _ ⟨hslice, hfirst⟩
  obtain ⟨h2, _⟩ := h.afterCall (.updateState "lessonProgress" updates)
    (by simp [StoreCall.onDependencies, progressKeys])
  have hrest : ∀ (calls : List StoreCall) (w1 : World),
      Persisting w1 d progressKeys slices f → (∀ c ∈ calls, c.onDependencies progressKeys) →
      Consistent w1 d slices f → Consistent (runCalls w1 calls) d slices f := by
    intro calls
    induction calls with
    | nil => exact fun _ _ _ hc => hc
    | cons c rest ih =>
      intro w1 hp hall hc
      obtain ⟨hp1, hk1⟩ := hp.afterCall c (hall c (List.mem_cons_self _ _))
      exact ih (c.run w1) hp1 (fun c' hc' => hall c' (List.mem_cons_of_mem _ hc')) (hk1 hc)
  exact hrest calls _ h2 hcalls hc1

/-- The subscriptions make the store persisting. -/
theorem subscribePersisting_persisting {w : World} {keys : List String}
    (slices : List String) (f : List JSValue → JSValue) (stored : JSValue) (hw : w.wellFormed = true)
    (hreg : w.registered keys = true) (hsub : ∀ k ∈ slices, k ∈ keys) :
    ∃ w1, Store.subscribePersisting w slices f stored = (.ok w.heap.length, w1) ∧
      Persisting w1 w.heap.length keys slices f ∧
      valueAt w1 w.heap.length = some stored := by
  obtain ⟨w1, hs, hfed, hatt, hst, _, _, _⟩ :=
    subscribePersisting_spec f stored hw (registered_sublist hreg hsub)
  have hlen : w1.heap.length = w.heap.length + 1 := by
    have hnew2 : (Observable.new w stored).2 = w.heap.length := rfl
    have hg := subscribeDependencies_grown slices f w.heap.length slices
      (Observable.new w stored).1 (by
        intro dep hd
        obtain ⟨r, hr⟩ := registered_own (registered_sublist hreg hsub) hd
        have hlt := lookup_own_lt hw hr
        refine ⟨r, w.heap[r], hr, ?_⟩
        simp [Observable.new, List.getElem?_append_left hlt, List.getElem?_eq_getElem hlt])
    obtain ⟨unsubs, w2, heq, hgrown, _⟩ := hg
    have hw2 : w1 = w2 := by
      simp only [Store.subscribePersisting, hnew2, heq] at hs
      injection hs with _ hs2
      exact hs2.symm
    rw [hw2, hgrown.length]
    simp [Observable.new]
  have hval : valueAt w1 w.heap.length = some stored := by
    have hg := subscribeDependencies_grown slices f w.heap.length slices
      (Observable.new w stored).1 (by
        intro dep hd
        obtain ⟨r, hr⟩ := registered_own (registered_sublist hreg hsub) hd
        have hlt := lookup_own_lt hw hr
        refine ⟨r, w.heap[r], hr, ?_⟩
        simp [Observable.new, List.getElem?_append_left hlt, List.getElem?_eq_getElem hlt])
    obtain ⟨unsubs, w2, heq, hgrown, _⟩ := hg
    have hnew2 : (Observable.new w stored).2 = w.heap.length := rfl
    have hw2 : w1 = w2 := by
      simp only [Store.subscribePersisting, hnew2, heq] at hs
      injection hs with _ hs2
      exact hs2.symm
    rw [hw2]
    have h2 : valueAt w2 w.heap.length = valueAt (Observable.new w stored).1 w.heap.length :=
      hgrown.values _
    rw [h2, valueAt_new_self]
  refine ⟨w1, hs, ⟨hfed, hatt, by rw [registered_congr hst]; exact hreg, hsub, ?_, ?_⟩, hval⟩
  · intro key r hl
    have hl' : w.lookup key = some (.own r) := by simpa [World.lookup, hst] using hl
    exact Nat.ne_of_lt (lookup_own_lt hw hl')
  · rw [hlen]
    exact Nat.lt_succ_self _

/-- C23: for every StateManager whose user store and progress store are well-formed with
their keys registered, every `JSON.stringify` and every content of `localStorage`, the
subscriptions of `_setupPersistence` return normally and leave the two entries as they
were stored; and in every state that the stores reach later by writes to their keys,
subscriptions of functions and derived states for other keys: every `setState` or
`updateState` of `preferences` that returns normally leaves the entry
`cooper_user_preferences` holding the serialisation of the current preferences; every
`setState` or `updateState` of `courseProgress`, `lessonProgress` or `achievements` that
returns normally leaves the entry `cooper_progress` holding the serialisation of the record
of the current values of the three; and so does every call of `updateLessonProgress` that
returns normally. -/
theorem persisted_entries_follow_state (this : StateManager)
    (stringify : JSValue → String) (stored : StoredEntries)
    (hu : this.userStore.wellFormed = true)
    (hur : this.userStore.registered userKeys = true)
    (hp : this.progressStore.wellFormed = true)
    (hpr : this.progressStore.registered progressKeys = true) :
    ∃ this1, StateManager.subscribePersistence stringify stored this =
        (.ok (this.userStore.heap.length, this.progressStore.heap.length), this1) ∧
      valueAt this1.userStore this.userStore.heap.length =
        some (storedValue stored.preferences) ∧
      valueAt this1.progressStore this.progressStore.heap.length =
        some (storedValue stored.progress) ∧
      (∀ (w : World) (c : StoreCall), Later userKeys this1.userStore w →
        c.writes w ["preferences"] →
        Persisted (c.run w) this.userStore.heap.length
          ["preferences"] (persistedPreferences stringify)) ∧
      (∀ (w : World) (c : StoreCall), Later progressKeys this1.progressStore w →
        c.writes w progressSlices →
        Persisted (c.run w) this.progressStore.heap.length progressSlices
          (persistedProgress stringify)) ∧
      (∀ (page : Page) (clock : Clock) (courseId lessonId : String)
        (progressUpdate : JSValue),
        Later progressKeys this1.progressStore page.stateManager.progressStore →
        (StateManager.updateLessonProgress page clock courseId lessonId
          progressUpdate).1 = .ok () →
        Persisted (StateManager.updateLessonProgress page clock courseId lessonId
          progressUpdate).2.stateManager.progressStore
          this.progressStore.heap.length progressSlices (persistedProgress stringify)) := by
  obtain ⟨u1, hsu, hpu, hvu⟩ := subscribePersisting_persisting ["preferences"]
    (persistedPreferences stringify) (storedValue stored.preferences) hu hur
    (by simp [userKeys])
  obtain ⟨p1, hsp, hpp, hvp⟩ := subscribePersisting_persisting progressSlices
    (persistedProgress stringify) (storedValue stored.progress) hp hpr
    (by simp [progressSlices, progressKeys])
  refine ⟨{ this with userStore := u1, progressStore := p1 }, ?_, hvu, hvp, ?_, ?_, ?_⟩
  · simp only [StateManager.subscribePersistence, hsu, hsp]
  · intro w c hl hc
    obtain ⟨h1, _⟩ := hpu.later hl
    exact write_makes_current h1.fed h1.attached c hc
  · intro w c hl hc
    obtain ⟨h1, _⟩ := hpp.later hl
    exact write_makes_current h1.fed h1.attached c hc
  · intro page clock courseId lessonId progressUpdate hl hok
    obtain ⟨h1, _⟩ := hpp.later hl
    exact persisted_after_lesson h1 (by simp [progressSlices]) page rfl clock courseId
      lessonId progressUpdate hok

/-- Witness for C23: on new stores with an empty `localStorage`, after the subscriptions a
`setState` of `achievements` leaves the progress entry at the snapshot with one
achievement, a `setState` of `preferences` leaves the preferences entry at the new
preferences, and a call of `updateLessonProgress` leaves the progress entry at the snapshot
with one lesson entry and one course entry. -/
theorem persisted_entries_follow_state_witness :
    (StateManager.newStores.userStore.wellFormed = true ∧
      StateManager.newStores.userStore.registered userKeys = true ∧
      StateManager.newStores.progressStore.wellFormed = true ∧
      StateManager.newStores.progressStore.registered progressKeys = true) ∧
    (∃ this1, StateManager.subscribePersistence exampleStringify ⟨none, none⟩
        StateManager.newStores =
        (.ok (StateManager.newStores.userStore.heap.length,
          StateManager.newStores.progressStore.heap.length), this1) ∧
      valueAt this1.userStore StateManager.newStores.userStore.heap.length =
        some (storedValue none) ∧
      valueAt this1.progressStore StateManager.newStores.progressStore.heap.length =
        some (storedValue none) ∧
      (∀ (w : World) (c : StoreCall), Later userKeys this1.userStore w →
        c.writes w ["preferences"] →
        Persisted (c.run w) StateManager.newStores.userStore.heap.length
          ["preferences"] (persistedPreferences exampleStringify)) ∧
      (∀ (w : World) (c : StoreCall), Later progressKeys this1.progressStore w →
        c.writes w progressSlices →
        Persisted (c.run w) StateManager.newStores.progressStore.heap.length progressSlices
          (persistedProgress exampleStringify)) ∧
      (∀ (page : Page) (clock : Clock) (courseId lessonId : String)
        (progressUpdate : JSValue),
        Later progressKeys this1.progressStore page.stateManager.progressStore →
        (StateManager.updateLessonProgress page clock courseId lessonId
          progressUpdate).1 = .ok () →
        Persisted (StateManager.updateLessonProgress page clock courseId lessonId
          progressUpdate).2.stateManager.progressStore
          StateManager.newStores.progressStore.heap.length progressSlices
          (persistedProgress exampleStringify))) ∧
    valueAt persistingStores.progressStore 4 = some .null ∧
    valueAt (Store.setState persistingStores.progressStore "achievements"
      (.array [.string "ach-streak-3"])).2 4 = some (.string "progress 0 0 1") ∧
    valueAt (Store.setState persistingStores.userStore "preferences"
      (.object [("theme", .string "dark")])).2 3 = some (.string "record theme") ∧
    valueAt (StateManager.updateLessonProgress persistingPage exampleClock "c" "10"
      (.object [("completed", .boolean true)])).2.stateManager.progressStore 4 =
      some (.string "progress 1 1 0") :=
  ⟨⟨rfl, rfl, rfl, rfl⟩,
    persisted_entries_follow_state StateManager.newStores exampleStringify ⟨none, none⟩
      rfl rfl rfl rfl,
    rfl, rfl, rfl, by with_unfolding_all rfl⟩

/-! ## Changing what a compute function reads -/

theorem reading_target (d : Nat) (f : List JSValue → JSValue) (ob : Observer) :
    (Observer.reading d f ob).target = ob.target := by
  cases ob with
  | callback id => rfl
  | recompute id deps g t =>
    simp only [Observer.reading]
    split_ifs <;> rfl

theorem observers_reading (w : World) (d : Nat) (f : List JSValue → JSValue) (r : Nat) :
    (w.reading d f).observers r = (w.observers r).map (Observer.reading d f) := by
  unfold World.observers World.reading
  simp only [List.getElem?_map]
  cases w.heap[r]? <;> simp

theorem valueAt_reading (w : World) (d : Nat) (f : List JSValue → JSValue) (r : Nat) :
    valueAt (w.reading d f) r = valueAt w r := by
  unfold valueAt World.reading
  simp only [List.getElem?_map]
  cases w.heap[r]? <;> simp

theorem wired_reading (w : World) (d : Nat) (f : List JSValue → JSValue) (r : Nat)
    (ob : Observer) :
    Observer.wired (w.reading d f) r (Observer.reading d f ob) = Observer.wired w r ob := by
  cases ob with
  | callback id => rfl
  | recompute id deps g t =>
    simp only [Observer.reading]
    split_ifs <;> simp [Observer.wired, World.reading, World.lookup]

theorem wellFormed_reading {w : World} (hw : w.wellFormed = true) (d : Nat)
    (f : List JSValue → JSValue) : (w.reading d f).wellFormed = true := by
  rw [wellFormed_iff] at hw ⊢
  obtain ⟨h1, h2⟩ := hw
  refine ⟨fun p hp => ?_, fun r ob hob => ?_⟩
  · have := h1 p hp
    simpa [World.reading] using this
  · rw [observers_reading] at hob
    obtain ⟨ob0, hob0, rfl⟩ := List.mem_map.mp hob
    rw [wired_reading]
    exact h2 r ob0 hob0

theorem fed_reading {w : World} {d : Nat} {deps : List String}
    {g : List JSValue → JSValue} (h : Fed w d deps g) (f : List JSValue → JSValue) :
    Fed (w.reading d f) d deps f :=
  { wf := wellFormed_reading h.wf d f
    deps := h.deps
    only := fun r ob hob htarget => by
      rw [observers_reading] at hob
      obtain ⟨ob0, hob0, rfl⟩ := List.mem_map.mp hob
      rw [reading_target] at htarget
      obtain ⟨id, rfl⟩ := h.only r ob0 hob0 htarget
      exact ⟨id, by simp [Observer.reading]⟩ }

theorem attached_reading {w : World} {d : Nat} {deps : List String}
    {g : List JSValue → JSValue} (h : Attached w d deps g) (f : List JSValue → JSValue) :
    Attached (w.reading d f) d deps f := by
  intro dep hd r hl
  obtain ⟨id, hid⟩ := h dep hd r hl
  refine ⟨id, ?_⟩
  rw [observers_reading]
  exact List.mem_map.mpr ⟨_, hid, by simp [Observer.reading]⟩

theorem getValue_reading (w : World) (d : Nat) (f : List JSValue → JSValue) (key : String) :
    Store.getValue (w.reading d f) key = Store.getValue w key :=
  @getValue_eq_of_agree w (w.reading d f) key rfl rfl (fun r _ => valueAt_reading w d f r)

theorem getValues_reading (w : World) (d : Nat) (f : List JSValue → JSValue)
    (keys : List String) :
    Store.getValues (w.reading d f) keys = Store.getValues w keys :=
  @getValues_eq_of_agree w (w.reading d f) rfl rfl keys
    (fun _ _ r _ => valueAt_reading w d f r)

theorem consistent_reading {w : World} {d : Nat} {deps : List String}
    {h : List JSValue → JSValue} (hc : Consistent w d deps h) (f : List JSValue → JSValue) :
    Consistent (w.reading d f) d deps h := by
  obtain ⟨args, hargs, hval⟩ := hc
  exact ⟨args, by rw [getValues_reading]; exact hargs, by rw [valueAt_reading]; exact hval⟩

/-! ## The progress methods leave the course store alone -/

theorem checkStreakAchievements_courseStore (page : Page) (currentStreak : JSValue) :
    (StateManager._checkStreakAchievements page currentStreak).2.stateManager.courseStore =
      page.stateManager.courseStore := by
  unfold StateManager._checkStreakAchievements
  cases streakMilestones.find? (fun m => currentStreak.isNumber m) with
  | none => rfl
  | some milestone =>
    simp only
    split_ifs
    · rfl
    · cases Store.getValue page.stateManager.progressStore "achievements" with
      | error e => rfl
      | ok currentAchievements =>
        simp only
        cases currentAchievements.includes ("ach-streak-" ++ toString milestone) with
        | error e => rfl
        | ok found =>
          cases found with
          | true => rfl
          | false =>
            simp only
            cases currentAchievements.elements with
            | error e => rfl
            | ok items =>
              simp only
              generalize Store.setState page.stateManager.progressStore "achievements"
                (.array (items ++ [.string ("ach-streak-" ++ toString milestone)])) = result
              obtain ⟨res, ps⟩ := result
              cases res <;> rfl

theorem checkCourseCompletionAchievements_courseStore (page : Page) (courseId : String) :
    (StateManager._checkCourseCompletionAchievements page
      courseId).2.stateManager.courseStore = page.stateManager.courseStore := by
  unfold StateManager._checkCourseCompletionAchievements
  cases Store.getValue page.stateManager.progressStore "achievements" with
  | error e => rfl
  | ok currentAchievements =>
    simp only
    cases filterArray (isNewCourseAchievement currentAchievements courseId)
        (achievementDefinitions courseId) with
    | error e => rfl
    | ok courseAchievements =>
      simp only
      split_ifs
      · cases currentAchievements.elements with
        | error e => rfl
        | ok items =>
          simp only
          generalize Store.setState page.stateManager.progressStore "achievements"
            (.array (items ++
              (courseAchievements.map (fun achievement => achievement.id)).map
                JSValue.string)) = result
          obtain ⟨res, ps⟩ := result
          cases res <;> rfl
      · rfl

theorem updateStreak_courseStore (page : Page) (clock : Clock) :
    (StateManager._updateStreak page clock).2.stateManager.courseStore =
      page.stateManager.courseStore := by
  unfold StateManager._updateStreak
  cases Store.getValue page.stateManager.progressStore "streaks" with
  | error e => rfl
  | ok currentStreaks =>
    simp only
    cases currentStreaks.field "lastActive" with
    | error e => rfl
    | ok lastActive =>
      simp only
      split_ifs
      · rfl
      · cases updatedStreak clock currentStreaks lastActive with
        | error e => rfl
        | ok updated =>
          simp only
          rcases Store.setState page.stateManager.progressStore "streaks"
            (.object updated) with ⟨res, ps⟩
          cases res with
          | error e => rfl
          | ok u =>
            simp only
            rw [checkStreakAchievements_courseStore]
            rfl

theorem updateCourseProgress_courseStore (page : Page) (clock : Clock) (courseId : String) :
    (StateManager.updateCourseProgress page clock courseId).2.stateManager.courseStore =
      page.stateManager.courseStore := by
  unfold StateManager.updateCourseProgress
  cases Store.getValue page.stateManager.courseStore "courses" with
  | error e => rfl
  | ok coursesValue =>
    cases coursesValue with
    | array courses =>
      simp only
      cases findCourse courseId courses with
      | error e => rfl
      | ok found =>
        cases found with
        | none => rfl
        | some course =>
          simp only
          cases Store.getValue page.stateManager.progressStore "lessonProgress" with
          | error e => rfl
          | ok lessonProgress =>
            simp only
            cases courseProgressUpdate clock courseId course lessonProgress
                (Store.getValue page.stateManager.progressStore "courseProgress") with
            | error e => rfl
            | ok pair =>
              obtain ⟨updates, allLessonsCompleted⟩ := pair
              simp only
              rcases Store.updateState page.stateManager.progressStore "courseProgress"
                updates with ⟨res, ps⟩
              cases res with
              | error e => rfl
              | ok u =>
                simp only
                split_ifs
                · rw [checkCourseCompletionAchievements_courseStore]
                  rfl
                · rfl
    | _ => rfl

theorem updateLessonProgress_courseStore (page : Page) (clock : Clock)
    (courseId lessonId : String) (progressUpdate : JSValue) :
    (StateManager.updateLessonProgress page clock courseId lessonId
      progressUpdate).2.stateManager.courseStore = page.stateManager.courseStore := by
  unfold StateManager.updateLessonProgress
  cases Store.getValue page.stateManager.progressStore "lessonProgress" with
  | error e => rfl
  | ok lessonProgress =>
    simp only
    cases lessonProgress.member lessonId with
    | error e => rfl
    | ok member =>
      simp only
      rcases Store.updateState page.stateManager.progressStore "lessonProgress"
        (.object [(lessonId, .object (spread (spreadOrEmpty member) progressUpdate))])
        with ⟨res, ps⟩
      cases res with
      | error e => rfl
      | ok u =>
        simp only
        cases progressUpdate.field "completed" with
        | error e => rfl
        | ok completed =>
          simp only
          have hmid : (if completed.truthy = true then
              StateManager.updateCourseProgress (page.withProgressStore ps) clock courseId
            else (.ok (), page.withProgressStore ps)).2.stateManager.courseStore =
              page.stateManager.courseStore := by
            split_ifs
            · rw [updateCourseProgress_courseStore]
              rfl
            · rfl
          rcases hres : (if completed.truthy = true then
              StateManager.updateCourseProgress (page.withProgressStore ps) clock courseId
            else (.ok (), page.withProgressStore ps)) with ⟨res2, page2⟩
          rw [hres] at hmid
          cases res2 with
          | error e => exact hmid
          | ok u2 =>
            simp only
            rw [updateStreak_courseStore]
            exact hmid

/-- What `updateLessonProgress` does to the progress store is a sequence of writes to the
progress keys, whether it returns normally or throws on the way. -/
theorem updateLessonProgress_calls (page : Page) (clock : Clock)
    (courseId lessonId : String) (progressUpdate : JSValue) :
    ∃ calls : List StoreCall, (∀ c ∈ calls, c.onDependencies progressKeys) ∧
      (StateManager.updateLessonProgress page clock courseId lessonId
        progressUpdate).2.stateManager.progressStore =
        runCalls page.stateManager.progressStore calls := by
  unfold StateManager.updateLessonProgress
  cases Store.getValue page.stateManager.progressStore "lessonProgress" with
  | error e => exact ⟨[], by simp, rfl⟩
  | ok lessonProgress =>
    simp only
    cases lessonProgress.member lessonId with
    | error e => exact ⟨[], by simp, rfl⟩
    | ok member =>
      simp only
      have hfirst : (StoreCall.updateState "lessonProgress" (.object [(lessonId,
          .object (spread (spreadOrEmpty member) progressUpdate))])).onDependencies
          progressKeys := by
        simp [StoreCall.onDependencies, progressKeys]
      rcases hs : Store.updateState page.stateManager.progressStore "lessonProgress"
        (.object [(lessonId, .object (spread (spreadOrEmpty member) progressUpdate))])
        with ⟨res, ps⟩
      have hps : ps = runCalls page.stateManager.progressStore
          [.updateState "lessonProgress" (.object [(lessonId,
            .object (spread (spreadOrEmpty member) progressUpdate))])] := by
        simp [runCalls, StoreCall.run, hs]
      have hone : ∀ c ∈ [StoreCall.updateState "lessonProgress" (.object [(lessonId,
          .object (spread (spreadOrEmpty member) progressUpdate))])],
          c.onDependencies progressKeys := by
        intro c hc
        simp only [List.mem_singleton] at hc
        subst hc
        exact hfirst
      cases res with
      | error e => exact ⟨_, hone, hps⟩
      | ok u =>
        simp only
        cases progressUpdate.field "completed" with
        | error e => exact ⟨_, hone, hps⟩
        | ok completed =>
          simp only
          have hmid : ∃ calls : List StoreCall,
              (∀ c ∈ calls, c.onDependencies progressKeys) ∧
              (if completed.truthy = true then
                StateManager.updateCourseProgress (page.withProgressStore ps) clock courseId
              else (.ok (), page.withProgressStore ps)).2.stateManager.progressStore =
                runCalls ps calls := by
            split_ifs
            · exact updateCourseProgress_writes (page.withProgressStore ps) clock courseId
            · exact ⟨[], by simp, rfl⟩
          obtain ⟨calls1, hcalls1, hrun1⟩ := hmid
          rcases hres : (if completed.truthy = true then
              StateManager.updateCourseProgress (page.withProgressStore ps) clock courseId
            else (.ok (), page.withProgressStore ps)) with ⟨res2, page2⟩
          rw [hres] at hrun1
          simp only at hrun1
          have hjoin : ∀ (more : List StoreCall) (w : World), w = runCalls ps more →
              (∀ c ∈ more, c.onDependencies progressKeys) →
              ∃ calls : List StoreCall, (∀ c ∈ calls, c.onDependencies progressKeys) ∧
                w = runCalls page.stateManager.progressStore calls := by
            intro more w hw hmore
            refine ⟨StoreCall.updateState "lessonProgress" (.object [(lessonId,
              .object (spread (spreadOrEmpty member) progressUpdate))]) :: more, ?_, ?_⟩
            · intro c hc
              rcases List.mem_cons.mp hc with rfl | hc
              · exact hfirst
              · exact hmore c hc
            · rw [hw, hps]
              rfl
          cases res2 with
          | error e => exact hjoin calls1 _ hrun1 hcalls1
          | ok u2 =>
            simp only
            obtain ⟨calls2, hcalls2, hrun2⟩ := updateStreak_writes page2 clock
            refine hjoin (calls1 ++ calls2) _ ?_ ?_
            · rw [hrun2, hrun1, runCalls_append]
            · intro c hc
              rcases List.mem_append.mp hc with h | h
              · exact hcalls1 c h
              · exact hcalls2 c h

/-! ## overallProgress and the course list -/

/-- Storing a value at an Observable other than `d` and notifying, when `d` holds
`g` of the values read: afterwards `d` holds `computeFn` of the values read, or still `g`
of them. -/
theorem notify_tracks {w : World} {d : Nat} {deps : List String}
    {f g : List JSValue → JSValue} (hd : Fed w d deps f) (ha : Attached w d deps f)
    {r : Nat} {o : Observable} (hr : w.heap[r]? = some o) (hrd : r ≠ d)
    (merged old : JSValue) (hc : Consistent w d deps g) :
    Consistent (Observable._notifyObservers w.heap.length
        (w.store r { o with _value := merged }) r merged old).2 d deps f ∨
      Consistent (Observable._notifyObservers w.heap.length
        (w.store r { o with _value := merged }) r merged old).2 d deps g := by
  obtain ⟨hok, hsame, _⟩ := store_notify hd.wf hr merged old
  have hsw := sameWiring_store_value merged hr
  obtain ⟨hinner, hweak, hstrong⟩ := notifyObservers_current hd ha w.heap.length
    (w.store r { o with _value := merged }) r merged old hsw hok
  by_cases hrel : ∃ dep ∈ deps, w.lookup dep = some (.own r)
  · obtain ⟨dep, hdep, hl⟩ := hrel
    exact Or.inl (hstrong (ha dep hdep r hl))
  · rcases hweak with h | h
    · exact Or.inl h
    · have hcs : Consistent (w.store r { o with _value := merged }) d deps g := by
        refine hc.of_agree hsw (fun t ht => valueAt_store_other ?_)
        rcases ht with rfl | ht
        · exact fun h => hrd h.symm
        · exact fun h => hrel (h ▸ ht)
      exact Or.inr (hcs.of_agree hinner
        (fun t ht => h t ((relevant_congr hsw.state _ _ t).mp ht)))

/-- A call on the store, when `d` holds `g` of the values read. -/
theorem run_tracks {w : World} {d : Nat} {deps : List String}
    {f g : List JSValue → JSValue} (hd : Fed w d deps f) (ha : Attached w d deps f)
    (c : StoreCall) (hcall : c.besides w d) (hc : Consistent w d deps g) :
    Consistent (c.run w) d deps f ∨ Consistent (c.run w) d deps g := by
  cases c with
  | setState k v =>
    obtain ⟨r, hl, hrd⟩ := hcall
    obtain ⟨o, hr⟩ := get_of_lt (lookup_own_lt hd.wf hl)
    simp only [StoreCall.run, setState_own v hl, Observable.setValue, Observable.assignValue,
      hr]
    exact notify_tracks hd ha hr hrd v o._value hc
  | updateState k u =>
    obtain ⟨r, hl, hrd⟩ := hcall
    obtain ⟨o, hr⟩ := get_of_lt (lookup_own_lt hd.wf hl)
    simp only [StoreCall.run, updateState_own u hl]
    rcases update_cases u hr with h | ⟨merged, old, h⟩
    · rw [h]
      exact Or.inr hc
    · rw [h]
      exact notify_tracks hd ha hr hrd merged old hc
  | subscribe k fn =>
    simp only [StoreCall.run]
    rcases store_subscribe_cases w k fn with h | ⟨r, o, hr, h⟩
    · rw [h]
      exact Or.inr hc
    · rw [h]
      have hlt := lt_of_get hr
      obtain ⟨args, hargs, hval⟩ := hc
      have hv : ∀ t, valueAt (w.store r { o with _observers :=
          o._observers ++ [.callback fn] }) t = valueAt w t := by
        intro t
        by_cases ht : t = r
        · subst ht
          simp [valueAt, store_get_self hlt, hr]
        · exact valueAt_store_other ht
      have hs : (w.store r
          ⟨o._value, o._observers ++ [.callback fn], o.unsubscribeAll⟩)._state =
          w._state := rfl
      have hi : (w.store r
          ⟨o._value, o._observers ++ [.callback fn], o.unsubscribeAll⟩).inheritedValue =
          w.inheritedValue := rfl
      have hg := getValues_eq_of_agree hs hi deps (fun _ _ t _ => hv t)
      exact Or.inr ⟨args, hg.trans hargs, by rw [hv]; exact hval⟩

theorem derives_of_bound {w : World} {key : String} {d : Nat} {deps : List String}
    {f : List JSValue → JSValue} (hb : w.lookup key = some (.own d))
    (hc : Consistent w d deps f) : Derives w key deps f := by
  obtain ⟨args, hargs, hval⟩ := hc
  exact ⟨args, hargs, by rw [getValue_own hb]; exact value_eq_ok_iff.mpr hval⟩

theorem Tracking.besides {page : Page} {d : Nat} (h : Tracking page d) {c : StoreCall}
    (hc : c.onDependencies progressKeys) :
    c.besides page.stateManager.progressStore d := by
  cases c with
  | setState k v =>
    obtain ⟨r, hr⟩ := registered_own h.registered hc
    exact ⟨r, hr, h.apart k hc r hr⟩
  | updateState k u =>
    obtain ⟨r, hr⟩ := registered_own h.registered hc
    exact ⟨r, hr, h.apart k hc r hr⟩
  | subscribe k fn => trivial

/-- A page with the same course store, whose progress store went through a call on the
progress keys. -/
theorem Tracking.afterProgress {page page' : Page} {d : Nat} (h : Tracking page d)
    (c : StoreCall) (hc : c.onDependencies progressKeys)
    (hcourse : page'.stateManager.courseStore = page.stateManager.courseStore)
    (hprogress : page'.stateManager.progressStore = c.run page.stateManager.progressStore)
    (seen : JSValue)
    (hseen : Consistent page.stateManager.progressStore d overallDependencies
      (overallProgress seen)) :
    Tracking page' d ∧
      (Consistent page'.stateManager.progressStore d overallDependencies
          (overallProgress page.courses) ∨
        Consistent page'.stateManager.progressStore d overallDependencies
          (overallProgress seen)) := by
  have hcs : page'.courses = page.courses := by
    unfold Page.courses
    rw [hcourse]
  obtain ⟨hs, hd, ha, _⟩ := run_keeps_current h.fed h.attached c (h.besides hc)
  have hlook : ∀ key, page'.stateManager.progressStore.lookup key =
      page.stateManager.progressStore.lookup key := by
    intro key
    rw [hprogress]
    simp [World.lookup, hs]
  refine ⟨⟨by rw [hcs, hprogress]; exact hd, by rw [hcs, hprogress]; exact ha,
    by rw [hlook]; exact h.bound, ?_, ?_⟩, ?_⟩
  · rw [hprogress, registered_congr hs]
    exact h.registered
  · intro k hk r hl
    rw [hlook] at hl
    exact h.apart k hk r hl
  · rw [hprogress]
    exact run_tracks h.fed h.attached c (h.besides hc) hseen

/-- A page with the same course store, whose progress store went through calls on the
progress keys. -/
theorem Tracking.afterCalls {d : Nat} : ∀ (calls : List StoreCall) (page page' : Page),
    Tracking page d → (∀ c ∈ calls, c.onDependencies progressKeys) →
    page'.stateManager.courseStore = page.stateManager.courseStore →
    page'.stateManager.progressStore = runCalls page.stateManager.progressStore calls →
    ∀ seen, Consistent page.stateManager.progressStore d overallDependencies
      (overallProgress seen) →
    Tracking page' d ∧
      (Consistent page'.stateManager.progressStore d overallDependencies
          (overallProgress page.courses) ∨
        Consistent page'.stateManager.progressStore d overallDependencies
          (overallProgress seen))
  | [], page, page', h, _, hcourse, hprogress, seen, hseen => by
    have hcs : page'.courses = page.courses := by
      unfold Page.courses
      rw [hcourse]
    have hp : page'.stateManager.progressStore = page.stateManager.progressStore := hprogress
    exact ⟨⟨by rw [hcs, hp]; exact h.fed, by rw [hcs, hp]; exact h.attached,
      by rw [hp]; exact h.bound, by rw [hp]; exact h.registered,
      by rw [hp]; exact h.apart⟩, Or.inr (by rw [hp]; exact hseen)⟩
  | c :: rest, page, page', h, hcalls, hcourse, hprogress, seen, hseen => by
    obtain ⟨h1, hc1⟩ := @Tracking.afterProgress page (page.withProgressStore
      (c.run page.stateManager.progressStore)) d h c (hcalls c (List.mem_cons_self _ _))
      rfl rfl seen hseen
    have hsame : (page.withProgressStore (c.run page.stateManager.progressStore)).courses =
        page.courses := rfl
    rcases hc1 with hc1 | hc1
    · obtain ⟨h2, hc2⟩ := Tracking.afterCalls rest _ page' h1
        (fun c' hc' => hcalls c' (List.mem_cons_of_mem _ hc')) hcourse hprogress
        page.courses hc1
      rw [hsame] at hc2
      exact ⟨h2, Or.inl (hc2.elim id id)⟩
    · obtain ⟨h2, hc2⟩ := Tracking.afterCalls rest _ page' h1
        (fun c' hc' => hcalls c' (List.mem_cons_of_mem _ hc')) hcourse hprogress
        seen hc1
      rw [hsame] at hc2
      exact ⟨h2, hc2⟩

/-- A call on the course store: the progress store keeps every value, and tracks
`overallProgress` with the new course list. -/
theorem Tracking.afterCourse {page : Page} {d : Nat} (h : Tracking page d) (c : StoreCall)
    (seen : JSValue)
    (hseen : Consistent page.stateManager.progressStore d overallDependencies
      (overallProgress seen)) :
    Tracking (ManagerCall.run page (.course c)) d ∧
      Consistent (ManagerCall.run page (.course c)).stateManager.progressStore d
        overallDependencies (overallProgress seen) ∧
      (∀ key, Store.getValue (ManagerCall.run page (.course c)).stateManager.progressStore
        key = Store.getValue page.stateManager.progressStore key) := by
  have hrun : ManagerCall.run page (.course c) =
      Page.withProgressStore
        { page with stateManager :=
            { page.stateManager with courseStore := c.run page.stateManager.courseStore } }
        (page.stateManager.progressStore.reading d (overallProgress
          (Page.courses { page with stateManager :=
            { page.stateManager with
              courseStore := c.run page.stateManager.courseStore } }))) := by
    simp only [ManagerCall.run, Page.rereading, h.bound]
  rw [hrun]
  refine ⟨⟨fed_reading h.fed _, attached_reading h.attached _, h.bound, h.registered,
    h.apart⟩, consistent_reading hseen _, fun key => getValue_reading _ _ _ key⟩

/-- The page after any calls tracks `overallProgress`, which holds the overall-progress
function of the current `courseProgress` and `achievements` and of a course list that the
page held before or holds now. -/
theorem runManager_tracks {d : Nat} : ∀ (calls : List ManagerCall) (page : Page)
    (seen : JSValue), Tracking page d →
    Consistent page.stateManager.progressStore d overallDependencies
      (overallProgress seen) →
    (∀ c ∈ calls, c.onProgressKeys) →
    Tracking (runManager page calls) d ∧
      ∃ seen' ∈ seen :: coursesSeen page calls,
        Consistent (runManager page calls).stateManager.progressStore d overallDependencies
          (overallProgress seen')
  | [], page, seen, h, hseen, _ => ⟨h, seen, List.mem_cons_self _ _, hseen⟩
  | c :: rest, page, seen, h, hseen, hcalls => by
    have hrest : ∀ c' ∈ rest, c'.onProgressKeys :=
      fun c' hc' => hcalls c' (List.mem_cons_of_mem _ hc')
    have hstep : Tracking (c.run page) d ∧
        (Consistent (c.run page).stateManager.progressStore d overallDependencies
            (overallProgress page.courses) ∨
          Consistent (c.run page).stateManager.progressStore d overallDependencies
            (overallProgress seen)) := by
      cases c with
      | course sc =>
        obtain ⟨h1, h2, _⟩ := h.afterCourse sc seen hseen
        exact ⟨h1, Or.inr h2⟩
      | progress sc =>
        exact @Tracking.afterProgress page (ManagerCall.run page (.progress sc)) d h sc
          (hcalls _ (List.mem_cons_self _ _)) rfl rfl seen hseen
      | lesson clock courseId lessonId progressUpdate =>
        obtain ⟨calls, hall, hrun⟩ :=
          updateLessonProgress_calls page clock courseId lessonId progressUpdate
        exact Tracking.afterCalls calls page _ h hall
          (updateLessonProgress_courseStore page clock courseId lessonId progressUpdate)
          hrun seen hseen
    obtain ⟨h1, hc1⟩ := hstep
    have hrun : runManager page (c :: rest) = runManager (c.run page) rest := rfl
    rw [hrun]
    rcases hc1 with hc1 | hc1
    · obtain ⟨h2, seen', hmem, hc2⟩ := runManager_tracks rest (c.run page) page.courses h1
        hc1 hrest
      refine ⟨h2, seen', ?_, hc2⟩
      simp only [coursesSeen, List.mem_cons] at hmem ⊢
      rcases hmem with hmem | hmem
      · exact Or.inr (Or.inl hmem)
      · exact Or.inr (Or.inr hmem)
    · obtain ⟨h2, seen', hmem, hc2⟩ := runManager_tracks rest (c.run page) seen h1
        hc1 hrest
      refine ⟨h2, seen', ?_, hc2⟩
      simp only [coursesSeen, List.mem_cons] at hmem ⊢
      rcases hmem with hmem | hmem
      · exact Or.inl hmem
      · exact Or.inr (Or.inr hmem)

/-- Creating `overallProgress` on a page whose progress store is well-formed with the
progress keys registered: the call returns normally, and the page then tracks
`overallProgress`, which holds the function of the current values and the course list. -/
theorem setupOverallProgress_tracking (page : Page)
    (hw : page.stateManager.progressStore.wellFormed = true)
    (hreg : page.stateManager.progressStore.registered progressKeys = true) :
    (StateManager.setupOverallProgress page).1 =
        .ok page.stateManager.progressStore.heap.length ∧
      Tracking (StateManager.setupOverallProgress page).2
        page.stateManager.progressStore.heap.length ∧
      Consistent (StateManager.setupOverallProgress page).2.stateManager.progressStore
        page.stateManager.progressStore.heap.length overallDependencies
        (overallProgress page.courses) ∧
      (StateManager.setupOverallProgress page).2.courses = page.courses := by
  have hreg' : page.stateManager.progressStore.registered overallDependencies = true :=
    registered_sublist hreg (by simp [overallDependencies, progressKeys])
  obtain ⟨args, unsubs, hargs, hok, hcr⟩ := createDerivedState_created "overallProgress"
    (overallProgress page.courses) hw hreg'
  obtain ⟨hd, ha, hc⟩ := hcr.derived hw hreg' (by simp [overallDependencies]) hargs
  have hne : ∀ k ∈ progressKeys, k ≠ "overallProgress" := by
    intro k hk
    simp only [progressKeys, List.mem_cons, List.mem_singleton, List.not_mem_nil,
      or_false] at hk
    rcases hk with rfl | rfl | rfl | rfl <;> decide
  have hpage : (StateManager.setupOverallProgress page).2 =
      page.withProgressStore (Store.createDerivedState page.stateManager.progressStore
        "overallProgress" overallDependencies (overallProgress page.courses)).2 := rfl
  have hcourses : (StateManager.setupOverallProgress page).2.courses = page.courses := rfl
  refine ⟨hok, ⟨?_, ?_, ?_, ?_, ?_⟩, ?_, hcourses⟩
  · rw [hcourses]
    exact hd.fed
  · rw [hcourses]
    exact ha
  · exact hcr.lookup_key
  · have hreg0 := hreg
    simp only [World.registered, List.all_eq_true] at hreg0 ⊢
    intro k hk
    have := hcr.lookup_ne (hne k hk)
    simp only [hpage, Page.withProgressStore]
    rw [this]
    exact hreg0 k hk
  · intro k hk r hl
    have := hcr.lookup_ne (hne k hk)
    simp only [hpage, Page.withProgressStore] at hl
    rw [this] at hl
    exact Nat.ne_of_lt (lookup_own_lt hw hl)
  · exact hc

/-- On a list of course records whose ids are strings or integers, a record of course
progress and a list of achievements, the compute function gives zeros for no course, and
otherwise the number of courses whose entry is completed, the number of courses, the
percentage of the two, and the number of achievements. -/
theorem overallProgress_typed (items : List JSValue) (courseProgress : Props)
    (unlocked : List JSValue)
    (hitems : ∀ course ∈ items, ∃ props id, course = .object props ∧
      getOwn props "id" = some id ∧ isLessonId id = true) :
    overallProgress (.array items) [.object courseProgress, .array unlocked] =
      if items.length = 0 then noCourses
      else .object [("percentComplete", percentComplete
          (items.filter (fun course =>
            completedIn courseProgress (lessonKey (course.fieldOr "id")))).length
          items.length),
        ("completedCourses", .number (items.filter (fun course =>
          completedIn courseProgress (lessonKey (course.fieldOr "id")))).length),
        ("totalCourses", .number items.length),
        ("achievementCount", .number unlocked.length)] := by
  have hfilter := filterArray_ok (courseCompleted (.object courseProgress))
    (fun course => completedIn courseProgress (lessonKey (course.fieldOr "id"))) items
    (by
      intro course hcourse
      obtain ⟨props, id, rfl, hid, hlesson⟩ := hitems course hcourse
      have hfield : (JSValue.object props).field "id" = .ok id := by
        simp [JSValue.field, JSValue.fieldOr, hid]
      have hor : (JSValue.object props).fieldOr "id" = id := by
        simp [JSValue.fieldOr, hid]
      simp only [courseCompleted, hfield, hor]
      exact lessonCompleted_record courseProgress hlesson)
  by_cases hnil : items = []
  · subst hnil
    simp [overallProgress, overallProgressOf, JSValue.truthy]
  · have hlen : items.length ≠ 0 := fun h => hnil (List.length_eq_zero.mp h)
    simp [overallProgress, overallProgressOf, JSValue.truthy, hfilter, hnil, hlen]

theorem mem_coursesSeen (page : Page) (calls : List ManagerCall) :
    page.courses ∈ coursesSeen page calls := by
  cases calls <;> simp [coursesSeen]

/-- Storing a value at an Observable other than `d` and notifying leaves `d` current or
leaves its value alone. -/
theorem notify_value {w : World} {d : Nat} {deps : List String}
    {f : List JSValue → JSValue} (hd : Fed w d deps f) (ha : Attached w d deps f)
    {r : Nat} {o : Observable} (hr : w.heap[r]? = some o) (hrd : r ≠ d)
    (merged old : JSValue) :
    Consistent (Observable._notifyObservers w.heap.length
        (w.store r { o with _value := merged }) r merged old).2 d deps f ∨
      valueAt (Observable._notifyObservers w.heap.length
        (w.store r { o with _value := merged }) r merged old).2 d = valueAt w d := by
  obtain ⟨hok, _, _⟩ := store_notify hd.wf hr merged old
  have hsw := sameWiring_store_value merged hr
  obtain ⟨_, hweak, _⟩ := notifyObservers_current hd ha w.heap.length
    (w.store r { o with _value := merged }) r merged old hsw hok
  rcases hweak with h | h
  · exact Or.inl h
  · right
    rw [h d (Or.inl rfl)]
    exact valueAt_store_other (Ne.symm hrd)

/-- A call on the store leaves `d` current or leaves its value alone. -/
theorem run_value {w : World} {d : Nat} {deps : List String}
    {f : List JSValue → JSValue} (hd : Fed w d deps f) (ha : Attached w d deps f)
    (c : StoreCall) (hcall : c.besides w d) :
    Consistent (c.run w) d deps f ∨ valueAt (c.run w) d = valueAt w d := by
  cases c with
  | setState k v =>
    obtain ⟨r, hl, hrd⟩ := hcall
    obtain ⟨o, hr⟩ := get_of_lt (lookup_own_lt hd.wf hl)
    simp only [StoreCall.run, setState_own v hl, Observable.setValue, Observable.assignValue,
      hr]
    exact notify_value hd ha hr hrd v o._value
  | updateState k u =>
    obtain ⟨r, hl, hrd⟩ := hcall
    obtain ⟨o, hr⟩ := get_of_lt (lookup_own_lt hd.wf hl)
    simp only [StoreCall.run, updateState_own u hl]
    rcases update_cases u hr with h | ⟨merged, old, h⟩
    · rw [h]
      exact Or.inr rfl
    · rw [h]
      exact notify_value hd ha hr hrd merged old
  | subscribe k fn =>
    simp only [StoreCall.run]
    rcases store_subscribe_cases w k fn with h | ⟨r, o, hr, h⟩
    · rw [h]
      exact Or.inr rfl
    · rw [h]
      right
      have hlt := lt_of_get hr
      by_cases ht : d = r
      · subst ht
        simp [valueAt, store_get_self hlt, hr]
      · exact valueAt_store_other ht
theorem getValues_two {w : World} {a b : String} {args : List JSValue}
    (h : Store.getValues w [a, b] = .ok args) :
    ∃ x y, args = [x, y] ∧ Store.getValue w a = .ok x ∧ Store.getValue w b = .ok y := by
  simp only [Store.getValues] at h
  cases ha : Store.getValue w a with
  | error e => simp [ha] at h
  | ok x =>
    cases hb : Store.getValue w b with
    | error e => simp [ha, hb] at h
    | ok y =>
      simp only [ha, hb] at h
      injection h with h
      exact ⟨x, y, h.symm, rfl, rfl⟩

/-- What the body of the compute function returns is a record, never `undefined`. -/
theorem overallProgressOf_defined {courses courseProgress achievements value : JSValue}
    (h : overallProgressOf courses courseProgress achievements = .ok value) :
    value ≠ .undefined := by
  intro hu
  subst hu
  unfold overallProgressOf at h
  split_ifs at h
  · simp [noCourses] at h
  · split at h
    · split_ifs at h
      · simp [noCourses] at h
      · split at h
        · cases h
        · split at h <;> cases h
    · cases h

/-- Where the derived Observable holds the function of the current values and the course
list `courses`, and its value is not `undefined`, the body of the compute function has
returned that value. -/
theorem overallOf_of_defined {page : Page} {d : Nat} {courses : JSValue}
    (hb : page.stateManager.progressStore.lookup "overallProgress" = some (.own d))
    (hc : Consistent page.stateManager.progressStore d overallDependencies
      (overallProgress courses))
    (hdef : ∀ v, valueAt page.stateManager.progressStore d = some v → v ≠ .undefined) :
    OverallOf page courses := by
  obtain ⟨args, hargs, hval⟩ := hc
  obtain ⟨x, y, rfl, hx, hy⟩ := getValues_two hargs
  have hne := hdef _ hval
  cases hov : overallProgressOf courses x y with
  | error e =>
    exfalso
    apply hne
    simp [overallProgress, hov]
  | ok value =>
    refine ⟨x, y, value, hx, hy, hov, ?_⟩
    rw [getValue_own hb]
    apply value_eq_ok_iff.mpr
    rw [hval]
    simp [overallProgress, hov]

/-- Where the derived Observable holds the function of the current values and the current
course list, and the body of the compute function returns normally on them, the value is
not `undefined`. -/
theorem defined_of_current {page : Page} {d : Nat}
    (hc : Consistent page.stateManager.progressStore d overallDependencies
      (overallProgress page.courses))
    (hcomp : page.computes) :
    ∀ v, valueAt page.stateManager.progressStore d = some v → v ≠ .undefined := by
  intro v hv
  obtain ⟨args, hargs, hval⟩ := hc
  obtain ⟨x, y, rfl, hx, hy⟩ := getValues_two hargs
  obtain ⟨cp, ach, value, hcp, hach, hov⟩ := hcomp
  rw [hx] at hcp
  rw [hy] at hach
  injection hcp with hcp
  injection hach with hach
  subst hcp
  subst hach
  rw [hval] at hv
  injection hv with hv
  subst hv
  simp only [overallProgress, hov]
  exact overallProgressOf_defined hov

theorem computesThroughout_head {page : Page} {calls : List ManagerCall}
    (h : computesThroughout page calls) : page.computes := by
  cases calls with
  | nil => exact h
  | cons c rest => exact h.1
/-- Calls on the progress keys leave the derived Observable current with the course list
of the page, or leave its value alone. -/
theorem calls_value {d : Nat} : ∀ (calls : List StoreCall) (page page' : Page),
    Tracking page d → (∀ c ∈ calls, c.onDependencies progressKeys) →
    page'.stateManager.courseStore = page.stateManager.courseStore →
    page'.stateManager.progressStore = runCalls page.stateManager.progressStore calls →
    ∀ seen, Consistent page.stateManager.progressStore d overallDependencies
      (overallProgress seen) →
    Consistent page'.stateManager.progressStore d overallDependencies
        (overallProgress page.courses) ∨
      valueAt page'.stateManager.progressStore d = valueAt page.stateManager.progressStore d
  | [], page, page', _, _, _, hprogress, _, _ => by
    have hp : page'.stateManager.progressStore = page.stateManager.progressStore := hprogress
    exact Or.inr (by rw [hp])
  | c :: rest, page, page', h, hcalls, hcourse, hprogress, seen, hseen => by
    have hc := hcalls c (List.mem_cons_self _ _)
    have hrest : ∀ c' ∈ rest, c'.onDependencies progressKeys :=
      fun c' hc' => hcalls c' (List.mem_cons_of_mem _ hc')
    have hsame : (page.withProgressStore (c.run page.stateManager.progressStore)).courses =
        page.courses := rfl
    obtain ⟨h1, hc1⟩ := @Tracking.afterProgress page (page.withProgressStore
      (c.run page.stateManager.progressStore)) d h c hc rfl rfl seen hseen
    rcases run_value h.fed h.attached c (h.besides hc) with hcur | hval
    · obtain ⟨_, hc2⟩ := Tracking.afterCalls rest _ page' h1 hrest hcourse hprogress
        page.courses hcur
      rw [hsame] at hc2
      exact Or.inl (hc2.elim id id)
    · have hstep : ∀ seen1, Consistent (page.withProgressStore
          (c.run page.stateManager.progressStore)).stateManager.progressStore d
          overallDependencies (overallProgress seen1) →
          Consistent page'.stateManager.progressStore d overallDependencies
            (overallProgress page.courses) ∨
          valueAt page'.stateManager.progressStore d =
            valueAt page.stateManager.progressStore d := by
        intro seen1 hseen1
        rcases calls_value rest _ page' h1 hrest hcourse hprogress seen1 hseen1 with hA | hU
        · rw [hsame] at hA
          exact Or.inl hA
        · exact Or.inr (hU.trans hval)
      rcases hc1 with hc1 | hc1
      · exact hstep _ hc1
      · exact hstep _ hc1

/-- One call of a caller: the page keeps tracking `overallProgress`, which holds the
function of the current course list or of the list `seen` as before; and the derived
Observable is current with the course list of the page after the call, or its value is
left alone. -/
theorem Tracking.afterManagerCall {page : Page} {d : Nat} (h : Tracking page d) (c : ManagerCall)
    (hc : c.onProgressKeys) (seen : JSValue)
    (hseen : Consistent page.stateManager.progressStore d overallDependencies
      (overallProgress seen)) :
    Tracking (c.run page) d ∧
      (Consistent (c.run page).stateManager.progressStore d overallDependencies
          (overallProgress page.courses) ∨
        Consistent (c.run page).stateManager.progressStore d overallDependencies
          (overallProgress seen)) ∧
      (Consistent (c.run page).stateManager.progressStore d overallDependencies
          (overallProgress (c.run page).courses) ∨
        valueAt (c.run page).stateManager.progressStore d =
          valueAt page.stateManager.progressStore d) := by
  cases c with
  | course sc =>
    obtain ⟨h1, h2, _⟩ := h.afterCourse sc seen hseen
    refine ⟨h1, Or.inr h2, Or.inr ?_⟩
    have hrun : (ManagerCall.run page (.course sc)).stateManager.progressStore =
        page.stateManager.progressStore.reading d (overallProgress
          (Page.courses { page with stateManager :=
            { page.stateManager with
              courseStore := sc.run page.stateManager.courseStore } })) := by
      simp only [ManagerCall.run, Page.rereading, h.bound]
      rfl
    rw [hrun, valueAt_reading]
  | progress sc =>
    obtain ⟨h1, h2⟩ := @Tracking.afterProgress page (ManagerCall.run page (.progress sc)) d h
      sc hc rfl rfl seen hseen
    exact ⟨h1, h2, run_value h.fed h.attached sc (h.besides hc)⟩
  | lesson clock courseId lessonId progressUpdate =>
    obtain ⟨calls, hall, hrun⟩ :=
      updateLessonProgress_calls page clock courseId lessonId progressUpdate
    have hcourse :=
      updateLessonProgress_courseStore page clock courseId lessonId progressUpdate
    obtain ⟨h1, h2⟩ := Tracking.afterCalls calls page _ h hall hcourse hrun seen hseen
    have hcs : (ManagerCall.run page
        (.lesson clock courseId lessonId progressUpdate)).courses = page.courses := by
      unfold Page.courses
      simp only [ManagerCall.run]
      rw [hcourse]
    refine ⟨h1, h2, ?_⟩
    rw [hcs]
    exact calls_value calls page _ h hall hcourse hrun seen hseen

/-- After any calls during which the body of the compute function returns normally, the
page tracks `overallProgress`, which holds what the body returns for the current
`courseProgress` and `achievements` and for a course list that the page held before or
holds now. -/
theorem runManager_computes {d : Nat} : ∀ (calls : List ManagerCall) (page : Page)
    (seen : JSValue), Tracking page d →
    Consistent page.stateManager.progressStore d overallDependencies
      (overallProgress seen) →
    (∀ v, valueAt page.stateManager.progressStore d = some v → v ≠ .undefined) →
    (∀ c ∈ calls, c.onProgressKeys) → computesThroughout page calls →
    Tracking (runManager page calls) d ∧
      ∃ seen' ∈ seen :: coursesSeen page calls,
        Consistent (runManager page calls).stateManager.progressStore d overallDependencies
          (overallProgress seen') ∧
        OverallOf (runManager page calls) seen'
  | [], page, seen, h, hseen, hdef, _, _ =>
    ⟨h, seen, List.mem_cons_self _ _, hseen, overallOf_of_defined h.bound hseen hdef⟩
  | c :: rest, page, seen, h, hseen, hdef, hcalls, hcomp => by
    have hrest : ∀ c' ∈ rest, c'.onProgressKeys :=
      fun c' hc' => hcalls c' (List.mem_cons_of_mem _ hc')
    obtain ⟨h1, hc1, hv1⟩ := h.afterManagerCall c (hcalls c (List.mem_cons_self _ _)) seen hseen
    have hcomp1 : computesThroughout (c.run page) rest := hcomp.2
    have hdef1 : ∀ v, valueAt (c.run page).stateManager.progressStore d = some v →
        v ≠ .undefined := by
      rcases hv1 with hcur | hsame
      · exact defined_of_current hcur (computesThroughout_head hcomp1)
      · rw [hsame]
        exact hdef
    have hrun : runManager page (c :: rest) = runManager (c.run page) rest := rfl
    rw [hrun]
    rcases hc1 with hc1 | hc1
    · obtain ⟨h2, seen', hmem, hc2, ho2⟩ := runManager_computes rest (c.run page)
        page.courses h1 hc1 hdef1 hrest hcomp1
      refine ⟨h2, seen', ?_, hc2, ho2⟩
      simp only [coursesSeen, List.mem_cons] at hmem ⊢
      rcases hmem with hmem | hmem
      · exact Or.inr (Or.inl hmem)
      · exact Or.inr (Or.inr hmem)
    · obtain ⟨h2, seen', hmem, hc2, ho2⟩ := runManager_computes rest (c.run page) seen h1
        hc1 hdef1 hrest hcomp1
      refine ⟨h2, seen', ?_, hc2, ho2⟩
      simp only [coursesSeen, List.mem_cons] at hmem ⊢
      rcases hmem with hmem | hmem
      · exact Or.inl hmem
      · exact Or.inr (Or.inr hmem)

/-- C27, amended: for every page whose progress store is well-formed with the progress
keys registered, and every sequence of calls on the course store, of writes to progress
keys and subscriptions on the progress store, and of `updateLessonProgress`, such that the
body of the compute function returns normally on the values held after the creation and
after every call: creating `overallProgress` returns normally and leaves it holding what
the body returns for the current `courseProgress`, the current `achievements` and the
current course list; after the calls `overallProgress` holds what the body returns for the
current `courseProgress`, the current `achievements` and a course list that
`course.courses` held before one of the calls or holds now; a further `setState` or
`updateState` of `courseProgress` or `achievements` that returns normally, with values on
which the body returns normally, leaves it holding what the body returns for the current
values and the current course list; and a call on the course store changes neither
`overallProgress` nor its two dependencies. -/
theorem overallProgress_follows_progress (page : Page) (calls : List ManagerCall)
    (hw : page.stateManager.progressStore.wellFormed = true)
    (hreg : page.stateManager.progressStore.registered progressKeys = true)
    (hcalls : ∀ c ∈ calls, c.onProgressKeys)
    (hcomp : computesThroughout (StateManager.setupOverallProgress page).2 calls) :
    (StateManager.setupOverallProgress page).1 =
        .ok page.stateManager.progressStore.heap.length ∧
      OverallOf (StateManager.setupOverallProgress page).2 page.courses ∧
      (∃ seen ∈ coursesSeen (StateManager.setupOverallProgress page).2
          calls,
        OverallOf (runManager (StateManager.setupOverallProgress page).2
          calls) seen) ∧
      (∀ c : StoreCall,
        c.writes (runManager (StateManager.setupOverallProgress page).2
          calls).stateManager.progressStore overallDependencies →
        (ManagerCall.run (runManager (StateManager.setupOverallProgress page).2
          calls) (.progress c)).computes →
        OverallOf (ManagerCall.run (runManager (StateManager.setupOverallProgress page).2
          calls) (.progress c))
          (runManager (StateManager.setupOverallProgress page).2
          calls).courses) ∧
      (∀ c : StoreCall,
        Store.getValue (ManagerCall.run (runManager (StateManager.setupOverallProgress page).2
          calls)
          (.course c)).stateManager.progressStore "overallProgress" =
          Store.getValue (runManager (StateManager.setupOverallProgress page).2
          calls).stateManager.progressStore "overallProgress" ∧
        Store.getValues (ManagerCall.run (runManager (StateManager.setupOverallProgress page).2
          calls)
          (.course c)).stateManager.progressStore overallDependencies =
          Store.getValues (runManager (StateManager.setupOverallProgress page).2
          calls).stateManager.progressStore overallDependencies) := by
  obtain ⟨hok, htrack, hcons, hcourses⟩ := setupOverallProgress_tracking page hw hreg
  rw [← hcourses] at hcons
  have hdef := defined_of_current hcons (computesThroughout_head hcomp)
  obtain ⟨hfinal, seen, hmem, _, hseen⟩ :=
    runManager_computes calls _ _ htrack hcons hdef hcalls hcomp
  have hmem' : seen ∈ coursesSeen (StateManager.setupOverallProgress page).2 calls := by
    rcases List.mem_cons.mp hmem with rfl | h
    · exact mem_coursesSeen _ _
    · exact h
  refine ⟨hok, ?_, ⟨seen, hmem', hseen⟩, ?_, ?_⟩
  · rw [← hcourses]
    exact overallOf_of_defined htrack.bound hcons hdef
  · intro c hc hcomputes
    have hcur := write_makes_current hfinal.fed hfinal.attached c hc
    obtain ⟨hs, _, _, _⟩ := run_keeps_current hfinal.fed hfinal.attached c (by
      cases c with
      | setState k v =>
        obtain ⟨r, hl, hrd⟩ := hfinal.fed.deps k hc.1
        exact ⟨r, hl, hrd⟩
      | updateState k u =>
        obtain ⟨r, hl, hrd⟩ := hfinal.fed.deps k hc.1
        exact ⟨r, hl, hrd⟩
      | subscribe k fn => trivial)
    have hl : (StoreCall.run (runManager (StateManager.setupOverallProgress page).2
        calls).stateManager.progressStore c).lookup "overallProgress" =
        some (.own page.stateManager.progressStore.heap.length) := by
      unfold World.lookup
      rw [hs]
      exact hfinal.bound
    have hcur' : Consistent (ManagerCall.run
        (runManager (StateManager.setupOverallProgress page).2 calls)
        (.progress c)).stateManager.progressStore
        page.stateManager.progressStore.heap.length overallDependencies
        (overallProgress (ManagerCall.run
          (runManager (StateManager.setupOverallProgress page).2 calls)
          (.progress c)).courses) := hcur
    exact overallOf_of_defined hl hcur (defined_of_current hcur' hcomputes)
  · intro c
    obtain ⟨_, seen0, _, hseen0, _⟩ :=
      runManager_computes calls _ _ htrack hcons hdef hcalls hcomp
    obtain ⟨_, _, hvals⟩ := hfinal.afterCourse c seen0 hseen0
    refine ⟨hvals _, ?_⟩
    simp only [Store.getValues, overallDependencies, hvals]

/-- Witness for C27: on the example page, after both lessons of course `c` were completed,
`overallProgress` shows one course of one completed and two achievements. -/
theorem overallProgress_follows_progress_witness :
    ((examplePage exampleCatalog).stateManager.progressStore.wellFormed = true ∧
      (examplePage exampleCatalog).stateManager.progressStore.registered progressKeys = true ∧
      (∀ c ∈ [ManagerCall.lesson exampleClock "c" "10" (.object [("completed", .boolean true)]),
            ManagerCall.lesson exampleClock "c" "11" (.object [("completed", .boolean true)])],
        c.onProgressKeys) ∧
      computesThroughout (StateManager.setupOverallProgress (examplePage exampleCatalog)).2
        [ManagerCall.lesson exampleClock "c" "10" (.object [("completed", .boolean true)]),
            ManagerCall.lesson exampleClock "c" "11" (.object [("completed", .boolean true)])]) ∧
    ((StateManager.setupOverallProgress (examplePage exampleCatalog)).1 =
        .ok (examplePage exampleCatalog).stateManager.progressStore.heap.length ∧
      OverallOf (StateManager.setupOverallProgress (examplePage exampleCatalog)).2 (examplePage exampleCatalog).courses ∧
      (∃ seen ∈ coursesSeen (StateManager.setupOverallProgress (examplePage exampleCatalog)).2
          [ManagerCall.lesson exampleClock "c" "10" (.object [("completed", .boolean true)]),
            ManagerCall.lesson exampleClock "c" "11" (.object [("completed", .boolean true)])],
        OverallOf (runManager (StateManager.setupOverallProgress (examplePage exampleCatalog)).2
          [ManagerCall.lesson exampleClock "c" "10" (.object [("completed", .boolean true)]),
            ManagerCall.lesson exampleClock "c" "11" (.object [("completed", .boolean true)])]) seen) ∧
      (∀ c : StoreCall,
        c.writes (runManager (StateManager.setupOverallProgress (examplePage exampleCatalog)).2
          [ManagerCall.lesson exampleClock "c" "10" (.object [("completed", .boolean true)]),
            ManagerCall.lesson exampleClock "c" "11" (.object [("completed", .boolean true)])]).stateManager.progressStore overallDependencies →
        (ManagerCall.run (runManager (StateManager.setupOverallProgress (examplePage exampleCatalog)).2
          [ManagerCall.lesson exampleClock "c" "10" (.object [("completed", .boolean true)]),
            ManagerCall.lesson exampleClock "c" "11" (.object [("completed", .boolean true)])]) (.progress c)).computes →
        OverallOf (ManagerCall.run (runManager (StateManager.setupOverallProgress (examplePage exampleCatalog)).2
          [ManagerCall.lesson exampleClock "c" "10" (.object [("completed", .boolean true)]),
            ManagerCall.lesson exampleClock "c" "11" (.object [("completed", .boolean true)])]) (.progress c))
          (runManager (StateManager.setupOverallProgress (examplePage exampleCatalog)).2
          [ManagerCall.lesson exampleClock "c" "10" (.object [("completed", .boolean true)]),
            ManagerCall.lesson exampleClock "c" "11" (.object [("completed", .boolean true)])]).courses) ∧
      (∀ c : StoreCall,
        Store.getValue (ManagerCall.run (runManager (StateManager.setupOverallProgress (examplePage exampleCatalog)).2
          [ManagerCall.lesson exampleClock "c" "10" (.object [("completed", .boolean true)]),
            ManagerCall.lesson exampleClock "c" "11" (.object [("completed", .boolean true)])])
          (.course c)).stateManager.progressStore "overallProgress" =
          Store.getValue (runManager (StateManager.setupOverallProgress (examplePage exampleCatalog)).2
          [ManagerCall.lesson exampleClock "c" "10" (.object [("completed", .boolean true)]),
            ManagerCall.lesson exampleClock "c" "11" (.object [("completed", .boolean true)])]).stateManager.progressStore "overallProgress" ∧
        Store.getValues (ManagerCall.run (runManager (StateManager.setupOverallProgress (examplePage exampleCatalog)).2
          [ManagerCall.lesson exampleClock "c" "10" (.object [("completed", .boolean true)]),
            ManagerCall.lesson exampleClock "c" "11" (.object [("completed", .boolean true)])])
          (.course c)).stateManager.progressStore overallDependencies =
          Store.getValues (runManager (StateManager.setupOverallProgress (examplePage exampleCatalog)).2
          [ManagerCall.lesson exampleClock "c" "10" (.object [("completed", .boolean true)]),
            ManagerCall.lesson exampleClock "c" "11" (.object [("completed", .boolean true)])]).stateManager.progressStore overallDependencies)) ∧
    Store.getValue (runManager (StateManager.setupOverallProgress (examplePage exampleCatalog)).2
      [ManagerCall.lesson exampleClock "c" "10" (.object [("completed", .boolean true)]),
            ManagerCall.lesson exampleClock "c" "11" (.object [("completed", .boolean true)])]).stateManager.progressStore
      "overallProgress" =
      .ok (.object [("percentComplete", .number 100), ("completedCourses", .number 1),
        ("totalCourses", .number 1), ("achievementCount", .number 2)]) :=
  have hcomp : computesThroughout (StateManager.setupOverallProgress (examplePage exampleCatalog)).2
      [ManagerCall.lesson exampleClock "c" "10" (.object [("completed", .boolean true)]),
            ManagerCall.lesson exampleClock "c" "11" (.object [("completed", .boolean true)])] :=
    ⟨⟨_, _, _, rfl, rfl, by with_unfolding_all rfl⟩,
      ⟨_, _, _, by with_unfolding_all rfl, by with_unfolding_all rfl,
        by with_unfolding_all rfl⟩,
      ⟨_, _, _, by with_unfolding_all rfl, by with_unfolding_all rfl,
        by with_unfolding_all rfl⟩⟩
  ⟨⟨rfl, rfl, fun c hc => by
      simp only [List.mem_cons, List.mem_singleton, List.not_mem_nil, or_false] at hc
      rcases hc with rfl | rfl <;> trivial, hcomp⟩,
    overallProgress_follows_progress (examplePage exampleCatalog) _ rfl rfl (fun c hc => by
      simp only [List.mem_cons, List.mem_singleton, List.not_mem_nil, or_false] at hc
      rcases hc with rfl | rfl <;> trivial) hcomp,
    by with_unfolding_all rfl⟩

/-- C27 as stated fails: on new stores with the derived state created, `overallProgress`
is current; after `setState("courses", [course c])` on the course store it still holds the
zeros of the empty course list, while the body of the compute function returns one course
in total for the current values and the current course list. -/
theorem overallProgress_stale_counterexample :
    OverallOf (StateManager.setupOverallProgress (examplePage (.array []))).2
      (StateManager.setupOverallProgress (examplePage (.array []))).2.courses ∧
    overallProgressOf
      (runManager (StateManager.setupOverallProgress (examplePage (.array []))).2
        [.course (.setState "courses" exampleCatalog)]).courses
      (.object []) (.array []) =
      .ok (.object [("percentComplete", .number 0), ("completedCourses", .number 0),
        ("totalCourses", .number 1), ("achievementCount", .number 0)]) ∧
    ¬ OverallOf
      (runManager (StateManager.setupOverallProgress (examplePage (.array []))).2
        [.course (.setState "courses" exampleCatalog)])
      (runManager (StateManager.setupOverallProgress (examplePage (.array []))).2
        [.course (.setState "courses" exampleCatalog)]).courses := by
  have e3 : overallProgressOf
      (runManager (StateManager.setupOverallProgress (examplePage (.array []))).2
        [.course (.setState "courses" exampleCatalog)]).courses
      (.object []) (.array []) =
      .ok (.object [("percentComplete", .number 0), ("completedCourses", .number 0),
        ("totalCourses", .number 1), ("achievementCount", .number 0)]) := by
    with_unfolding_all rfl
  refine ⟨⟨.object [], .array [], noCourses, rfl, rfl, rfl, rfl⟩, e3, ?_⟩
  rintro ⟨cp, ach, value, h1, h2, h3, h4⟩
  have e1 : Store.getValue
      (runManager (StateManager.setupOverallProgress (examplePage (.array []))).2
        [.course (.setState "courses" exampleCatalog)]).stateManager.progressStore
      "courseProgress" = .ok (.object []) := rfl
  have e2 : Store.getValue
      (runManager (StateManager.setupOverallProgress (examplePage (.array []))).2
        [.course (.setState "courses" exampleCatalog)]).stateManager.progressStore
      "achievements" = .ok (.array []) := rfl
  have e4 : Store.getValue
      (runManager (StateManager.setupOverallProgress (examplePage (.array []))).2
        [.course (.setState "courses" exampleCatalog)]).stateManager.progressStore
      "overallProgress" = .ok noCourses := rfl
  rw [e1] at h1
  rw [e2] at h2
  rw [e4] at h4
  injection h1 with h1
  injection h2 with h2
  injection h4 with h4
  subst h1
  subst h2
  subst h4
  rw [e3] at h3
  simp [noCourses] at h3

end Cooper
